import Mathlib

/-!
# Buffer manager, page table and B-tree of `vldb26-iouring`: a verification development

Shallow embedding of `src/buffer_mgr` (page table `RHBSU64Map`, frame
descriptors `BufTagged`, `BufferManager`, `BTreeNode`, `BTree`) and of the key
folding functions of `tpcc/types.cpp`, followed by theorems about them.

Conventions of the embedding.
* Machine integers are `Nat` (unsigned) or `Int` (signed) with explicit
  reduction modulo `2 ^ w` where the source can wrap.
* Bytes are `Nat` values below 256, byte strings are `List Nat`.
* Arrays indexed by a machine word (`ctrl`, `entries`, `buffer_frames`,
  `pages`) are functions from `Nat`.
* `ensure(...)` throws in the source; a function that can reach a failing
  `ensure` returns `Except Fatal _`.
* Unbounded `for (;;)` loops are functions by recursion on a fuel argument;
  running out of fuel is the distinguished outcome `Fatal.fuel`, and the
  theorems show that the fuel handed in is enough.
-/

set_option autoImplicit false

set_option linter.unusedVariables false
/-! ## Definitions: key folding (`tpcc/types.cpp`) -/

namespace Tpcc

/-- The `n` little-endian bytes of the word `w` (its memory image on the x86 target). -/
def bytesLE : Nat → Nat → List Nat
  | 0, _ => []
  | n + 1, w => (w % 256) :: bytesLE n (w / 256)

/-- The word whose little-endian memory image is the byte string `l`. -/
def ofBytesLE : List Nat → Nat
  | [] => 0
  | b :: bs => b + 256 * ofBytesLE bs

/-- The byte swap `__builtin_bswap32` on a 32-bit word: the word with the bytes reversed. -/
def bswap32 (x : Nat) : Nat := ofBytesLE (bytesLE 4 x).reverse

/-- The byte swap `__builtin_bswap64` on a 64-bit word. -/
def bswap64 (x : Nat) : Nat := ofBytesLE (bytesLE 8 x).reverse

/-- The store `*reinterpret_cast<u32*>(writer) = w` on the little-endian target:
the four bytes written at `writer`. -/
def store32 (w : Nat) : List Nat := bytesLE 4 w

/-- The store `*reinterpret_cast<u64*>(writer) = w` on the little-endian target. -/
def store64 (w : Nat) : List Nat := bytesLE 8 w

/-- The load `*reinterpret_cast<const u32*>(input)` on the little-endian target. -/
def load32 (input : List Nat) : Nat := ofBytesLE (input.take 4)

/-- The load `*reinterpret_cast<const u64*>(input)` on the little-endian target. -/
def load64 (input : List Nat) : Nat := ofBytesLE (input.take 8)

/-- Conversion of a 64-bit pattern to the signed type of the same width
(`x = ...` with `x` an `int32_t`/`int64_t`): two's complement of width `w`. -/
def toSigned (w : Nat) (u : Nat) : Int :=
  if u % 2 ^ w < 2 ^ (w - 1) then ((u % 2 ^ w : Nat) : Int) else ((u % 2 ^ w : Nat) : Int) - 2 ^ w

/-- Conversion of a signed value to the unsigned type of width `w`
(integral promotion of `x` to `unsigned long`). -/
def toUnsigned (w : Nat) (x : Int) : Nat := (x % 2 ^ w).toNat

/-- Range of the signed 32-bit type `Integer`. -/
def isInteger (x : Int) : Prop := -2 ^ 31 ≤ x ∧ x < 2 ^ 31

/-- Modelled from the spec: the typedef of `Timestamp` (`tpcc/types.hpp`) is not among the
sources; the spec describes folding as flipping the sign bit, so `Timestamp` is taken as the
signed 64-bit type, whose range this is. -/
def isTimestamp (x : Int) : Prop := -2 ^ 63 ≤ x ∧ x < 2 ^ 63

/-- Range of the unsigned 64-bit key type `u64`. -/
def isU64 (x : Nat) : Prop := x < 2 ^ 64

/-- `unsigned fold(u8* writer, const Integer& x)`: the bytes written and the returned length.
`x ^ (1ul << 31)` is computed in `unsigned long` and truncated to the `u32` argument of
`__builtin_bswap32`. -/
def fold_Integer (x : Int) : List Nat × Nat :=
  (store32 (bswap32 ((toUnsigned 64 x ^^^ (1 <<< 31)) % 2 ^ 32)), 4)

/-- `unsigned fold(u8* writer, const Timestamp& x)`. -/
def fold_Timestamp (x : Int) : List Nat × Nat :=
  (store64 (bswap64 (toUnsigned 64 x ^^^ (1 <<< 63))), 8)

/-- `unsigned fold(u8* writer, const u64& x)`. -/
def fold_u64 (x : Nat) : List Nat × Nat :=
  (store64 (bswap64 x), 8)

/-- `unsigned unfold(const u8* input, Integer& x)`: the value assigned to `x` and the
returned length. -/
def unfold_Integer (input : List Nat) : Int × Nat :=
  (toSigned 32 (bswap32 (load32 input) ^^^ (1 <<< 31)), 4)

/-- `unsigned unfold(const u8* input, Timestamp& x)`. -/
def unfold_Timestamp (input : List Nat) : Int × Nat :=
  (toSigned 64 (bswap64 (load64 input) ^^^ (1 <<< 63)), 8)

/-- `unsigned unfold(const u8* input, u64& x)`. -/
def unfold_u64 (input : List Nat) : Nat × Nat :=
  (bswap64 (load64 input), 8)

/-- The libc `memcmp(a, b, n)` on byte strings: negative, zero or positive as the first
`n` bytes of `a` are lexicographically below, equal to or above those of `b`. -/
def memcmp : List Nat → List Nat → Nat → Int
  | x :: a, y :: b, n + 1 => if x < y then -1 else if y < x then 1 else memcmp a b n
  | _, _, _ => 0

end Tpcc

/-! ## Definitions: the page table `RHBSU64Map` (`rh_backshift_u64_map.hpp`) -/

/-- The failing checks of the source: `ensure(...)` and the constructor's `throw`. Each
constructor names the check that failed. -/
inductive Fatal where
  /-- `throw std::invalid_argument` in the `RHBSU64Map` constructor. -/
  | invalid_argument
  /-- `ensure(k != EMPTY_KEY, ...)` in `insert`. -/
  | empty_key
  /-- `ensure(false, ...)` at probe distance 255 in `insert`. -/
  | probe_overflow
  /-- `ensure(inserted)` after a page-table insert in the buffer manager. -/
  | not_inserted
  /-- `ensure(!buf_ptr->in_use())` in `fixS` and `fixX`. -/
  | already_in_use
  /-- `ensure(isValidPtr(...))`. -/
  | invalid_ptr
  /-- `ensure(!freeList.empty())`. -/
  | free_list_empty
  /-- `ensure(ready_.push(f))` in the fiber runtime: the ready ring is full. -/
  | ring_full
  /-- `assert(buf_ptr && "logical PID not resident")`, or the dereference of the null
  pointer that follows it in a build without assertions. -/
  | not_resident
  /-- `ensure(buf_ptr->in_use())` in `unfixS` and `unfixX`. -/
  | not_in_use
  /-- `ensure(!buf_ptr->io_lock())` in `unfixX` and in `evictNow`. -/
  | io_locked
  /-- `ensure(frame.pid == pid)` in the sweep callback of `evict`. -/
  | frame_mismatch
  /-- `ensure(pid != 0)` in the sweep callback of `evict`. -/
  | evict_metadata
  /-- `ensure(buf_ptr->evicting())` in `evictNow`. -/
  | not_evicting
  /-- `ensure(deleted)` in `evictNow`. -/
  | not_deleted
  /-- `ensure(rc == pageSize)` after a read or a batch of writes. -/
  | io_failed
  /-- `ensure(frame.waiting == &op)` in `handleFault`. -/
  | waiting_mismatch
  /-- `std::out_of_range` thrown by `table.at(...)` in `check_submit`. -/
  | out_of_range
  /-- `ensure(frame.waiting)` in `handleWait`. -/
  | no_waiter
  /-- `ensure(buf_ptr->io_lock())` in `handleWait`. -/
  | not_io_locked
  /-- `assert((key.size() + payload.size()) <= BTreeNode::maxKVSize)` in `BTree::insert`, in
  a build with assertions. -/
  | assert_kv_size
  /-- Not a check of the source: the loop of `insert` was cut off by its iteration bound.
  `insert` never returns it (`insert_total`). -/
  | out_of_fuel
  deriving DecidableEq, Repr

/-- `struct Entry` of `RHBSU64Map`: a key and its value. -/
structure Entry (Value : Type) where
  key : Nat
  val : Value

/-- `struct RHBSU64Map<Value>`: the arrays `entries` and `ctrl` (indexed by slot), the
capacity `n`, `mask`, the element count `sz` and the clock hand `sweep_`. -/
structure RHBSU64Map (Value : Type) where
  entries : Nat → Entry Value
  ctrl : Nat → Nat
  n : Nat
  mask : Nat
  sz : Nat
  sweep_ : Nat

namespace RHBSU64Map

variable {Value : Type}

/-- `EMPTY_KEY = std::numeric_limits<uint64_t>::max()`. -/
def EMPTY_KEY : Nat := 2 ^ 64 - 1

/-- The hash `splitmix64` on 64-bit words. -/
def hash (x : Nat) : Nat :=
  let x1 := (x + 0x9e3779b97f4a7c15) % 2 ^ 64
  let x2 := ((x1 ^^^ (x1 >>> 30)) * 0xbf58476d1ce4e5b9) % 2 ^ 64
  let x3 := ((x2 ^^^ (x2 >>> 27)) * 0x94d049bb133111eb) % 2 ^ 64
  x3 ^^^ (x3 >>> 31)

/-- The slot of a hash value: `index(h) = size_t(h) & mask`. -/
def index (t : RHBSU64Map Value) (h : Nat) : Nat := h &&& t.mask

/-- The constructor `RHBSU64Map(capacity_pow2)`: rejects a capacity that is zero or not a
power of two; all keys are `EMPTY_KEY`, all control bytes 0 (fresh mapping). The values of
the fresh array are `dflt`. -/
def new (dflt : Value) (capacity_pow2 : Nat) : Except Fatal (RHBSU64Map Value) :=
  if capacity_pow2 = 0 ∨ capacity_pow2 &&& (capacity_pow2 - 1) ≠ 0 then
    .error .invalid_argument
  else
    .ok { entries := fun _ => ⟨EMPTY_KEY, dflt⟩, ctrl := fun _ => 0,
          n := capacity_pow2, mask := capacity_pow2 - 1, sz := 0, sweep_ := 0 }

/-- The loop of `insert`, entered at slot `i` with the entry `(k, v)` in hand at probe
distance `dist`. `dist` is a `uint8_t`. The loop of the source has no bound of its own;
`insertFuel` iterations are enough for it to return or to fail in its `ensure`
(`insertLoop_fuel`), so the outcome for `fuel = 0` is never the outcome of `insert`. -/
def insertLoop : Nat → RHBSU64Map Value → Nat → Value → Nat → Nat →
    Except Fatal (RHBSU64Map Value × Bool)
  | 0, _, _, _, _, _ => .error .out_of_fuel
  | fuel + 1, t, k, v, i, dist =>
    let c := t.ctrl i
    if c = 0 then
      .ok ({ t with entries := Function.update t.entries i ⟨k, v⟩,
                    ctrl := Function.update t.ctrl i dist,
                    sz := (t.sz + 1) % 2 ^ 64 }, true)
    else if (t.entries i).key = k then
      .ok ({ t with entries := Function.update t.entries i ⟨(t.entries i).key, v⟩ }, false)
    else
      let t1 : RHBSU64Map Value :=
        if c < dist then
          { t with entries := Function.update t.entries i ⟨k, v⟩,
                   ctrl := Function.update t.ctrl i dist }
        else t
      let k1 := if c < dist then (t.entries i).key else k
      let v1 := if c < dist then (t.entries i).val else v
      let dist1 := if c < dist then c else dist
      let i1 := (i + 1) &&& t.mask
      if (dist1 + 1) % 256 = 255 then .error .probe_overflow
      else insertLoop fuel t1 k1 v1 i1 ((dist1 + 1) % 256)

/-- A bound on the iterations of the loop of `insert`: a step without a robin-hood swap
raises the probe distance, which stays below 255, and a swap raises the control byte of a
slot, which stays below 255 as well. -/
def insertFuel (t : RHBSU64Map Value) : Nat := 255 * 255 * t.n + 255

/-- `bool insert(uint64_t k, Value v)`: insert or update; `true` if inserted new. -/
def insert (t : RHBSU64Map Value) (k : Nat) (v : Value) :
    Except Fatal (RHBSU64Map Value × Bool) :=
  if k = EMPTY_KEY then .error .empty_key
  else insertLoop t.insertFuel t k v (t.index (hash k)) 1

/-- The loop shared by `find` and `erase`: the slot that holds `k`, if any. -/
def findLoop : Nat → RHBSU64Map Value → Nat → Nat → Nat → Option Nat
  | 0, _, _, _, _ => none
  | fuel + 1, t, k, i, dist =>
    let c := t.ctrl i
    if c = 0 then none
    else if c < dist then none
    else if (t.entries i).key = k then some i
    else if (dist + 1) % 256 = 255 then none
    else findLoop fuel t k ((i + 1) &&& t.mask) ((dist + 1) % 256)

/-- `Value* find(uint64_t k)`: the pointer to the stored value, as the slot it points into,
or `none` for `nullptr`. -/
def find (t : RHBSU64Map Value) (k : Nat) : Option Nat :=
  if k = EMPTY_KEY then none
  else findLoop 255 t k (t.index (hash k)) 1

/-- The value `*find(k)`, when `find(k)` is not null. -/
def lookup (t : RHBSU64Map Value) (k : Nat) : Option Value :=
  (t.find k).map fun i => (t.entries i).val

/-- The loop of `backshift_delete`, with the hole at `j`. The slot `k` of the source is
`(j + 1) & mask`. -/
def backshiftLoop : Nat → RHBSU64Map Value → Nat → RHBSU64Map Value
  | 0, t, _ => t
  | fuel + 1, t, j =>
    let k := (j + 1) &&& t.mask
    let ck := t.ctrl k
    if ck ≤ 1 then
      { t with ctrl := Function.update t.ctrl j 0,
               entries := Function.update t.entries j ⟨EMPTY_KEY, (t.entries j).val⟩ }
    else
      backshiftLoop fuel
        { t with entries := Function.update t.entries j (t.entries k),
                 ctrl := Function.update t.ctrl j (ck - 1) } k

/-- `void backshift_delete(size_t hole)`. -/
def backshift_delete (t : RHBSU64Map Value) (hole : Nat) : RHBSU64Map Value :=
  backshiftLoop t.n t hole

/-- `bool erase(uint64_t k)`. -/
def erase (t : RHBSU64Map Value) (k : Nat) : RHBSU64Map Value × Bool :=
  match t.find k with
  | none => (t, false)
  | some i =>
    let t1 := t.backshift_delete i
    ({ t1 with sz := (t1.sz + 2 ^ 64 - 1) % 2 ^ 64 }, true)

/-- `size_t size() const`. -/
def size (t : RHBSU64Map Value) : Nat := t.sz

/-- `size_t capacity() const`. -/
def capacity (t : RHBSU64Map Value) : Nat := t.n

end RHBSU64Map

/-! ## Definitions: the robin-hood invariant and the finite-map specification -/

namespace RHBSU64Map

variable {Value : Type}

/-- Number of occupied slots (control byte not 0) among the first `m` slots. -/
def countOcc (ctrl : Nat → Nat) : Nat → Nat
  | 0 => 0
  | m + 1 => countOcc ctrl m + (if ctrl m = 0 then 0 else 1)

/-- The capacity is a power of two below `2 ^ 64` and `mask` is `capacity - 1`. -/
def WF (t : RHBSU64Map Value) : Prop :=
  (∃ p, p < 64 ∧ t.n = 2 ^ p) ∧ t.mask = t.n - 1

/-- Every occupied slot `i` records the displacement of its key from the key's home slot,
plus one, and that byte is at most 254. -/
def Disp (t : RHBSU64Map Value) : Prop :=
  ∀ i, i < t.n → t.ctrl i ≠ 0 →
    t.ctrl i ≤ 254 ∧ (hash (t.entries i).key + t.ctrl i - 1) % t.n = i

/-- The robin-hood chain property: the displacement grows by at most one from a slot to
the next one (cyclically); in particular the slot after an empty slot is empty or at home. -/
def Step (t : RHBSU64Map Value) : Prop :=
  ∀ i, i < t.n → t.ctrl ((i + 1) % t.n) ≤ t.ctrl i + 1

/-- No key is stored in two occupied slots. -/
def Uniq (t : RHBSU64Map Value) : Prop :=
  ∀ i j, i < t.n → j < t.n → t.ctrl i ≠ 0 → t.ctrl j ≠ 0 →
    (t.entries i).key = (t.entries j).key → i = j

/-- A slot's control byte is 0 exactly when its key is the sentinel. -/
def Emp (t : RHBSU64Map Value) : Prop :=
  ∀ i, i < t.n → (t.ctrl i = 0 ↔ (t.entries i).key = EMPTY_KEY)

/-- Some slot is empty or holds a key at its home slot. -/
def Low (t : RHBSU64Map Value) : Prop :=
  ∃ i, i < t.n ∧ t.ctrl i ≤ 1

/-- The element count is the number of occupied slots. -/
def Cnt (t : RHBSU64Map Value) : Prop :=
  t.sz = countOcc t.ctrl t.n

/-- The invariant of the table. -/
structure Inv (t : RHBSU64Map Value) : Prop where
  wf : WF t
  disp : Disp t
  step : Step t
  uniq : Uniq t
  emp : Emp t
  low : Low t
  cnt : Cnt t

/-- Some occupied slot of `t` holds the pair `(k, v)`. -/
def Has (t : RHBSU64Map Value) (k : Nat) (v : Value) : Prop :=
  ∃ a, a < t.n ∧ t.ctrl a ≠ 0 ∧ (t.entries a).key = k ∧ (t.entries a).val = v

/-- A call of the table's interface. -/
inductive Op (Value : Type) where
  | insert (k : Nat) (v : Value)
  | erase (k : Nat)

/-- The key a call is about. -/
def Op.key : Op Value → Nat
  | .insert k _ => k
  | .erase k => k

/-- Runs a sequence of `insert` and `erase` calls, collecting the returned booleans; stops
at the first call that does not return normally. -/
def run (t : RHBSU64Map Value) : List (Op Value) → Except Fatal (RHBSU64Map Value × List Bool)
  | [] => .ok (t, [])
  | .insert k v :: ops =>
    match t.insert k v with
    | .error e => .error e
    | .ok (t1, b) =>
      match run t1 ops with
      | .error e => .error e
      | .ok (t2, bs) => .ok (t2, b :: bs)
  | .erase k :: ops =>
    match run (t.erase k).1 ops with
    | .error e => .error e
    | .ok (t2, bs) => .ok (t2, (t.erase k).2 :: bs)

/-- A fresh table of capacity 4 with `Nat` values, as the constructor builds it. -/
def exampleTable0 : RHBSU64Map Nat :=
  { entries := fun _ => ⟨EMPTY_KEY, 0⟩, ctrl := fun _ => 0, n := 4, mask := 3, sz := 0,
    sweep_ := 0 }

/-- A sequence of calls on `exampleTable0`; keys 1 and 3 share the home slot 1, so the third
call displaces key 2 (robin-hood swap) and the erase shifts entries back. -/
def exampleOps : List (Op Nat) :=
  [.insert 1 10, .insert 2 20, .insert 3 30, .insert 2 21, .erase 1, .erase 7]

/-- The table after `exampleOps`. -/
def exampleTable : RHBSU64Map Nat :=
  match run exampleTable0 exampleOps with
  | .ok r => r.1
  | .error _ => exampleTable0

end RHBSU64Map

/-! The finite map the page table is specified to behave as: an association list. -/

namespace FiniteMap

variable {Value : Type}

/-- The value bound to `k`: that of the last `insert(k, v)` not followed by `erase(k)`. -/
def find : List (Nat × Value) → Nat → Option Value
  | [], _ => none
  | (k1, v) :: m, k => if k1 = k then some v else find m k

/-- Removes the binding of `k`; reports whether there was one. -/
def erase (m : List (Nat × Value)) (k : Nat) : List (Nat × Value) × Bool :=
  (m.filter (fun p => p.1 ≠ k), (find m k).isSome)

/-- Binds `k` to `v`, replacing an earlier binding; reports whether `k` was absent. -/
def insert (m : List (Nat × Value)) (k : Nat) (v : Value) : List (Nat × Value) × Bool :=
  ((k, v) :: m.filter (fun p => p.1 ≠ k), (find m k).isNone)

/-- The number of keys present. -/
def size (m : List (Nat × Value)) : Nat := (m.map Prod.fst).dedup.length

/-- Runs a sequence of calls on the finite map, collecting the returned booleans. -/
def run (m : List (Nat × Value)) : List (RHBSU64Map.Op Value) → List (Nat × Value) × List Bool
  | [] => (m, [])
  | .insert k v :: ops =>
    let r := run (insert m k v).1 ops
    (r.1, (insert m k v).2 :: r.2)
  | .erase k :: ops =>
    let r := run (erase m k).1 ops
    (r.1, (erase m k).2 :: r.2)

end FiniteMap

/-! ## Definitions: frame descriptors, fibers and the buffer manager (`bm.hpp`, `bm.cpp`) -/

/-- `struct BufTagged`: a 64-bit word holding a BID above five flag bits. -/
structure BufTagged where
  v : Nat

namespace BufTagged

def kInUse : Nat := 1 <<< 0
def kDirty : Nat := 1 <<< 1
def kEvict : Nat := 1 <<< 2
def kIOLock : Nat := 1 <<< 3
def kMark : Nat := 1 <<< 4

/-- The complement `~x` of a 64-bit word. -/
def not64 (x : Nat) : Nat := (2 ^ 64 - 1) ^^^ x

def kFlagsMask : Nat := kInUse ||| kDirty ||| kEvict ||| kIOLock ||| kMark
def kShift : Nat := 5
def kIdMask : Nat := not64 kFlagsMask

/-- The constructor `BufTagged(BID bid) : v(bid << kShift)`, a 64-bit shift. -/
def ofBid (bid : Nat) : BufTagged := ⟨(bid <<< kShift) % 2 ^ 64⟩

/-- `BID id() const`. -/
def id (b : BufTagged) : Nat := (b.v &&& kIdMask) >>> kShift

def in_use (b : BufTagged) : Bool := decide (b.v &&& kInUse ≠ 0)
def dirty (b : BufTagged) : Bool := decide (b.v &&& kDirty ≠ 0)
def evicting (b : BufTagged) : Bool := decide (b.v &&& kEvict ≠ 0)
def io_lock (b : BufTagged) : Bool := decide (b.v &&& kIOLock ≠ 0)
def marked (b : BufTagged) : Bool := decide (b.v &&& kMark ≠ 0)

def set_in_use (b : BufTagged) (x : Bool) : BufTagged :=
  ⟨if x then b.v ||| kInUse else b.v &&& not64 kInUse⟩
def set_dirty (b : BufTagged) (x : Bool) : BufTagged :=
  ⟨if x then b.v ||| kDirty else b.v &&& not64 kDirty⟩
def set_evicting (b : BufTagged) (x : Bool) : BufTagged :=
  ⟨if x then b.v ||| kEvict else b.v &&& not64 kEvict⟩
def set_io_lock (b : BufTagged) (x : Bool) : BufTagged :=
  ⟨if x then b.v ||| kIOLock else b.v &&& not64 kIOLock⟩
def set_marked (b : BufTagged) (x : Bool) : BufTagged :=
  ⟨if x then b.v ||| kMark else b.v &&& not64 kMark⟩

end BufTagged

/-- `using PageTable = RHBSU64Map<BufTagged>`. -/
abbrev PageTable := RHBSU64Map BufTagged

namespace RHBSU64Map

/-- A write through the pointer returned by `find`: the value of slot `i` becomes `v`. -/
def setVal {Value : Type} (t : RHBSU64Map Value) (i : Nat) (v : Value) : RHBSU64Map Value :=
  { t with entries := Function.update t.entries i ⟨(t.entries i).key, v⟩ }

end RHBSU64Map

/-- `enum class State` of `BaseReactor`: the scheduling state of a fiber. -/
inductive FiberState where
  | Ready
  | Running
  | Parked
  | Finished
  deriving DecidableEq, Repr

/-- `struct BaseReactor`: fibers are named by numbers, `state f` is `f->state`, `ready_` is
the content of the ready ring from head to tail, `fiber_current_` the running fiber. -/
structure BaseReactor where
  state : Nat → FiberState
  ready_ : List Nat
  fiber_current_ : Option Nat

namespace BaseReactor

/-- `MAX_FIBERS`, the capacity of the ready ring. -/
def MAX_FIBERS : Nat := 256

/-- `SpscRing::push` on the ready ring: `none` when the ring is full. -/
def push (r : BaseReactor) (f : Nat) : Option BaseReactor :=
  if r.ready_.length = MAX_FIBERS then none
  else some { r with ready_ := r.ready_ ++ [f] }

end BaseReactor

namespace BaseReactor

/-- `bool wake(Fiber* f)`: a parked fiber becomes ready and is enqueued; `none` stands for
the null pointer. The `ensure` on the push fails when the ring is full. -/
def wake (r : BaseReactor) (f : Option Nat) : Except Fatal (BaseReactor × Bool) :=
  match f with
  | none => .ok (r, false)
  | some f =>
    if r.state f = FiberState.Finished then .ok (r, false)
    else if r.state f = FiberState.Parked then
      match ({ r with state := Function.update r.state f FiberState.Ready } : BaseReactor).push f with
      | none => .error .ring_full
      | some r1 => .ok (r1, true)
    else .ok (r, false)

end BaseReactor

/-- `struct SleepingFiber`: the flags and the fiber handle `ctx` of the eviction fiber. -/
structure SleepingFiber where
  stop : Bool
  running : Bool
  ctx : Option Nat

/-- `struct BufferFrame`: the back-pointer `pid` and the wait list `waiting` (the fibers of
the linked operations, head first). -/
structure BufferFrame where
  pid : Nat
  waiting : List Nat

/-- The restart context `std::variant<PageFaultException, RestartException, AllocException>`. -/
inductive RestartCtx where
  | PageFaultException (pid : Nat)
  | RestartException (bid : Nat)
  | AllocException
  deriving DecidableEq, Repr

/-- The fields of `Config` the buffer manager reads. `free_target` is the fraction
`free_target_num / free_target_den` (a `float` in the source). -/
structure Config where
  evict_batch : Nat
  free_target_num : Nat
  free_target_den : Nat

/-- `pageSize`. -/
def pageSize : Nat := 4096

/-- `struct BufferManager`. `pages bid` is the content of the page at `pages + bid`; the
reactor `r` and the eviction fiber are the parts of the fiber runtime the manager touches. -/
structure BufferManager where
  cfg : Config
  page_count : Nat
  allocCount : Nat
  physUsedCount : Nat
  page_table : PageTable
  buffer_frames : Nat → BufferFrame
  pages : Nat → List Nat
  freeList : List Nat
  readCount : Nat
  writeCount : Nat
  fixes : Nat
  restarts : Nat
  restart_ctx : RestartCtx
  toEvict : List Nat
  toWrite : List Nat
  eviction_fiber : SleepingFiber
  r : BaseReactor

/-- A `Page*` returned by the buffer manager: `some bid` is `pages + bid`, `none` is
`nullptr`. -/
abbrev PagePtr := Option Nat

namespace BufferManager

/-- `bool isValidPtr(void* page)` for the pointer `pages + idx`. -/
def isValidPtr (bm : BufferManager) (idx : Nat) : Bool := decide (idx < bm.page_count)

/-- `SleepingFiber::wakeup()` on the eviction fiber. -/
def wakeup (bm : BufferManager) : Except Fatal BufferManager :=
  if bm.eviction_fiber.running then .ok bm
  else
    match bm.r.wake bm.eviction_fiber.ctx with
    | .error e => .error e
    | .ok (r1, _) =>
      .ok { bm with eviction_fiber := { bm.eviction_fiber with running := true }, r := r1 }

/-- `void ensureFreePages()`: wakes the eviction fiber when
`freeList.size() <= page_count * cfg.free_target`. -/
def ensureFreePages (bm : BufferManager) : Except Fatal BufferManager :=
  if bm.freeList.length * bm.cfg.free_target_den ≤ bm.page_count * bm.cfg.free_target_num then
    bm.wakeup
  else .ok bm

/-- The state `init()` leaves behind, for `page_count` frames and a page table of
`page_table_sz` slots (the source derives it from `page_count * cfg.page_table_factor`):
frames `page_count - 1, ..., 1` on the free list, the metadata page 0 resident in frame 0
with the flags dirty and marked. The eviction fiber is spawned as fiber 0, ready to run. -/
def init (cfg : Config) (page_count page_table_sz : Nat) : Except Fatal BufferManager :=
  match RHBSU64Map.new (BufTagged.mk 0) page_table_sz with
  | .error e => .error e
  | .ok pt =>
    let buf := ((BufTagged.ofBid 0).set_dirty true).set_marked true
    match pt.insert 0 buf with
    | .error e => .error e
    | .ok (pt1, inserted) =>
      if !inserted then .error .not_inserted
      else
        .ok { cfg := cfg, page_count := page_count, allocCount := 1, physUsedCount := 1,
              page_table := pt1, buffer_frames := fun _ => ⟨0, []⟩, pages := fun _ => [],
              freeList := ((List.range page_count).map fun i => page_count - i - 1).filter
                (fun bid => bid ≠ 0),
              readCount := 0, writeCount := 0, fixes := 0, restarts := 0,
              restart_ctx := .PageFaultException 0, toEvict := [], toWrite := [],
              eviction_fiber := ⟨false, false, none⟩,
              r := ⟨fun _ => FiberState.Ready, [0], none⟩ }

/-- The common body of `fixS` and `fixX`; `exclusive` adds `set_dirty(true)`. -/
def fix (exclusive : Bool) (bm0 : BufferManager) (pid : Nat) :
    Except Fatal (BufferManager × PagePtr) :=
  let bm := { bm0 with fixes := (bm0.fixes + 1) % 2 ^ 64 }
  match bm.page_table.find pid with
  | none =>
    .ok ({ bm with restarts := (bm.restarts + 1) % 2 ^ 64,
                   restart_ctx := .PageFaultException pid }, none)
  | some i =>
    let buf := (bm.page_table.entries i).val
    let bid := buf.id
    if buf.io_lock then
      .ok ({ bm with restarts := (bm.restarts + 1) % 2 ^ 64,
                     restart_ctx := .RestartException bid }, none)
    else if buf.in_use then .error .already_in_use
    else
      let buf1 := (buf.set_in_use true).set_marked true
      let buf2 := if exclusive then buf1.set_dirty true else buf1
      if !bm.isValidPtr 0 then .error .invalid_ptr
      else .ok ({ bm with page_table := bm.page_table.setVal i buf2 }, some bid)

/-- `Page* fixS(PID pid)`. -/
def fixS (bm : BufferManager) (pid : Nat) : Except Fatal (BufferManager × PagePtr) :=
  fix false bm pid

/-- `Page* fixX(PID pid)`. -/
def fixX (bm : BufferManager) (pid : Nat) : Except Fatal (BufferManager × PagePtr) :=
  fix true bm pid

/-- `Page* allocPage()`. -/
def allocPage (bm0 : BufferManager) : Except Fatal (BufferManager × PagePtr) :=
  match bm0.ensureFreePages with
  | .error e => .error e
  | .ok bm =>
    if bm.freeList.isEmpty then
      .ok ({ bm with restarts := (bm.restarts + 1) % 2 ^ 64,
                     restart_ctx := .AllocException }, none)
    else
      match bm.freeList.getLast? with
      | none => .error .free_list_empty
      | some bid =>
        let pid := bm.allocCount
        let buf := (((BufTagged.ofBid bid).set_dirty true).set_in_use true).set_marked true
        match bm.page_table.insert pid buf with
        | .error e => .error e
        | .ok (pt, inserted) =>
          if !inserted then .error .not_inserted
          else
            let bm1 : BufferManager :=
              { bm with freeList := bm.freeList.dropLast,
                        physUsedCount := (bm.physUsedCount + 1) % 2 ^ 64,
                        allocCount := (bm.allocCount + 1) % 2 ^ 64,
                        page_table := pt,
                        pages := Function.update bm.pages bid (List.replicate pageSize 0),
                        buffer_frames := Function.update bm.buffer_frames bid ⟨pid, []⟩ }
            if !bm1.isValidPtr bid then .error .invalid_ptr
            else .ok (bm1, some bid)

/-- How `handleFault` leaves the running fiber when it suspends. -/
inductive Suspended where
  /-- `mini::yield()`: the free list was empty. -/
  | yielded
  /-- `mini::io(op, ...)`: parked on the read into frame `bid`. -/
  | reading (bid : Nat)
  deriving DecidableEq, Repr

/-- `void handleFault(PID pid)` up to the point where the fiber `self` suspends: either the
yield on an empty free list (after which the function returns), or the park inside
`mini::io` with the read of `pid` into the popped frame in flight. -/
def handleFault_begin (bm0 : BufferManager) (self : Nat) (pid : Nat) :
    Except Fatal (BufferManager × Suspended) :=
  match bm0.ensureFreePages with
  | .error e => .error e
  | .ok bm =>
    if bm.freeList.isEmpty then .ok (bm, .yielded)
    else
      match bm.freeList.getLast? with
      | none => .error .free_list_empty
      | some bid =>
        let buf := ((BufTagged.ofBid bid).set_io_lock true).set_marked true
        match bm.page_table.insert pid buf with
        | .error e => .error e
        | .ok (pt, inserted) =>
          if !inserted then .error .not_inserted
          else
            .ok ({ bm with freeList := bm.freeList.dropLast,
                           physUsedCount := (bm.physUsedCount + 1) % 2 ^ 64,
                           page_table := pt,
                           buffer_frames := Function.update bm.buffer_frames bid ⟨pid, [self]⟩ },
                 .reading bid)

end BufferManager

/-! ## Definitions: concrete buffer-manager states used as witnesses and counterexamples -/

namespace BufferManager

/-- The value of a computation that returned normally, `d` otherwise. -/
def okOr {α : Type} (d : α) : Except Fatal α → α
  | .ok a => a
  | .error _ => d

/-- Whether a computation failed in the check `e`. -/
def failsWith {α : Type} (x : Except Fatal α) (e : Fatal) : Bool :=
  match x with
  | .ok _ => false
  | .error e1 => decide (e1 = e)

/-- A manager with no frames, the fallback of `okOr` below. -/
def emptyManager : BufferManager :=
  { cfg := ⟨64, 1, 10⟩, page_count := 0, allocCount := 1, physUsedCount := 1,
    page_table := ⟨fun _ => ⟨RHBSU64Map.EMPTY_KEY, ⟨0⟩⟩, fun _ => 0, 1, 0, 0, 0⟩,
    buffer_frames := fun _ => ⟨0, []⟩, pages := fun _ => [], freeList := [],
    readCount := 0, writeCount := 0, fixes := 0, restarts := 0,
    restart_ctx := .PageFaultException 0, toEvict := [], toWrite := [],
    eviction_fiber := ⟨false, false, none⟩, r := ⟨fun _ => FiberState.Ready, [], none⟩ }

/-- The state after `init()` with 4 frames, a page table of 8 slots, `evict_batch = 64` and
`free_target = 0.1`: free list `[3, 2, 1]`, page 0 resident. -/
def bmInit4 : BufferManager := okOr emptyManager (init ⟨64, 1, 10⟩ 4 8)

/-- `bmInit4` after one `allocPage()`: PID 1 in frame 1, fixed (in_use). -/
def bmAlloc1 : BufferManager := okOr emptyManager (bmInit4.allocPage.map Prod.fst)

/-- `bmInit4` after a fiber (number 1) called `handleFault(1)` and parked on the read:
PID 1 is resident in frame 1 with io_lock and marked, although the PID counter is still 1. -/
def bmFault1 : BufferManager :=
  okOr emptyManager ((bmInit4.handleFault_begin 1 1).map Prod.fst)

/-- The state after `init()` with 3 frames and a page table of 8 slots, then
`handleFault(1)` by fiber 1: exactly one free frame (BID 2) remains, PID 1 is resident. -/
def bmFault1of3 : BufferManager :=
  okOr emptyManager
    (((okOr emptyManager (init ⟨64, 1, 10⟩ 3 8)).handleFault_begin 1 1).map Prod.fst)

/-- The state after `init()` with 2 frames and a page table of 4 slots: exactly one free
frame (BID 1). -/
def bmInit2 : BufferManager := okOr emptyManager (init ⟨64, 1, 10⟩ 2 4)

/-- `bmInit2` after one `allocPage()`: the free list is empty. -/
def bmInit2Alloc : BufferManager := okOr emptyManager (bmInit2.allocPage.map Prod.fst)

end BufferManager

namespace BufferManager

/-- `n` successive calls of `allocPage()`; collects the PID of every call that returned a
page, read as `AllocGuard` reads it (`bm.allocCount - 1` after the call). -/
def allocMany : Nat → BufferManager → Except Fatal (BufferManager × List Nat)
  | 0, bm => .ok (bm, [])
  | n + 1, bm =>
    match bm.allocPage with
    | .error e => .error e
    | .ok (bm1, p) =>
      match allocMany n bm1 with
      | .error e => .error e
      | .ok (bm2, pids) =>
        .ok (bm2, if p.isSome then (bm1.allocCount - 1) :: pids else pids)

end BufferManager

/-! ## Definitions: the clock sweep, `unfix`, the end of `handleFault`, `evict` -/

namespace RHBSU64Map

variable {Value : Type} {σ : Type}

/-- The loop `while (scanned < n)` of `clock_sweep_next` with `fuel = n - scanned`
iterations to go. The callback `cb` takes its own state (what the closure captures), the
key and the value of the slot and returns the new state, the value it leaves in the slot
and its result; it may fail (an `ensure` in the callback). The last component collects the
slots the callback was called on, in order. -/
def sweepLoop (cb : σ → Nat → Value → Except Fatal (σ × Value × Bool)) :
    Nat → RHBSU64Map Value → σ → List Nat → Except Fatal (RHBSU64Map Value × σ × Bool × List Nat)
  | 0, t, s, calls => .ok (t, s, false, calls)
  | fuel + 1, t, s, calls =>
    let idx := t.sweep_
    let t1 := { t with sweep_ := (t.sweep_ + 1) &&& t.mask }
    if t1.ctrl idx ≠ 0 then
      match cb s (t1.entries idx).key (t1.entries idx).val with
      | .error e => .error e
      | .ok (s1, v1, r) =>
        if r then .ok (t1.setVal idx v1, s1, true, calls ++ [idx])
        else sweepLoop cb fuel (t1.setVal idx v1) s1 (calls ++ [idx])
    else sweepLoop cb fuel t1 s calls

/-- `bool clock_sweep_next(Callback&& cb)` for a callback that returns `bool`. -/
def clock_sweep_next (cb : σ → Nat → Value → Except Fatal (σ × Value × Bool))
    (t : RHBSU64Map Value) (s : σ) : Except Fatal (RHBSU64Map Value × σ × Bool × List Nat) :=
  if t.sz = 0 then .ok (t, s, false, [])
  else sweepLoop cb t.n t s []

/-- The slots in the order the hand passes them in one rotation. -/
def rotation (t : RHBSU64Map Value) : List Nat :=
  (List.range t.n).map (fun j => (t.sweep_ + j) % t.n)

/-- The occupied slots in the order the hand passes them in one rotation. -/
def occupied (t : RHBSU64Map Value) : List Nat :=
  t.rotation.filter (fun i => decide (t.ctrl i ≠ 0))

end RHBSU64Map

namespace BufferManager

/-- The common body of `unfixS` and `unfixX`; `exclusive` adds `set_dirty(true)` and the
final `ensure(!buf_ptr->io_lock())`. -/
def unfix (exclusive : Bool) (bm : BufferManager) (pid : Nat) : Except Fatal BufferManager :=
  match bm.page_table.find pid with
  | none => .error .not_resident
  | some i =>
    let buf := (bm.page_table.entries i).val
    if !buf.in_use then .error .not_in_use
    else
      let buf1 := buf.set_in_use false
      let buf2 := if exclusive then (buf1.set_dirty true).set_marked true else buf1.set_marked true
      if exclusive ∧ buf2.io_lock then .error .io_locked
      else .ok { bm with page_table := bm.page_table.setVal i buf2 }

/-- `void unfixS(PID pid)`. -/
def unfixS (bm : BufferManager) (pid : Nat) : Except Fatal BufferManager := unfix false bm pid

/-- `void unfixX(PID pid)`. -/
def unfixX (bm : BufferManager) (pid : Nat) : Except Fatal BufferManager := unfix true bm pid

/-- Wakes the fibers of a wait list, first to last (`mini::wake(frame.waiting->ctx)`). -/
def wakeAll (r : BaseReactor) : List Nat → Except Fatal BaseReactor
  | [] => .ok r
  | f :: fs =>
    match r.wake (some f) with
    | .error e => .error e
    | .ok (r1, _) => wakeAll r1 fs

/-- `void handleFault(PID pid)` from the point where `mini::io` returns `rc` to the fiber
`self`, which had popped the frame `bid`: the waiters behind the own operation are woken,
`io_lock` is cleared and the read is counted. `nvme_cmds` is `cfg.nvme_cmds`. -/
def handleFault_end (bm : BufferManager) (self pid bid : Nat) (rc : Int) (nvme_cmds : Bool) :
    Except Fatal BufferManager :=
  if !nvme_cmds ∧ rc ≠ pageSize then .error .io_failed
  else
    match (bm.buffer_frames bid).waiting with
    | [] => .error .waiting_mismatch
    | w :: waiters =>
      if w ≠ self then .error .waiting_mismatch
      else
        match wakeAll bm.r waiters with
        | .error e => .error e
        | .ok r1 =>
          match bm.page_table.find pid with
          | none => .error .not_resident
          | some i =>
            let buf := (bm.page_table.entries i).val
            .ok { bm with r := r1,
                          buffer_frames := Function.update bm.buffer_frames bid
                            { bm.buffer_frames bid with waiting := [] },
                          page_table := bm.page_table.setVal i (buf.set_io_lock false),
                          readCount := (bm.readCount + 1) % 2 ^ 64 }

/-- What the sweep callback of `evict` captures and writes: the two batches and `visited`. -/
structure SweepState where
  toEvict : List Nat
  toWrite : List Nat
  visited : Nat

/-- The callback `[&](PID pid, BufTagged& buf)` that `evict` passes to `clock_sweep_next`. -/
def evictCallback (frames : Nat → BufferFrame) (evict_batch : Nat) (s : SweepState) (pid : Nat)
    (buf : BufTagged) : Except Fatal (SweepState × BufTagged × Bool) :=
  let bid := buf.id
  if (frames bid).pid ≠ pid then .error .frame_mismatch
  else
    let s1 := { s with visited := (s.visited + 1) % 2 ^ 64 }
    if buf.in_use then .ok (s1, buf, false)
    else if buf.io_lock then .ok (s1, buf, false)
    else if buf.evicting then .ok (s1, buf, false)
    else if buf.marked then .ok (s1, buf.set_marked false, false)
    else if pid = 0 then .error .evict_metadata
    else
      let buf1 := buf.set_evicting true
      if buf1.dirty then
        .ok ({ s1 with toWrite := s1.toWrite ++ [bid] }, buf1.set_dirty false,
          decide (s1.toEvict.length + (s1.toWrite ++ [bid]).length = evict_batch))
      else
        .ok ({ s1 with toEvict := s1.toEvict ++ [bid] }, buf1,
          decide ((s1.toEvict ++ [bid]).length + s1.toWrite.length = evict_batch))

/-- `void evict()` up to the writes: the batches are cleared and filled by one call of
`clock_sweep_next`. When `toWrite` is not empty the fiber then parks in `io_batch` until
the writes have completed; other fibers run in between. -/
def evict_begin (bm : BufferManager) : Except Fatal BufferManager :=
  match bm.page_table.clock_sweep_next (evictCallback bm.buffer_frames bm.cfg.evict_batch)
      ⟨[], [], 0⟩ with
  | .error e => .error e
  | .ok (pt, s, _, _) => .ok { bm with page_table := pt, toEvict := s.toEvict, toWrite := s.toWrite }

/-- The lambda `evictNow(BID bid)` of `evict`: the new state and whether the page was
evicted. -/
def evictNow (bm : BufferManager) (bid : Nat) : Except Fatal (BufferManager × Bool) :=
  let pid := (bm.buffer_frames bid).pid
  match bm.page_table.find pid with
  | none => .error .not_resident
  | some i =>
    let buf := (bm.page_table.entries i).val
    if !buf.evicting then .error .not_evicting
    else
      let buf1 := buf.set_evicting false
      let bm1 := { bm with page_table := bm.page_table.setVal i buf1 }
      if buf1.in_use then .ok (bm1, false)
      else if buf1.dirty then .ok (bm1, false)
      else if buf1.io_lock then .error .io_locked
      else
        if !(bm1.page_table.erase pid).2 then .error .not_deleted
        else
          .ok ({ bm1 with page_table := (bm1.page_table.erase pid).1,
                          freeList := bm1.freeList ++ [bid] }, true)

/-- The loops `for (auto bid : ...) evictNow(bid)`: the new state and `evicted_count`. -/
def evictAll : BufferManager → List Nat → Nat → Except Fatal (BufferManager × Nat)
  | bm, [], count => .ok (bm, count)
  | bm, bid :: bids, count =>
    match bm.evictNow bid with
    | .error e => .error e
    | .ok (bm1, evicted) => evictAll bm1 bids (if evicted then count + 1 else count)

/-- `void evict()` from the completion of the writes on (`rc` is what `io_batch`
returned): the writes are counted, `evictNow` runs on both batches and the used-frame
counter is lowered. -/
def evict_end (bm : BufferManager) (rc : Int) (nvme_cmds : Bool) : Except Fatal BufferManager :=
  if bm.toWrite.length > 0 ∧ !nvme_cmds ∧ rc ≠ pageSize then .error .io_failed
  else
    let bm1 := { bm with writeCount := (bm.writeCount + bm.toWrite.length) % 2 ^ 64 }
    match evictAll bm1 (bm1.toEvict ++ bm1.toWrite) 0 with
    | .error e => .error e
    | .ok (bm2, evicted_count) =>
      .ok { bm2 with physUsedCount := (bm2.physUsedCount + 2 ^ 64 - evicted_count % 2 ^ 64) % 2 ^ 64 }

end BufferManager
/-! ## Definitions: further concrete states -/

namespace BufferManager

/-- The state `bm` with the descriptor of `pid` replaced by `f` of it (a state written
down directly, not one an operation returns). -/
def withDescriptor (bm : BufferManager) (pid : Nat) (f : BufTagged → BufTagged) : BufferManager :=
  match bm.page_table.find pid with
  | none => bm
  | some i => { bm with page_table := bm.page_table.setVal i (f (bm.page_table.entries i).val) }

/-- `bmAlloc1` with io_lock set on the descriptor of PID 1, which is in_use. -/
def bmLockedUse : BufferManager := bmAlloc1.withDescriptor 1 (fun d => d.set_io_lock true)

/-- `bmAlloc1` after `unfixX(1)`. -/
def bmUnfixed1 : BufferManager := okOr emptyManager (bmAlloc1.unfixX 1)

end BufferManager

namespace BaseReactor

/-- A reactor whose fibers are all parked, with an empty ready ring. -/
def allParked : BaseReactor := ⟨fun _ => FiberState.Parked, [], none⟩

/-- Calls `wake` on the fibers of a list, first to last; stops at the first failure. -/
def wakeEach (r : BaseReactor) : List Nat → Except Fatal BaseReactor
  | [] => .ok r
  | f :: fs =>
    match r.wake (some f) with
    | .error e => .error e
    | .ok (r1, _) => wakeEach r1 fs

/-- The reactor `allParked` after `wake` on the fibers 0 to 255: the ready ring is full. -/
def fullRing : BaseReactor :=
  match allParked.wakeEach (List.range 256) with
  | .ok r => r
  | .error _ => allParked

end BaseReactor

namespace BufferManager

/-- What a state shows of the descriptor of `pid`: BID, in_use, dirty, evicting, io_lock,
marked. -/
def descriptor (bm : BufferManager) (pid : Nat) : Option (Nat × Bool × Bool × Bool × Bool × Bool) :=
  (bm.page_table.lookup pid).map fun d => (d.id, d.in_use, d.dirty, d.evicting, d.io_lock, d.marked)

/-- `bmInit4` with the metadata page fixed (`fixS(0)`), so that no sweep selects it. -/
def scPinned : BufferManager := okOr emptyManager ((bmInit4.fixS 0).map Prod.fst)

/-- Then `allocPage()`: PID 1 in frame 1, fixed. -/
def scAlloc : BufferManager := okOr emptyManager (scPinned.allocPage.map Prod.fst)

/-- Then `unfixX(1)`: PID 1 is dirty and marked. -/
def scUnfixed : BufferManager := okOr emptyManager (scAlloc.unfixX 1)

/-- Then the sweep of a first eviction round: it clears the mark of PID 1 and selects
nothing. -/
def scSwept1 : BufferManager := okOr emptyManager scUnfixed.evict_begin

/-- Then the first round completes. -/
def scRound1 : BufferManager := okOr emptyManager (scSwept1.evict_end 0 false)

/-- Then the sweep of a second round: PID 1 is marked evicting and queued for write-back;
the eviction fiber is parked on the writes. -/
def scSwept : BufferManager := okOr emptyManager scRound1.evict_begin

/-- Then a fiber's `fixS(1)` while the writes are in flight. -/
def scRefixed : BufferManager := okOr emptyManager ((scSwept.fixS 1).map Prod.fst)

/-- Then the round completes (`evictNow` on frame 1) with PID 1 fixed. -/
def scKept : BufferManager := okOr emptyManager (scRefixed.evict_end 4096 false)

/-- The round completes without any `fix` in between: PID 1 is evicted. -/
def scEvicted : BufferManager := okOr emptyManager (scSwept.evict_end 4096 false)

end BufferManager

namespace BufferManager

/-- `bmFault1` after the read of PID 1 has completed with a full page (`rc = 4096`). -/
def bmRead1 : BufferManager := okOr emptyManager (bmFault1.handleFault_end 1 1 1 4096 false)

end BufferManager
/-! ## Definitions: what a clock sweep is specified to do -/

namespace RHBSU64Map

variable {Value : Type} {σ : Type}

/-- The sweep as the specification words it, for a callback `cb` that returns (its new
state, the value it leaves in the slot, its result): the callback is applied to the slots
of a list in order until it returns true. The result is the entries array, the callback
state, the slot at which the callback accepted (if it did) and the slots it was called on,
appended to `calls`. -/
def visitSlots (cb : σ → Nat → Value → σ × Value × Bool) :
    List Nat → (Nat → Entry Value) → σ → List Nat →
      (Nat → Entry Value) × σ × Option Nat × List Nat
  | [], e, s, calls => (e, s, none, calls)
  | i :: is, e, s, calls =>
    let r := cb s (e i).key (e i).val
    let e1 := Function.update e i ⟨(e i).key, r.2.1⟩
    if r.2.2 then (e1, r.1, some i, calls ++ [i])
    else visitSlots cb is e1 r.1 (calls ++ [i])

/-- A callback that cannot fail, as `clock_sweep_next` takes it. -/
def total (cb : σ → Nat → Value → σ × Value × Bool) :
    σ → Nat → Value → Except Fatal (σ × Value × Bool) :=
  fun s k v => .ok (cb s k v)

/-- A callback on `exampleTable` that doubles the value and accepts keys above `s`. -/
def exampleCallback (s : Nat) (k v : Nat) : Nat × Nat × Bool := (s, 2 * v, decide (s < k))

end RHBSU64Map

namespace RHBSU64Map

variable {Value : Type}

/-- The room left in the control bytes of the first `m` slots: the sum of `254 - ctrl[j]`.
A robin-hood swap uses up some of it. -/
def slack (ctrl : Nat → Nat) : Nat → Nat
  | 0 => 0
  | m + 1 => slack ctrl m + (254 - ctrl m)

/-- A fresh table of capacity 2 with `Nat` values, as the constructor builds it. -/
def freshTable2 : RHBSU64Map Nat :=
  { entries := fun _ => ⟨EMPTY_KEY, 0⟩, ctrl := fun _ => 0, n := 2, mask := 1, sz := 0,
    sweep_ := 0 }

/-- The table `freshTable2` after `insert(1, 10)` and `insert(2, 20)`: both slots are
occupied. -/
def fullTable : RHBSU64Map Nat :=
  match run freshTable2 [.insert 1 10, .insert 2 20] with
  | .ok r => r.1
  | .error _ => freshTable2

end RHBSU64Map
/-! ## Definitions: reachable states of the buffer manager and its invariant -/

namespace BufferManager

open RHBSU64Map

/-- `void handleWait(BID bid)` up to the park: the fiber `self` links its operation behind
the head of the frame's wait list. -/
def handleWait (bm : BufferManager) (self bid : Nat) : Except Fatal BufferManager :=
  match (bm.buffer_frames bid).waiting with
  | [] => .error .no_waiter
  | w :: ws =>
    match bm.page_table.find (bm.buffer_frames bid).pid with
    | none => .error .not_resident
    | some i =>
      if !(bm.page_table.entries i).val.io_lock then .error .not_io_locked
      else
        .ok { bm with
                buffer_frames := Function.update bm.buffer_frames bid
                  { bm.buffer_frames bid with waiting := w :: self :: ws },
                r := { bm.r with state := Function.update bm.r.state self FiberState.Parked } }

/-- The states the buffer manager reaches from `init` (asynchronous variant). A step is what
one fiber does between two suspension points, so the steps of different fibers interleave:
`handleFault` is split at the park inside `mini::io` and `evict` at the park inside
`io_batch`. The flag tells whether an eviction round is between its sweep and its `evictNow`
loop; there is one eviction fiber, so rounds do not overlap. The arguments of a step
(fiber, PID, frame, I/O result) are not constrained, and `sched` stands for everything the
scheduler and the eviction fiber's handle do. -/
inductive Reach : Bool → BufferManager → Prop
  | init (cfg : Config) (page_count page_table_sz : Nat) (bm : BufferManager) :
      page_count ≤ 2 ^ 52 → page_table_sz < 2 ^ 64 →
      BufferManager.init cfg page_count page_table_sz = .ok bm → Reach false bm
  | allocPage (p : Bool) (bm bm' : BufferManager) (ptr : PagePtr) :
      Reach p bm → bm.allocPage = .ok (bm', ptr) → Reach p bm'
  | fix (p : Bool) (exclusive : Bool) (bm bm' : BufferManager) (pid : Nat) (ptr : PagePtr) :
      Reach p bm → BufferManager.fix exclusive bm pid = .ok (bm', ptr) → Reach p bm'
  | unfix (p : Bool) (exclusive : Bool) (bm bm' : BufferManager) (pid : Nat) :
      Reach p bm → BufferManager.unfix exclusive bm pid = .ok bm' → Reach p bm'
  | handleFault_begin (p : Bool) (bm bm' : BufferManager) (self pid : Nat) (s : Suspended) :
      Reach p bm → bm.handleFault_begin self pid = .ok (bm', s) → Reach p bm'
  | handleFault_end (p : Bool) (bm bm' : BufferManager) (self pid bid : Nat) (rc : Int)
      (nvme_cmds : Bool) :
      Reach p bm → bm.handleFault_end self pid bid rc nvme_cmds = .ok bm' → Reach p bm'
  | handleWait (p : Bool) (bm bm' : BufferManager) (self bid : Nat) :
      Reach p bm → bm.handleWait self bid = .ok bm' → Reach p bm'
  | evict_begin (bm bm' : BufferManager) :
      Reach false bm → bm.evict_begin = .ok bm' → Reach true bm'
  | evict_end (bm bm' : BufferManager) (rc : Int) (nvme_cmds : Bool) :
      Reach true bm → bm.evict_end rc nvme_cmds = .ok bm' → Reach false bm'
  | sched (p : Bool) (bm : BufferManager) (r : BaseReactor) (ef : SleepingFiber) :
      Reach p bm → Reach p { bm with r := r, eviction_fiber := ef }

/-- The invariant of the page table `pt`, the back-pointers `fr` (`fr bid` is
`buffer_frames[bid].pid`) and the free list `fl`. -/
structure Core (pt : PageTable) (fr : Nat → Nat) (fl : List Nat) : Prop where
  /-- The table is a well-formed robin-hood table. -/
  inv : Inv pt
  /-- The clock hand is a slot. -/
  hand : pt.sweep_ < pt.n
  /-- Descriptor bijection: the frame of an entry points back to the entry's PID. -/
  back : ∀ pid d, Has pt pid d → fr d.id = pid
  /-- The BID of a descriptor fits its 59 bits. -/
  idb : ∀ pid d, Has pt pid d → d.id < 2 ^ 59
  /-- No BID occurs twice on the free list. -/
  free_nodup : fl.Nodup
  /-- A free BID fits 59 bits. -/
  free_lt : ∀ b, b ∈ fl → b < 2 ^ 59
  /-- Free-list disjointness: no descriptor refers to a free BID. -/
  free_unref : ∀ b, b ∈ fl → ∀ pid d, Has pt pid d → d.id ≠ b
  /-- A descriptor is never in_use and io-locked at once. -/
  excl : ∀ pid d, Has pt pid d → d.in_use = true → d.io_lock = false

/-- The batch `l` of an eviction round: no BID twice, and each BID is the one of the
descriptor of the PID its frame points back to. -/
structure Batch (pt : PageTable) (fr : Nat → Nat) (l : List Nat) : Prop where
  nodup : l.Nodup
  ref : ∀ b, b ∈ l → ∃ d, Has pt (fr b) d ∧ d.id = b

/-- The batch during the sweep: as `Batch`, and the descriptors are marked evicting. -/
structure SweepBatch (pt : PageTable) (fr : Nat → Nat) (l : List Nat) : Prop where
  nodup : l.Nodup
  ref : ∀ b, b ∈ l → ∃ d, Has pt (fr b) d ∧ d.id = b ∧ d.evicting = true

/-- The back-pointers of a state. -/
def framePid (bm : BufferManager) : Nat → Nat := fun b => (bm.buffer_frames b).pid

/-- The invariant of a state; `pending` tells whether an eviction round is under way. -/
def Consistent (pending : Bool) (bm : BufferManager) : Prop :=
  Core bm.page_table bm.framePid bm.freeList ∧
    (pending = true → Batch bm.page_table bm.framePid (bm.toEvict ++ bm.toWrite))

end BufferManager
/-! ## Definitions: B-tree nodes (`btree_node.hpp`, `utils.hpp`)

A node is a 4096-byte page: header, slot directory growing from the front, heap growing
from the back. The embedding keeps the header fields and the slot directory and attaches
to every slot and fence the heap bytes it points at (`key`, `payload`); the counters
`dataOffset` and `spaceUsed`, which decide compaction and splitting, are kept as the source
computes them. `count` is the length of the slot list. `assert(...)` does not alter the
result of a function (a build with `NDEBUG`); where a claim is about an assertion, its
condition is stated separately. -/

/-- `sizeof(BTreeNodeHeader)`: the union (8), two fence slots (4 + 4), `count` (2),
`isLeaf` (1, padded to 2), `spaceUsed`, `dataOffset`, `prefixLen` (2 each, padded to 28),
`hint` (64) and `padding` (4). -/
def sizeofHeader : Nat := 96

/-- `sizeof(Slot)`, a packed struct of three `u16` and one `u32`. -/
def sizeofSlot : Nat := 10

/-- `sizeof(PID)`. -/
def sizeofPID : Nat := 8

/-- Values of the type `unsigned` (32 bit). -/
def u32 (x : Int) : Nat := (x % 2 ^ 32).toNat

/-- Values of the type `u16`. -/
def u16 (x : Int) : Nat := (x % 2 ^ 16).toNat

/-- `min(unsigned a, unsigned b)` of `utils.hpp`. -/
def umin (a b : Nat) : Nat := if a < b then a else b

/-- `head(key, keyLen)`: the first up to four bytes of the key as a big-endian word, padded
with zeros (the four cases of the source's `switch` on `keyLen`). -/
def head : List Nat → Nat
  | [] => 0
  | [a] => a * 2 ^ 24
  | [a, b] => (a * 2 ^ 8 + b) * 2 ^ 16
  | [a, b, c] => (a * 2 ^ 8 + b) * 2 ^ 16 + c * 2 ^ 8
  | a :: b :: c :: d :: _ => a * 2 ^ 24 + b * 2 ^ 16 + c * 2 ^ 8 + d

/-- `struct Slot` together with the heap bytes at `offset`: `keyLen` is `key.length` and
`payloadLen` is `payload.length`. -/
structure Slot where
  offset : Nat
  head : Nat
  key : List Nat
  payload : List Nat
  deriving DecidableEq, Repr

namespace Slot

def keyLen (s : Slot) : Nat := s.key.length
def payloadLen (s : Slot) : Nat := s.payload.length

end Slot

instance : Inhabited Slot := ⟨⟨0, 0, [], []⟩⟩

/-- `struct BTreeNode`. `upperInnerNode` is also `nextLeafNode` (a union); the fences are
the bytes their `FenceKeySlot` points at. -/
structure BTreeNode where
  upperInnerNode : Nat
  lowerFence : List Nat
  upperFence : List Nat
  isLeaf : Bool
  spaceUsed : Nat
  dataOffset : Nat
  prefixLen : Nat
  hint : Nat → Nat
  slot : List Slot

namespace BTreeNode

def underFullSize : Nat := pageSize / 2 + pageSize / 4
def noNeighbour : Nat := 2 ^ 64 - 1
def hintCount : Nat := 16
def maxKVSize : Nat := (pageSize - sizeofHeader - 2 * sizeofSlot) / 4

/-- The constructor `BTreeNode(bool isLeaf)` on a fresh page. -/
def new (isLeaf : Bool) : BTreeNode :=
  { upperInnerNode := noNeighbour, lowerFence := [], upperFence := [], isLeaf := isLeaf,
    spaceUsed := 0, dataOffset := pageSize, prefixLen := 0, hint := fun _ => 0, slot := [] }

def count (n : BTreeNode) : Nat := n.slot.length
def nextLeafNode (n : BTreeNode) : Nat := n.upperInnerNode
def hasRightNeighbour (n : BTreeNode) : Bool := decide (n.nextLeafNode ≠ noNeighbour)
def hasLowerFence (n : BTreeNode) : Bool := decide (n.lowerFence.length ≠ 0)
def isInner (n : BTreeNode) : Bool := !n.isLeaf
def getLowerFence (n : BTreeNode) : List Nat := n.lowerFence
def getUpperFence (n : BTreeNode) : List Nat := n.upperFence

/-- `getPrefix()`: the bytes at the lower fence; the first `prefixLen` of them are read. -/
def getPrefix (n : BTreeNode) : List Nat := n.lowerFence.take n.prefixLen

/-- The offset of `slot + count` from the start of the page. -/
def slotEnd (n : BTreeNode) : Nat := sizeofHeader + sizeofSlot * n.count

def freeSpace (n : BTreeNode) : Nat := u32 ((n.dataOffset : Int) - n.slotEnd)

def freeSpaceAfterCompaction (n : BTreeNode) : Nat :=
  u32 ((pageSize : Int) - n.slotEnd - n.spaceUsed)

/-- `spaceNeeded(keyLen, payloadLen)`, in `unsigned` arithmetic. -/
def spaceNeeded (n : BTreeNode) (keyLen payloadLen : Nat) : Nat :=
  u32 ((sizeofSlot : Int) + ((keyLen : Int) - n.prefixLen) + payloadLen)

def hasSpaceFor (n : BTreeNode) (keyLen payloadLen : Nat) : Bool :=
  decide (n.spaceNeeded keyLen payloadLen ≤ n.freeSpaceAfterCompaction)

/-- `slot[slotId]`; reading past `count` yields whatever the page holds, here the default
slot. -/
def slotAt (n : BTreeNode) (slotId : Nat) : Slot := n.slot.getD slotId default

def getKey (n : BTreeNode) (slotId : Nat) : List Nat := (n.slotAt slotId).key
def getPayload (n : BTreeNode) (slotId : Nat) : List Nat := (n.slotAt slotId).payload

/-- `getChild(slotId)`: the payload read as a little-endian `PID`. -/
def getChild (n : BTreeNode) (slotId : Nat) : Nat :=
  Tpcc.ofBytesLE ((n.getPayload slotId).take sizeofPID)

/-- `makeHint()`. -/
def makeHint (n : BTreeNode) : BTreeNode :=
  let dist := n.count / (hintCount + 1)
  { n with hint := fun i => if i < hintCount then (n.slotAt (dist * (i + 1))).head else n.hint i }

/-- `updateHint(slotId)`. -/
def updateHint (n : BTreeNode) (slotId : Nat) : BTreeNode :=
  let dist := n.count / (hintCount + 1)
  let begin :=
    if n.count > hintCount * 2 + 1 ∧ (n.count - 1) / (hintCount + 1) = dist ∧ slotId / dist > 1
    then slotId / dist - 1 else 0
  { n with hint := fun i =>
      if begin ≤ i ∧ i < hintCount then (n.slotAt (dist * (i + 1))).head else n.hint i }

/-- The first index `i` in `[from, hintCount)` at which `p (hint i)` holds, `hintCount` if
there is none: the two `for` loops of `searchHint`. -/
def hintScan (n : BTreeNode) (p : Nat → Bool) : Nat → Nat → Nat
  | 0, pos => pos
  | fuel + 1, pos =>
    if pos < hintCount then
      if p (n.hint pos) then pos else hintScan n p fuel (pos + 1)
    else pos

/-- `searchHint(keyHead, lowerOut, upperOut)`: the narrowed range. -/
def searchHint (n : BTreeNode) (keyHead lower upper : Nat) : Nat × Nat :=
  if n.count > hintCount * 2 then
    let dist := upper / (hintCount + 1)
    let pos := n.hintScan (fun h => decide (h ≥ keyHead)) hintCount 0
    let pos2 := n.hintScan (fun h => decide (h ≠ keyHead)) hintCount pos
    (pos * dist, if pos2 < hintCount then (pos2 + 1) * dist else upper)
  else (lower, upper)

end BTreeNode
namespace BTreeNode

open Tpcc (memcmp bytesLE ofBytesLE)

/-- The `while (lower < upper)` loop of `lowerBound`. -/
def lowerBoundLoop (n : BTreeNode) (key : List Nat) (keyHead : Nat) :
    Nat → Nat → Nat → Nat × Bool
  | 0, lower, _ => (lower, false)
  | fuel + 1, lower, upper =>
    if lower < upper then
      let mid := (upper - lower) / 2 + lower
      if keyHead < (n.slotAt mid).head then lowerBoundLoop n key keyHead fuel lower mid
      else if keyHead > (n.slotAt mid).head then lowerBoundLoop n key keyHead fuel (mid + 1) upper
      else
        let cmp := memcmp key (n.getKey mid) (umin key.length (n.slotAt mid).keyLen)
        if cmp < 0 then lowerBoundLoop n key keyHead fuel lower mid
        else if cmp > 0 then lowerBoundLoop n key keyHead fuel (mid + 1) upper
        else if key.length < (n.slotAt mid).keyLen then lowerBoundLoop n key keyHead fuel lower mid
        else if key.length > (n.slotAt mid).keyLen then
          lowerBoundLoop n key keyHead fuel (mid + 1) upper
        else (mid, true)
    else (lower, false)

/-- `u16 lowerBound(std::span<u8> skey, bool& foundExactOut)`: the slot and `foundExactOut`. -/
def lowerBound (n : BTreeNode) (skey : List Nat) : Nat × Bool :=
  let cmp := memcmp skey n.getPrefix (umin skey.length n.prefixLen)
  if cmp < 0 then (0, false)
  else if cmp > 0 then (n.count, false)
  else if skey.length < n.prefixLen then (0, false)
  else
    let key := skey.drop n.prefixLen
    let keyHead := head key
    let r := n.searchHint keyHead 0 n.count
    n.lowerBoundLoop key keyHead (n.count + 1) r.1 r.2

/-- The `while (lower < upper)` loop of `upperBound`. -/
def upperBoundLoop (n : BTreeNode) (key : List Nat) (keyHead : Nat) : Nat → Nat → Nat → Nat
  | 0, lower, _ => lower
  | fuel + 1, lower, upper =>
    if lower < upper then
      let mid := (upper - lower) / 2 + lower
      if keyHead < (n.slotAt mid).head then upperBoundLoop n key keyHead fuel lower mid
      else if keyHead > (n.slotAt mid).head then upperBoundLoop n key keyHead fuel (mid + 1) upper
      else
        let cmp := memcmp key (n.getKey mid) (umin key.length (n.slotAt mid).keyLen)
        if cmp < 0 then upperBoundLoop n key keyHead fuel lower mid
        else if cmp > 0 then upperBoundLoop n key keyHead fuel (mid + 1) upper
        else if key.length < (n.slotAt mid).keyLen then upperBoundLoop n key keyHead fuel lower mid
        else upperBoundLoop n key keyHead fuel (mid + 1) upper
    else lower

/-- `u16 upperBound(std::span<u8> skey)`: the first slot with key above `skey`. -/
def upperBound (n : BTreeNode) (skey : List Nat) : Nat :=
  let cmp := memcmp skey n.getPrefix (umin skey.length n.prefixLen)
  if cmp < 0 then 0
  else if cmp > 0 then n.count
  else if skey.length < n.prefixLen then 0
  else
    let key := skey.drop n.prefixLen
    let keyHead := head key
    let r := n.searchHint keyHead 0 n.count
    n.upperBoundLoop key keyHead (n.count + 1) r.1 r.2

/-- Writes `s` to `slot[slotId]` (the slot directory is extended when `slotId` is `count`). -/
def setSlot (n : BTreeNode) (slotId : Nat) (s : Slot) : BTreeNode :=
  { n with slot := n.slot.take slotId ++ [s] ++ n.slot.drop (slotId + 1) }

/-- `storeKeyValue(slotId, skey, payload)`: strips the node's prefix from `skey`, takes the
heap space below `dataOffset` and fills `slot[slotId]`. -/
def storeKeyValue (n : BTreeNode) (slotId : Nat) (skey payload : List Nat) : BTreeNode :=
  let key := skey.drop n.prefixLen
  let space := key.length + payload.length
  let dataOffset := u16 ((n.dataOffset : Int) - space)
  ({ n with dataOffset := dataOffset, spaceUsed := u16 ((n.spaceUsed : Int) + space) }).setSlot
    slotId ⟨dataOffset, head key, key, payload⟩

/-- `insertFence(fk, key)` for the lower (`lower = true`) or the upper fence. -/
def insertFence (n : BTreeNode) (lower : Bool) (key : List Nat) : BTreeNode :=
  let n1 := { n with dataOffset := u16 ((n.dataOffset : Int) - key.length),
                     spaceUsed := u16 ((n.spaceUsed : Int) + key.length) }
  if lower then { n1 with lowerFence := key } else { n1 with upperFence := key }

/-- The `for` loop of `setFences`: the length of the common prefix of the two fences. -/
def commonPrefixLen : List Nat → List Nat → Nat
  | a :: l, b :: u => if a = b then commonPrefixLen l u + 1 else 0
  | _, _ => 0

/-- `setFences(lower, upper)`. -/
def setFences (n : BTreeNode) (lower upper : List Nat) : BTreeNode :=
  { (n.insertFence true lower).insertFence false upper with
    prefixLen := commonPrefixLen lower upper }

/-- `copyKeyValue(srcSlot, dst, dstSlot)`: rebuilds the full key and stores it in `dst`. -/
def copyKeyValue (n : BTreeNode) (srcSlot : Nat) (dst : BTreeNode) (dstSlot : Nat) : BTreeNode :=
  dst.storeKeyValue dstSlot (n.getPrefix ++ n.getKey srcSlot) (n.getPayload srcSlot)

/-- The loops of `copyKeyValueRange` for the slots `srcSlot + i`, `i` from `i` upwards. -/
def copyLoop (n : BTreeNode) (grows : Bool) (dstSlot srcSlot : Nat) :
    Nat → Nat → BTreeNode → BTreeNode
  | 0, _, dst => dst
  | k + 1, i, dst =>
    let dst1 :=
      if grows then
        let diff := dst.prefixLen - n.prefixLen
        let s := n.slotAt (srcSlot + i)
        let key := s.key.drop diff
        let space := key.length + s.payload.length
        let dataOffset := u16 ((dst.dataOffset : Int) - space)
        ({ dst with dataOffset := dataOffset,
                    spaceUsed := u16 ((dst.spaceUsed : Int) + space) }).setSlot (dstSlot + i)
          ⟨dataOffset, head key, key, s.payload⟩
      else n.copyKeyValue (srcSlot + i) dst (dstSlot + i)
    copyLoop n grows dstSlot srcSlot k (i + 1) dst1

/-- `copyKeyValueRange(dst, dstSlot, srcSlot, srcCount)`. Every caller passes
`dstSlot = dst->count`, so the slots written extend the directory and `dst->count +=
srcCount` is the new length. -/
def copyKeyValueRange (n : BTreeNode) (dst : BTreeNode) (dstSlot srcSlot srcCount : Nat) :
    BTreeNode :=
  copyLoop n (decide (n.prefixLen ≤ dst.prefixLen)) dstSlot srcSlot srcCount 0 dst

/-- `compactify()`: rebuilds the node in a temporary and copies it back. -/
def compactify (n : BTreeNode) : BTreeNode :=
  let tmp := (BTreeNode.new n.isLeaf).setFences n.getLowerFence n.getUpperFence
  let tmp1 := n.copyKeyValueRange tmp 0 0 n.count
  ({ tmp1 with upperInnerNode := n.upperInnerNode }).makeHint

/-- `insertInPage(key, payload)`. -/
def insertInPage (n : BTreeNode) (key payload : List Nat) : BTreeNode :=
  let needed := n.spaceNeeded key.length payload.length
  let n1 := if needed > n.freeSpace then n.compactify else n
  let slotId := (n1.lowerBound key).1
  let n2 := { n1 with slot := n1.slot.take slotId ++ [n1.slotAt slotId] ++ n1.slot.drop slotId }
  (n2.storeKeyValue slotId key payload).updateHint slotId

/-- `removeSlot(slotId)`. -/
def removeSlot (n : BTreeNode) (slotId : Nat) : BTreeNode :=
  let s := n.slotAt slotId
  ({ n with spaceUsed := u16 ((u16 ((n.spaceUsed : Int) - s.keyLen) : Int) - s.payloadLen),
            slot := n.slot.eraseIdx slotId }).makeHint

/-- `removeInPage(key)`. -/
def removeInPage (n : BTreeNode) (key : List Nat) : BTreeNode × Bool :=
  let r := n.lowerBound key
  if !r.2 then (n, false) else (n.removeSlot r.1, true)

/-- `lookupInner(key)`. -/
def lookupInner (n : BTreeNode) (key : List Nat) : Nat :=
  let pos := (n.lowerBound key).1
  if pos = n.count then n.upperInnerNode else n.getChild pos

/-- `lookupInnerUpper(key)`. -/
def lookupInnerUpper (n : BTreeNode) (key : List Nat) : Nat :=
  let pos := n.upperBound key
  if pos = n.count then n.upperInnerNode else n.getChild pos

end BTreeNode
namespace BTreeNode

open Tpcc (memcmp bytesLE ofBytesLE)

/-- `memcpy(getPayload(slotId).data(), &pid, sizeof(PID))`: overwrites the first eight
payload bytes of `slot[slotId]` with the little-endian image of `pid`. -/
def setChild (n : BTreeNode) (slotId pid : Nat) : BTreeNode :=
  let s := n.slotAt slotId
  { n with slot := n.slot.set slotId { s with payload := bytesLE sizeofPID pid ++ s.payload.drop sizeofPID } }

/-- The result of `splitNode`: the node itself (now the left half), the new right node and
the parent. -/
structure SplitResult where
  left : BTreeNode
  right : BTreeNode
  parent : BTreeNode

/-- `splitNode(leftPID, parent, sepSlot, sep)`, after `AllocGuard` has provided the page
`newPid` for the right node. -/
def splitNode (n : BTreeNode) (leftPID : Nat) (parent : BTreeNode) (sepSlot : Nat)
    (sep : List Nat) (newPid : Nat) : SplitResult :=
  let nodeLeft0 := (BTreeNode.new n.isLeaf).setFences n.getLowerFence sep
  let nodeRight0 := (BTreeNode.new n.isLeaf).setFences sep n.getUpperFence
  let oldParentSlot := (parent.lowerBound sep).1
  let parent1 :=
    if oldParentSlot = parent.count then { parent with upperInnerNode := newPid }
    else parent.setChild oldParentSlot newPid
  let parent2 := parent1.insertInPage sep (bytesLE sizeofPID leftPID)
  if n.isLeaf then
    let nodeLeft := n.copyKeyValueRange nodeLeft0 0 0 (sepSlot + 1)
    let nodeRight := n.copyKeyValueRange nodeRight0 0 nodeLeft.count (n.count - nodeLeft.count)
    { left := ({ nodeLeft with upperInnerNode := newPid }).makeHint,
      right := ({ nodeRight with upperInnerNode := n.nextLeafNode }).makeHint,
      parent := parent2 }
  else
    let nodeLeft := n.copyKeyValueRange nodeLeft0 0 0 sepSlot
    let nodeRight :=
      n.copyKeyValueRange nodeRight0 0 (nodeLeft.count + 1) (n.count - nodeLeft.count - 1)
    { left := ({ nodeLeft with upperInnerNode := n.getChild nodeLeft.count }).makeHint,
      right := ({ nodeRight with upperInnerNode := n.upperInnerNode }).makeHint,
      parent := parent2 }

/-- `struct SeparatorInfo`. -/
structure SeparatorInfo where
  len : Nat
  slot : Nat
  isTruncated : Bool
  deriving DecidableEq, Repr

/-- The `for` loop of `commonPrefix`. -/
def commonPrefixLoop : Nat → List Nat → List Nat → Nat
  | 0, _, _ => 0
  | limit + 1, a :: as, b :: bs => if a = b then commonPrefixLoop limit as bs + 1 else 0
  | _ + 1, _, _ => 0

/-- `commonPrefix(slotA, slotB)`. -/
def commonPrefix (n : BTreeNode) (slotA slotB : Nat) : Nat :=
  commonPrefixLoop (umin (n.slotAt slotA).keyLen (n.slotAt slotB).keyLen)
    (n.getKey slotA) (n.getKey slotB)

/-- The `for` loop in `findSeparator` that looks for the end of the run of `bestPrefixLen`. -/
def bestSlotLoop (n : BTreeNode) (upper bestPrefixLen : Nat) : Nat → Nat → Nat
  | 0, bestSlot => bestSlot
  | fuel + 1, bestSlot =>
    if bestSlot < upper ∧ n.commonPrefix bestSlot 0 = bestPrefixLen then
      bestSlotLoop n upper bestPrefixLen fuel (bestSlot + 1)
    else bestSlot

/-- `findSeparator(splitOrdered)`. -/
def findSeparator (n : BTreeNode) (splitOrdered : Bool) : SeparatorInfo :=
  if n.isInner then
    let slotId := n.count / 2
    ⟨n.prefixLen + (n.slotAt slotId).keyLen, slotId, false⟩
  else
    let bestSlot :=
      if splitOrdered then n.count - 2
      else if n.count > 16 then
        let lower := n.count / 2 - n.count / 16
        let upper := n.count / 2
        let bestPrefixLen := n.commonPrefix lower 0
        if bestPrefixLen ≠ n.commonPrefix (upper - 1) 0 then
          n.bestSlotLoop upper bestPrefixLen n.count (lower + 1)
        else lower
      else (n.count - 1) / 2
    let common := n.commonPrefix bestSlot (bestSlot + 1)
    if bestSlot + 1 < n.count ∧ (n.slotAt bestSlot).keyLen > common ∧
        (n.slotAt (bestSlot + 1)).keyLen > common + 1 then
      ⟨n.prefixLen + common + 1, bestSlot, true⟩
    else ⟨n.prefixLen + (n.slotAt bestSlot).keyLen, bestSlot, false⟩

/-- `getSep(sepKeyOut, info)`: the separator key. -/
def getSep (n : BTreeNode) (info : SeparatorInfo) : List Nat :=
  n.getPrefix ++
    (n.getKey (info.slot + if info.isTruncated then 1 else 0)).take (info.len - n.prefixLen)

/-- The result of `mergeNodes`: the returned flag, the node itself and the parent (`right`
is not written). -/
structure MergeResult where
  merged : Bool
  node : BTreeNode
  parent : BTreeNode

/-- `mergeNodes(pid, slotId, parent, right)`. -/
def mergeNodes (n : BTreeNode) (pid slotId : Nat) (parent right : BTreeNode) : MergeResult :=
  if !n.isLeaf then ⟨true, n, parent⟩
  else
    let tmp := (BTreeNode.new n.isLeaf).setFences n.getLowerFence right.getUpperFence
    let leftGrow := u32 (((n.prefixLen : Int) - tmp.prefixLen) * n.count)
    let rightGrow := u32 (((right.prefixLen : Int) - tmp.prefixLen) * right.count)
    let spaceUpperBound :=
      u32 ((n.spaceUsed : Int) + right.spaceUsed
        + (sizeofHeader + sizeofSlot * (n.count + right.count)) + leftGrow + rightGrow)
    if spaceUpperBound > pageSize then ⟨false, n, parent⟩
    else
      let tmp1 := n.copyKeyValueRange tmp 0 0 n.count
      let tmp2 := right.copyKeyValueRange tmp1 n.count 0 right.count
      let parent1 := (parent.setChild (slotId + 1) pid).removeSlot slotId
      ⟨true, { tmp2.makeHint with upperInnerNode := right.nextLeafNode }, parent1⟩

end BTreeNode
/-! ## Definitions: the B-tree (`btree.hpp`, `btree.cpp`)

The tree is embedded over the pages it reads and writes: `nodes pid` is the content of page
`pid`, `root` is `roots[slotId]` of the metadata page, `allocCount` the PID counter of the
buffer manager. Guards are elided: every fix finds its page resident and every
`AllocGuard` gets a frame, so the restart paths (`goto restart`, `handleRestart`) are not
taken. Loops and the recursion between `trySplit` and `ensureSpace` carry fuel; `none` is
the outcome of running out of it. -/

/-- The pages of one B-tree and the state of the tree object. -/
structure BTree where
  nodes : Nat → BTreeNode
  root : Nat
  allocCount : Nat
  splitOrdered : Bool

namespace BTree

open Tpcc (bytesLE)

/-- `metadataPageId`. -/
def metadataPageId : Nat := 0

/-- The constructor `BTree()`: allocates a leaf as the root (into the PID `allocCount`). -/
def new (allocCount : Nat) : BTree :=
  { nodes := fun _ => BTreeNode.new true, root := allocCount,
    allocCount := (allocCount + 1) % 2 ^ 64, splitOrdered := false }

/-- The descent `while (node->isInner()) node = lookupInner(key)` of `findLeafS`, `insert`
and `remove`: the leaf reached and its parent (`none` while the parent is the metadata
page). -/
def descend (t : BTree) (key : List Nat) : Nat → Nat → Option Nat → Option (Nat × Option Nat)
  | 0, _, _ => none
  | fuel + 1, node, parent =>
    if (t.nodes node).isInner then
      descend t key fuel ((t.nodes node).lookupInner key) (some node)
    else some (node, parent)

/-- The descent of `findLeafSUpper`. -/
def descendUpper (t : BTree) (key : List Nat) : Nat → Nat → Option Nat
  | 0, _ => none
  | fuel + 1, node =>
    if (t.nodes node).isInner then
      descendUpper t key fuel ((t.nodes node).lookupInnerUpper key)
    else some node

/-- `findLeafS(key)`: the PID of the leaf. -/
def findLeafS (t : BTree) (fuel : Nat) (key : List Nat) : Option Nat :=
  (descend t key fuel t.root none).map Prod.fst

/-- `findLeafSUpper(key)`. -/
def findLeafSUpper (t : BTree) (fuel : Nat) (key : List Nat) : Option Nat :=
  descendUpper t key fuel t.root

/-- `int lookup(key, payloadOut, payloadOutSize)`: the returned value and the bytes copied
to `payloadOut`. -/
def lookup (t : BTree) (fuel : Nat) (key : List Nat) (payloadOutSize : Nat) :
    Option (Int × List Nat) :=
  match t.findLeafS fuel key with
  | none => none
  | some leaf =>
    let node := t.nodes leaf
    let r := node.lowerBound key
    if !r.2 then some (-1, [])
    else
      some (((node.slotAt r.1).payloadLen : Int),
        (node.getPayload r.1).take (umin (node.slotAt r.1).payloadLen payloadOutSize))

/-- The descent of `ensureSpace`: stops at `toSplit` or at a leaf; the node reached and its
parent. -/
def descendTo (t : BTree) (toSplit : Nat) (key : List Nat) :
    Nat → Nat → Option Nat → Option (Nat × Option Nat)
  | 0, _, _ => none
  | fuel + 1, node, parent =>
    if (t.nodes node).isInner ∧ node ≠ toSplit then
      descendTo t toSplit key fuel ((t.nodes node).lookupInner key) (some node)
    else some (node, parent)

/-- `trySplit(node, parent, ...)` together with the `ensureSpace(parent, sepKey, 8)` it
falls back to, which in turn calls `trySplit` on the parent. `fuel` bounds the descent of
`ensureSpace`, `depth` the nesting of the calls. -/
def trySplit (fuel : Nat) : Nat → BTree → Nat → Option Nat → Option BTree
  | 0, _, _, _ => none
  | depth + 1, t, node, parent =>
    -- create new root if necessary
    let newRootPid := t.allocCount
    let t1 : BTree :=
      match parent with
      | some _ => t
      | none =>
        { t with nodes := Function.update t.nodes newRootPid
                   { BTreeNode.new false with upperInnerNode := node },
                 root := newRootPid, allocCount := (t.allocCount + 1) % 2 ^ 64 }
    let parentPid := parent.getD newRootPid
    let sepInfo := (t1.nodes node).findSeparator t1.splitOrdered
    let sepKey := (t1.nodes node).getSep sepInfo
    if (t1.nodes parentPid).hasSpaceFor sepInfo.len sizeofPID then
      let newPid := t1.allocCount
      let r := (t1.nodes node).splitNode node (t1.nodes parentPid) sepInfo.slot sepKey newPid
      some { t1 with
        nodes := Function.update (Function.update (Function.update t1.nodes newPid r.right)
                   parentPid r.parent) node r.left,
        allocCount := (t1.allocCount + 1) % 2 ^ 64 }
    else
      -- ensureSpace(parent.ptr, sepKey, sizeof(PID))
      match descendTo t1 parentPid sepKey fuel t1.root none with
      | none => none
      | some (n, p) =>
        if n = parentPid then
          if (t1.nodes n).hasSpaceFor sepKey.length sizeofPID then some t1
          else trySplit fuel depth t1 n p
        else some t1

/-- `void insert(key, payload)`: the loop that descends, inserts when the leaf has room and
otherwise splits and starts over. -/
def insert (fuel : Nat) (key payload : List Nat) : Nat → BTree → Option BTree
  | 0, _ => none
  | rounds + 1, t =>
    match descend t key fuel t.root none with
    | none => none
    | some (node, parent) =>
      if (t.nodes node).hasSpaceFor key.length payload.length then
        some { t with nodes := Function.update t.nodes node
                        ((t.nodes node).insertInPage key payload) }
      else
        match trySplit fuel fuel t node parent with
        | none => none
        | some t1 => insert fuel key payload rounds t1

end BTree
namespace BTree

/-- The descent of `remove`: the leaf, its parent (`none` for the metadata page) and the
position `pos` of the leaf in its parent. -/
def descendPos (t : BTree) (key : List Nat) :
    Nat → Nat → Option Nat → Nat → Option (Nat × Option Nat × Nat)
  | 0, _, _, _ => none
  | fuel + 1, node, parent, pos =>
    if (t.nodes node).isInner then
      let pos1 := ((t.nodes node).lowerBound key).1
      let nextPage :=
        if pos1 = (t.nodes node).count then (t.nodes node).upperInnerNode
        else (t.nodes node).getChild pos1
      descendPos t key fuel nextPage (some node) pos1
    else some (node, parent, pos)

/-- `bool remove(key)`. -/
def remove (t : BTree) (fuel : Nat) (key : List Nat) : Option (BTree × Bool) :=
  match descendPos t key fuel t.root none 0 with
  | none => none
  | some (node, parent, pos) =>
    let n := t.nodes node
    let r := n.lowerBound key
    if !r.2 then some (t, false)
    else
      let slotId := r.1
      let sizeEntry := (n.slotAt slotId).keyLen + (n.slotAt slotId).payloadLen
      let underfull :=
        match parent with
        | none => false
        | some p =>
          decide (u32 ((n.freeSpaceAfterCompaction : Int) + sizeEntry) ≥ BTreeNode.underFullSize
            ∧ (t.nodes p).count ≥ 2 ∧ pos + 1 < (t.nodes p).count)
      if underfull then
        let p := parent.getD 0
        let rightPid := (t.nodes p).getChild (pos + 1)
        let n1 := n.removeSlot slotId
        if (t.nodes rightPid).freeSpaceAfterCompaction ≥ pageSize - BTreeNode.underFullSize then
          let m := n1.mergeNodes node pos (t.nodes p) (t.nodes rightPid)
          some ({ t with nodes := Function.update (Function.update t.nodes p m.parent) node
                           m.node }, true)
        else some ({ t with nodes := Function.update t.nodes node n1 }, true)
      else some ({ t with nodes := Function.update t.nodes node (n.removeSlot slotId) }, true)

/-- The full key of `slot[pos]`, as the scan callbacks rebuild it: prefix, then the stored
key bytes. -/
def fullKey (n : BTreeNode) (pos : Nat) : List Nat := n.getPrefix ++ n.getKey pos

/-- The loop of `scanAsc`, at position `pos` of the leaf `node`: the calls of the callback,
in order, each as the full key and payload of the slot it was called on. -/
def scanLoop (t : BTree) (fuel : Nat) (fn : BTreeNode → Nat → Bool) :
    Nat → Nat → Nat → Option (List (List Nat × List Nat))
  | 0, _, _ => none
  | steps + 1, node, pos =>
    let n := t.nodes node
    if pos < n.count then
      if !fn n pos then some [(fullKey n pos, n.getPayload pos)]
      else (scanLoop t fuel fn steps node (pos + 1)).map ((fullKey n pos, n.getPayload pos) :: ·)
    else if !n.hasRightNeighbour then some []
    else
      match t.findLeafSUpper fuel n.getUpperFence with
      | none => none
      | some next => scanLoop t fuel fn steps next 0

/-- `void scanAsc(key, fn)`. -/
def scanAsc (t : BTree) (fuel steps : Nat) (key : List Nat) (fn : BTreeNode → Nat → Bool) :
    Option (List (List Nat × List Nat)) :=
  match t.findLeafS fuel key with
  | none => none
  | some leaf => scanLoop t fuel fn steps leaf ((t.nodes leaf).lowerBound key).1

end BTree
/-! ## Definitions: well-formed pages

Keys are compared as byte strings in lexicographic order, the order `<` of `List Nat`. The
predicates below state when a page is well formed: `SlotsOK` is what the searches rely on,
`SpaceOK` ties the counters to the bytes stored and keeps the heap out of the slot
directory, the condition `copyKeyValueRange` and `storeKeyValue` assert. While `SpaceOK`
holds the embedding agrees with the page in memory; a page whose heap reaches into the slot
directory has slots overwritten by key bytes, which the embedding does not follow. -/

/-- A string of bytes (`u8`). -/
def isBytes (l : List Nat) : Prop := ∀ b ∈ l, b < 256

/-- The big-endian value of the first `n` bytes of a key, padded with zeros. -/
def headN : Nat → List Nat → Nat
  | 0, _ => 0
  | _ + 1, [] => 0
  | n + 1, x :: l => x * 256 ^ n + headN n l

namespace Slot

/-- What a slot stores: the cached head, the key bytes and the payload (the offset is
where they lie in the heap). -/
def content (s : Slot) : Nat × List Nat × List Nat := (s.head, s.key, s.payload)

/-- The heap bytes of a slot. -/
def size (s : Slot) : Nat := s.key.length + s.payload.length

end Slot

/-- The slot with the first `d` key bytes cut off, as `copyKeyValueRange` writes it into a
page whose prefix is `d` bytes longer. -/
def trimSlot (d : Nat) (s : Slot) : Slot := ⟨s.offset, head (s.key.drop d), s.key.drop d, s.payload⟩

namespace BTreeNode

/-- The comparison of the search key with `slot[mid]` that `lowerBound` and `upperBound`
make: the heads first, then `memcmp` over the common length, then the lengths. -/
def cmpSlot (n : BTreeNode) (key : List Nat) (keyHead mid : Nat) : Ordering :=
  if keyHead < (n.slotAt mid).head then .lt
  else if keyHead > (n.slotAt mid).head then .gt
  else
    let cmp := Tpcc.memcmp key (n.getKey mid) (umin key.length (n.slotAt mid).keyLen)
    if cmp < 0 then .lt
    else if cmp > 0 then .gt
    else if key.length < (n.slotAt mid).keyLen then .lt
    else if key.length > (n.slotAt mid).keyLen then .gt
    else .eq

/-- The part of `insertInPage` after the optional `compactify()`: the slots from `slotId`
on move up by one, the pair is stored at `slotId` and the hints are updated. -/
def insertAt (n : BTreeNode) (slotId : Nat) (key payload : List Nat) : BTreeNode :=
  let n2 := { n with slot := n.slot.take slotId ++ [n.slotAt slotId] ++ n.slot.drop slotId }
  (n2.storeKeyValue slotId key payload).updateHint slotId

/-- The keys of the slots in full: prefix, then the bytes stored. -/
def keys (n : BTreeNode) : List (List Nat) := n.slot.map (fun s => n.getPrefix ++ s.key)

/-- The entries of the page: full key and payload of every slot, in slot order. -/
def entries (n : BTreeNode) : List (List Nat × List Nat) :=
  n.slot.map (fun s => (n.getPrefix ++ s.key, s.payload))

/-- The number of slots that hold the key `k`. -/
def countKey (n : BTreeNode) (k : List Nat) : Nat := (n.keys.filter (fun x => decide (x = k))).length

/-- The bytes of the heap in use: both fences and key and payload of every slot. -/
def usedBytes (n : BTreeNode) : Nat :=
  n.lowerFence.length + n.upperFence.length
    + (n.slot.map Slot.size).sum

/-- The page `res` is `dst` with the slots `items` appended at the end of the slot
directory, the counters moved by the bytes they take, and nothing else changed. -/
structure Appended (dst res : BTreeNode) (items : List Slot) : Prop where
  slot : res.slot.map Slot.content = dst.slot.map Slot.content ++ items.map Slot.content
  spaceUsed : res.spaceUsed = dst.spaceUsed + (items.map Slot.size).sum
  dataOffset : res.dataOffset = dst.dataOffset - (items.map Slot.size).sum
  lowerFence : res.lowerFence = dst.lowerFence
  upperFence : res.upperFence = dst.upperFence
  prefixLen : res.prefixLen = dst.prefixLen
  isLeaf : res.isLeaf = dst.isLeaf
  upperInnerNode : res.upperInnerNode = dst.upperInnerNode
  hint : res.hint = dst.hint

/-- What the searches rely on: the prefix is the common prefix of the fences, every slot
caches the head of its key, the keys are bytes in ascending order, and once the hints are
consulted (`count > 2 * hintCount`) they are the heads of the slots they sample. -/
structure SlotsOK (n : BTreeNode) : Prop where
  prefix_eq : n.prefixLen = commonPrefixLen n.lowerFence n.upperFence
  head_eq : ∀ s ∈ n.slot, s.head = head s.key
  bytes : ∀ s ∈ n.slot, isBytes s.key
  sorted : (n.slot.map Slot.key).Pairwise (· ≤ ·)
  hint_eq : 2 * hintCount < n.count → ∀ i, i < hintCount →
    n.hint i = (n.slotAt (n.count / (hintCount + 1) * (i + 1))).head

/-- The space counters of a page: `spaceUsed` counts the bytes in use, the heap
`[dataOffset, pageSize)` holds at least that many, and it starts behind the slot
directory. -/
structure SpaceOK (n : BTreeNode) : Prop where
  used : n.spaceUsed = n.usedBytes
  heap : n.spaceUsed + n.dataOffset ≤ pageSize
  fit : n.slotEnd ≤ n.dataOffset

end BTreeNode
/-! ## Definitions: example trees -/

namespace BTree

/-- The tree an operation returned, the empty tree if it did not return one. -/
def treeOr (o : Option BTree) : BTree := o.getD (BTree.new 1)

/-- Inserts the pairs one after the other. -/
def insertAll (fuel rounds : Nat) (kvs : List (List Nat × List Nat)) (t : BTree) : Option BTree :=
  kvs.foldl (fun acc kv => acc.bind (insert fuel kv.1 kv.2 rounds)) (some t)

def key42 : List Nat := [0x00, 0x00, 0x00, 0x2A]

/-- The empty tree after `insert([0,0,0,0x2A], [0xAB,0xCD])`. -/
def tree42 : BTree := treeOr (insert 4 key42 [0xAB, 0xCD] 4 (BTree.new 1))

/-- The tree `tree42` after a second `insert([0,0,0,0x2A], [0xEE])`. -/
def tree42twice : BTree := treeOr (insert 4 key42 [0xEE] 4 tree42)

def keyA : List Nat := List.replicate 10 0x10
def keyB : List Nat := List.replicate 10 0x20
def keyC : List Nat := 0x50 :: 0x00 :: List.replicate 993 0x50
def keyD : List Nat := [0xFE]
def keyE : List Nat := [0xFF]
def keyF : List Nat := [0xFD]

/-- Six pairs with distinct keys, each within `maxKVSize`: two 10-byte keys with 985-byte
payloads, a 995-byte key, two 1-byte keys, and a 1-byte key with a 994-byte payload. -/
def overflowInput : List (List Nat × List Nat) :=
  [(keyA, List.replicate 985 0), (keyB, List.replicate 985 0), (keyC, []), (keyD, []),
   (keyE, []), (keyF, List.replicate 994 0)]

/-- The empty tree after inserting `overflowInput`. -/
def overflowTree : BTree := treeOr (insertAll 8 8 overflowInput (BTree.new 1))

end BTree
/-! ## Definitions: `BTree::insert` with its assertion, and the split scenario -/

namespace BTree

/-- `void insert(key, payload)` in a build with assertions, as far as the assertion of
`insert` itself goes: `assert((key.size() + payload.size()) <= BTreeNode::maxKVSize)` is
checked before the loop (`insert` leaves it out, as a build with `NDEBUG` does). The
assertions inside the node operations are not modelled. -/
def insertAsserted (fuel : Nat) (key payload : List Nat) (rounds : Nat) (t : BTree) :
    Except Fatal (Option BTree) :=
  if key.length + payload.length ≤ BTreeNode.maxKVSize then .ok (insert fuel key payload rounds t)
  else .error .assert_kv_size

/-- A payload of 3800 bytes `0xAA`. -/
def payloadA : List Nat := List.replicate 3800 0xAA

/-- A payload of 3800 bytes `0xBB`. -/
def payloadB : List Nat := List.replicate 3800 0xBB

end BTree
/-! ## Definitions: the adaptive submit of `UringReactor` (`kuring.hpp`) -/

/-- `struct UringReactor : BaseReactor`: the counters `outstanding_io`, `total_io_fibers`,
`to_submit`, `fibers_since_first_io` (all `int`) and `num_submits` (`uint64_t`). The ring
itself is not modelled: `io_uring_get_sqe` always has an entry to give, and
`io_uring_submit` is visible as the increment of `num_submits`. -/
structure UringReactor extends BaseReactor where
  outstanding_io : Int
  total_io_fibers : Int
  to_submit : Int
  fibers_since_first_io : Int
  num_submits : Nat

namespace UringReactor

/-- The bounds check of `table.at(i)` on `ExpTable<MAX_FIBERS>::values`, an array of
`MAX_FIBERS + 1 = 257` entries indexed by `size_t`: the index, or `std::out_of_range`. -/
def tableAt (i : Int) : Except Fatal Nat :=
  if 0 ≤ i ∧ i ≤ 256 then .ok i.toNat else .error .out_of_range

/-- The three statements `++num_submits; to_submit = 0; fibers_since_first_io = 0` after
`io_uring_submit`. -/
def submitted (r : UringReactor) : UringReactor :=
  { r with num_submits := (r.num_submits + 1) % 2 ^ 64, to_submit := 0,
           fibers_since_first_io := 0 }

/-- `void check_submit()`. `submit_always` is the static branch of that name; `prob d q` is
the `int` value of `1'000'000 * (table.at(d) / table.at(q))`, a computation in `double`
on `table[i] = std::exp(i)` that is taken as a parameter (it is not negative); `rnd` is
what `RandomGenerator::getRand(0, 1'000'000)` returns if it is called. -/
def check_submit (submit_always : Bool) (prob : Nat → Nat → Nat) (rnd : Nat)
    (r : UringReactor) : Except Fatal UringReactor :=
  if r.to_submit = 0 then .ok r
  else if submit_always then
    .ok { r with to_submit := 0, num_submits := (r.num_submits + 1) % 2 ^ 64 }
  else
    let r1 : UringReactor :=
      if r.to_submit > 0 then { r with fibers_since_first_io := r.fibers_since_first_io + 1 }
      else r
    if r1.fibers_since_first_io = r1.total_io_fibers then .ok r1.submitted
    else
      match tableAt (r1.fibers_since_first_io - r1.to_submit),
          tableAt (r1.total_io_fibers.tdiv 4) with
      | .ok d, .ok q => if rnd ≤ prob d q then .ok r1.submitted else .ok r1
      | _, _ => .error .out_of_range

/-- `int io(Op& op, Prep&& prep)` by the fiber `self`, up to its park: the operation is
queued (`op.cqe_left` is 1), `check_submit` runs and the fiber parks. -/
def io (submit_always : Bool) (prob : Nat → Nat → Nat) (rnd : Nat) (self : Nat)
    (r : UringReactor) : Except Fatal UringReactor :=
  match check_submit submit_always prob rnd
      { r with outstanding_io := r.outstanding_io + 1, to_submit := r.to_submit + 1 } with
  | .error e => .error e
  | .ok r1 => .ok { r1 with state := Function.update r1.state self FiberState.Parked }

/-- The calls `io(...)` of a list of fibers, one after the other with no completion in
between; each entry is the fiber and the draw its `check_submit` gets if it asks for one. -/
def ioEach (submit_always : Bool) (prob : Nat → Nat → Nat) :
    List (Nat × Nat) → UringReactor → Except Fatal UringReactor
  | [], r => .ok r
  | (self, rnd) :: rest, r =>
    match io submit_always prob rnd self r with
    | .error e => .error e
    | .ok r1 => ioEach submit_always prob rest r1

/-- What a run shows of the counters: `num_submits`, `to_submit`, `fibers_since_first_io`. -/
def counters (x : Except Fatal UringReactor) : Option (Nat × Int × Int) :=
  match x with
  | .ok r => some (r.num_submits, r.to_submit, r.fibers_since_first_io)
  | .error _ => none

/-- A reactor with `total_io_fibers = 8`, nothing queued and all fibers running. -/
def idle8 : UringReactor :=
  { state := fun _ => FiberState.Running, ready_ := [], fiber_current_ := none,
    outstanding_io := 0, total_io_fibers := 8, to_submit := 0, fibers_since_first_io := 0,
    num_submits := 0 }

/-- The value of `submit_prob` when `fibers_since_first_io - to_submit` is 0 and
`total_io_fibers / 4` is 2: `10^6 / e^2 = 135335.28...`, truncated. -/
def submitProb8 : Nat → Nat → Nat := fun _ _ => 135335

end UringReactor
/-! ## Definitions: the page-table capacity `init` computes (`next_pow2` in `bm.cpp`) -/

namespace BufferManager

/-- The number of bits of `x` up to its highest set bit, among the lowest `w` bits. -/
def bitLength : Nat → Nat → Nat
  | 0, _ => 0
  | w + 1, x => if x = 0 then 0 else bitLength w (x / 2) + 1

/-- `__builtin_clzl(x)` on a 64-bit `unsigned long`: the number of leading zero bits. The
result is undefined for `x = 0` (`none`). -/
def clzl (x : Nat) : Option Nat :=
  if x = 0 then none else some (64 - bitLength 64 x)

/-- `1 << k`, the shift of the `int` literal `1` (32 bits): `2 ^ k` while that is an `int`;
for `k = 31` the value wraps to `INT_MIN`; for `k ≥ 32` the shift count is not below the
width of `int` and the behaviour is undefined (`none`). -/
def shlInt1 (k : Nat) : Option Int :=
  if k < 31 then some (2 ^ k)
  else if k = 31 then some (-(2 ^ 31))
  else none

/-- The conversion of an `int` to `u64`, the return type of the lambda `next_pow2`. -/
def toU64 (i : Int) : Nat := (i % 2 ^ 64).toNat

/-- The lambda `next_pow2` of `init`: `return 1 << (64 - __builtin_clzl(x - 1));` for a
`u64` argument. `none` where the source has undefined behaviour. -/
def next_pow2 (x : Nat) : Option Nat :=
  (clzl ((x + 2 ^ 64 - 1) % 2 ^ 64)).bind fun c => (shlInt1 (64 - c)).map toU64

/-- `init()` for `page_count` frames when `page_count * cfg.page_table_factor` (a `float`
product, converted to `u64`) is `x`: the capacity of the page table is `next_pow2(x)`. -/
def initWith (cfg : Config) (page_count x : Nat) : Option (Except Fatal BufferManager) :=
  (next_pow2 x).map (init cfg page_count)

end BufferManager
/-! ## Definitions: what the sweep of `evict` does to a descriptor -/

namespace BufTagged

/-- A descriptor the sweep selects when it visits it: not in_use, not io_lock, not evicting
and not marked. -/
def candidate (d : BufTagged) : Bool := !d.in_use && !d.io_lock && !d.evicting && !d.marked

/-- The descriptor the sweep callback leaves behind in a slot it visits: unchanged when
in_use, io_lock or evicting; without the mark when marked; otherwise evicting and clean. -/
def swept (d : BufTagged) : BufTagged :=
  if d.in_use || d.io_lock || d.evicting then d
  else if d.marked then d.set_marked false
  else if d.dirty then (d.set_evicting true).set_dirty false
  else d.set_evicting true

end BufTagged

namespace BufferManager

/-- The sweep callback of `evict` with its two checks (`ensure(frame.pid == pid)` and
`ensure(pid != 0)`) left out: what `evictCallback` returns when it returns. -/
def evictStep (evict_batch : Nat) (s : SweepState) (pid : Nat) (buf : BufTagged) :
    SweepState × BufTagged × Bool :=
  let bid := buf.id
  let s1 := { s with visited := (s.visited + 1) % 2 ^ 64 }
  if buf.in_use then (s1, buf, false)
  else if buf.io_lock then (s1, buf, false)
  else if buf.evicting then (s1, buf, false)
  else if buf.marked then (s1, buf.set_marked false, false)
  else
    let buf1 := buf.set_evicting true
    if buf1.dirty then
      ({ s1 with toWrite := s1.toWrite ++ [bid] }, buf1.set_dirty false,
        decide (s1.toEvict.length + (s1.toWrite ++ [bid]).length = evict_batch))
    else
      ({ s1 with toEvict := s1.toEvict ++ [bid] }, buf1,
        decide ((s1.toEvict ++ [bid]).length + s1.toWrite.length = evict_batch))

/-- The slots among `l` whose descriptor (in `e`) the sweep selects for write-back. -/
def dirtyVictims (e : Nat → Entry BufTagged) (l : List Nat) : List Nat :=
  (l.filter fun i => (e i).val.candidate && (e i).val.dirty).map fun i => (e i).val.id

/-- The slots among `l` whose descriptor (in `e`) the sweep selects and finds clean. -/
def cleanVictims (e : Nat → Entry BufTagged) (l : List Nat) : List Nat :=
  (l.filter fun i => (e i).val.candidate && !(e i).val.dirty).map fun i => (e i).val.id

end BufferManager
/-! ## Definitions: the batch of an eviction round between sweep and commit -/

namespace BufferManager

open RHBSU64Map

/-- The descriptors the frames of a batch point back to are evicting and not io-locked. -/
def Flagged (pt : PageTable) (fr : Nat → Nat) (l : List Nat) : Prop :=
  ∀ b, b ∈ l → ∀ d, Has pt (fr b) d → d.evicting = true ∧ d.io_lock = false

/-- While an eviction round is under way, its batches are `Flagged`. -/
def Armed (pending : Bool) (bm : BufferManager) : Prop :=
  pending = true → Flagged bm.page_table bm.framePid (bm.toEvict ++ bm.toWrite)

/-- What a step of `allocPage`, `fix`, `unfix`, `handleFault` or `handleWait` does to the
page table, the back-pointers and the free list: nothing (`same`), a change of the flags of
one descriptor that keeps its BID and its evicting flag and does not set io_lock (`flags`),
or the move of the last free frame to a PID that was not resident (`pop`). The batches are
never touched. -/
inductive StepShape (bm bm' : BufferManager) : Prop
  | same :
      bm'.page_table = bm.page_table → bm'.framePid = bm.framePid →
      bm'.freeList = bm.freeList → bm'.toEvict = bm.toEvict → bm'.toWrite = bm.toWrite →
      StepShape bm bm'
  | flags (i : Nat) (v : BufTagged) :
      i < bm.page_table.n → bm.page_table.ctrl i ≠ 0 →
      v.id = (bm.page_table.entries i).val.id →
      v.evicting = (bm.page_table.entries i).val.evicting →
      ((bm.page_table.entries i).val.io_lock = false → v.io_lock = false) →
      bm'.page_table = bm.page_table.setVal i v → bm'.framePid = bm.framePid →
      bm'.freeList = bm.freeList → bm'.toEvict = bm.toEvict → bm'.toWrite = bm.toWrite →
      StepShape bm bm'
  | pop (bid pid : Nat) (v : BufTagged) (pt : PageTable) :
      bm.freeList.getLast? = some bid → bm.page_table.insert pid v = .ok (pt, true) →
      bm'.page_table = pt → bm'.framePid = Function.update bm.framePid bid pid →
      bm'.freeList = bm.freeList.dropLast → bm'.toEvict = bm.toEvict →
      bm'.toWrite = bm.toWrite → StepShape bm bm'

/-- Whether `evictNow(bid)` evicts the page of frame `bid`: the descriptor of the frame's
PID is neither in_use nor dirty. -/
def evictable (bm : BufferManager) (bid : Nat) : Bool :=
  match bm.page_table.lookup (bm.buffer_frames bid).pid with
  | some d => !d.in_use && !d.dirty
  | none => false

/-- `bmInit2Alloc` (2 frames, PID 1 allocated into frame 1, free list empty) after
`unfixX(1)`. -/
def mdUnfixed : BufferManager := okOr emptyManager (bmInit2Alloc.unfixX 1)

/-- Then a second `allocPage()`: it finds the free list empty, wakes the eviction fiber and
returns null. -/
def mdStarved : BufferManager := okOr emptyManager (mdUnfixed.allocPage.map Prod.fst)

/-- Then the sweep of the eviction fiber's first round: it clears the marks of PID 0 and
PID 1 and selects nothing. -/
def mdSwept : BufferManager := okOr emptyManager mdStarved.evict_begin

/-- Then the first round completes; no write was issued, so the eviction fiber did not
park and, the free list being empty still, starts the next round at once. -/
def mdRound : BufferManager := okOr emptyManager (mdSwept.evict_end 0 false)

/-- A fiber's `fixX(1)` and `unfixX(1)` in the state `scSwept`, while the write of frame 1
is in flight: PID 1 is dirty again. -/
def scRedirtied : BufferManager :=
  okOr emptyManager ((okOr emptyManager ((scSwept.fixX 1).map Prod.fst)).unfixX 1)

/-- Then the round completes with PID 1 dirty again. -/
def scKeptDirty : BufferManager := okOr emptyManager (scRedirtied.evict_end 4096 false)

end BufferManager
/-! ## Definitions: a plain binary search, and a page wide enough to consult its hints -/

namespace BTreeNode

/-- The loop of a plain byte-wise binary search for `skey` among the full keys (prefix, then
the bytes stored) of the slots `lower, ..., upper - 1`: no hint, no head, the keys are
compared as byte strings. -/
def plainSearchLoop (n : BTreeNode) (skey : List Nat) : Nat → Nat → Nat → Nat × Bool
  | 0, lower, _ => (lower, false)
  | fuel + 1, lower, upper =>
    if lower < upper then
      let mid := (upper - lower) / 2 + lower
      if skey < n.getPrefix ++ n.getKey mid then plainSearchLoop n skey fuel lower mid
      else if n.getPrefix ++ n.getKey mid < skey then plainSearchLoop n skey fuel (mid + 1) upper
      else (mid, true)
    else (lower, false)

/-- A plain byte-wise binary search over all slots of the page: the slot and whether it
holds `skey`. -/
def plainSearch (n : BTreeNode) (skey : List Nat) : Nat × Bool :=
  n.plainSearchLoop skey (n.count + 1) 0 n.count

/-- A leaf after `insertInPage` of the 40 one-byte keys `1, 4, 7, ..., 118` (no payload)
into a fresh page: with more than `2 * hintCount` slots its searches consult the hints. -/
def wideLeaf : BTreeNode :=
  (List.range 40).foldl (fun n j => n.insertInPage [3 * j + 1] []) (BTreeNode.new true)

end BTreeNode

namespace BTreeNode

/-- A leaf after `insertInPage([1], [9, 9])`, `insertInPage([2], [8])` and `removeSlot(0)`:
the three heap bytes of the removed entry lie unused below the entry that is left. -/
def holedLeaf : BTreeNode :=
  (((BTreeNode.new true).insertInPage [1] [9, 9]).insertInPage [2] [8]).removeSlot 0

end BTreeNode

namespace BTree

/-- The root leaf (page 1) after the first five inserts of `overflowInput`: the keys A, B,
C, D, E in ascending order, no fences. -/
def overflowLeaf : BTreeNode :=
  (treeOr (insertAll 8 8 (overflowInput.take 5) (BTree.new 1))).nodes 1

/-- The new, empty root `trySplit` puts above `overflowLeaf` before it splits it. -/
def overflowParent : BTreeNode := { BTreeNode.new false with upperInnerNode := 1 }

/-- `splitNode` on `overflowLeaf` with the separator `findSeparator` and `getSep` choose,
the parent `overflowParent` and the new page 3 for the right node. -/
def overflowSplit : BTreeNode.SplitResult :=
  overflowLeaf.splitNode 1 overflowParent (overflowLeaf.findSeparator false).slot
    (overflowLeaf.getSep (overflowLeaf.findSeparator false)) 3

end BTree
/-! ## Definitions: the space estimate of `mergeNodes` and the slots it writes -/

/-- The slot `s` of a page with prefix `pre`, as `copyKeyValueRange` writes it into a page
whose prefix has `k` bytes: the full key without its first `k` bytes. -/
def regrow (pre : List Nat) (k : Nat) (s : Slot) : Slot :=
  ⟨s.offset, head ((pre ++ s.key).drop k), (pre ++ s.key).drop k, s.payload⟩

namespace BTreeNode

/-- `spaceUpperBound` in `mergeNodes`, the estimate of the merged page's size, in the
`unsigned` arithmetic of the source. -/
def spaceUpperBound (n right : BTreeNode) : Nat :=
  let tmp := (BTreeNode.new n.isLeaf).setFences n.getLowerFence right.getUpperFence
  let leftGrow := u32 (((n.prefixLen : Int) - tmp.prefixLen) * n.count)
  let rightGrow := u32 (((right.prefixLen : Int) - tmp.prefixLen) * right.count)
  u32 ((n.spaceUsed : Int) + right.spaceUsed
    + (sizeofHeader + sizeofSlot * (n.count + right.count)) + leftGrow + rightGrow)

/-- A leaf with the fences `[1, 1, 1]` and `[1, 1, 5]` (prefix `[1, 1]`) and two entries. -/
def mergeLeft : BTreeNode :=
  (((BTreeNode.new true).setFences [1, 1, 1] [1, 1, 5]).insertInPage [1, 1, 2] [20]).insertInPage
    [1, 1, 4] [40, 41]

/-- The leaf to the right of `mergeLeft`: fences `[1, 1, 5]` and `[1, 2]` (prefix `[1]`), two
entries, next leaf on page 9. -/
def mergeRight : BTreeNode :=
  { (((BTreeNode.new true).setFences [1, 1, 5] [1, 2]).insertInPage [1, 1, 7] [70]).insertInPage
      [1, 2] [90] with upperInnerNode := 9 }

/-- The parent of both: `mergeLeft` is page 7 at slot 0, `mergeRight` page 8 at slot 1, and
the upper child is page 9. -/
def mergeParent : BTreeNode :=
  { ((BTreeNode.new false).insertInPage [1, 1, 5] (Tpcc.bytesLE sizeofPID 7)).insertInPage
      [1, 2] (Tpcc.bytesLE sizeofPID 8) with upperInnerNode := 9 }

end BTreeNode
/-! ## Definitions: `insert` with displacement bytes of unbounded width -/

namespace RHBSU64Map

variable {Value : Type}

/-- The loop of `insert` as it would run if a displacement of any size could be recorded:
the steps of the source with `dist` a natural number, so without the wrap-around of
`uint8_t` and without the check `++dist == 255`. Every iteration probes one slot; the
result is `none` when `fuel` slots were probed and the entry in hand is still not placed. -/
def wideLoop : Nat → RHBSU64Map Value → Nat → Value → Nat → Nat →
    Option (RHBSU64Map Value × Bool)
  | 0, _, _, _, _, _ => none
  | fuel + 1, t, k, v, i, dist =>
    let c := t.ctrl i
    if c = 0 then
      some ({ t with entries := Function.update t.entries i ⟨k, v⟩,
                     ctrl := Function.update t.ctrl i dist,
                     sz := (t.sz + 1) % 2 ^ 64 }, true)
    else if (t.entries i).key = k then
      some ({ t with entries := Function.update t.entries i ⟨(t.entries i).key, v⟩ }, false)
    else
      let t1 : RHBSU64Map Value :=
        if c < dist then
          { t with entries := Function.update t.entries i ⟨k, v⟩,
                   ctrl := Function.update t.ctrl i dist }
        else t
      let k1 := if c < dist then (t.entries i).key else k
      let v1 := if c < dist then (t.entries i).val else v
      let dist1 := if c < dist then c else dist
      wideLoop fuel t1 k1 v1 ((i + 1) &&& t.mask) (dist1 + 1)

/-- The placement `insert(k, v)` would make with displacement bytes of unbounded width: the
control bytes of the result are the displacements the insertion needs. The probe starts at
the home slot of `k` and is followed once around the table; the result is `none` when that
does not place the entry in hand, which is the case exactly when no slot is free and `k` is
not stored, and then no number of further probes places it. -/
def insertWide (t : RHBSU64Map Value) (k : Nat) (v : Value) :
    Option (RHBSU64Map Value × Bool) :=
  wideLoop t.n t k v (t.index (hash k)) 1

end RHBSU64Map
/-! ## Theorems: key folding -/

namespace Tpcc

theorem xor_two_pow_mod (a k n : Nat) (h : k < n) :
    (a ^^^ 2 ^ k) % 2 ^ n = (a % 2 ^ n) ^^^ 2 ^ k := by
  apply Nat.eq_of_testBit_eq
  intro i
  simp only [Nat.testBit_mod_two_pow, Nat.testBit_xor, Nat.testBit_two_pow]
  by_cases hi : i < n
  · simp [hi]
  · have : k ≠ i := by omega
    simp [hi, this]

theorem xor_two_pow_lt (a k : Nat) (h : a < 2 ^ k) : a ^^^ 2 ^ k = a + 2 ^ k := by
  apply Nat.eq_of_testBit_eq
  intro i
  rw [Nat.testBit_xor, Nat.testBit_two_pow, Nat.add_comm]
  rcases Nat.lt_trichotomy i k with hi | hi | hi
  · rw [Nat.testBit_two_pow_add_gt hi]
    have : k ≠ i := by omega
    simp [this]
  · subst hi
    rw [Nat.testBit_two_pow_add_eq, Nat.testBit_lt_two_pow h]
    simp
  · have h1 : a < 2 ^ i := lt_of_lt_of_le h (Nat.pow_le_pow_right (by decide) (by omega))
    have h2 : 2 ^ k + a < 2 ^ i := by
      have : 2 ^ (k + 1) ≤ 2 ^ i := Nat.pow_le_pow_right (by decide) (by omega)
      rw [pow_succ] at this
      omega
    rw [Nat.testBit_lt_two_pow h1, Nat.testBit_lt_two_pow h2]
    have : k ≠ i := by omega
    simp [this]

theorem xor_two_pow_ge (a k : Nat) (h1 : 2 ^ k ≤ a) (h2 : a < 2 ^ (k + 1)) :
    a ^^^ 2 ^ k = a - 2 ^ k := by
  have hb : a - 2 ^ k < 2 ^ k := by rw [pow_succ] at h2; omega
  have := xor_two_pow_lt (a - 2 ^ k) k hb
  have e : a - 2 ^ k + 2 ^ k = a := by omega
  rw [e] at this
  calc a ^^^ 2 ^ k = ((a - 2 ^ k) ^^^ 2 ^ k) ^^^ 2 ^ k := by rw [this]
    _ = a - 2 ^ k := by rw [Nat.xor_assoc, Nat.xor_self, Nat.xor_zero]


theorem bytesLE_length (n w : Nat) : (bytesLE n w).length = n := by
  induction n generalizing w with
  | zero => rfl
  | succ n ih => simp [bytesLE, ih]

theorem bytesLE_lt (n w : Nat) : ∀ b ∈ bytesLE n w, b < 256 := by
  induction n generalizing w with
  | zero => simp [bytesLE]
  | succ n ih =>
    intro b hb
    simp only [bytesLE, List.mem_cons] at hb
    rcases hb with rfl | hb
    · exact Nat.mod_lt _ (by decide)
    · exact ih _ b hb

theorem ofBytesLE_bytesLE (n w : Nat) : ofBytesLE (bytesLE n w) = w % 256 ^ n := by
  induction n generalizing w with
  | zero => simp [bytesLE, ofBytesLE, Nat.mod_one]
  | succ n ih =>
    simp only [bytesLE, ofBytesLE, ih]
    rw [pow_succ, Nat.mul_comm (256 ^ n) 256, Nat.mod_mul]

theorem bytesLE_ofBytesLE (l : List Nat) (h : ∀ b ∈ l, b < 256) :
    bytesLE l.length (ofBytesLE l) = l := by
  induction l with
  | nil => rfl
  | cons b bs ih =>
    have hb : b < 256 := h b (List.mem_cons_self _ _)
    have hbs : ∀ c ∈ bs, c < 256 := fun c hc => h c (List.mem_cons_of_mem _ hc)
    simp only [List.length_cons, bytesLE, ofBytesLE]
    have e1 : (b + 256 * ofBytesLE bs) % 256 = b := by omega
    have e2 : (b + 256 * ofBytesLE bs) / 256 = ofBytesLE bs := by omega
    rw [e1, e2, ih hbs]

theorem ofBytesLE_append (l m : List Nat) :
    ofBytesLE (l ++ m) = ofBytesLE l + 256 ^ l.length * ofBytesLE m := by
  induction l with
  | nil => simp [ofBytesLE]
  | cons b bs ih =>
    rw [List.cons_append]
    simp only [ofBytesLE, List.length_cons, pow_succ]
    rw [ih]
    ring

theorem ofBytesLE_lt (l : List Nat) (h : ∀ b ∈ l, b < 256) : ofBytesLE l < 256 ^ l.length := by
  induction l with
  | nil => simp [ofBytesLE]
  | cons b bs ih =>
    have hb : b < 256 := h b (List.mem_cons_self _ _)
    have hbs : ∀ c ∈ bs, c < 256 := fun c hc => h c (List.mem_cons_of_mem _ hc)
    have := ih hbs
    simp only [ofBytesLE, List.length_cons, pow_succ]
    omega

/-- Lexicographic comparison of equally long byte strings is numeric comparison of the
big-endian words they spell. -/
theorem memcmp_neg_iff (a b : List Nat) (hab : a.length = b.length)
    (ha : ∀ x ∈ a, x < 256) (hb : ∀ x ∈ b, x < 256) :
    memcmp a b a.length < 0 ↔ ofBytesLE a.reverse < ofBytesLE b.reverse := by
  induction a generalizing b with
  | nil =>
    cases b with
    | nil => simp [memcmp, ofBytesLE]
    | cons y b => simp at hab
  | cons x a ih =>
    cases b with
    | nil => simp at hab
    | cons y b =>
      have hlen : a.length = b.length := by simpa using hab
      have hx : x < 256 := ha x (List.mem_cons_self _ _)
      have hy : y < 256 := hb y (List.mem_cons_self _ _)
      have ha2 : ∀ c ∈ a, c < 256 := fun c hc => ha c (List.mem_cons_of_mem _ hc)
      have hb2 : ∀ c ∈ b, c < 256 := fun c hc => hb c (List.mem_cons_of_mem _ hc)
      have la := ofBytesLE_lt a.reverse (by simpa using ha2)
      have lb := ofBytesLE_lt b.reverse (by simpa using hb2)
      simp only [List.length_reverse] at la lb
      rw [← hlen] at lb
      simp only [List.reverse_cons, ofBytesLE_append, List.length_reverse, ofBytesLE,
        List.length_cons, memcmp, Nat.mul_zero, Nat.add_zero]
      rw [← hlen]
      generalize 256 ^ a.length = P at la lb
      have ih2 := ih b hlen ha2 hb2
      by_cases h1 : x < y
      · simp only [h1, if_true]
        have : P * (x + 1) ≤ P * y := Nat.mul_le_mul_left _ h1
        constructor
        · intro _; nlinarith
        · intro _; decide
      · by_cases h2 : y < x
        · simp only [h1, h2, if_true, if_false]
          have : P * (y + 1) ≤ P * x := Nat.mul_le_mul_left _ h2
          constructor
          · intro h; exact absurd h (by decide)
          · intro h; exfalso; nlinarith
        · have e : x = y := by omega
          subst e
          simp only [h1, if_false]
          rw [ih2]
          omega

theorem store_bswap (n w : Nat) :
    bytesLE n (ofBytesLE (bytesLE n w).reverse) = (bytesLE n w).reverse := by
  have h := bytesLE_ofBytesLE (bytesLE n w).reverse
    (fun b hb => bytesLE_lt n w b (List.mem_reverse.mp hb))
  simpa [bytesLE_length] using h

theorem load_store_bswap (n w : Nat) :
    ofBytesLE (bytesLE n (ofBytesLE
      ((bytesLE n (ofBytesLE (bytesLE n w).reverse)).take n))).reverse = w % 256 ^ n := by
  have hl : ((bytesLE n w).reverse).take n = (bytesLE n w).reverse := by
    apply List.take_of_length_le
    simp [bytesLE_length]
  rw [store_bswap, hl, store_bswap, List.reverse_reverse, ofBytesLE_bytesLE]

theorem flip32 (x : Int) (hx : isInteger x) :
    (toUnsigned 64 x ^^^ (1 <<< 31)) % 2 ^ 32 = (x + 2 ^ 31).toNat := by
  obtain ⟨h1, h2⟩ := hx
  have e1 : (1 <<< 31 : Nat) = 2 ^ 31 := by decide
  rw [e1, xor_two_pow_mod _ 31 32 (by decide)]
  unfold toUnsigned
  by_cases hneg : x < 0
  · have hu : (x % 2 ^ 64).toNat % 2 ^ 32 = (x + 2 ^ 32).toNat := by omega
    rw [hu, xor_two_pow_ge _ 31 (by omega) (by omega)]
    omega
  · have hu : (x % 2 ^ 64).toNat % 2 ^ 32 = x.toNat := by omega
    rw [hu, xor_two_pow_lt _ 31 (by omega)]
    omega

theorem flip64 (x : Int) (hx : isTimestamp x) :
    toUnsigned 64 x ^^^ (1 <<< 63) = (x + 2 ^ 63).toNat := by
  obtain ⟨h1, h2⟩ := hx
  have e1 : (1 <<< 63 : Nat) = 2 ^ 63 := by decide
  rw [e1]
  unfold toUnsigned
  by_cases hneg : x < 0
  · have hu : (x % 2 ^ 64).toNat = (x + 2 ^ 64).toNat := by omega
    rw [hu, xor_two_pow_ge _ 63 (by omega) (by omega)]
    omega
  · have hu : (x % 2 ^ 64).toNat = x.toNat := by omega
    rw [hu, xor_two_pow_lt _ 63 (by omega)]
    omega

theorem unflip (k : Nat) (x : Int) (h1 : -2 ^ k ≤ x) (h2 : x < 2 ^ k) :
    toSigned (k + 1) ((x + 2 ^ k).toNat ^^^ 2 ^ k) = x := by
  have hp : (2 : Int) ^ (k + 1) = 2 * 2 ^ k := by rw [pow_succ]; ring
  have hpn : (2 : Nat) ^ (k + 1) = 2 * 2 ^ k := by rw [pow_succ]; ring
  have hc : ((2 ^ k : Nat) : Int) = 2 ^ k := by push_cast; rfl
  have hpos : 0 < 2 ^ k := Nat.two_pow_pos k
  unfold toSigned
  simp only [Nat.add_sub_cancel]
  by_cases hneg : x < 0
  · have hw : (x + 2 ^ k).toNat < 2 ^ k := by omega
    rw [xor_two_pow_lt _ k hw]
    have hm : ((x + 2 ^ k).toNat + 2 ^ k) % 2 ^ (k + 1) = (x + 2 ^ k).toNat + 2 ^ k :=
      Nat.mod_eq_of_lt (by omega)
    rw [hm, if_neg (by omega)]
    push_cast
    omega
  · have hw : 2 ^ k ≤ (x + 2 ^ k).toNat := by omega
    rw [xor_two_pow_ge _ k hw (by omega)]
    have hm : ((x + 2 ^ k).toNat - 2 ^ k) % 2 ^ (k + 1) = (x + 2 ^ k).toNat - 2 ^ k :=
      Nat.mod_eq_of_lt (by omega)
    rw [hm, if_pos (by omega)]
    omega

/-- C7. Round trip of key folding: for every value of the signed 32-bit `Integer`, of the
64-bit `Timestamp` and of the unsigned 64-bit key type, `unfold` applied to the bytes
written by `fold` returns the value, and both return the length `sizeof(x)` (4, 8, 8). -/
theorem unfold_fold :
    (∀ x : Int, isInteger x →
      unfold_Integer (fold_Integer x).1 = (x, 4) ∧ (fold_Integer x).2 = 4) ∧
    (∀ x : Int, isTimestamp x →
      unfold_Timestamp (fold_Timestamp x).1 = (x, 8) ∧ (fold_Timestamp x).2 = 8) ∧
    (∀ x : Nat, isU64 x →
      unfold_u64 (fold_u64 x).1 = (x, 8) ∧ (fold_u64 x).2 = 8) := by
  refine ⟨?_, ?_, ?_⟩
  · intro x hx
    refine ⟨?_, rfl⟩
    have hw : (x + 2 ^ 31).toNat < 2 ^ 32 := by obtain ⟨h1, h2⟩ := hx; omega
    simp only [unfold_Integer, fold_Integer, flip32 x hx, store32, bswap32, load32]
    rw [load_store_bswap, Nat.mod_eq_of_lt (by simpa using hw)]
    have e1 : (1 <<< 31 : Nat) = 2 ^ 31 := by decide
    rw [e1, unflip 31 x hx.1 hx.2]
  · intro x hx
    refine ⟨?_, rfl⟩
    have hw : (x + 2 ^ 63).toNat < 2 ^ 64 := by obtain ⟨h1, h2⟩ := hx; omega
    simp only [unfold_Timestamp, fold_Timestamp, flip64 x hx, store64, bswap64, load64]
    rw [load_store_bswap, Nat.mod_eq_of_lt (by simpa using hw)]
    have e1 : (1 <<< 63 : Nat) = 2 ^ 63 := by decide
    rw [e1, unflip 63 x hx.1 hx.2]
  · intro x hx
    refine ⟨?_, rfl⟩
    simp only [unfold_u64, fold_u64, store64, bswap64, load64]
    rw [load_store_bswap, Nat.mod_eq_of_lt (by simpa [isU64] using hx)]

/-- Instance of `unfold_fold` at `Integer` -5, `Timestamp` -7 and key 1000. -/
theorem unfold_fold_witness :
    (unfold_Integer (fold_Integer (-5)).1 = (-5, 4) ∧ (fold_Integer (-5)).2 = 4) ∧
    (unfold_Timestamp (fold_Timestamp (-7)).1 = (-7, 8) ∧ (fold_Timestamp (-7)).2 = 8) ∧
    (unfold_u64 (fold_u64 1000).1 = (1000, 8) ∧ (fold_u64 1000).2 = 8) :=
  ⟨unfold_fold.1 (-5) (by unfold isInteger; decide),
   unfold_fold.2.1 (-7) (by unfold isTimestamp; decide),
   unfold_fold.2.2 1000 (by unfold isU64; decide)⟩

theorem memcmp_bswap (n wa wb : Nat) (ha : wa < 256 ^ n) (hb : wb < 256 ^ n) :
    memcmp (bytesLE n (ofBytesLE (bytesLE n wa).reverse))
      (bytesLE n (ofBytesLE (bytesLE n wb).reverse)) n < 0 ↔ wa < wb := by
  rw [store_bswap, store_bswap]
  have h := memcmp_neg_iff (bytesLE n wa).reverse (bytesLE n wb).reverse
    (by simp [bytesLE_length])
    (fun b hb => bytesLE_lt n wa b (List.mem_reverse.mp hb))
    (fun b hb => bytesLE_lt n wb b (List.mem_reverse.mp hb))
  simp only [List.length_reverse, bytesLE_length, List.reverse_reverse, ofBytesLE_bytesLE,
    Nat.mod_eq_of_lt ha, Nat.mod_eq_of_lt hb] at h
  exact h

/-- C8. Key folding is order-preserving: for two values of the same key type (signed 32-bit
`Integer`, signed 64-bit `Timestamp`, unsigned 64-bit key), `a < b` holds exactly when the
folded bytes of `a` are `memcmp`-less than the folded bytes of `b`. -/
theorem fold_order_preserving :
    (∀ a b : Int, isInteger a → isInteger b →
      (a < b ↔ memcmp (fold_Integer a).1 (fold_Integer b).1 4 < 0)) ∧
    (∀ a b : Int, isTimestamp a → isTimestamp b →
      (a < b ↔ memcmp (fold_Timestamp a).1 (fold_Timestamp b).1 8 < 0)) ∧
    (∀ a b : Nat, isU64 a → isU64 b →
      (a < b ↔ memcmp (fold_u64 a).1 (fold_u64 b).1 8 < 0)) := by
  refine ⟨?_, ?_, ?_⟩
  · intro a b ha hb
    have hwa : (a + 2 ^ 31).toNat < 256 ^ 4 := by obtain ⟨h1, h2⟩ := ha; omega
    have hwb : (b + 2 ^ 31).toNat < 256 ^ 4 := by obtain ⟨h1, h2⟩ := hb; omega
    simp only [fold_Integer, flip32 a ha, flip32 b hb, store32, bswap32]
    rw [memcmp_bswap 4 _ _ hwa hwb]
    obtain ⟨h1, h2⟩ := ha
    obtain ⟨h3, h4⟩ := hb
    omega
  · intro a b ha hb
    have hwa : (a + 2 ^ 63).toNat < 256 ^ 8 := by obtain ⟨h1, h2⟩ := ha; omega
    have hwb : (b + 2 ^ 63).toNat < 256 ^ 8 := by obtain ⟨h1, h2⟩ := hb; omega
    simp only [fold_Timestamp, flip64 a ha, flip64 b hb, store64, bswap64]
    rw [memcmp_bswap 8 _ _ hwa hwb]
    obtain ⟨h1, h2⟩ := ha
    obtain ⟨h3, h4⟩ := hb
    omega
  · intro a b ha hb
    simp only [fold_u64, store64, bswap64]
    rw [memcmp_bswap 8 _ _ (by simpa [isU64] using ha) (by simpa [isU64] using hb)]

/-- Instance of `fold_order_preserving` at `Integer` -1 < 1, `Timestamp` -2 < 3 and
keys 255 < 256. -/
theorem fold_order_preserving_witness :
    ((-1 : Int) < 1 ↔ memcmp (fold_Integer (-1)).1 (fold_Integer 1).1 4 < 0) ∧
    ((-2 : Int) < 3 ↔ memcmp (fold_Timestamp (-2)).1 (fold_Timestamp 3).1 8 < 0) ∧
    ((255 : Nat) < 256 ↔ memcmp (fold_u64 255).1 (fold_u64 256).1 8 < 0) :=
  ⟨fold_order_preserving.1 (-1) 1 (by unfold isInteger; decide) (by unfold isInteger; decide),
   fold_order_preserving.2.1 (-2) 3 (by unfold isTimestamp; decide)
     (by unfold isTimestamp; decide),
   fold_order_preserving.2.2 255 256 (by unfold isU64; decide) (by unfold isU64; decide)⟩


end Tpcc
/-! ## Theorems: the page table is a finite map -/

namespace RHBSU64Map

variable {Value : Type}

theorem WF.pos {t : RHBSU64Map Value} (h : WF t) : 0 < t.n := by
  obtain ⟨⟨p, _, hp⟩, _⟩ := h
  rw [hp]; exact Nat.two_pow_pos p

theorem WF.lt {t : RHBSU64Map Value} (h : WF t) : t.n < 2 ^ 64 := by
  obtain ⟨⟨p, hp1, hp⟩, _⟩ := h
  rw [hp]; exact Nat.pow_lt_pow_right (by decide) hp1

theorem WF.and_mask {t : RHBSU64Map Value} (h : WF t) (x : Nat) : x &&& t.mask = x % t.n := by
  obtain ⟨⟨p, _, hp⟩, hm⟩ := h
  rw [hm, hp, Nat.and_pow_two_sub_one_eq_mod]

theorem countOcc_le (ctrl : Nat → Nat) (m : Nat) : countOcc ctrl m ≤ m := by
  induction m with
  | zero => simp [countOcc]
  | succ m ih => simp only [countOcc]; split <;> omega

theorem countOcc_congr (c1 c2 : Nat → Nat) (m : Nat)
    (h : ∀ i, i < m → (c1 i = 0 ↔ c2 i = 0)) : countOcc c1 m = countOcc c2 m := by
  induction m with
  | zero => rfl
  | succ m ih =>
    simp only [countOcc]
    rw [ih (fun i hi => h i (by omega))]
    have := h m (by omega)
    by_cases h1 : c1 m = 0
    · simp [h1, this.mp h1]
    · have h2 : c2 m ≠ 0 := fun e => h1 (this.mpr e)
      simp [h1, h2]

theorem countOcc_update_occ (ctrl : Nat → Nat) (m i d : Nat) (hi : i < m) (h0 : ctrl i = 0)
    (hd : d ≠ 0) : countOcc (Function.update ctrl i d) m = countOcc ctrl m + 1 := by
  induction m with
  | zero => omega
  | succ m ih =>
    simp only [countOcc]
    by_cases him : i = m
    · subst him
      have : countOcc (Function.update ctrl i d) i = countOcc ctrl i := by
        apply countOcc_congr
        intro j hj
        rw [Function.update_noteq (by omega)]
      rw [this]
      simp [h0, hd]
    · rw [ih (by omega), Function.update_noteq (Ne.symm him)]
      omega

theorem countOcc_update_free (ctrl : Nat → Nat) (m i : Nat) (hi : i < m) (h0 : ctrl i ≠ 0) :
    countOcc (Function.update ctrl i 0) m + 1 = countOcc ctrl m := by
  induction m with
  | zero => omega
  | succ m ih =>
    simp only [countOcc]
    by_cases him : i = m
    · subst him
      have : countOcc (Function.update ctrl i 0) i = countOcc ctrl i := by
        apply countOcc_congr
        intro j hj
        rw [Function.update_noteq (by omega)]
      rw [this]
      simp [h0]
    · rw [Function.update_noteq (Ne.symm him)]
      have := ih (by omega)
      omega

theorem countOcc_lt_of_empty (ctrl : Nat → Nat) (m i : Nat) (hi : i < m) (h0 : ctrl i = 0) :
    countOcc ctrl m < m := by
  have h1 := countOcc_update_occ ctrl m i 1 hi h0 (by decide)
  have h2 := countOcc_le (Function.update ctrl i 1) m
  omega

theorem countOcc_pos_of_occ (ctrl : Nat → Nat) (m i : Nat) (hi : i < m) (h0 : ctrl i ≠ 0) :
    0 < countOcc ctrl m := by
  have h1 := countOcc_update_free ctrl m i hi h0
  omega

/-- Successor then predecessor on the ring of slots. -/
theorem succ_pred_mod (n i : Nat) (hi : i < n) : ((i + 1) % n + n - 1) % n = i := by
  by_cases h : i + 1 = n
  · rw [h, Nat.mod_self]
    simp only [Nat.zero_add]
    rw [Nat.mod_eq_of_lt (by omega)]; omega
  · rw [Nat.mod_eq_of_lt (by omega : i + 1 < n)]
    have : i + 1 + n - 1 = i + n := by omega
    rw [this, Nat.add_mod_right, Nat.mod_eq_of_lt hi]

theorem succ_mod_eq_self (n i : Nat) (hi : i < n) (h : (i + 1) % n = i) : n = 1 := by
  by_cases h1 : i + 1 = n
  · rw [h1, Nat.mod_self] at h; omega
  · rw [Nat.mod_eq_of_lt (by omega : i + 1 < n)] at h; omega

/-- The slot after the slot of displacement `d` is the slot of displacement `d + 1`. -/
theorem slot_succ (n h d i : Nat) (hd : 1 ≤ d) (e : (h + d - 1) % n = i) :
    (h + (d + 1) - 1) % n = (i + 1) % n := by
  have : h + (d + 1) - 1 = (h + d - 1) + 1 := by omega
  rw [this, Nat.add_mod, e, Nat.add_mod i 1 n]
  simp

/-- The slot before the slot of displacement `d + 1` is the slot of displacement `d`. -/
theorem slot_pred (n h d i j : Nat) (hn : 0 < n) (hd : 1 ≤ d) (hi : i < n) (hj : j < n)
    (e : (h + (d + 1) - 1) % n = (j + 1) % n) (ei : (h + d - 1) % n = i) : i = j := by
  have h1 := slot_succ n h d i hd ei
  rw [h1] at e
  have h2 := succ_pred_mod n i hi
  have h3 := succ_pred_mod n j hj
  rw [e] at h2
  omega

/-- Along the probe chain of a stored key every slot has at least the displacement of the
chain position: no empty slot and no richer entry before the key. -/
theorem chain {t : RHBSU64Map Value} (hd : Disp t) (hs : Step t) (j : Nat)
    (hj : j < t.n) (hc : t.ctrl j ≠ 0) (m : Nat) (hm1 : 1 ≤ m) (hm2 : m ≤ t.ctrl j) :
    m ≤ t.ctrl ((hash (t.entries j).key + m - 1) % t.n) := by
  have key : ∀ e m, m + e = t.ctrl j → 1 ≤ m →
      m ≤ t.ctrl ((hash (t.entries j).key + m - 1) % t.n) := by
    intro e
    induction e with
    | zero =>
      intro m hm _
      have := (hd j hj hc).2
      simp only [Nat.add_zero] at hm
      rw [hm, this]
    | succ e ih =>
      intro m hm hm1
      have h1 := ih (m + 1) (by omega) (by omega)
      have hn : 0 < t.n := by omega
      have hlt : (hash (t.entries j).key + m - 1) % t.n < t.n := Nat.mod_lt _ hn
      rw [slot_succ t.n _ m _ hm1 rfl] at h1
      have h2 := hs _ hlt
      omega
  exact key (t.ctrl j - m) m (by omega) hm1

theorem findLoop_sound {t : RHBSU64Map Value} (hw : WF t) (k : Nat) :
    ∀ fuel i dist j, i < t.n → findLoop fuel t k i dist = some j →
      j < t.n ∧ t.ctrl j ≠ 0 ∧ (t.entries j).key = k := by
  intro fuel
  induction fuel with
  | zero => intro i dist j _ h; simp [findLoop] at h
  | succ fuel ih =>
    intro i dist j hi h
    simp only [findLoop] at h
    split at h
    · simp at h
    · split at h
      · simp at h
      · split at h
        · simp only [Option.some.injEq] at h
          subst h
          exact ⟨hi, by assumption, by assumption⟩
        · split at h
          · simp at h
          · refine ih _ _ j ?_ h
            rw [hw.and_mask]
            exact Nat.mod_lt _ hw.pos

theorem findLoop_complete {t : RHBSU64Map Value} (hw : WF t) (hd : Disp t) (hs : Step t)
    (hu : Uniq t) (j : Nat) (hj : j < t.n) (hc : t.ctrl j ≠ 0) :
    ∀ fuel m, 1 ≤ m → m ≤ t.ctrl j → t.ctrl j - m < fuel →
      findLoop fuel t (t.entries j).key ((hash (t.entries j).key + m - 1) % t.n) m = some j := by
  intro fuel
  induction fuel with
  | zero => intro m _ _ h; omega
  | succ fuel ih =>
    intro m hm1 hm2 hf
    have hch := chain hd hs j hj hc m hm1 hm2
    have hlt : (hash (t.entries j).key + m - 1) % t.n < t.n := Nat.mod_lt _ hw.pos
    simp only [findLoop]
    rw [if_neg (by omega), if_neg (by omega)]
    by_cases hk : (t.entries ((hash (t.entries j).key + m - 1) % t.n)).key = (t.entries j).key
    · rw [if_pos hk]
      congr 1
      exact hu _ _ hlt hj (by omega) hc hk
    · rw [if_neg hk]
      have hne : m ≠ t.ctrl j := by
        intro e
        apply hk
        have := (hd j hj hc).2
        rw [e, this]
      have h254 := (hd j hj hc).1
      have e1 : (m + 1) % 256 = m + 1 := Nat.mod_eq_of_lt (by omega)
      rw [e1, if_neg (by omega), hw.and_mask, ← slot_succ t.n _ m _ hm1 rfl]
      exact ih (m + 1) (by omega) (by omega) (by omega)

/-- The slot `find` returns is the occupied slot that holds the key. -/
theorem find_eq_some_iff {t : RHBSU64Map Value} (h : Inv t) (k j : Nat) :
    t.find k = some j ↔ j < t.n ∧ t.ctrl j ≠ 0 ∧ (t.entries j).key = k := by
  constructor
  · intro hf
    unfold find at hf
    split at hf
    · simp at hf
    · refine findLoop_sound h.wf k _ _ _ j ?_ hf
      unfold index
      rw [h.wf.and_mask]
      exact Nat.mod_lt _ h.wf.pos
  · rintro ⟨hj, hc, hk⟩
    have hne : k ≠ EMPTY_KEY := by
      intro e
      rw [← hk] at e
      exact hc ((h.emp j hj).mpr e)
    unfold find
    rw [if_neg hne]
    have := findLoop_complete h.wf h.disp h.step h.uniq j hj hc 255 1 (by omega)
      (by omega) (by have := (h.disp j hj hc).1; omega)
    rw [hk] at this
    unfold index
    rw [h.wf.and_mask]
    simpa using this

theorem lookup_eq_some_iff {t : RHBSU64Map Value} (h : Inv t) (k : Nat) (v : Value) :
    t.lookup k = some v ↔ Has t k v := by
  unfold lookup Has
  constructor
  · intro hl
    cases hf : t.find k with
    | none => rw [hf] at hl; simp at hl
    | some j =>
      rw [hf] at hl
      simp only [Option.map_some', Option.some.injEq] at hl
      obtain ⟨h1, h2, h3⟩ := (find_eq_some_iff h k j).mp hf
      exact ⟨j, h1, h2, h3, hl⟩
  · rintro ⟨j, h1, h2, h3, h4⟩
    rw [(find_eq_some_iff h k j).mpr ⟨h1, h2, h3⟩]
    simp [h4]

theorem lookup_eq_none_iff {t : RHBSU64Map Value} (h : Inv t) (k : Nat) :
    t.lookup k = none ↔ ∀ v, ¬ Has t k v := by
  constructor
  · intro hl v hv
    rw [(lookup_eq_some_iff h k v).mpr hv] at hl
    simp at hl
  · intro hn
    cases hl : t.lookup k with
    | none => rfl
    | some v => exact absurd ((lookup_eq_some_iff h k v).mp hl) (hn v)

end RHBSU64Map
namespace RHBSU64Map

variable {Value : Type}

/-- When the probe for `k` meets a slot poorer than the probe distance, `k` is not stored. -/
theorem absent_of_lt {t : RHBSU64Map Value} (hd : Disp t) (hs : Step t) (k i dist : Nat)
    (h1 : 1 ≤ dist) (hslot : (hash k + dist - 1) % t.n = i)
    (hnb : ∀ j, j < t.n → t.ctrl j ≠ 0 → (t.entries j).key = k → dist ≤ t.ctrl j)
    (hlt : t.ctrl i < dist) :
    ∀ j, j < t.n → t.ctrl j ≠ 0 → (t.entries j).key ≠ k := by
  intro j hj hc hk
  have h2 := hnb j hj hc hk
  have h3 := chain hd hs j hj hc dist h1 h2
  rw [hk, hslot] at h3
  omega

/-- Writing the entry in hand over a strictly poorer (or empty) slot keeps the
displacement, chain, uniqueness and sentinel properties. -/
theorem set_good {t : RHBSU64Map Value} (hw : WF t) (hd : Disp t) (hs : Step t)
    (hu : Uniq t) (he : Emp t) (k : Nat) (v : Value) (i dist : Nat)
    (hi : i < t.n) (h1 : 1 ≤ dist) (h254 : dist ≤ 254)
    (hslot : (hash k + dist - 1) % t.n = i) (hk : k ≠ EMPTY_KEY)
    (hprev : 2 ≤ dist → dist ≤ t.ctrl ((i + t.n - 1) % t.n) + 1)
    (habs : ∀ j, j < t.n → t.ctrl j ≠ 0 → (t.entries j).key ≠ k)
    (hlt : t.ctrl i < dist) (sz : Nat) :
    WF { t with entries := Function.update t.entries i ⟨k, v⟩,
                ctrl := Function.update t.ctrl i dist, sz := sz } ∧
    Disp { t with entries := Function.update t.entries i ⟨k, v⟩,
                  ctrl := Function.update t.ctrl i dist, sz := sz } ∧
    Step { t with entries := Function.update t.entries i ⟨k, v⟩,
                  ctrl := Function.update t.ctrl i dist, sz := sz } ∧
    Uniq { t with entries := Function.update t.entries i ⟨k, v⟩,
                  ctrl := Function.update t.ctrl i dist, sz := sz } ∧
    Emp { t with entries := Function.update t.entries i ⟨k, v⟩,
                 ctrl := Function.update t.ctrl i dist, sz := sz } := by
  refine ⟨hw, ?_, ?_, ?_, ?_⟩
  · -- Disp
    intro a ha hca
    simp only at ha hca ⊢
    by_cases hai : a = i
    · subst hai
      simp only [Function.update_same]
      exact ⟨h254, hslot⟩
    · rw [Function.update_noteq hai] at hca ⊢
      rw [Function.update_noteq hai]
      exact hd a ha hca
  · -- Step
    intro a ha
    simp only at ha ⊢
    by_cases hai : a = i
    · subst hai
      simp only [Function.update_same]
      by_cases hs1 : (a + 1) % t.n = a
      · rw [hs1]; simp only [Function.update_same]; omega
      · rw [Function.update_noteq hs1]
        have := hs a ha
        omega
    · rw [Function.update_noteq hai]
      by_cases hs1 : (a + 1) % t.n = i
      · rw [hs1]; simp only [Function.update_same]
        have hpa : (i + t.n - 1) % t.n = a := by
          rw [← hs1]; exact succ_pred_mod t.n a ha
        by_cases h2 : 2 ≤ dist
        · have := hprev h2
          rw [hpa] at this
          exact this
        · omega
      · rw [Function.update_noteq hs1]
        exact hs a ha
  · -- Uniq
    intro a b ha hb hca hcb hkey
    simp only at ha hb hca hcb hkey
    by_cases hai : a = i
    · by_cases hbi : b = i
      · rw [hai, hbi]
      · exfalso
        rw [hai] at hkey
        simp only [Function.update_same] at hkey
        rw [Function.update_noteq hbi] at hcb hkey
        exact habs b hb hcb hkey.symm
    · by_cases hbi : b = i
      · exfalso
        rw [hbi] at hkey
        simp only [Function.update_same] at hkey
        rw [Function.update_noteq hai] at hca hkey
        exact habs a ha hca hkey
      · rw [Function.update_noteq hai] at hca hkey
        rw [Function.update_noteq hbi] at hcb hkey
        exact hu a b ha hb hca hcb hkey
  · -- Emp
    intro a ha
    simp only at ha ⊢
    by_cases hai : a = i
    · subst hai
      simp only [Function.update_same]
      constructor
      · intro h; omega
      · intro h; exact absurd h hk
    · rw [Function.update_noteq hai, Function.update_noteq hai]
      exact he a ha

theorem place_inv {t : RHBSU64Map Value} (hw : WF t) (hd : Disp t) (hs : Step t)
    (hu : Uniq t) (he : Emp t) (hc : Cnt t) (k : Nat) (v : Value) (i dist : Nat)
    (hi : i < t.n) (h1 : 1 ≤ dist) (h254 : dist ≤ 254)
    (hslot : (hash k + dist - 1) % t.n = i) (hk : k ≠ EMPTY_KEY)
    (hprev : 2 ≤ dist → dist ≤ t.ctrl ((i + t.n - 1) % t.n) + 1)
    (habs : ∀ j, j < t.n → t.ctrl j ≠ 0 → (t.entries j).key ≠ k)
    (h0 : t.ctrl i = 0) :
    Inv { t with entries := Function.update t.entries i ⟨k, v⟩,
                 ctrl := Function.update t.ctrl i dist,
                 sz := (t.sz + 1) % 2 ^ 64 } := by
  have hn := hw.pos
  obtain ⟨g1, g2, g3, g4, g5⟩ := set_good hw hd hs hu he k v i dist hi h1 h254 hslot hk hprev
    habs (by omega) ((t.sz + 1) % 2 ^ 64)
  refine ⟨g1, g2, g3, g4, g5, ?_, ?_⟩
  · -- Low
    by_cases hs1 : (i + 1) % t.n = i
    · refine ⟨i, hi, ?_⟩
      simp only [Function.update_same]
      by_cases h2 : 2 ≤ dist
      · exfalso
        have hn1 := succ_mod_eq_self t.n i hi hs1
        have hi0 : i = 0 := by omega
        have := hprev h2
        rw [hn1, hi0] at this
        simp only [Nat.zero_add, Nat.sub_self, Nat.zero_mod] at this
        rw [hi0] at h0
        omega
      · omega
    · refine ⟨(i + 1) % t.n, Nat.mod_lt _ hn, ?_⟩
      simp only
      rw [Function.update_noteq hs1]
      have := hs i hi
      omega
  · -- Cnt
    unfold Cnt at hc ⊢
    simp only
    rw [countOcc_update_occ t.ctrl t.n i dist hi h0 (by omega), ← hc]
    have h3 := countOcc_lt_of_empty t.ctrl t.n i hi h0
    have h4 := hw.lt
    rw [← hc] at h3
    exact Nat.mod_eq_of_lt (by omega)

theorem place_has {t : RHBSU64Map Value} (k : Nat) (v : Value) (i dist : Nat)
    (hi : i < t.n) (h1 : 1 ≤ dist)
    (habs : ∀ j, j < t.n → t.ctrl j ≠ 0 → (t.entries j).key ≠ k)
    (h0 : t.ctrl i = 0) (sz : Nat) (k' : Nat) (v' : Value) :
    Has { t with entries := Function.update t.entries i ⟨k, v⟩,
                 ctrl := Function.update t.ctrl i dist, sz := sz } k' v' ↔
      ((k' = k ∧ v' = v) ∨ (k' ≠ k ∧ Has t k' v')) := by
  unfold Has
  simp only
  constructor
  · rintro ⟨a, ha, hca, hka, hva⟩
    by_cases hai : a = i
    · subst hai
      simp only [Function.update_same] at hka hva
      exact Or.inl ⟨hka.symm, hva.symm⟩
    · rw [Function.update_noteq hai] at hca hka hva
      refine Or.inr ⟨?_, a, ha, hca, hka, hva⟩
      intro e
      exact habs a ha hca (hka.trans e)
  · rintro (⟨rfl, rfl⟩ | ⟨hne, a, ha, hca, hka, hva⟩)
    · exact ⟨i, hi, by simp only [Function.update_same]; omega, by simp, by simp⟩
    · have hai : a ≠ i := by intro e; rw [e] at hca; exact hca h0
      refine ⟨a, ha, ?_, ?_, ?_⟩
      · rw [Function.update_noteq hai]; exact hca
      · rw [Function.update_noteq hai]; exact hka
      · rw [Function.update_noteq hai]; exact hva

theorem update_inv {t : RHBSU64Map Value} (hw : WF t) (hd : Disp t) (hs : Step t)
    (hu : Uniq t) (he : Emp t) (hc : Cnt t) (hl : Low t) (v : Value) (i : Nat) :
    Inv { t with entries := Function.update t.entries i ⟨(t.entries i).key, v⟩ } := by
  have hkey : ∀ a, (Function.update t.entries i ⟨(t.entries i).key, v⟩ a).key
      = (t.entries a).key := by
    intro a
    by_cases hai : a = i
    · subst hai; simp
    · rw [Function.update_noteq hai]
  refine ⟨hw, ?_, hs, ?_, ?_, hl, hc⟩
  · intro a ha hca
    simp only at ha hca ⊢
    rw [hkey]
    exact hd a ha hca
  · intro a b ha hb hca hcb hk
    simp only at ha hb hca hcb hk
    rw [hkey, hkey] at hk
    exact hu a b ha hb hca hcb hk
  · intro a ha
    simp only at ha ⊢
    rw [hkey]
    exact he a ha

theorem update_has {t : RHBSU64Map Value} (hu : Uniq t) (k : Nat) (v : Value) (i : Nat)
    (hi : i < t.n) (hci : t.ctrl i ≠ 0) (hki : (t.entries i).key = k) (k' : Nat) (v' : Value) :
    Has { t with entries := Function.update t.entries i ⟨(t.entries i).key, v⟩ } k' v' ↔
      ((k' = k ∧ v' = v) ∨ (k' ≠ k ∧ Has t k' v')) := by
  unfold Has
  simp only
  constructor
  · rintro ⟨a, ha, hca, hka, hva⟩
    by_cases hai : a = i
    · subst hai
      simp only [Function.update_same] at hka hva
      exact Or.inl ⟨hka.symm.trans hki, hva.symm⟩
    · rw [Function.update_noteq hai] at hka hva
      refine Or.inr ⟨?_, a, ha, hca, hka, hva⟩
      intro e
      apply hai
      exact hu a i ha hi hca hci (by rw [hka, hki, e])
  · rintro (⟨rfl, rfl⟩ | ⟨hne, a, ha, hca, hka, hva⟩)
    · exact ⟨i, hi, hci, by simp [hki], by simp⟩
    · have hai : a ≠ i := by intro e; rw [e] at hka; exact hne (hka.symm.trans hki)
      refine ⟨a, ha, hca, ?_, ?_⟩
      · rw [Function.update_noteq hai]; exact hka
      · rw [Function.update_noteq hai]; exact hva

theorem swap_has {t : RHBSU64Map Value} (hu : Uniq t) (k : Nat) (v : Value) (i dist : Nat)
    (hi : i < t.n) (hci : t.ctrl i ≠ 0) (hd0 : dist ≠ 0)
    (habs : ∀ j, j < t.n → t.ctrl j ≠ 0 → (t.entries j).key ≠ k) (k' : Nat) (v' : Value) :
    ((k' = (t.entries i).key ∧ v' = (t.entries i).val) ∨
      (k' ≠ (t.entries i).key ∧
        Has { t with entries := Function.update t.entries i ⟨k, v⟩,
                     ctrl := Function.update t.ctrl i dist } k' v')) ↔
      ((k' = k ∧ v' = v) ∨ (k' ≠ k ∧ Has t k' v')) := by
  have hne : (t.entries i).key ≠ k := habs i hi hci
  unfold Has
  simp only
  constructor
  · rintro (⟨rfl, rfl⟩ | ⟨hk2, a, ha, hca, hka, hva⟩)
    · exact Or.inr ⟨hne, i, hi, hci, rfl, rfl⟩
    · by_cases hai : a = i
      · subst hai
        simp only [Function.update_same] at hka hva
        exact Or.inl ⟨hka.symm, hva.symm⟩
      · rw [Function.update_noteq hai] at hca hka hva
        refine Or.inr ⟨?_, a, ha, hca, hka, hva⟩
        intro e
        exact habs a ha hca (hka.trans e)
  · rintro (⟨rfl, rfl⟩ | ⟨hk1, a, ha, hca, hka, hva⟩)
    · refine Or.inr ⟨Ne.symm hne, i, hi, ?_, ?_, ?_⟩
      · simp only [Function.update_same]; exact hd0
      · simp
      · simp
    · by_cases hai : a = i
      · subst hai
        exact Or.inl ⟨hka.symm, hva.symm⟩
      · refine Or.inr ⟨?_, a, ha, ?_, ?_, ?_⟩
        · intro e
          apply hai
          exact hu a i ha hi hca hci (by rw [hka, e])
        · rw [Function.update_noteq hai]; exact hca
        · rw [Function.update_noteq hai]; exact hka
        · rw [Function.update_noteq hai]; exact hva

/-- The loop of `insert`, when it returns: the table is again well-formed, holds the entry
in hand in place of any earlier binding of its key, and reports `true` exactly when the
key was not stored. -/
theorem insertLoop_spec : ∀ (fuel : Nat) (t : RHBSU64Map Value) (k : Nat) (v : Value)
    (i dist : Nat), WF t → Disp t → Step t → Uniq t → Emp t → Cnt t →
    i < t.n → 1 ≤ dist → dist ≤ 254 → (hash k + dist - 1) % t.n = i → k ≠ EMPTY_KEY →
    (2 ≤ dist → dist ≤ t.ctrl ((i + t.n - 1) % t.n) + 1) →
    (∀ j, j < t.n → t.ctrl j ≠ 0 → (t.entries j).key = k → dist ≤ t.ctrl j) →
    ((∃ j, j < t.n ∧ t.ctrl j ≠ 0 ∧ (t.entries j).key = k) → Low t) →
    ∀ t' b, insertLoop fuel t k v i dist = .ok (t', b) →
      Inv t' ∧ t'.n = t.n ∧ t'.sweep_ = t.sweep_ ∧
      (∀ k' v', Has t' k' v' ↔ ((k' = k ∧ v' = v) ∨ (k' ≠ k ∧ Has t k' v'))) ∧
      (b = true ↔ ∀ v', ¬ Has t k v') ∧
      t'.sz = if b then t.sz + 1 else t.sz := by
  intro fuel
  induction fuel with
  | zero => intro t k v i dist _ _ _ _ _ _ _ _ _ _ _ _ _ _ t' b h; simp [insertLoop] at h
  | succ fuel ih =>
    intro t k v i dist hw hd hs hu he hc hi h1 h254 hslot hk hprev hnb hlow t' b h
    simp only [insertLoop] at h
    by_cases h0 : t.ctrl i = 0
    · -- empty slot: place here
      rw [if_pos h0] at h
      simp only [Except.ok.injEq, Prod.mk.injEq] at h
      obtain ⟨ht, hb⟩ := h
      have habs := absent_of_lt hd hs k i dist h1 hslot hnb (by omega)
      have hinv := place_inv hw hd hs hu he hc k v i dist hi h1 h254 hslot hk hprev habs h0
      have hsz : (t.sz + 1) % 2 ^ 64 = t.sz + 1 := by
        have h3 := countOcc_lt_of_empty t.ctrl t.n i hi h0
        have h4 := hw.lt
        unfold Cnt at hc
        exact Nat.mod_eq_of_lt (by omega)
      subst ht; subst hb
      refine ⟨hinv, rfl, rfl, ?_, ?_, ?_⟩
      · intro k' v'
        exact place_has k v i dist hi h1 habs h0 _ k' v'
      · simp only [true_iff]
        rintro v' ⟨a, ha, hca, hka, _⟩
        exact habs a ha hca hka
      · simp only [if_true]; exact hsz
    · rw [if_neg h0] at h
      by_cases hkey : (t.entries i).key = k
      · -- the key is stored here: update
        rw [if_pos hkey] at h
        simp only [Except.ok.injEq, Prod.mk.injEq] at h
        obtain ⟨ht, hb⟩ := h
        have hl := hlow ⟨i, hi, h0, hkey⟩
        subst ht; subst hb
        refine ⟨update_inv hw hd hs hu he hc hl v i, rfl, rfl, ?_, ?_, ?_⟩
        · intro k' v'
          exact update_has hu k v i hi h0 hkey k' v'
        · simp only [Bool.false_eq_true, false_iff, not_forall, not_not]
          exact ⟨(t.entries i).val, i, hi, h0, hkey, rfl⟩
        · simp
      · rw [if_neg hkey] at h
        have hi1 : (i + 1) &&& t.mask = (i + 1) % t.n := hw.and_mask _
        have hi1lt : (i + 1) % t.n < t.n := Nat.mod_lt _ hw.pos
        by_cases hsw : t.ctrl i < dist
        · -- robin-hood swap
          simp only [if_pos hsw] at h
          have e1 : (t.ctrl i + 1) % 256 = t.ctrl i + 1 := Nat.mod_eq_of_lt (by omega)
          rw [e1, if_neg (by omega), hi1] at h
          have habs := absent_of_lt hd hs k i dist h1 hslot hnb hsw
          obtain ⟨g1, g2, g3, g4, g5⟩ := set_good hw hd hs hu he k v i dist hi h1 h254 hslot hk
            hprev habs hsw t.sz
          have g6 : Cnt { t with entries := Function.update t.entries i ⟨k, v⟩,
                                 ctrl := Function.update t.ctrl i dist, sz := t.sz } := by
            unfold Cnt at hc ⊢
            simp only
            rw [hc]
            apply countOcc_congr
            intro a _
            by_cases hai : a = i
            · subst hai; simp only [Function.update_same]
              constructor <;> intro <;> omega
            · rw [Function.update_noteq hai]
          have hnone : ∀ j, j < t.n → Function.update t.ctrl i dist j ≠ 0 →
              (Function.update t.entries i (⟨k, v⟩ : Entry Value) j).key ≠ (t.entries i).key := by
            intro j hj hcj hkj
            by_cases hji : j = i
            · subst hji
              simp only [Function.update_same] at hkj
              exact hkey hkj.symm
            · rw [Function.update_noteq hji] at hcj hkj
              exact hji (hu j i hj hi hcj h0 hkj)
          have hres := ih _ (t.entries i).key (t.entries i).val ((i + 1) % t.n) (t.ctrl i + 1)
            g1 g2 g3 g4 g5 g6 hi1lt (by omega) (by omega)
            (slot_succ t.n _ (t.ctrl i) i (by omega) (hd i hi h0).2)
            (fun e => h0 ((he i hi).mpr e))
            (by
              intro _
              simp only
              rw [succ_pred_mod t.n i hi]
              simp only [Function.update_same]
              omega)
            (by
              intro j hj hcj hkj
              exact absurd hkj (hnone j hj hcj))
            (by
              rintro ⟨j, hj, hcj, hkj⟩
              exact absurd hkj (hnone j hj hcj))
            t' b h
          obtain ⟨r1, r2, r3, r4, r5, r6⟩ := hres
          have hb : b = true := by
            rw [r5]
            rintro v' ⟨a, ha, hca, hka, _⟩
            exact hnone a ha hca hka
          refine ⟨r1, r2, r3, ?_, ?_, ?_⟩
          · intro k' v'
            rw [r4 k' v']
            exact swap_has hu k v i dist hi h0 (by omega) habs k' v'
          · simp only [hb, true_iff]
            rintro v' ⟨a, ha, hca, hka, _⟩
            exact habs a ha hca hka
          · rw [r6]
        · -- keep probing
          simp only [if_neg hsw] at h
          by_cases hov : (dist + 1) % 256 = 255
          · rw [if_pos hov] at h; simp at h
          · rw [if_neg hov] at h
            have e1 : (dist + 1) % 256 = dist + 1 := Nat.mod_eq_of_lt (by omega)
            rw [e1] at hov h
            rw [hi1] at h
            exact ih t k v ((i + 1) % t.n) (dist + 1) hw hd hs hu he hc hi1lt (by omega)
              (by omega) (slot_succ t.n _ dist i h1 hslot) hk
              (by
                intro _
                rw [succ_pred_mod t.n i hi]
                omega)
              (by
                intro j hj hcj hkj
                have h2 := hnb j hj hcj hkj
                by_contra hcon
                have he2 : t.ctrl j = dist := by omega
                have := (hd j hj hcj).2
                rw [hkj, he2, hslot] at this
                rw [this] at hkey
                exact hkey hkj)
              hlow t' b h

/-- `insert(k, v)` on a well-formed table, when it returns. -/
theorem insert_spec {t : RHBSU64Map Value} (h : Inv t) (k : Nat) (v : Value)
    (t' : RHBSU64Map Value) (b : Bool) (hins : t.insert k v = .ok (t', b)) :
    Inv t' ∧ t'.n = t.n ∧ t'.sweep_ = t.sweep_ ∧
      (∀ k' v', Has t' k' v' ↔ ((k' = k ∧ v' = v) ∨ (k' ≠ k ∧ Has t k' v'))) ∧
      (b = true ↔ ∀ v', ¬ Has t k v') ∧
      t'.sz = if b then t.sz + 1 else t.sz := by
  unfold insert at hins
  split at hins
  · simp at hins
  · rename_i hk
    refine insertLoop_spec _ t k v _ 1 h.wf h.disp h.step h.uniq h.emp h.cnt ?_ (by omega)
      (by omega) ?_ hk (by omega) ?_ (fun _ => h.low) t' b hins
    · unfold index; rw [h.wf.and_mask]; exact Nat.mod_lt _ h.wf.pos
    · unfold index; rw [h.wf.and_mask]; simp
    · intro j _ hcj _; omega

end RHBSU64Map
namespace RHBSU64Map

variable {Value : Type}

theorem add_succ_mod (n j q : Nat) (hq : 1 ≤ q) : ((j + 1) % n + (q - 1)) % n = (j + q) % n := by
  rw [Nat.add_mod, Nat.mod_mod, ← Nat.add_mod]
  congr 1
  omega

/-- The loop of `backshift_delete` with the hole at an occupied slot `j`: it ends, frees
exactly one slot and keeps every entry except the one in the hole. -/
theorem backshiftLoop_spec : ∀ (fuel : Nat) (t : RHBSU64Map Value) (j : Nat),
    WF t → Disp t → Step t → Emp t → j < t.n → t.ctrl j ≠ 0 →
    (∀ a b, a < t.n → b < t.n → a ≠ j → b ≠ j → t.ctrl a ≠ 0 → t.ctrl b ≠ 0 →
      (t.entries a).key = (t.entries b).key → a = b) →
    (∃ q, 1 ≤ q ∧ q ≤ fuel ∧ t.ctrl ((j + q) % t.n) ≤ 1) →
    WF (backshiftLoop fuel t j) ∧ Disp (backshiftLoop fuel t j) ∧
    Step (backshiftLoop fuel t j) ∧ Uniq (backshiftLoop fuel t j) ∧
    Emp (backshiftLoop fuel t j) ∧ Low (backshiftLoop fuel t j) ∧
    countOcc (backshiftLoop fuel t j).ctrl t.n + 1 = countOcc t.ctrl t.n ∧
    (backshiftLoop fuel t j).n = t.n ∧ (backshiftLoop fuel t j).sz = t.sz ∧
    (backshiftLoop fuel t j).sweep_ = t.sweep_ ∧
    ∀ k' v', Has (backshiftLoop fuel t j) k' v' ↔
      ∃ a, a < t.n ∧ a ≠ j ∧ t.ctrl a ≠ 0 ∧ (t.entries a).key = k' ∧ (t.entries a).val = v' := by
  intro fuel
  induction fuel with
  | zero =>
    intro t j _ _ _ _ _ _ _ hq
    obtain ⟨q, h1, h2, _⟩ := hq
    omega
  | succ fuel ih =>
    intro t j hw hd hs he hj hcj hux hq
    have hn := hw.pos
    have hk1 : (j + 1) &&& t.mask = (j + 1) % t.n := hw.and_mask _
    have hklt : (j + 1) % t.n < t.n := Nat.mod_lt _ hn
    simp only [backshiftLoop]
    rw [hk1]
    by_cases hck : t.ctrl ((j + 1) % t.n) ≤ 1
    · -- the next slot is empty or at home: free the hole
      rw [if_pos hck]
      refine ⟨hw, ?_, ?_, ?_, ?_, ?_, ?_, rfl, rfl, rfl, ?_⟩
      · intro a ha hca
        simp only at ha hca ⊢
        by_cases haj : a = j
        · subst haj; simp at hca
        · rw [Function.update_noteq haj] at hca ⊢
          rw [Function.update_noteq haj]
          exact hd a ha hca
      · intro a ha
        simp only at ha ⊢
        by_cases hs1 : (a + 1) % t.n = j
        · rw [hs1]; simp
        · rw [Function.update_noteq hs1]
          by_cases haj : a = j
          · subst haj; simp only [Function.update_same]; omega
          · rw [Function.update_noteq haj]; exact hs a ha
      · intro a b ha hb hca hcb hkey
        simp only at ha hb hca hcb hkey
        have haj : a ≠ j := by intro e; subst e; simp at hca
        have hbj : b ≠ j := by intro e; subst e; simp at hcb
        rw [Function.update_noteq haj] at hca hkey
        rw [Function.update_noteq hbj] at hcb hkey
        exact hux a b ha hb haj hbj hca hcb hkey
      · intro a ha
        simp only at ha ⊢
        by_cases haj : a = j
        · subst haj; simp
        · rw [Function.update_noteq haj, Function.update_noteq haj]
          exact he a ha
      · exact ⟨j, hj, by simp⟩
      · exact countOcc_update_free t.ctrl t.n j hj hcj
      · intro k' v'
        unfold Has
        simp only
        constructor
        · rintro ⟨a, ha, hca, hka, hva⟩
          have haj : a ≠ j := by intro e; subst e; simp at hca
          rw [Function.update_noteq haj] at hca hka hva
          exact ⟨a, ha, haj, hca, hka, hva⟩
        · rintro ⟨a, ha, haj, hca, hka, hva⟩
          refine ⟨a, ha, ?_, ?_, ?_⟩
          · rw [Function.update_noteq haj]; exact hca
          · rw [Function.update_noteq haj]; exact hka
          · rw [Function.update_noteq haj]; exact hva
    · -- pull the next entry back by one and move the hole
      rw [if_neg hck]
      obtain ⟨q, hq1, hq2, hq3⟩ := hq
      have hck0 : t.ctrl ((j + 1) % t.n) ≠ 0 := by omega
      have hstepj := hs j hj
      have hkj : (j + 1) % t.n ≠ j := by
        intro e
        have hn1 := succ_mod_eq_self t.n j hj e
        rw [hn1, Nat.mod_one] at hq3
        have : j = 0 := by omega
        rw [e, this] at hck
        exact hck hq3
      have hq2' : 2 ≤ q := by
        by_contra hcon
        have : q = 1 := by omega
        rw [this] at hq3
        exact hck hq3
      have key := ih
        { t with entries := Function.update t.entries j (t.entries ((j + 1) % t.n)),
                 ctrl := Function.update t.ctrl j (t.ctrl ((j + 1) % t.n) - 1) }
        ((j + 1) % t.n) hw
        (by
          intro a ha hca
          simp only at ha hca ⊢
          by_cases haj : a = j
          · subst haj
            simp only [Function.update_same]
            have hdk := hd _ hklt hck0
            refine ⟨by omega, ?_⟩
            have e1 : hash (t.entries ((a + 1) % t.n)).key + t.ctrl ((a + 1) % t.n) - 1
                = hash (t.entries ((a + 1) % t.n)).key + (t.ctrl ((a + 1) % t.n) - 1 + 1) - 1 := by
              omega
            have h2 := hdk.2
            rw [e1] at h2
            exact slot_pred t.n _ (t.ctrl ((a + 1) % t.n) - 1) _ a hn (by omega)
              (Nat.mod_lt _ hn) ha h2 rfl
          · rw [Function.update_noteq haj] at hca ⊢
            rw [Function.update_noteq haj]
            exact hd a ha hca)
        (by
          intro a ha
          simp only at ha ⊢
          by_cases hs1 : (a + 1) % t.n = j
          · rw [hs1]; simp only [Function.update_same]
            have haj : a ≠ j := by intro e; rw [e] at hs1; exact hkj hs1
            rw [Function.update_noteq haj]
            have := hs a ha
            rw [hs1] at this
            omega
          · rw [Function.update_noteq hs1]
            by_cases haj : a = j
            · subst haj; simp only [Function.update_same]; omega
            · rw [Function.update_noteq haj]; exact hs a ha)
        (by
          intro a ha
          simp only at ha ⊢
          by_cases haj : a = j
          · subst haj
            simp only [Function.update_same]
            have := he _ hklt
            constructor
            · intro h; omega
            · intro h; exact absurd (this.mpr h) hck0
          · rw [Function.update_noteq haj, Function.update_noteq haj]
            exact he a ha)
        hklt
        (by simp only; rw [Function.update_noteq hkj]; exact hck0)
        (by
          intro a b ha hb hak hbk hca hcb hkey
          simp only at ha hb hca hcb hkey
          by_cases haj : a = j
          · by_cases hbj : b = j
            · rw [haj, hbj]
            · exfalso
              rw [haj] at hkey
              simp only [Function.update_same] at hkey
              rw [Function.update_noteq hbj] at hcb hkey
              exact hbk (hux _ b hklt hb hkj hbj hck0 hcb hkey).symm
          · by_cases hbj : b = j
            · exfalso
              rw [hbj] at hkey
              simp only [Function.update_same] at hkey
              rw [Function.update_noteq haj] at hca hkey
              exact hak (hux a _ ha hklt haj hkj hca hck0 hkey)
            · rw [Function.update_noteq haj] at hca hkey
              rw [Function.update_noteq hbj] at hcb hkey
              exact hux a b ha hb haj hbj hca hcb hkey)
        ⟨q - 1, by omega, by omega, by
          simp only
          rw [add_succ_mod t.n j q hq1]
          by_cases hwj : (j + q) % t.n = j
          · rw [hwj]; simp only [Function.update_same]
            rw [hwj] at hq3
            omega
          · rw [Function.update_noteq hwj]; exact hq3⟩
      simp only at key
      obtain ⟨r1, r2, r3, r4, r5, r6, r7, r8, r9, r10, r11⟩ := key
      refine ⟨r1, r2, r3, r4, r5, r6, ?_, r8, r9, r10, ?_⟩
      · rw [r7]
        apply countOcc_congr
        intro a _
        by_cases haj : a = j
        · subst haj; simp only [Function.update_same]
          constructor <;> intro <;> omega
        · rw [Function.update_noteq haj]
      · intro k' v'
        rw [r11 k' v']
        constructor
        · rintro ⟨a, ha, hak, hca, hka, hva⟩
          by_cases haj : a = j
          · subst haj
            simp only [Function.update_same] at hka hva
            exact ⟨_, hklt, hkj, hck0, hka, hva⟩
          · rw [Function.update_noteq haj] at hca hka hva
            exact ⟨a, ha, haj, hca, hka, hva⟩
        · rintro ⟨a, ha, haj, hca, hka, hva⟩
          by_cases hak : a = (j + 1) % t.n
          · subst hak
            refine ⟨j, hj, Ne.symm hkj, ?_, ?_, ?_⟩
            · simp only [Function.update_same]; omega
            · simp only [Function.update_same]; exact hka
            · simp only [Function.update_same]; exact hva
          · refine ⟨a, ha, hak, ?_, ?_, ?_⟩
            · rw [Function.update_noteq haj]; exact hca
            · rw [Function.update_noteq haj]; exact hka
            · rw [Function.update_noteq haj]; exact hva

theorem inv_with_sz {t1 : RHBSU64Map Value} (s : Nat) (r1 : WF t1) (r2 : Disp t1)
    (r3 : Step t1) (r4 : Uniq t1) (r5 : Emp t1) (r6 : Low t1)
    (r7 : s = countOcc t1.ctrl t1.n) : Inv { t1 with sz := s } :=
  ⟨r1, r2, r3, r4, r5, r6, r7⟩

theorem has_with_sz (t1 : RHBSU64Map Value) (s : Nat) (k : Nat) (v : Value) :
    Has { t1 with sz := s } k v ↔ Has t1 k v := Iff.rfl

theorem dec_mod (x : Nat) (h1 : 1 ≤ x) (h2 : x < 2 ^ 64) :
    (x + 2 ^ 64 - 1) % 2 ^ 64 = x - 1 := by
  have : x + 2 ^ 64 - 1 = (x - 1) + 2 ^ 64 := by omega
  rw [this, Nat.add_mod_right]
  exact Nat.mod_eq_of_lt (by omega)

/-- `erase(k)` on a well-formed table. -/
theorem erase_spec {t : RHBSU64Map Value} (h : Inv t) (k : Nat) :
    Inv (t.erase k).1 ∧ (t.erase k).1.n = t.n ∧ (t.erase k).1.sweep_ = t.sweep_ ∧
      (∀ k' v', Has (t.erase k).1 k' v' ↔ (k' ≠ k ∧ Has t k' v')) ∧
      ((t.erase k).2 = true ↔ ∃ v', Has t k v') ∧
      (t.erase k).1.sz = if (t.erase k).2 then t.sz - 1 else t.sz := by
  cases hf : t.find k with
  | none =>
    have he : t.erase k = (t, false) := by unfold erase; rw [hf]
    rw [he]
    have hnone : ∀ v', ¬ Has t k v' := by
      intro v' ⟨a, ha, hca, hka, _⟩
      have := (find_eq_some_iff h k a).mpr ⟨ha, hca, hka⟩
      rw [hf] at this
      simp at this
    refine ⟨h, rfl, rfl, ?_, ?_, ?_⟩
    · intro k' v'
      constructor
      · intro hh
        refine ⟨?_, hh⟩
        intro e
        subst e
        exact hnone v' hh
      · exact fun hh => hh.2
    · simp only [Bool.false_eq_true, false_iff, not_exists]
      exact hnone
    · simp
  | some i =>
    obtain ⟨hi, hci, hki⟩ := (find_eq_some_iff h k i).mp hf
    obtain ⟨w, hw1, hw2⟩ := h.low
    have hn := h.wf.pos
    have hq : ∃ q, 1 ≤ q ∧ q ≤ t.n ∧ t.ctrl ((i + q) % t.n) ≤ 1 := by
      by_cases hwi : i < w
      · refine ⟨w - i, by omega, by omega, ?_⟩
        have : i + (w - i) = w := by omega
        rw [this, Nat.mod_eq_of_lt hw1]; exact hw2
      · refine ⟨w + t.n - i, by omega, by omega, ?_⟩
        have : i + (w + t.n - i) = w + t.n := by omega
        rw [this, Nat.add_mod_right, Nat.mod_eq_of_lt hw1]; exact hw2
    have key := backshiftLoop_spec t.n t i h.wf h.disp h.step h.emp hi hci
      (fun a b ha hb _ _ hca hcb hk => h.uniq a b ha hb hca hcb hk) hq
    generalize hb : backshiftLoop t.n t i = t1 at key
    obtain ⟨r1, r2, r3, r4, r5, r6, r7, r8, r9, r10, r11⟩ := key
    have hpos := countOcc_pos_of_occ t.ctrl t.n i hi hci
    have hcnt := h.cnt
    unfold Cnt at hcnt
    have hlt := h.wf.lt
    have hle := countOcc_le t.ctrl t.n
    have hsz := dec_mod t.sz (by omega) (by omega)
    have he : t.erase k = ({ t1 with sz := t.sz - 1 }, true) := by
      unfold erase backshift_delete
      rw [hf]
      simp only
      rw [hb, r9, hsz]
    rw [he]
    refine ⟨inv_with_sz _ r1 r2 r3 r4 r5 r6 (by rw [r8]; omega), r8, r10, ?_, ?_, ?_⟩
    · intro k' v'
      simp only
      rw [has_with_sz, r11 k' v']
      constructor
      · rintro ⟨a, ha, hai, hca, hka, hva⟩
        refine ⟨?_, a, ha, hca, hka, hva⟩
        intro e
        apply hai
        exact h.uniq a i ha hi hca hci (by rw [hka, hki, e])
      · rintro ⟨hne, a, ha, hca, hka, hva⟩
        refine ⟨a, ha, ?_, hca, hka, hva⟩
        intro e
        subst e
        exact hne (hka.symm.trans hki)
    · simp only [true_iff]
      exact ⟨(t.entries i).val, i, hi, hci, hki, rfl⟩
    · simp only [if_true]

end RHBSU64Map
namespace RHBSU64Map

variable {Value : Type}

/-- The constructor's test `n & (n - 1)` accepts exactly the powers of two. -/
theorem pow2_of_and_pred (n : Nat) (h0 : n ≠ 0) (h : n &&& (n - 1) = 0) :
    ∃ p, n = 2 ^ p := by
  refine ⟨n.log2, ?_⟩
  have h1 : 2 ^ n.log2 ≤ n := Nat.log2_self_le h0
  have h2 : n < 2 ^ (n.log2 + 1) := Nat.lt_log2_self
  by_contra hne
  have h3 : 2 ^ n.log2 < n := lt_of_le_of_ne h1 (Ne.symm hne)
  rw [pow_succ] at h2
  generalize n.log2 = p at h1 h2 h3 hne
  obtain ⟨r, hr⟩ : ∃ r, n = 2 ^ p + r := ⟨n - 2 ^ p, by omega⟩
  subst hr
  have e2 : 2 ^ p + r - 1 = 2 ^ p + (r - 1) := by omega
  have t1 : (2 ^ p + r).testBit p = true := by
    rw [Nat.testBit_two_pow_add_eq, Nat.testBit_lt_two_pow (by omega)]; rfl
  have t2 : (2 ^ p + r - 1).testBit p = true := by
    rw [e2, Nat.testBit_two_pow_add_eq, Nat.testBit_lt_two_pow (by omega)]; rfl
  have t3 : ((2 ^ p + r) &&& (2 ^ p + r - 1)).testBit p = true := by
    rw [Nat.testBit_and, t1, t2]; rfl
  rw [h] at t3
  simp at t3

/-- The table built by the constructor is well-formed and empty. -/
theorem new_inv (dflt : Value) (cap : Nat) (hcap : cap < 2 ^ 64) (t0 : RHBSU64Map Value)
    (h : RHBSU64Map.new dflt cap = .ok t0) :
    Inv t0 ∧ t0.n = cap ∧ t0.sz = 0 ∧ ∀ k v, ¬ Has t0 k v := by
  unfold RHBSU64Map.new at h
  split at h
  · simp at h
  · rename_i hc
    simp only [not_or, not_not] at hc
    obtain ⟨hc0, hc1⟩ := hc
    simp only [Except.ok.injEq] at h
    subst h
    obtain ⟨p, hp⟩ := pow2_of_and_pred cap hc0 hc1
    have hp64 : p < 64 := by
      by_contra hcon
      have : 2 ^ 64 ≤ 2 ^ p := Nat.pow_le_pow_right (by decide) (by omega)
      omega
    have hpos : 0 < cap := by omega
    refine ⟨⟨⟨⟨p, hp64, hp⟩, rfl⟩, ?_, ?_, ?_, ?_, ⟨0, hpos, by simp⟩, ?_⟩, rfl, rfl, ?_⟩
    · intro i _ hci; simp at hci
    · intro i _; simp
    · intro i j _ _ hci; simp at hci
    · intro i _; simp
    · unfold Cnt
      simp only
      generalize cap = m
      induction m with
      | zero => rfl
      | succ m ih => simp [countOcc, ← ih]
    · rintro k v ⟨a, _, hca, _⟩
      simp at hca

end RHBSU64Map

namespace FiniteMap

variable {Value : Type}

theorem find_filter (m : List (Nat × Value)) (k k' : Nat) :
    find (m.filter (fun p => p.1 ≠ k)) k' = if k' = k then none else find m k' := by
  induction m with
  | nil => simp [find]
  | cons p m ih =>
    obtain ⟨k1, v1⟩ := p
    by_cases h1 : k1 = k
    · subst h1
      simp only [ne_eq, not_true_eq_false, decide_False, Bool.false_eq_true, not_false_eq_true,
        List.filter_cons_of_neg, find]
      simp only [ne_eq] at ih
      rw [ih]
      by_cases h2 : k' = k1
      · simp [h2]
      · have : ¬ k1 = k' := fun e => h2 e.symm
        simp [h2, this]
    · have hd : decide (k1 ≠ k) = true := by simp [h1]
      rw [List.filter_cons_of_pos (by simpa using h1)]
      simp only [find]
      rw [ih]
      by_cases h2 : k1 = k'
      · have : ¬ k' = k := by rw [← h2]; exact h1
        simp [h2, this]
      · simp [h2]

theorem find_isSome_iff_mem (m : List (Nat × Value)) (k : Nat) :
    (find m k).isSome = true ↔ k ∈ m.map Prod.fst := by
  induction m with
  | nil => simp [find]
  | cons p m ih =>
    obtain ⟨k1, v1⟩ := p
    simp only [find, List.map_cons, List.mem_cons]
    by_cases h : k1 = k
    · simp [h]
    · have h' : ¬ k = k1 := fun e => h e.symm
      simp [h, h', ih]

theorem keys_filter (m : List (Nat × Value)) (k : Nat) :
    (m.filter (fun p => p.1 ≠ k)).map Prod.fst = (m.map Prod.fst).filter (fun x => x ≠ k) := by
  rw [List.filter_map]
  rfl

theorem length_filter_nodup (m : List (Nat × Value)) (k : Nat)
    (hn : (m.map Prod.fst).Nodup) :
    (m.filter (fun p => p.1 ≠ k)).length + (if (find m k).isSome then 1 else 0) = m.length := by
  induction m with
  | nil => simp [find]
  | cons p m ih =>
    obtain ⟨k1, v1⟩ := p
    simp only [List.map_cons, List.nodup_cons] at hn
    obtain ⟨hn1, hn2⟩ := hn
    have ih2 := ih hn2
    by_cases h : k1 = k
    · subst h
      have hnot : (find m k1).isSome = false := by
        cases hh : (find m k1).isSome with
        | false => rfl
        | true => exact absurd ((find_isSome_iff_mem m k1).mp hh) hn1
      rw [hnot] at ih2
      simp only [find, if_true, Option.isSome_some, List.length_cons]
      rw [List.filter_cons_of_neg (by simp)]
      simp only [Bool.false_eq_true, if_false, Nat.add_zero] at ih2
      omega
    · rw [List.filter_cons_of_pos (by simpa using h)]
      simp only [find, if_neg h, List.length_cons]
      omega

theorem size_eq_length (m : List (Nat × Value)) (hn : (m.map Prod.fst).Nodup) :
    size m = m.length := by
  unfold size
  rw [List.Nodup.dedup hn, List.length_map]

end FiniteMap

namespace RHBSU64Map

variable {Value : Type}

/-- The abstraction relation: the table `t` represents the association list `m`. -/
theorem refine_step_insert {t : RHBSU64Map Value} {m : List (Nat × Value)} (h : Inv t)
    (hm : ∀ k v, Has t k v ↔ FiniteMap.find m k = some v) (hn : (m.map Prod.fst).Nodup)
    (hsz : t.sz = m.length) (k : Nat) (v : Value) (t' : RHBSU64Map Value) (b : Bool)
    (hins : t.insert k v = .ok (t', b)) :
    Inv t' ∧ (∀ k' v', Has t' k' v' ↔ FiniteMap.find (FiniteMap.insert m k v).1 k' = some v') ∧
      ((FiniteMap.insert m k v).1.map Prod.fst).Nodup ∧
      t'.sz = (FiniteMap.insert m k v).1.length ∧ b = (FiniteMap.insert m k v).2 := by
  obtain ⟨r1, _, _, r4, r5, r6⟩ := insert_spec h k v t' b hins
  have hb : b = (FiniteMap.find m k).isNone := by
    cases hf : FiniteMap.find m k with
    | none =>
      simp only [Option.isNone_none]
      rw [r5]
      intro v' hv'
      rw [hm, hf] at hv'
      simp at hv'
    | some w =>
      simp only [Option.isNone_some]
      cases hbb : b with
      | false => rfl
      | true =>
        exfalso
        exact (r5.mp hbb) w ((hm k w).mpr hf)
  have hlen := FiniteMap.length_filter_nodup m k hn
  refine ⟨r1, ?_, ?_, ?_, hb⟩
  · intro k' v'
    rw [r4 k' v']
    simp only [FiniteMap.insert, FiniteMap.find]
    by_cases hk : k' = k
    · subst hk
      simp only [if_true, Option.some.injEq, true_and, ne_eq, not_true_eq_false, false_and,
        or_false]
      exact eq_comm
    · have hk' : ¬ k = k' := fun e => hk e.symm
      rw [if_neg hk', FiniteMap.find_filter, if_neg hk]
      simp only [hk, false_and, ne_eq, not_false_eq_true, true_and, false_or]
      exact hm k' v'
  · simp only [FiniteMap.insert, List.map_cons, List.nodup_cons]
    rw [FiniteMap.keys_filter]
    refine ⟨?_, hn.filter _⟩
    simp [List.mem_filter]
  · rw [r6, hb, hsz]
    simp only [FiniteMap.insert, List.length_cons]
    cases hf : FiniteMap.find m k with
    | none =>
      rw [hf] at hlen
      simp only [Option.isSome_none, Bool.false_eq_true, if_false, Nat.add_zero] at hlen
      simp only [Option.isNone_none, if_true]
      omega
    | some w =>
      rw [hf] at hlen
      simp only [Option.isSome_some, if_true] at hlen
      simp only [Option.isNone_some, Bool.false_eq_true, if_false]
      omega

theorem refine_step_erase {t : RHBSU64Map Value} {m : List (Nat × Value)} (h : Inv t)
    (hm : ∀ k v, Has t k v ↔ FiniteMap.find m k = some v) (hn : (m.map Prod.fst).Nodup)
    (hsz : t.sz = m.length) (k : Nat) :
    Inv (t.erase k).1 ∧
      (∀ k' v', Has (t.erase k).1 k' v' ↔ FiniteMap.find (FiniteMap.erase m k).1 k' = some v') ∧
      ((FiniteMap.erase m k).1.map Prod.fst).Nodup ∧
      (t.erase k).1.sz = (FiniteMap.erase m k).1.length ∧
      (t.erase k).2 = (FiniteMap.erase m k).2 := by
  obtain ⟨r1, _, _, r4, r5, r6⟩ := erase_spec h k
  have hb : (t.erase k).2 = (FiniteMap.find m k).isSome := by
    cases hf : FiniteMap.find m k with
    | none =>
      simp only [Option.isSome_none]
      cases hbb : (t.erase k).2 with
      | false => rfl
      | true =>
        exfalso
        obtain ⟨w, hw⟩ := r5.mp hbb
        rw [hm, hf] at hw
        simp at hw
    | some w =>
      simp only [Option.isSome_some]
      exact r5.mpr ⟨w, (hm k w).mpr hf⟩
  have hlen := FiniteMap.length_filter_nodup m k hn
  refine ⟨r1, ?_, ?_, ?_, hb⟩
  · intro k' v'
    rw [r4 k' v']
    simp only [FiniteMap.erase]
    rw [FiniteMap.find_filter]
    by_cases hk : k' = k
    · simp [hk]
    · simp only [ne_eq, hk, not_false_eq_true, true_and, if_false]
      exact hm k' v'
  · simp only [FiniteMap.erase]
    rw [FiniteMap.keys_filter]
    exact hn.filter _
  · rw [r6, hb, hsz]
    simp only [FiniteMap.erase]
    cases hf : FiniteMap.find m k with
    | none =>
      rw [hf] at hlen
      simp only [Option.isSome_none, Bool.false_eq_true, if_false, Nat.add_zero] at hlen
      simp only [Option.isSome_none, Bool.false_eq_true, if_false]
      omega
    | some w =>
      rw [hf] at hlen
      simp only [Option.isSome_some, if_true] at hlen
      simp only [Option.isSome_some, if_true]
      omega

theorem run_refines_aux : ∀ (ops : List (Op Value)) (t : RHBSU64Map Value)
    (m : List (Nat × Value)), Inv t →
    (∀ k v, Has t k v ↔ FiniteMap.find m k = some v) → (m.map Prod.fst).Nodup →
    t.sz = m.length → ∀ t' bs, run t ops = .ok (t', bs) →
      Inv t' ∧ (∀ k v, Has t' k v ↔ FiniteMap.find (FiniteMap.run m ops).1 k = some v) ∧
      ((FiniteMap.run m ops).1.map Prod.fst).Nodup ∧
      t'.sz = (FiniteMap.run m ops).1.length ∧ bs = (FiniteMap.run m ops).2 := by
  intro ops
  induction ops with
  | nil =>
    intro t m h hm hn hsz t' bs hrun
    simp only [run, Except.ok.injEq, Prod.mk.injEq] at hrun
    obtain ⟨rfl, rfl⟩ := hrun
    exact ⟨h, hm, hn, hsz, rfl⟩
  | cons op ops ih =>
    intro t m h hm hn hsz t' bs hrun
    cases op with
    | insert k v =>
      simp only [run] at hrun
      cases hins : t.insert k v with
      | error e => rw [hins] at hrun; simp at hrun
      | ok r =>
        obtain ⟨t1, b⟩ := r
        rw [hins] at hrun
        simp only at hrun
        cases hrest : run t1 ops with
        | error e => rw [hrest] at hrun; simp at hrun
        | ok r2 =>
          obtain ⟨t2, bs2⟩ := r2
          rw [hrest] at hrun
          simp only [Except.ok.injEq, Prod.mk.injEq] at hrun
          obtain ⟨rfl, rfl⟩ := hrun
          obtain ⟨s1, s2, s3, s4, s5⟩ := refine_step_insert h hm hn hsz k v t1 b hins
          obtain ⟨q1, q2, q3, q4, q5⟩ := ih t1 _ s1 s2 s3 s4 t2 bs2 hrest
          simp only [FiniteMap.run]
          exact ⟨q1, q2, q3, q4, by rw [s5, q5]⟩
    | erase k =>
      simp only [run] at hrun
      cases hrest : run (t.erase k).1 ops with
      | error e => rw [hrest] at hrun; simp at hrun
      | ok r2 =>
        obtain ⟨t2, bs2⟩ := r2
        rw [hrest] at hrun
        simp only [Except.ok.injEq, Prod.mk.injEq] at hrun
        obtain ⟨rfl, rfl⟩ := hrun
        obtain ⟨s1, s2, s3, s4, s5⟩ := refine_step_erase h hm hn hsz k
        obtain ⟨q1, q2, q3, q4, q5⟩ := ih _ _ s1 s2 s3 s4 t2 bs2 hrest
        simp only [FiniteMap.run]
        exact ⟨q1, q2, q3, q4, by rw [s5, q5]⟩

/-- C1. The page table behaves as a finite map. For a table built by the constructor with
a capacity that fits `size_t`, and every sequence of `insert` and `erase` calls that all
return normally (which excludes an `insert` of the sentinel key): `find(k)` yields the
value of the last `insert(k, v)` not followed by `erase(k)` and nothing otherwise, the
booleans returned by `insert` (key was absent) and `erase` (key was present) are those of
the finite map, and `size()` is the number of keys present. -/
theorem run_refines (dflt : Value) (cap : Nat) (t0 t : RHBSU64Map Value)
    (ops : List (Op Value)) (bs : List Bool) (hcap : cap < 2 ^ 64)
    (h0 : RHBSU64Map.new dflt cap = .ok t0) (hrun : run t0 ops = .ok (t, bs)) :
    (∀ k, t.lookup k = FiniteMap.find (FiniteMap.run [] ops).1 k) ∧
      bs = (FiniteMap.run [] ops).2 ∧
      t.size = FiniteMap.size (FiniteMap.run [] ops).1 := by
  obtain ⟨i1, _, i3, i4⟩ := new_inv dflt cap hcap t0 h0
  obtain ⟨q1, q2, q3, q4, q5⟩ := run_refines_aux ops t0 [] i1
    (by intro k v; simp only [FiniteMap.find]; constructor
        · intro hh; exact absurd hh (i4 k v)
        · intro hh; simp at hh)
    (by simp) (by simpa using i3) t bs hrun
  refine ⟨?_, q5, ?_⟩
  · intro k
    cases hf : FiniteMap.find (FiniteMap.run [] ops).1 k with
    | none =>
      rw [lookup_eq_none_iff q1]
      intro v hv
      rw [q2, hf] at hv
      simp at hv
    | some v =>
      rw [lookup_eq_some_iff q1, q2, hf]
  · rw [FiniteMap.size_eq_length _ q3]
    exact q4

/-- Instance of `run_refines`: capacity 4 and the calls of `exampleOps`, looked up at key 2
(inserted, then updated) -/
theorem run_refines_witness :
    exampleTable.lookup 2 = FiniteMap.find (FiniteMap.run [] exampleOps).1 2 ∧
      [true, true, true, false, true, false] = (FiniteMap.run [] exampleOps).2 ∧
      exampleTable.size = FiniteMap.size (FiniteMap.run [] exampleOps).1 :=
  have h := run_refines 0 4 exampleTable0 exampleTable exampleOps
    [true, true, true, false, true, false] (by decide) rfl rfl
  ⟨h.1 2, h.2.1, h.2.2⟩


end RHBSU64Map
/-! ## Theorems: frame descriptors -/

namespace BufTagged

theorem flag_eq_testBit (v i : Nat) : decide (v &&& 2 ^ i ≠ 0) = v.testBit i := by
  rw [Nat.and_two_pow]
  have hp : 0 < 2 ^ i := Nat.two_pow_pos i
  cases h : v.testBit i with
  | false => simp
  | true => simp

theorem in_use_eq (b : BufTagged) : b.in_use = b.v.testBit 0 := flag_eq_testBit b.v 0
theorem dirty_eq (b : BufTagged) : b.dirty = b.v.testBit 1 := flag_eq_testBit b.v 1
theorem evicting_eq (b : BufTagged) : b.evicting = b.v.testBit 2 := flag_eq_testBit b.v 2
theorem io_lock_eq (b : BufTagged) : b.io_lock = b.v.testBit 3 := flag_eq_testBit b.v 3
theorem marked_eq (b : BufTagged) : b.marked = b.v.testBit 4 := flag_eq_testBit b.v 4

theorem testBit_not64 (i j : Nat) (hi : i < 64) :
    (not64 (2 ^ i)).testBit j = (decide (j < 64) && decide (i ≠ j)) := by
  unfold not64
  rw [Nat.testBit_xor, Nat.testBit_two_pow_sub_one, Nat.testBit_two_pow]
  by_cases h1 : j < 64 <;> by_cases h2 : i = j <;> simp [h1, h2]
  omega

theorem testBit_kIdMask (j : Nat) :
    kIdMask.testBit j = (decide (j < 64) && decide (5 ≤ j)) := by
  have e : kFlagsMask = 2 ^ 5 - 1 := by decide
  unfold kIdMask not64
  rw [e, Nat.testBit_xor, Nat.testBit_two_pow_sub_one, Nat.testBit_two_pow_sub_one]
  by_cases h1 : j < 64 <;> by_cases h2 : j < 5 <;> simp [h1, h2] <;> omega

theorem testBit_id (b : BufTagged) (j : Nat) :
    b.id.testBit j = (b.v.testBit (5 + j) && decide (5 + j < 64)) := by
  unfold id kShift
  rw [Nat.testBit_shiftRight, Nat.testBit_and, testBit_kIdMask]
  have : 5 ≤ 5 + j := by omega
  simp [this]

/-- Setting the flag at bit `i < 5`: the word afterwards. -/
theorem testBit_set (v i : Nat) (x : Bool) (j : Nat) (hj : j < 64) (hi : i < 64) :
    (if x then v ||| 2 ^ i else v &&& not64 (2 ^ i)).testBit j
      = if i = j then x else v.testBit j := by
  cases x with
  | true =>
    simp only [if_true]
    rw [Nat.testBit_or, Nat.testBit_two_pow]
    by_cases h : i = j <;> simp [h]
  | false =>
    simp only [Bool.false_eq_true, if_false]
    rw [Nat.testBit_and, testBit_not64 i j hi]
    by_cases h : i = j <;> simp [h, hj]

theorem id_set (v i : Nat) (x : Bool) (hi : i < 5) :
    id ⟨if x then v ||| 2 ^ i else v &&& not64 (2 ^ i)⟩ = id ⟨v⟩ := by
  apply Nat.eq_of_testBit_eq
  intro j
  rw [testBit_id, testBit_id]
  by_cases hj : 5 + j < 64
  · simp only
    rw [testBit_set v i x (5 + j) hj (by omega), if_neg (by omega)]
  · simp [hj]

@[simp] theorem id_set_in_use (b : BufTagged) (x : Bool) : (b.set_in_use x).id = b.id :=
  id_set b.v 0 x (by decide)
@[simp] theorem id_set_dirty (b : BufTagged) (x : Bool) : (b.set_dirty x).id = b.id :=
  id_set b.v 1 x (by decide)
@[simp] theorem id_set_evicting (b : BufTagged) (x : Bool) : (b.set_evicting x).id = b.id :=
  id_set b.v 2 x (by decide)
@[simp] theorem id_set_io_lock (b : BufTagged) (x : Bool) : (b.set_io_lock x).id = b.id :=
  id_set b.v 3 x (by decide)
@[simp] theorem id_set_marked (b : BufTagged) (x : Bool) : (b.set_marked x).id = b.id :=
  id_set b.v 4 x (by decide)

/-- The five flags of a descriptor, in the order in_use, dirty, evicting, io_lock, marked. -/
theorem flags_set (v i : Nat) (x : Bool) (j : Nat) (hj : j < 64) (hi : i < 64) :
    (BufTagged.mk (if x then v ||| 2 ^ i else v &&& not64 (2 ^ i))).v.testBit j
      = if i = j then x else v.testBit j := testBit_set v i x j hj hi

theorem id_ofBid (bid : Nat) (h : bid < 2 ^ 59) : (ofBid bid).id = bid := by
  apply Nat.eq_of_testBit_eq
  intro j
  rw [testBit_id]
  unfold ofBid kShift
  rw [Nat.testBit_mod_two_pow, Nat.testBit_shiftLeft]
  by_cases hj : 5 + j < 64
  · have : 5 + j ≥ 5 := by omega
    simp [hj, this]
  · simp only [hj, decide_False, Bool.and_false]
    symm
    apply Nat.testBit_lt_two_pow
    calc bid < 2 ^ 59 := h
      _ ≤ 2 ^ j := Nat.pow_le_pow_right (by decide) (by omega)

theorem testBit_ofBid (bid j : Nat) (hj : j < 5) : (ofBid bid).v.testBit j = false := by
  unfold ofBid kShift
  rw [Nat.testBit_mod_two_pow, Nat.testBit_shiftLeft]
  have : ¬ j ≥ 5 := by omega
  simp [this]

@[simp] theorem in_use_set_in_use (b : BufTagged) (x : Bool) : (b.set_in_use x).in_use = x := by
  rw [in_use_eq]
  exact (testBit_set b.v 0 x 0 (by decide) (by decide)).trans (by simp)

@[simp] theorem in_use_set_dirty (b : BufTagged) (x : Bool) : (b.set_dirty x).in_use = b.in_use := by
  rw [in_use_eq, in_use_eq]
  exact (testBit_set b.v 1 x 0 (by decide) (by decide)).trans (by simp)

@[simp] theorem in_use_set_evicting (b : BufTagged) (x : Bool) : (b.set_evicting x).in_use = b.in_use := by
  rw [in_use_eq, in_use_eq]
  exact (testBit_set b.v 2 x 0 (by decide) (by decide)).trans (by simp)

@[simp] theorem in_use_set_io_lock (b : BufTagged) (x : Bool) : (b.set_io_lock x).in_use = b.in_use := by
  rw [in_use_eq, in_use_eq]
  exact (testBit_set b.v 3 x 0 (by decide) (by decide)).trans (by simp)

@[simp] theorem in_use_set_marked (b : BufTagged) (x : Bool) : (b.set_marked x).in_use = b.in_use := by
  rw [in_use_eq, in_use_eq]
  exact (testBit_set b.v 4 x 0 (by decide) (by decide)).trans (by simp)

@[simp] theorem dirty_set_in_use (b : BufTagged) (x : Bool) : (b.set_in_use x).dirty = b.dirty := by
  rw [dirty_eq, dirty_eq]
  exact (testBit_set b.v 0 x 1 (by decide) (by decide)).trans (by simp)

@[simp] theorem dirty_set_dirty (b : BufTagged) (x : Bool) : (b.set_dirty x).dirty = x := by
  rw [dirty_eq]
  exact (testBit_set b.v 1 x 1 (by decide) (by decide)).trans (by simp)

@[simp] theorem dirty_set_evicting (b : BufTagged) (x : Bool) : (b.set_evicting x).dirty = b.dirty := by
  rw [dirty_eq, dirty_eq]
  exact (testBit_set b.v 2 x 1 (by decide) (by decide)).trans (by simp)

@[simp] theorem dirty_set_io_lock (b : BufTagged) (x : Bool) : (b.set_io_lock x).dirty = b.dirty := by
  rw [dirty_eq, dirty_eq]
  exact (testBit_set b.v 3 x 1 (by decide) (by decide)).trans (by simp)

@[simp] theorem dirty_set_marked (b : BufTagged) (x : Bool) : (b.set_marked x).dirty = b.dirty := by
  rw [dirty_eq, dirty_eq]
  exact (testBit_set b.v 4 x 1 (by decide) (by decide)).trans (by simp)

@[simp] theorem evicting_set_in_use (b : BufTagged) (x : Bool) : (b.set_in_use x).evicting = b.evicting := by
  rw [evicting_eq, evicting_eq]
  exact (testBit_set b.v 0 x 2 (by decide) (by decide)).trans (by simp)

@[simp] theorem evicting_set_dirty (b : BufTagged) (x : Bool) : (b.set_dirty x).evicting = b.evicting := by
  rw [evicting_eq, evicting_eq]
  exact (testBit_set b.v 1 x 2 (by decide) (by decide)).trans (by simp)

@[simp] theorem evicting_set_evicting (b : BufTagged) (x : Bool) : (b.set_evicting x).evicting = x := by
  rw [evicting_eq]
  exact (testBit_set b.v 2 x 2 (by decide) (by decide)).trans (by simp)

@[simp] theorem evicting_set_io_lock (b : BufTagged) (x : Bool) : (b.set_io_lock x).evicting = b.evicting := by
  rw [evicting_eq, evicting_eq]
  exact (testBit_set b.v 3 x 2 (by decide) (by decide)).trans (by simp)

@[simp] theorem evicting_set_marked (b : BufTagged) (x : Bool) : (b.set_marked x).evicting = b.evicting := by
  rw [evicting_eq, evicting_eq]
  exact (testBit_set b.v 4 x 2 (by decide) (by decide)).trans (by simp)

@[simp] theorem io_lock_set_in_use (b : BufTagged) (x : Bool) : (b.set_in_use x).io_lock = b.io_lock := by
  rw [io_lock_eq, io_lock_eq]
  exact (testBit_set b.v 0 x 3 (by decide) (by decide)).trans (by simp)

@[simp] theorem io_lock_set_dirty (b : BufTagged) (x : Bool) : (b.set_dirty x).io_lock = b.io_lock := by
  rw [io_lock_eq, io_lock_eq]
  exact (testBit_set b.v 1 x 3 (by decide) (by decide)).trans (by simp)

@[simp] theorem io_lock_set_evicting (b : BufTagged) (x : Bool) : (b.set_evicting x).io_lock = b.io_lock := by
  rw [io_lock_eq, io_lock_eq]
  exact (testBit_set b.v 2 x 3 (by decide) (by decide)).trans (by simp)

@[simp] theorem io_lock_set_io_lock (b : BufTagged) (x : Bool) : (b.set_io_lock x).io_lock = x := by
  rw [io_lock_eq]
  exact (testBit_set b.v 3 x 3 (by decide) (by decide)).trans (by simp)

@[simp] theorem io_lock_set_marked (b : BufTagged) (x : Bool) : (b.set_marked x).io_lock = b.io_lock := by
  rw [io_lock_eq, io_lock_eq]
  exact (testBit_set b.v 4 x 3 (by decide) (by decide)).trans (by simp)

@[simp] theorem marked_set_in_use (b : BufTagged) (x : Bool) : (b.set_in_use x).marked = b.marked := by
  rw [marked_eq, marked_eq]
  exact (testBit_set b.v 0 x 4 (by decide) (by decide)).trans (by simp)

@[simp] theorem marked_set_dirty (b : BufTagged) (x : Bool) : (b.set_dirty x).marked = b.marked := by
  rw [marked_eq, marked_eq]
  exact (testBit_set b.v 1 x 4 (by decide) (by decide)).trans (by simp)

@[simp] theorem marked_set_evicting (b : BufTagged) (x : Bool) : (b.set_evicting x).marked = b.marked := by
  rw [marked_eq, marked_eq]
  exact (testBit_set b.v 2 x 4 (by decide) (by decide)).trans (by simp)

@[simp] theorem marked_set_io_lock (b : BufTagged) (x : Bool) : (b.set_io_lock x).marked = b.marked := by
  rw [marked_eq, marked_eq]
  exact (testBit_set b.v 3 x 4 (by decide) (by decide)).trans (by simp)

@[simp] theorem marked_set_marked (b : BufTagged) (x : Bool) : (b.set_marked x).marked = x := by
  rw [marked_eq]
  exact (testBit_set b.v 4 x 4 (by decide) (by decide)).trans (by simp)

@[simp] theorem in_use_ofBid (bid : Nat) : (ofBid bid).in_use = false := by
  rw [in_use_eq]
  exact testBit_ofBid bid 0 (by decide)

@[simp] theorem dirty_ofBid (bid : Nat) : (ofBid bid).dirty = false := by
  rw [dirty_eq]
  exact testBit_ofBid bid 1 (by decide)

@[simp] theorem evicting_ofBid (bid : Nat) : (ofBid bid).evicting = false := by
  rw [evicting_eq]
  exact testBit_ofBid bid 2 (by decide)

@[simp] theorem io_lock_ofBid (bid : Nat) : (ofBid bid).io_lock = false := by
  rw [io_lock_eq]
  exact testBit_ofBid bid 3 (by decide)

@[simp] theorem marked_ofBid (bid : Nat) : (ofBid bid).marked = false := by
  rw [marked_eq]
  exact testBit_ofBid bid 4 (by decide)

end BufTagged
/-! ## Theorems: the buffer manager -/

namespace RHBSU64Map

variable {Value : Type}

theorem findLoop_setVal (t : RHBSU64Map Value) (i : Nat) (v : Value) (k : Nat) :
    ∀ fuel j d, findLoop fuel (t.setVal i v) k j d = findLoop fuel t k j d := by
  have hkey : ∀ a, ((t.setVal i v).entries a).key = (t.entries a).key := by
    intro a
    unfold setVal
    by_cases hai : a = i
    · subst hai; simp
    · simp [Function.update_noteq hai]
  intro fuel
  induction fuel with
  | zero => intro j d; rfl
  | succ fuel ih =>
    intro j d
    simp only [findLoop]
    rw [hkey, ih]
    rfl

theorem find_setVal (t : RHBSU64Map Value) (i : Nat) (v : Value) (k : Nat) :
    (t.setVal i v).find k = t.find k := by
  unfold find
  rw [findLoop_setVal]
  rfl

theorem findLoop_key (t : RHBSU64Map Value) (k : Nat) :
    ∀ fuel i dist j, findLoop fuel t k i dist = some j → (t.entries j).key = k := by
  intro fuel
  induction fuel with
  | zero => intro i dist j h; simp [findLoop] at h
  | succ fuel ih =>
    intro i dist j h
    simp only [findLoop] at h
    split at h
    · simp at h
    · split at h
      · simp at h
      · split at h
        · simp only [Option.some.injEq] at h
          subst h
          assumption
        · split at h
          · simp at h
          · exact ih _ _ j h

theorem find_key (t : RHBSU64Map Value) (k j : Nat) (h : t.find k = some j) :
    (t.entries j).key = k := by
  unfold find at h
  split at h
  · simp at h
  · exact findLoop_key t k _ _ _ j h

/-- A write through the pointer `find(pid)` changes the value of `pid` only. -/
theorem lookup_setVal (t : RHBSU64Map Value) (pid i : Nat) (v : Value)
    (h : t.find pid = some i) (pid' : Nat) :
    (t.setVal i v).lookup pid' = if pid' = pid then some v else t.lookup pid' := by
  unfold lookup
  rw [find_setVal]
  by_cases hp : pid' = pid
  · subst hp
    rw [if_pos rfl, h]
    simp [setVal]
  · rw [if_neg hp]
    cases hf : t.find pid' with
    | none => rfl
    | some j =>
      have hj : j ≠ i := by
        intro e
        subst e
        exact hp ((find_key t pid' j hf).symm.trans (find_key t pid j h))
      simp [setVal, Function.update_noteq hj]

/-- `insert` seen through `find`: the key is bound to the value, other keys are as before,
and the result is `true` exactly when the key was not found before. -/
theorem insert_lookup {t : RHBSU64Map Value} (h : Inv t) (k : Nat) (v : Value)
    (t' : RHBSU64Map Value) (b : Bool) (hins : t.insert k v = .ok (t', b)) :
    Inv t' ∧ t'.lookup k = some v ∧ (∀ k', k' ≠ k → t'.lookup k' = t.lookup k') ∧
      (b = true ↔ t.lookup k = none) := by
  obtain ⟨r1, _, _, r4, r5, _⟩ := insert_spec h k v t' b hins
  refine ⟨r1, ?_, ?_, ?_⟩
  · rw [lookup_eq_some_iff r1, r4]
    exact Or.inl ⟨rfl, rfl⟩
  · intro k' hk
    cases hl : t.lookup k' with
    | none =>
      rw [lookup_eq_none_iff r1]
      intro v' hv'
      rw [r4] at hv'
      rcases hv' with ⟨e, _⟩ | ⟨_, hh⟩
      · exact hk e
      · exact (lookup_eq_none_iff h k').mp hl v' hh
    | some w =>
      rw [lookup_eq_some_iff r1, r4]
      exact Or.inr ⟨hk, (lookup_eq_some_iff h k' w).mp hl⟩
  · rw [r5, lookup_eq_none_iff h]

end RHBSU64Map

namespace BufferManager

open RHBSU64Map

/-- `ensureFreePages` touches the eviction fiber and the reactor only. -/
theorem ensureFreePages_eq (bm bm1 : BufferManager) (h : bm.ensureFreePages = .ok bm1) :
    ∃ ef r1, bm1 = { bm with eviction_fiber := ef, r := r1 } := by
  unfold ensureFreePages at h
  split at h
  · unfold wakeup at h
    split at h
    · simp only [Except.ok.injEq] at h
      exact ⟨bm.eviction_fiber, bm.r, h.symm⟩
    · split at h
      · simp at h
      · simp only [Except.ok.injEq] at h
        exact ⟨_, _, h.symm⟩
  · simp only [Except.ok.injEq] at h
    exact ⟨bm.eviction_fiber, bm.r, h.symm⟩

theorem wake_ok (r : BaseReactor) (f : Option Nat)
    (h : r.ready_.length ≠ BaseReactor.MAX_FIBERS) : ∃ r1 b, r.wake f = .ok (r1, b) := by
  unfold BaseReactor.wake
  cases f with
  | none => exact ⟨_, _, rfl⟩
  | some f =>
    simp only
    by_cases h1 : r.state f = FiberState.Finished
    · rw [if_pos h1]; exact ⟨_, _, rfl⟩
    · rw [if_neg h1]
      by_cases h2 : r.state f = FiberState.Parked
      · rw [if_pos h2]
        simp only [BaseReactor.push, h, if_false]
        exact ⟨_, _, rfl⟩
      · rw [if_neg h2]; exact ⟨_, _, rfl⟩

/-- Waking the eviction fiber succeeds unless the ready ring is full. -/
theorem ensureFreePages_ok (bm : BufferManager)
    (h : bm.r.ready_.length ≠ BaseReactor.MAX_FIBERS) : ∃ bm1, bm.ensureFreePages = .ok bm1 := by
  unfold ensureFreePages
  split
  · unfold wakeup
    split
    · exact ⟨_, rfl⟩
    · obtain ⟨r1, b, hw⟩ := wake_ok bm.r bm.eviction_fiber.ctx h
      rw [hw]
      exact ⟨_, rfl⟩
  · exact ⟨_, rfl⟩

end BufferManager
namespace BufferManager

open RHBSU64Map

/-- C2 (amended). For every buffer-manager state and PID, `fixS` (`exclusive = false`) and
`fixX` (`exclusive = true`): if the PID is not in the page table they return null, record
`PageFault{pid}` and leave the page table unchanged; if the descriptor has io_lock set they
return null, record `Restart{bid}` and leave the page table unchanged; if the descriptor is
already in_use the call fails in `ensure(!buf_ptr->in_use())`; otherwise (the frame array
being non-empty) they set in_use and marked (`fixX` also dirty), keep the BID and the
other flags and every other entry, and return the page at index BID. -/
theorem fix_contract (bm : BufferManager) (pid : Nat) (exclusive : Bool) :
    (bm.page_table.lookup pid = none →
      ∃ bm', (if exclusive then bm.fixX pid else bm.fixS pid) = .ok (bm', none) ∧
        bm'.restart_ctx = .PageFaultException pid ∧ bm'.page_table = bm.page_table) ∧
    (∀ d, bm.page_table.lookup pid = some d → d.io_lock = true →
      ∃ bm', (if exclusive then bm.fixX pid else bm.fixS pid) = .ok (bm', none) ∧
        bm'.restart_ctx = .RestartException d.id ∧ bm'.page_table = bm.page_table) ∧
    (∀ d, bm.page_table.lookup pid = some d → d.io_lock = false → d.in_use = true →
      (if exclusive then bm.fixX pid else bm.fixS pid) = .error .already_in_use) ∧
    (∀ d, bm.page_table.lookup pid = some d → d.io_lock = false → d.in_use = false →
      0 < bm.page_count →
      ∃ bm' d', (if exclusive then bm.fixX pid else bm.fixS pid) = .ok (bm', some d.id) ∧
        bm'.page_table.lookup pid = some d' ∧ d'.id = d.id ∧
        d'.in_use = true ∧ d'.marked = true ∧ d'.dirty = (exclusive || d.dirty) ∧
        d'.evicting = d.evicting ∧ d'.io_lock = false ∧
        (∀ pid', pid' ≠ pid → bm'.page_table.lookup pid' = bm.page_table.lookup pid')) := by
  have hfix : (if exclusive then bm.fixX pid else bm.fixS pid) = fix exclusive bm pid := by
    cases exclusive <;> rfl
  rw [hfix]
  refine ⟨?_, ?_, ?_, ?_⟩
  · intro hl
    have hf : bm.page_table.find pid = none := by
      unfold lookup at hl
      cases hh : bm.page_table.find pid with
      | none => rfl
      | some i => rw [hh] at hl; simp at hl
    unfold fix
    simp only [hf]
    exact ⟨_, rfl, rfl, rfl⟩
  · intro d hl hio
    unfold lookup at hl
    cases hh : bm.page_table.find pid with
    | none => rw [hh] at hl; simp at hl
    | some i =>
      rw [hh] at hl
      simp only [Option.map_some', Option.some.injEq] at hl
      unfold fix
      simp only [hh, hl, hio, if_true]
      exact ⟨_, rfl, rfl, rfl⟩
  · intro d hl hio huse
    unfold lookup at hl
    cases hh : bm.page_table.find pid with
    | none => rw [hh] at hl; simp at hl
    | some i =>
      rw [hh] at hl
      simp only [Option.map_some', Option.some.injEq] at hl
      unfold fix
      simp only [hh, hl, hio, huse, if_true, Bool.false_eq_true, if_false]
  · intro d hl hio huse hpc
    unfold lookup at hl
    cases hh : bm.page_table.find pid with
    | none => rw [hh] at hl; simp at hl
    | some i =>
      rw [hh] at hl
      simp only [Option.map_some', Option.some.injEq] at hl
      have hv : isValidPtr { bm with fixes := (bm.fixes + 1) % 2 ^ 64 } 0 = true := by
        simp [isValidPtr, hpc]
      unfold fix
      simp only [hh, hl, hio, huse, Bool.false_eq_true, if_false, hv, Bool.not_true]
      refine ⟨_, (if exclusive = true then ((d.set_in_use true).set_marked true).set_dirty true
        else (d.set_in_use true).set_marked true), rfl, ?_, ?_, ?_, ?_, ?_, ?_, ?_, ?_⟩
      · simp only
        rw [lookup_setVal bm.page_table pid i _ hh pid, if_pos rfl]
      · cases exclusive <;> simp
      · cases exclusive <;> simp
      · cases exclusive <;> simp
      · cases exclusive <;> simp
      · cases exclusive <;> simp
      · cases exclusive <;> simp [hio]
      · intro pid' hp
        simp only
        rw [lookup_setVal bm.page_table pid i _ hh pid', if_neg hp]

/-- Instance of `fix_contract`: after `init()` with 4 frames, `fixS(0)` returns the
metadata page in frame 0. -/
theorem fix_contract_witness :
    ∃ bm' d', bmInit4.fixS 0 = .ok (bm', some 0) ∧
      bm'.page_table.lookup 0 = some d' ∧ d'.id = 0 ∧ d'.in_use = true ∧ d'.marked = true :=
  have h := (fix_contract bmInit4 0 false).2.2.2
    (((BufTagged.ofBid 0).set_dirty true).set_marked true) rfl (by decide) (by decide)
    (by decide)
  match h with
  | ⟨bm', d', h1, h2, h3, h4, h5, _⟩ => ⟨bm', d', h1, h2, h3.trans (by decide), h4, h5⟩

/-- C2, counterexample. After `init()` with 4 frames and one `allocPage()`, PID 1 is
resident in frame 1 with io_lock clear (and in_use set, as `allocPage` leaves it); `fixS(1)`
and `fixX(1)` do not return the page but fail in `ensure(!buf_ptr->in_use())`. -/
theorem fix_in_use_counterexample :
    init ⟨64, 1, 10⟩ 4 8 = .ok bmInit4 ∧ bmInit4.allocPage = .ok (bmAlloc1, some 1) ∧
      (bmAlloc1.page_table.lookup 1).map BufTagged.id = some 1 ∧
      (bmAlloc1.page_table.lookup 1).map BufTagged.io_lock = some false ∧
      failsWith (bmAlloc1.fixS 1) .already_in_use = true ∧
      failsWith (bmAlloc1.fixX 1) .already_in_use = true :=
  ⟨rfl, rfl, by decide, by decide, by decide, by decide⟩

end BufferManager
namespace BufferManager

open RHBSU64Map

theorem insert_ne_empty {Value : Type} (t t' : RHBSU64Map Value) (k : Nat) (v : Value)
    (b : Bool) (h : t.insert k v = .ok (t', b)) : k ≠ EMPTY_KEY := by
  intro e
  unfold RHBSU64Map.insert at h
  rw [if_pos e] at h
  simp at h

/-- The page table built by `init()` is well-formed. -/
theorem init_inv (cfg : Config) (page_count page_table_sz : Nat) (bm : BufferManager)
    (hsz : page_table_sz < 2 ^ 64) (h : init cfg page_count page_table_sz = .ok bm) :
    Inv bm.page_table ∧ bm.page_count = page_count ∧ bm.allocCount = 1 := by
  unfold init at h
  cases hn : RHBSU64Map.new (BufTagged.mk 0) page_table_sz with
  | error e => rw [hn] at h; simp at h
  | ok pt =>
    rw [hn] at h
    simp only at h
    cases hi : pt.insert 0 (((BufTagged.ofBid 0).set_dirty true).set_marked true) with
    | error e => rw [hi] at h; simp at h
    | ok r =>
      obtain ⟨pt1, b⟩ := r
      rw [hi] at h
      simp only at h
      split at h
      · simp at h
      · simp only [Except.ok.injEq] at h
        subst h
        have h0 := (new_inv (BufTagged.mk 0) page_table_sz hsz pt hn).1
        exact ⟨(insert_spec h0 0 _ pt1 b hi).1, rfl, rfl⟩

/-- `allocPage()` on an empty free list, when waking the evictor does not fail: null,
restart-context `Alloc`, nothing else of the manager's bookkeeping changes. -/
theorem allocPage_null (bm bm' : BufferManager) (p : PagePtr) (hfree : bm.freeList = [])
    (h : bm.allocPage = .ok (bm', p)) :
    p = none ∧ bm'.restart_ctx = .AllocException ∧ bm'.allocCount = bm.allocCount ∧
      bm'.physUsedCount = bm.physUsedCount ∧ bm'.page_table = bm.page_table ∧
      bm'.freeList = bm.freeList ∧ bm'.page_count = bm.page_count := by
  unfold allocPage at h
  cases he : bm.ensureFreePages with
  | error e => rw [he] at h; simp at h
  | ok bm1 =>
    rw [he] at h
    obtain ⟨ef, r1, rfl⟩ := ensureFreePages_eq bm bm1 he
    simp only [hfree, List.isEmpty_nil, if_true, Except.ok.injEq, Prod.mk.injEq] at h
    obtain ⟨h1, h2⟩ := h
    subst h1; subst h2
    exact ⟨rfl, rfl, rfl, rfl, rfl, hfree.symm, rfl⟩

/-- `allocPage()` on a non-empty free list, when it returns. -/
theorem allocPage_some (bm bm' : BufferManager) (p : PagePtr) (hinv : Inv bm.page_table)
    (hpc : bm.page_count ≤ 2 ^ 52) (hac : bm.allocCount < 2 ^ 64) (hfree : bm.freeList ≠ [])
    (h : bm.allocPage = .ok (bm', p)) :
    ∃ bid d, bm.freeList.getLast? = some bid ∧ p = some bid ∧ bid < bm.page_count ∧
      bm'.freeList = bm.freeList.dropLast ∧ bm'.allocCount = bm.allocCount + 1 ∧
      bm'.physUsedCount = (bm.physUsedCount + 1) % 2 ^ 64 ∧
      bm.page_table.lookup bm.allocCount = none ∧
      bm'.page_table.lookup bm.allocCount = some d ∧ d.id = bid ∧
      d.dirty = true ∧ d.in_use = true ∧ d.marked = true ∧
      d.evicting = false ∧ d.io_lock = false ∧
      (∀ pid', pid' ≠ bm.allocCount →
        bm'.page_table.lookup pid' = bm.page_table.lookup pid') ∧
      (bm'.buffer_frames bid).pid = bm.allocCount ∧
      bm'.pages bid = List.replicate 4096 0 ∧
      Inv bm'.page_table ∧ bm'.page_count = bm.page_count ∧
      bm.allocCount + 1 < 2 ^ 64 := by
  unfold allocPage at h
  cases he : bm.ensureFreePages with
  | error e => rw [he] at h; simp at h
  | ok bm1 =>
    rw [he] at h
    obtain ⟨ef, r1, rfl⟩ := ensureFreePages_eq bm bm1 he
    have hne : bm.freeList.isEmpty = false := by
      cases hl : bm.freeList with
      | nil => exact absurd hl hfree
      | cons a l => rfl
    simp only [hne, Bool.false_eq_true, if_false] at h
    cases hg : bm.freeList.getLast? with
    | none => rw [hg] at h; simp at h
    | some bid =>
      rw [hg] at h
      simp only at h
      cases hi : bm.page_table.insert bm.allocCount
          ((((BufTagged.ofBid bid).set_dirty true).set_in_use true).set_marked true) with
      | error e => rw [hi] at h; simp at h
      | ok r =>
        obtain ⟨pt, b⟩ := r
        rw [hi] at h
        simp only at h
        cases b with
        | false => simp at h
        | true =>
          simp only [Bool.not_true, Bool.false_eq_true, if_false, isValidPtr] at h
          split at h
          · simp at h
          · rename_i hv
            simp only [Bool.not_eq_true', decide_eq_false_iff_not, not_not] at hv
            simp only [Except.ok.injEq, Prod.mk.injEq] at h
            obtain ⟨h1, h2⟩ := h
            subst h1; subst h2
            obtain ⟨i1, i2, i3, i4⟩ := insert_lookup hinv _ _ pt true hi
            have hk := insert_ne_empty _ _ _ _ _ hi
            have hbid : bid < 2 ^ 59 := by
              have : (2 : Nat) ^ 52 ≤ 2 ^ 59 := Nat.pow_le_pow_right (by decide) (by decide)
              omega
            refine ⟨bid, _, rfl, rfl, hv, rfl, ?_, rfl, i4.mp rfl, i2, ?_, ?_, ?_, ?_, ?_, ?_, i3,
              ?_, ?_, i1, rfl, ?_⟩
            · simp only
              unfold EMPTY_KEY at hk
              exact Nat.mod_eq_of_lt (by omega)
            · simp [BufTagged.id_ofBid bid hbid]
            · simp
            · simp
            · simp
            · simp
            · simp
            · simp
            · simp only [Function.update_same]
              rfl
            · unfold EMPTY_KEY at hk
              omega

theorem allocMany_pids : ∀ (n : Nat) (bm bm' : BufferManager) (pids : List Nat),
    Inv bm.page_table → bm.page_count ≤ 2 ^ 52 → bm.allocCount < 2 ^ 64 →
    allocMany n bm = .ok (bm', pids) → pids = List.range' bm.allocCount pids.length := by
  intro n
  induction n with
  | zero =>
    intro bm bm' pids _ _ _ h
    simp only [allocMany, Except.ok.injEq, Prod.mk.injEq] at h
    rw [← h.2]; rfl
  | succ n ih =>
    intro bm bm' pids hinv hpc hac h
    simp only [allocMany] at h
    cases ha : bm.allocPage with
    | error e => rw [ha] at h; simp at h
    | ok r =>
      obtain ⟨bm1, p⟩ := r
      rw [ha] at h
      simp only at h
      cases hm : allocMany n bm1 with
      | error e => rw [hm] at h; simp at h
      | ok r2 =>
        obtain ⟨bm2, rest⟩ := r2
        rw [hm] at h
        simp only [Except.ok.injEq, Prod.mk.injEq] at h
        obtain ⟨_, h2⟩ := h
        by_cases hfree : bm.freeList = []
        · obtain ⟨q1, _, q3, _, q5, _, q7⟩ := allocPage_null bm bm1 p hfree ha
          subst q1
          simp only [Option.isSome_none, Bool.false_eq_true, if_false] at h2
          subst h2
          have := ih bm1 bm2 rest (by rw [q5]; exact hinv) (by rw [q7]; exact hpc)
            (by rw [q3]; exact hac) hm
          rw [q3] at this
          exact this
        · obtain ⟨bid, d, _, q2, _, _, q5, _, _, _, _, _, _, _, _, _, _, _, _, q18, q19, q20⟩ :=
            allocPage_some bm bm1 p hinv hpc hac hfree ha
          subst q2
          simp only [Option.isSome_some, if_true] at h2
          subst h2
          have := ih bm1 bm2 rest q18 (by rw [q19]; exact hpc) (by rw [q5]; omega) hm
          rw [q5] at this
          rw [q5]
          simp only [Nat.add_sub_cancel, List.length_cons]
          rw [List.range'_succ]
          congr 1

/-- C9 (amended). For every buffer-manager state with a well-formed page table and a
non-empty free list in which `allocPage()` returns (none of its `ensure` checks fails):
it pops the BID on top of the free list, gives the new page the PID equal to the previous
counter value and increments the counter, binds that PID (absent before) to a descriptor
with that BID and exactly the flags dirty, in_use and marked, leaves every other entry
alone, sets the frame's back-pointer to the PID, zero-fills the 4096-byte page and returns
it. Consequently the PIDs handed out by successive calls from the initial counter value 1
are 1, 2, 3, ... and never 0. -/
theorem allocPage_contract :
    (∀ (bm bm' : BufferManager) (p : PagePtr), Inv bm.page_table →
      bm.page_count ≤ 2 ^ 52 → bm.allocCount < 2 ^ 64 → bm.freeList ≠ [] →
      bm.allocPage = .ok (bm', p) →
      ∃ bid d, bm.freeList.getLast? = some bid ∧ p = some bid ∧ bid < bm.page_count ∧
        bm'.freeList = bm.freeList.dropLast ∧ bm'.allocCount = bm.allocCount + 1 ∧
        bm'.physUsedCount = (bm.physUsedCount + 1) % 2 ^ 64 ∧
        bm.page_table.lookup bm.allocCount = none ∧
        bm'.page_table.lookup bm.allocCount = some d ∧ d.id = bid ∧
        d.dirty = true ∧ d.in_use = true ∧ d.marked = true ∧
        d.evicting = false ∧ d.io_lock = false ∧
        (∀ pid', pid' ≠ bm.allocCount →
          bm'.page_table.lookup pid' = bm.page_table.lookup pid') ∧
        (bm'.buffer_frames bid).pid = bm.allocCount ∧
        bm'.pages bid = List.replicate 4096 0) ∧
    (∀ (n : Nat) (bm bm' : BufferManager) (pids : List Nat), Inv bm.page_table →
      bm.page_count ≤ 2 ^ 52 → bm.allocCount = 1 → allocMany n bm = .ok (bm', pids) →
      pids = List.range' 1 pids.length ∧ 0 ∉ pids) := by
  constructor
  · intro bm bm' p hinv hpc hac hfree h
    obtain ⟨bid, d, q⟩ := allocPage_some bm bm' p hinv hpc hac hfree h
    refine ⟨bid, d, ?_⟩
    obtain ⟨q1, q2, q3, q4, q5, q6, q7, q8, q9, q10, q11, q12, q13, q14, q15, q16, q17, _⟩ := q
    exact ⟨q1, q2, q3, q4, q5, q6, q7, q8, q9, q10, q11, q12, q13, q14, q15, q16, q17⟩
  · intro n bm bm' pids hinv hpc hac h
    have := allocMany_pids n bm bm' pids hinv hpc (by rw [hac]; decide) h
    rw [hac] at this
    refine ⟨this, ?_⟩
    rw [this]
    simp only [List.mem_range', not_exists, not_and]
    intro x _
    omega

/-- Instance of `allocPage_contract`: after `init()` with 4 frames, three successive
`allocPage()` calls succeed and hand out the PIDs 1, 2, 3. -/
theorem allocPage_contract_witness :
    allocMany 3 bmInit4 = .ok (okOr emptyManager ((allocMany 3 bmInit4).map Prod.fst), [1, 2, 3]) ∧
      [1, 2, 3] = List.range' 1 3 ∧ 0 ∉ [1, 2, 3] :=
  ⟨rfl, allocPage_contract.2 3 bmInit4 _ [1, 2, 3]
    (init_inv ⟨64, 1, 10⟩ 4 8 bmInit4 (by decide) rfl).1 (by decide) rfl rfl⟩

/-- C9, counterexample. After `init()` with 4 frames, a fiber faults on PID 1 (which
`handleFault` makes resident before any allocation). The free list is then `[3, 2]`, not
empty, yet `allocPage()` returns no page: the PID counter is still 1, the page-table
insert reports an update, and `ensure(inserted)` fails. -/
theorem allocPage_counterexample :
    init ⟨64, 1, 10⟩ 4 8 = .ok bmInit4 ∧
      bmInit4.handleFault_begin 1 1 = .ok (bmFault1, .reading 1) ∧
      bmFault1.freeList = [3, 2] ∧ bmFault1.allocCount = 1 ∧
      failsWith bmFault1.allocPage .not_inserted = true :=
  ⟨rfl, rfl, by decide, by decide, by decide⟩

end BufferManager
namespace BufferManager

open RHBSU64Map

theorem allocPage_null_ok (bm : BufferManager) (hfree : bm.freeList = [])
    (hr : bm.r.ready_.length ≠ BaseReactor.MAX_FIBERS) :
    ∃ bm', bm.allocPage = .ok (bm', none) := by
  obtain ⟨bm1, he⟩ := ensureFreePages_ok bm hr
  obtain ⟨ef, r1, rfl⟩ := ensureFreePages_eq bm bm1 he
  unfold allocPage
  rw [he]
  simp only [hfree, List.isEmpty_nil, if_true]
  exact ⟨_, rfl⟩

/-- `handleFault` on an empty free list: it yields and returns; only the eviction fiber may
have been woken. -/
theorem handleFault_empty (bm bm' : BufferManager) (self pid : Nat) (s : Suspended)
    (hfree : bm.freeList = []) (h : bm.handleFault_begin self pid = .ok (bm', s)) :
    s = .yielded ∧ bm'.page_table = bm.page_table ∧ bm'.freeList = bm.freeList := by
  unfold handleFault_begin at h
  cases he : bm.ensureFreePages with
  | error e => rw [he] at h; simp at h
  | ok bm1 =>
    rw [he] at h
    obtain ⟨ef, r1, rfl⟩ := ensureFreePages_eq bm bm1 he
    simp only [hfree, List.isEmpty_nil, if_true, Except.ok.injEq, Prod.mk.injEq] at h
    obtain ⟨h1, h2⟩ := h
    subst h1; subst h2
    exact ⟨rfl, rfl, hfree.symm⟩

theorem handleFault_empty_ok (bm : BufferManager) (self pid : Nat) (hfree : bm.freeList = [])
    (hr : bm.r.ready_.length ≠ BaseReactor.MAX_FIBERS) :
    ∃ bm', bm.handleFault_begin self pid = .ok (bm', .yielded) := by
  obtain ⟨bm1, he⟩ := ensureFreePages_ok bm hr
  obtain ⟨ef, r1, rfl⟩ := ensureFreePages_eq bm bm1 he
  unfold handleFault_begin
  rw [he]
  simp only [hfree, List.isEmpty_nil, if_true]
  exact ⟨_, rfl⟩

/-- C10 (amended). When exactly one free frame remains and `allocPage()` returns (no
`ensure` check fails), it returns that frame and leaves the free list empty. The next
`allocPage()` returns whenever the ready ring has room for waking the evictor, and when it
returns it yields null, records restart-context `Alloc` and leaves the PID counter, the
used-frame counter, the page table and the free list unchanged. `handleFault` called with
an empty free list, under the same proviso, only yields and touches neither the page table
nor the free list. -/
theorem lastFrame_contract :
    (∀ (bm bm' : BufferManager) (p : PagePtr) (bid : Nat), Inv bm.page_table →
      bm.page_count ≤ 2 ^ 52 → bm.allocCount < 2 ^ 64 → bm.freeList = [bid] →
      bm.allocPage = .ok (bm', p) →
      p = some bid ∧ bm'.freeList = [] ∧
      (bm'.r.ready_.length ≠ BaseReactor.MAX_FIBERS → ∃ bm'', bm'.allocPage = .ok (bm'', none)) ∧
      (∀ bm'' q, bm'.allocPage = .ok (bm'', q) →
        q = none ∧ bm''.restart_ctx = .AllocException ∧ bm''.allocCount = bm'.allocCount ∧
        bm''.physUsedCount = bm'.physUsedCount ∧ bm''.page_table = bm'.page_table ∧
        bm''.freeList = bm'.freeList)) ∧
    (∀ (bm : BufferManager) (self pid : Nat), bm.freeList = [] →
      (bm.r.ready_.length ≠ BaseReactor.MAX_FIBERS →
        ∃ bm', bm.handleFault_begin self pid = .ok (bm', .yielded)) ∧
      (∀ bm' s, bm.handleFault_begin self pid = .ok (bm', s) →
        s = .yielded ∧ bm'.page_table = bm.page_table ∧ bm'.freeList = bm.freeList)) := by
  constructor
  · intro bm bm' p bid hinv hpc hac hfree h
    obtain ⟨bid', d, q1, q2, _, q4, _⟩ :=
      allocPage_some bm bm' p hinv hpc hac (by rw [hfree]; simp) h
    rw [hfree] at q1 q4
    simp only [List.getLast?_singleton, Option.some.injEq] at q1
    subst q1
    have hempty : bm'.freeList = [] := by rw [q4]; rfl
    refine ⟨q2, hempty, allocPage_null_ok bm' hempty, ?_⟩
    intro bm'' q hq
    obtain ⟨r1, r2, r3, r4, r5, r6, _⟩ := allocPage_null bm' bm'' q hempty hq
    exact ⟨r1, r2, r3, r4, r5, r6⟩
  · intro bm self pid hfree
    exact ⟨handleFault_empty_ok bm self pid hfree,
      fun bm' s h => handleFault_empty bm bm' self pid s hfree h⟩

/-- Instance of `lastFrame_contract`: after `init()` with 2 frames the single free frame 1
is handed out, and the next `allocPage()` returns null. -/
theorem lastFrame_contract_witness :
    bmInit2.freeList = [1] ∧ bmInit2.allocPage = .ok (bmInit2Alloc, some 1) ∧
      bmInit2Alloc.freeList = [] ∧ ∃ bm'', bmInit2Alloc.allocPage = .ok (bm'', none) :=
  have h := lastFrame_contract.1 bmInit2 bmInit2Alloc (some 1) 1
    (init_inv ⟨64, 1, 10⟩ 2 4 bmInit2 (by decide) rfl).1 (by decide) (by decide) rfl rfl
  ⟨rfl, rfl, h.2.1, h.2.2.1 (by decide)⟩

/-- C10, counterexample. After `init()` with 3 frames and a fault on PID 1, exactly one
free frame (BID 2) remains, yet `allocPage()` does not succeed: the PID counter is still 1,
PID 1 is resident, and `ensure(inserted)` fails. -/
theorem lastFrame_counterexample :
    (okOr emptyManager (init ⟨64, 1, 10⟩ 3 8)).handleFault_begin 1 1
        = .ok (bmFault1of3, .reading 1) ∧
      bmFault1of3.freeList = [2] ∧
      failsWith bmFault1of3.allocPage .not_inserted = true :=
  ⟨rfl, by decide, by decide⟩

end BufferManager
/-! ## Byte strings: `memcmp`, `head` and the lexicographic order -/

open Tpcc (memcmp)

theorem cons_lt_cons_iff (x y : Nat) (a b : List Nat) :
    x :: a < y :: b ↔ x < y ∨ (x = y ∧ a < b) := by
  constructor
  · intro h
    cases h with
    | cons h => exact Or.inr ⟨rfl, h⟩
    | rel h => exact Or.inl h
  · rintro (h | ⟨rfl, h⟩)
    · exact List.Lex.rel h
    · exact List.Lex.cons h

theorem not_lt_nil (a : List Nat) : ¬ a < [] := by
  intro h; cases h

theorem nil_lt_cons (x : Nat) (a : List Nat) : [] < x :: a := List.Lex.nil

theorem append_lt_append (p a b : List Nat) (h : a < b) : p ++ a < p ++ b :=
  List.Lex.append_left _ h p

theorem lt_of_append_lt_append (p a b : List Nat) (h : p ++ a < p ++ b) : a < b := by
  induction p with
  | nil => exact h
  | cons x p ih =>
    rw [List.cons_append, List.cons_append, cons_lt_cons_iff] at h
    rcases h with h | ⟨_, h⟩
    · exact absurd h (Nat.lt_irrefl _)
    · exact ih h

theorem append_le_append (p a b : List Nat) (h : a ≤ b) : p ++ a ≤ p ++ b := by
  rcases le_iff_lt_or_eq.mp h with h | h
  · exact le_of_lt (append_lt_append p a b h)
  · rw [h]

theorem lt_append_right (a x : List Nat) (hx : x ≠ []) : a < a ++ x := by
  induction a with
  | nil =>
    cases x with
    | nil => exact absurd rfl hx
    | cons y x => exact nil_lt_cons y x
  | cons z a ih => rw [List.cons_append, cons_lt_cons_iff]; exact Or.inr ⟨rfl, ih⟩

theorem umin_eq_min (a b : Nat) : umin a b = min a b := by
  unfold umin; split <;> omega

theorem umin_succ (a b : Nat) : umin (a + 1) (b + 1) = umin a b + 1 := by
  simp only [umin_eq_min]; omega

theorem memcmp_lt (a p x : List Nat) (h : memcmp a p (umin a.length p.length) < 0) :
    a < p ++ x := by
  induction a generalizing p with
  | nil => simp [memcmp] at h
  | cons y a ih =>
    cases p with
    | nil => simp [memcmp] at h
    | cons z p =>
      simp only [List.length_cons, umin_succ, memcmp] at h
      rw [List.cons_append, cons_lt_cons_iff]
      by_cases h1 : y < z
      · exact Or.inl h1
      · rw [if_neg h1] at h
        by_cases h2 : z < y
        · rw [if_pos h2] at h; omega
        · rw [if_neg h2] at h
          exact Or.inr ⟨by omega, ih p h⟩

theorem memcmp_gt (a p x : List Nat) (h : 0 < memcmp a p (umin a.length p.length)) :
    p ++ x < a := by
  induction a generalizing p with
  | nil => simp [memcmp] at h
  | cons y a ih =>
    cases p with
    | nil => simp [memcmp] at h
    | cons z p =>
      simp only [List.length_cons, umin_succ, memcmp] at h
      rw [List.cons_append, cons_lt_cons_iff]
      by_cases h1 : y < z
      · rw [if_pos h1] at h; omega
      · rw [if_neg h1] at h
        by_cases h2 : z < y
        · exact Or.inl h2
        · rw [if_neg h2] at h
          exact Or.inr ⟨by omega, ih p h⟩

theorem memcmp_eq_short (a p x : List Nat) (h : memcmp a p (umin a.length p.length) = 0)
    (hl : a.length < p.length) : a < p ++ x := by
  induction a generalizing p with
  | nil =>
    cases p with
    | nil => simp at hl
    | cons z p => exact nil_lt_cons _ _
  | cons y a ih =>
    cases p with
    | nil => simp at hl
    | cons z p =>
      simp only [List.length_cons, umin_succ, memcmp] at h
      simp only [List.length_cons, Nat.add_lt_add_iff_right] at hl
      rw [List.cons_append, cons_lt_cons_iff]
      by_cases h1 : y < z
      · exact Or.inl h1
      · rw [if_neg h1] at h
        by_cases h2 : z < y
        · rw [if_pos h2] at h; omega
        · rw [if_neg h2] at h
          exact Or.inr ⟨by omega, ih p h hl⟩

theorem memcmp_eq_long (a p : List Nat) (h : memcmp a p (umin a.length p.length) = 0)
    (hl : p.length ≤ a.length) : p ++ a.drop p.length = a := by
  induction a generalizing p with
  | nil =>
    cases p with
    | nil => rfl
    | cons z p => simp at hl
  | cons y a ih =>
    cases p with
    | nil => rfl
    | cons z p =>
      simp only [List.length_cons, umin_succ, memcmp] at h
      simp only [List.length_cons, Nat.add_le_add_iff_right] at hl
      by_cases h1 : y < z
      · rw [if_pos h1] at h; omega
      · rw [if_neg h1] at h
        by_cases h2 : z < y
        · rw [if_pos h2] at h; omega
        · rw [if_neg h2] at h
          have : y = z := by omega
          subst this
          simp only [List.length_cons, List.drop_succ_cons, List.cons_append]
          rw [ih p h hl]

theorem memcmp_self_append (p x : List Nat) :
    memcmp (p ++ x) p (umin (p ++ x).length p.length) = 0 := by
  induction p with
  | nil => cases x <;> simp [memcmp]
  | cons z p ih =>
    simp only [List.cons_append, List.length_cons, umin_succ, memcmp, Nat.lt_irrefl, if_false]
    exact ih

theorem head_eq_headN (l : List Nat) : head l = headN 4 l := by
  match l with
  | [] => rfl
  | [a] => simp [head, headN]
  | [a, b] => simp only [head, headN]; omega
  | [a, b, c] => simp only [head, headN]; omega
  | a :: b :: c :: d :: _ => simp only [head, headN]; omega

theorem isBytes_cons {x : Nat} {l : List Nat} (h : isBytes (x :: l)) : x < 256 ∧ isBytes l :=
  ⟨h x (List.mem_cons_self _ _), fun b hb => h b (List.mem_cons_of_mem _ hb)⟩

theorem isBytes_append {a b : List Nat} : isBytes (a ++ b) ↔ isBytes a ∧ isBytes b := by
  unfold isBytes
  simp only [List.mem_append]
  constructor
  · intro h; exact ⟨fun x hx => h x (Or.inl hx), fun x hx => h x (Or.inr hx)⟩
  · rintro ⟨h1, h2⟩ x (hx | hx)
    · exact h1 x hx
    · exact h2 x hx

theorem isBytes_drop {a : List Nat} (k : Nat) (h : isBytes a) : isBytes (a.drop k) :=
  fun b hb => h b (List.mem_of_mem_drop hb)

theorem isBytes_take {a : List Nat} (k : Nat) (h : isBytes a) : isBytes (a.take k) :=
  fun b hb => h b (List.mem_of_mem_take hb)

theorem headN_lt_pow (n : Nat) (l : List Nat) (h : isBytes l) : headN n l < 256 ^ n := by
  induction n generalizing l with
  | zero => simp [headN]
  | succ n ih =>
    cases l with
    | nil => simp only [headN]; positivity
    | cons x l =>
      obtain ⟨hx, hl⟩ := isBytes_cons h
      have := ih l hl
      simp only [headN, Nat.pow_succ]
      have h2 : x * 256 ^ n ≤ 255 * 256 ^ n := Nat.mul_le_mul_right _ (by omega)
      omega

theorem lt_of_headN_lt (n : Nat) (a b : List Nat) (ha : isBytes a) (hb : isBytes b)
    (h : headN n a < headN n b) : a < b := by
  induction n generalizing a b with
  | zero => simp [headN] at h
  | succ n ih =>
    cases a with
    | nil =>
      cases b with
      | nil => simp [headN] at h
      | cons y b => exact nil_lt_cons y b
    | cons x a =>
      cases b with
      | nil => simp [headN] at h
      | cons y b =>
        obtain ⟨_, ha2⟩ := isBytes_cons ha
        obtain ⟨_, hb2⟩ := isBytes_cons hb
        have la := headN_lt_pow n a ha2
        have lb := headN_lt_pow n b hb2
        simp only [headN] at h
        rw [cons_lt_cons_iff]
        rcases Nat.lt_trichotomy x y with hxy | hxy | hxy
        · exact Or.inl hxy
        · subst hxy
          exact Or.inr ⟨rfl, ih a b ha2 hb2 (by omega)⟩
        · exfalso
          have : (y + 1) * 256 ^ n ≤ x * 256 ^ n := Nat.mul_le_mul_right _ hxy
          rw [Nat.succ_mul] at this
          omega

theorem lt_of_head_lt (a b : List Nat) (ha : isBytes a) (hb : isBytes b)
    (h : head a < head b) : a < b := by
  rw [head_eq_headN, head_eq_headN] at h
  exact lt_of_headN_lt 4 a b ha hb h

theorem head_le_of_le (a b : List Nat) (ha : isBytes a) (hb : isBytes b) (h : a ≤ b) :
    head a ≤ head b := by
  by_contra hc
  exact absurd (lt_of_head_lt b a hb ha (by omega)) (not_lt.mpr h)
/-! ## Searching a page: `searchHint`, `lowerBound` -/

namespace BTreeNode

theorem slotAt_mem (n : BTreeNode) (i : Nat) (hi : i < n.count) : n.slotAt i ∈ n.slot := by
  unfold slotAt
  rw [List.getD_eq_getElem _ _ hi]
  exact List.getElem_mem hi

theorem slotAt_lt (n : BTreeNode) (i : Nat) (hi : i < n.count) :
    n.slotAt i = n.slot[i] := by
  unfold slotAt
  exact List.getD_eq_getElem _ _ hi

theorem getKey_le (n : BTreeNode) (h : SlotsOK n) (i j : Nat) (hij : i ≤ j) (hj : j < n.count) :
    n.getKey i ≤ n.getKey j := by
  rcases Nat.eq_or_lt_of_le hij with e | hlt
  · rw [e]
  · have hi : i < n.count := by omega
    have hs := List.pairwise_iff_getElem.mp h.sorted i j
      (by simpa using hi) (by simpa using hj) hlt
    simp only [List.getElem_map] at hs
    unfold getKey slotAt
    rw [List.getD_eq_getElem _ _ hi, List.getD_eq_getElem _ _ hj]
    exact hs

theorem getKey_bytes (n : BTreeNode) (h : SlotsOK n) (i : Nat) (hi : i < n.count) :
    isBytes (n.getKey i) := h.bytes _ (n.slotAt_mem i hi)

theorem slotAt_head (n : BTreeNode) (h : SlotsOK n) (i : Nat) (hi : i < n.count) :
    (n.slotAt i).head = head (n.getKey i) := h.head_eq _ (n.slotAt_mem i hi)

/-- The comparison at a slot, read as the order of the keys. -/
theorem cmpSlot_spec (n : BTreeNode) (h : SlotsOK n) (key : List Nat) (hk : isBytes key)
    (mid : Nat) (hm : mid < n.count) :
    (n.cmpSlot key (head key) mid = .lt → key < n.getKey mid) ∧
    (n.cmpSlot key (head key) mid = .gt → n.getKey mid < key) ∧
    (n.cmpSlot key (head key) mid = .eq → n.getKey mid = key) := by
  have hb := n.getKey_bytes h mid hm
  have hh := n.slotAt_head h mid hm
  have hlen : (n.slotAt mid).keyLen = (n.getKey mid).length := rfl
  unfold cmpSlot
  rw [hh, hlen]
  by_cases b1 : head key < head (n.getKey mid)
  · rw [if_pos b1]
    exact ⟨fun _ => lt_of_head_lt _ _ hk hb b1, fun c => by simp at c, fun c => by simp at c⟩
  rw [if_neg b1]
  by_cases b2 : head key > head (n.getKey mid)
  · rw [if_pos b2]
    exact ⟨fun c => by simp at c, fun _ => lt_of_head_lt _ _ hb hk b2, fun c => by simp at c⟩
  rw [if_neg b2]
  simp only []
  generalize hc : Tpcc.memcmp key (n.getKey mid) (umin key.length (n.getKey mid).length) = c
  by_cases b3 : c < 0
  · rw [if_pos b3]
    refine ⟨fun _ => ?_, fun c => by simp at c, fun c => by simp at c⟩
    simpa using memcmp_lt key (n.getKey mid) [] (by rw [hc]; exact b3)
  rw [if_neg b3]
  by_cases b4 : c > 0
  · rw [if_pos b4]
    refine ⟨fun c => by simp at c, fun _ => ?_, fun c => by simp at c⟩
    simpa using memcmp_gt key (n.getKey mid) [] (by rw [hc]; exact b4)
  rw [if_neg b4]
  have hc0 : c = 0 := by omega
  subst hc0
  by_cases b5 : key.length < (n.getKey mid).length
  · rw [if_pos b5]
    refine ⟨fun _ => ?_, fun c => by simp at c, fun c => by simp at c⟩
    simpa using memcmp_eq_short key (n.getKey mid) [] hc b5
  rw [if_neg b5]
  have e := memcmp_eq_long key (n.getKey mid) hc (by omega)
  by_cases b6 : key.length > (n.getKey mid).length
  · rw [if_pos b6]
    refine ⟨fun c => by simp at c, fun _ => ?_, fun c => by simp at c⟩
    rw [← e]
    apply lt_append_right
    intro hnil
    have := congrArg List.length hnil
    simp only [List.length_drop, List.length_nil] at this
    omega
  rw [if_neg b6]
  refine ⟨fun c => by simp at c, fun c => by simp at c, fun _ => ?_⟩
  rw [List.drop_of_length_le (by omega), List.append_nil] at e
  exact e

theorem lowerBoundLoop_succ (n : BTreeNode) (key : List Nat) (keyHead fuel lower upper : Nat) :
    n.lowerBoundLoop key keyHead (fuel + 1) lower upper =
      if lower < upper then
        match n.cmpSlot key keyHead ((upper - lower) / 2 + lower) with
        | .lt => n.lowerBoundLoop key keyHead fuel lower ((upper - lower) / 2 + lower)
        | .gt => n.lowerBoundLoop key keyHead fuel ((upper - lower) / 2 + lower + 1) upper
        | .eq => ((upper - lower) / 2 + lower, true)
      else (lower, false) := by
  rw [lowerBoundLoop]
  unfold cmpSlot
  simp only []
  split_ifs <;> rfl

theorem lowerBoundLoop_spec (n : BTreeNode) (h : SlotsOK n) (key : List Nat) (hk : isBytes key) :
    ∀ (fuel lower upper : Nat) (r : Nat × Bool), lower ≤ upper → upper ≤ n.count →
      upper - lower < fuel →
      (∀ i, i < lower → n.getKey i < key) →
      (∀ i, upper ≤ i → i < n.count → key < n.getKey i) →
      n.lowerBoundLoop key (head key) fuel lower upper = r →
      (r.2 = true → r.1 < n.count ∧ n.getKey r.1 = key) ∧
      (r.2 = false → r.1 ≤ n.count ∧ (∀ i, i < r.1 → n.getKey i < key) ∧
        (∀ i, r.1 ≤ i → i < n.count → key < n.getKey i)) := by
  intro fuel
  induction fuel with
  | zero => intro lower upper _ _ _ hf; omega
  | succ fuel ih =>
    intro lower upper r hlu huc hf hlo hup hr
    rw [lowerBoundLoop_succ] at hr
    by_cases hlt : lower < upper
    · rw [if_pos hlt] at hr
      have hmid1 : lower ≤ (upper - lower) / 2 + lower := by omega
      have hmid2 : (upper - lower) / 2 + lower < upper := by omega
      generalize (upper - lower) / 2 + lower = mid at hmid1 hmid2 hr
      have hm : mid < n.count := by omega
      obtain ⟨c1, c2, c3⟩ := n.cmpSlot_spec h key hk mid hm
      cases hc : n.cmpSlot key (head key) mid with
      | lt =>
        rw [hc] at hr
        have hlt2 := c1 hc
        refine ih lower mid r hmid1 (by omega) (by omega) hlo
          (fun i hi hc => lt_of_lt_of_le hlt2 (n.getKey_le h mid i hi hc)) hr
      | gt =>
        rw [hc] at hr
        have hgt := c2 hc
        refine ih (mid + 1) upper r (by omega) huc (by omega)
          (fun i hi => lt_of_le_of_lt (n.getKey_le h i mid (by omega) hm) hgt) hup hr
      | eq =>
        rw [hc] at hr
        subst hr
        exact ⟨fun _ => ⟨hm, c3 hc⟩, fun hc => by simp at hc⟩
    · rw [if_neg hlt] at hr
      have : lower = upper := by omega
      subst this
      subst hr
      exact ⟨fun hc => by simp at hc, fun _ => ⟨huc, hlo, hup⟩⟩

theorem hintScan_spec (n : BTreeNode) (p : Nat → Bool) :
    ∀ (fuel pos : Nat), pos ≤ hintCount → hintCount - pos ≤ fuel →
      pos ≤ n.hintScan p fuel pos ∧ n.hintScan p fuel pos ≤ hintCount ∧
      (∀ j, pos ≤ j → j < n.hintScan p fuel pos → p (n.hint j) = false) ∧
      (n.hintScan p fuel pos < hintCount → p (n.hint (n.hintScan p fuel pos)) = true) := by
  intro fuel
  induction fuel with
  | zero =>
    intro pos h1 h2
    have : pos = hintCount := by omega
    subst this
    simp only [hintScan]
    exact ⟨Nat.le_refl _, Nat.le_refl _, fun j h3 h4 => by omega, fun h3 => by omega⟩
  | succ fuel ih =>
    intro pos h1 h2
    rw [hintScan]
    by_cases hp : pos < hintCount
    · rw [if_pos hp]
      by_cases hq : p (n.hint pos) = true
      · rw [if_pos hq]
        exact ⟨Nat.le_refl _, h1, fun j h3 h4 => by omega, fun _ => hq⟩
      · rw [if_neg hq]
        obtain ⟨a1, a2, a3, a4⟩ := ih (pos + 1) hp (by omega)
        refine ⟨by omega, a2, fun j h3 h4 => ?_, a4⟩
        rcases Nat.eq_or_lt_of_le h3 with e | hlt
        · subst e; simpa using hq
        · exact a3 j hlt h4
    · rw [if_neg hp]
      exact ⟨Nat.le_refl _, h1, fun j h3 h4 => by omega, fun h3 => by omega⟩

theorem slotAt_head_mono (n : BTreeNode) (h : SlotsOK n) (i j : Nat) (hij : i ≤ j)
    (hj : j < n.count) : (n.slotAt i).head ≤ (n.slotAt j).head := by
  have hi : i < n.count := by omega
  rw [n.slotAt_head h i hi, n.slotAt_head h j hj]
  exact head_le_of_le _ _ (n.getKey_bytes h i hi) (n.getKey_bytes h j hj) (n.getKey_le h i j hij hj)

/-- The range `searchHint` narrows the search to still brackets the key. -/
theorem searchHint_spec (n : BTreeNode) (h : SlotsOK n) (key : List Nat) (hk : isBytes key) :
    (n.searchHint (head key) 0 n.count).1 ≤ (n.searchHint (head key) 0 n.count).2 ∧
    (n.searchHint (head key) 0 n.count).2 ≤ n.count ∧
    (∀ i, i < (n.searchHint (head key) 0 n.count).1 → n.getKey i < key) ∧
    (∀ i, (n.searchHint (head key) 0 n.count).2 ≤ i → i < n.count → key < n.getKey i) := by
  unfold searchHint
  by_cases hc : n.count > hintCount * 2
  · rw [if_pos hc]
    simp only []
    have hc2 : 2 * hintCount < n.count := by omega
    have hint := h.hint_eq hc2
    obtain ⟨_, a2, a3, a4⟩ := n.hintScan_spec (fun x => decide (x ≥ head key)) hintCount 0
      (Nat.zero_le _) (by omega)
    generalize n.hintScan (fun x => decide (x ≥ head key)) hintCount 0 = pos at a2 a3 a4
    obtain ⟨b1, b2, b3, b4⟩ := n.hintScan_spec (fun x => decide (x ≠ head key)) hintCount pos
      a2 (by omega)
    generalize n.hintScan (fun x => decide (x ≠ head key)) hintCount pos = pos2 at b1 b2 b3 b4
    have hdist : n.count / (hintCount + 1) * (hintCount + 1) ≤ n.count := Nat.div_mul_le_self _ _
    generalize hd : n.count / (hintCount + 1) = dist at hint hdist
    have hdpos : 0 < dist := by
      rw [← hd]; apply Nat.div_pos <;> simp only [hintCount] at * <;> omega
    simp only [hintCount] at *
    -- sampled slots are inside the page
    have inside : ∀ i, i < 16 → dist * (i + 1) < n.count := by
      intro i hi
      have : dist * (i + 1) ≤ dist * 16 := Nat.mul_le_mul_left _ (by omega)
      have e : dist * 17 = dist * 16 + dist := by ring
      rw [Nat.mul_comm] at hdist
      omega
    have lowerOK : ∀ i, i < pos * dist → n.getKey i < key := by
      intro i hi
      have hpos : 0 < pos := by
        rcases Nat.eq_zero_or_pos pos with e | e
        · subst e; simp at hi
        · exact e
      have hlt := a3 (pos - 1) (Nat.zero_le _) (by omega)
      simp only [decide_eq_false_iff_not, ge_iff_le, not_le] at hlt
      rw [hint (pos - 1) (by omega), Nat.sub_add_cancel hpos] at hlt
      have hin := inside (pos - 1) (by omega)
      rw [Nat.sub_add_cancel hpos] at hin
      rw [n.slotAt_head h _ hin] at hlt
      have := lt_of_head_lt _ _ (n.getKey_bytes h _ hin) hk hlt
      rw [Nat.mul_comm] at hi
      exact lt_of_le_of_lt (n.getKey_le h i _ (by omega) hin) this
    by_cases hp2 : pos2 < 16
    · rw [if_pos hp2]
      have hin := inside pos2 hp2
      have hne := b4 hp2
      simp only [decide_eq_true_eq] at hne
      have hge : head key ≤ n.hint pos2 := by
        rcases Nat.eq_or_lt_of_le b1 with e | hlt
        · subst e
          have := a4 hp2
          simpa using this
        · have e1 := b3 pos (Nat.le_refl _) hlt
          simp only [ne_eq, decide_not, Bool.not_eq_false', decide_eq_true_eq] at e1
          rw [← e1, hint pos (by omega), hint pos2 hp2]
          exact n.slotAt_head_mono h _ _ (Nat.mul_le_mul_left _ (by omega)) hin
      have hgt : head key < n.hint pos2 := by omega
      rw [hint pos2 hp2, n.slotAt_head h _ hin] at hgt
      have hkey := lt_of_head_lt _ _ hk (n.getKey_bytes h _ hin) hgt
      refine ⟨?_, ?_, lowerOK, ?_⟩
      · exact Nat.mul_le_mul_right _ (by omega)
      · rw [Nat.mul_comm]; omega
      · intro i hi hic
        rw [Nat.mul_comm] at hi
        exact lt_of_lt_of_le hkey (n.getKey_le h _ i hi hic)
    · rw [if_neg hp2]
      refine ⟨?_, Nat.le_refl _, lowerOK, fun i hi hic => by omega⟩
      have := inside (pos - 1)
      have : pos * dist ≤ 16 * dist := Nat.mul_le_mul_right _ a2
      have e : dist * 17 = dist * 16 + dist := by ring
      rw [Nat.mul_comm] at hdist
      omega
  · rw [if_neg hc]
    exact ⟨Nat.zero_le _, Nat.le_refl _, fun i hi => by omega, fun i hi hic => by omega⟩

theorem commonPrefixLen_le (l u : List Nat) :
    commonPrefixLen l u ≤ l.length ∧ commonPrefixLen l u ≤ u.length := by
  induction l generalizing u with
  | nil => simp [commonPrefixLen]
  | cons a l ih =>
    cases u with
    | nil => simp [commonPrefixLen]
    | cons b u =>
      simp only [commonPrefixLen, List.length_cons]
      split
      · have := ih u; omega
      · omega

theorem SlotsOK.prefixLen_le {n : BTreeNode} (h : SlotsOK n) :
    n.prefixLen ≤ n.lowerFence.length := by
  rw [h.prefix_eq]
  exact (commonPrefixLen_le _ _).1

theorem getPrefix_length (n : BTreeNode) (h : SlotsOK n) : n.getPrefix.length = n.prefixLen := by
  unfold getPrefix
  rw [List.length_take]
  have := h.prefixLen_le
  omega

/-- The result of `lowerBound` on a well-formed page, for any search key: with
`foundExactOut` the slot returned holds the key; without it the slots before the one
returned hold smaller keys and the other slots hold larger keys. -/
theorem lowerBound_spec (n : BTreeNode) (h : SlotsOK n) (skey : List Nat) (hk : isBytes skey)
    (r : Nat × Bool) (hr : n.lowerBound skey = r) :
    (r.2 = true → r.1 < n.count ∧ n.getPrefix ++ n.getKey r.1 = skey) ∧
    (r.2 = false → r.1 ≤ n.count ∧ (∀ i, i < r.1 → n.getPrefix ++ n.getKey i < skey) ∧
      (∀ i, r.1 ≤ i → i < n.count → skey < n.getPrefix ++ n.getKey i)) := by
  have hlen := n.getPrefix_length h
  unfold lowerBound at hr
  simp only [] at hr
  rw [← hlen] at hr
  by_cases b1 : Tpcc.memcmp skey n.getPrefix (umin skey.length n.getPrefix.length) < 0
  · rw [if_pos b1] at hr
    subst hr
    exact ⟨fun c => by simp at c, fun _ => ⟨Nat.zero_le _, fun i hi => by omega,
      fun i _ _ => memcmp_lt _ _ _ b1⟩⟩
  rw [if_neg b1] at hr
  by_cases b2 : Tpcc.memcmp skey n.getPrefix (umin skey.length n.getPrefix.length) > 0
  · rw [if_pos b2] at hr
    subst hr
    exact ⟨fun c => by simp at c, fun _ => ⟨Nat.le_refl _, fun i _ => memcmp_gt _ _ _ b2,
      fun i h1 h2 => by omega⟩⟩
  rw [if_neg b2] at hr
  have b0 : Tpcc.memcmp skey n.getPrefix (umin skey.length n.getPrefix.length) = 0 := by omega
  by_cases b3 : skey.length < n.getPrefix.length
  · rw [if_pos b3] at hr
    subst hr
    exact ⟨fun c => by simp at c, fun _ => ⟨Nat.zero_le _, fun i hi => by omega,
      fun i _ _ => memcmp_eq_short _ _ _ b0 b3⟩⟩
  rw [if_neg b3] at hr
  have e := memcmp_eq_long skey n.getPrefix b0 (by omega)
  generalize hkey : skey.drop n.getPrefix.length = key at hr e
  have hkb : isBytes key := by rw [← hkey]; exact isBytes_drop _ hk
  obtain ⟨s1, s2, s3, s4⟩ := n.searchHint_spec h key hkb
  obtain ⟨l1, l2⟩ := n.lowerBoundLoop_spec h key hkb (n.count + 1) _ _ r s1 s2 (by omega) s3 s4 hr
  rw [← e]
  refine ⟨fun c => ?_, fun c => ?_⟩
  · obtain ⟨q1, q2⟩ := l1 c
    exact ⟨q1, by rw [q2]⟩
  · obtain ⟨q1, q2, q3⟩ := l2 c
    exact ⟨q1, fun i hi => append_lt_append _ _ _ (q2 i hi),
      fun i h1 h2 => append_lt_append _ _ _ (q3 i h1 h2)⟩

/-- In both outcomes of `lowerBound` the slot returned splits the page at the search key. -/
theorem lowerBound_le (n : BTreeNode) (h : SlotsOK n) (skey : List Nat) (hk : isBytes skey) :
    (n.lowerBound skey).1 ≤ n.count ∧
    (∀ i, i < (n.lowerBound skey).1 → n.getPrefix ++ n.getKey i ≤ skey) ∧
    (∀ i, (n.lowerBound skey).1 ≤ i → i < n.count → skey ≤ n.getPrefix ++ n.getKey i) := by
  obtain ⟨l1, l2⟩ := n.lowerBound_spec h skey hk _ rfl
  cases hf : (n.lowerBound skey).2 with
  | false =>
    obtain ⟨q1, q2, q3⟩ := l2 hf
    exact ⟨q1, fun i hi => le_of_lt (q2 i hi), fun i h1 h2 => le_of_lt (q3 i h1 h2)⟩
  | true =>
    obtain ⟨q1, q2⟩ := l1 hf
    refine ⟨le_of_lt q1, fun i hi => ?_, fun i h1 h2 => ?_⟩
    · rw [← q2]
      exact append_le_append _ _ _ (n.getKey_le h i _ (le_of_lt hi) q1)
    · rw [← q2]
      exact append_le_append _ _ _ (n.getKey_le h _ i h1 h2)

theorem mem_keys_iff (n : BTreeNode) (k : List Nat) :
    k ∈ n.keys ↔ ∃ i, i < n.count ∧ n.getPrefix ++ n.getKey i = k := by
  unfold keys
  rw [List.mem_map]
  constructor
  · rintro ⟨s, hs, e⟩
    obtain ⟨i, hi, rfl⟩ := List.mem_iff_getElem.mp hs
    refine ⟨i, hi, ?_⟩
    unfold getKey
    rw [n.slotAt_lt i hi]
    exact e
  · rintro ⟨i, hi, e⟩
    exact ⟨n.slotAt i, n.slotAt_mem i hi, e⟩

/-- A key stored in a well-formed page is found by `lowerBound`. -/
theorem lowerBound_found (n : BTreeNode) (h : SlotsOK n) (k : List Nat) (hk : isBytes k)
    (hmem : k ∈ n.keys) :
    (n.lowerBound k).2 = true ∧ (n.lowerBound k).1 < n.count ∧
      n.getPrefix ++ n.getKey (n.lowerBound k).1 = k := by
  obtain ⟨l1, l2⟩ := n.lowerBound_spec h k hk _ rfl
  cases hf : (n.lowerBound k).2 with
  | true => exact ⟨rfl, l1 hf⟩
  | false =>
    exfalso
    obtain ⟨_, q2, q3⟩ := l2 hf
    obtain ⟨i, hi, e⟩ := (n.mem_keys_iff k).mp hmem
    rcases Nat.lt_or_ge i (n.lowerBound k).1 with c | c
    · have := q2 i c
      rw [e] at this
      exact lt_irrefl _ this
    · have := q3 i c hi
      rw [e] at this
      exact lt_irrefl _ this

/-- A key that is not stored in a well-formed page is not found by `lowerBound`. -/
theorem lowerBound_not_found (n : BTreeNode) (h : SlotsOK n) (k : List Nat) (hk : isBytes k)
    (hmem : k ∉ n.keys) : (n.lowerBound k).2 = false := by
  obtain ⟨l1, _⟩ := n.lowerBound_spec h k hk _ rfl
  cases hf : (n.lowerBound k).2 with
  | false => rfl
  | true =>
    exfalso
    obtain ⟨q1, q2⟩ := l1 hf
    exact hmem ((n.mem_keys_iff k).mpr ⟨_, q1, q2⟩)

end BTreeNode
/-! ## Writing slots: `storeKeyValue`, `copyKeyValueRange`, `compactify` -/

theorem u16_sub (a b : Nat) (h1 : b ≤ a) (h2 : a < 2 ^ 16) : u16 ((a : Int) - b) = a - b := by
  unfold u16
  have : ((a : Int) - b) % 2 ^ 16 = ((a - b : Nat) : Int) := by omega
  rw [this]
  rfl

theorem u16_add (a b : Nat) (h : a + b < 2 ^ 16) : u16 ((a : Int) + b) = a + b := by
  unfold u16
  have : ((a : Int) + b) % 2 ^ 16 = ((a + b : Nat) : Int) := by omega
  rw [this]
  rfl

theorem u32_sub (a b : Nat) (h1 : b ≤ a) (h2 : a < 2 ^ 32) : u32 ((a : Int) - b) = a - b := by
  unfold u32
  have : ((a : Int) - b) % 2 ^ 32 = ((a - b : Nat) : Int) := by omega
  rw [this]
  rfl

theorem u32_add (a b : Nat) (h : a + b < 2 ^ 32) : u32 ((a : Int) + b) = a + b := by
  unfold u32
  have : ((a : Int) + b) % 2 ^ 32 = ((a + b : Nat) : Int) := by omega
  rw [this]
  rfl

namespace BTreeNode

/-- Key and payload of a slot, what a page stores in it. -/
theorem setSlot_append (n : BTreeNode) (s : Slot) :
    (n.setSlot n.slot.length s).slot = n.slot ++ [s] := by
  unfold setSlot
  simp

theorem drop_take_succ {α : Type} (l : List α) (m k : Nat) (hm : m < l.length) :
    (l.drop m).take (k + 1) = l[m] :: (l.drop (m + 1)).take k := by
  rw [List.drop_eq_getElem_cons hm, List.take_succ_cons]

theorem Appended.nil (dst : BTreeNode) : Appended dst dst [] :=
  ⟨by simp, by simp, by simp, rfl, rfl, rfl, rfl, rfl, rfl⟩

theorem Appended.step {dst dst1 res : BTreeNode} {x : Slot} {xs : List Slot}
    (h1 : Appended dst dst1 [x]) (h2 : Appended dst1 res xs)
    (hfit : x.size + (xs.map Slot.size).sum ≤ dst.dataOffset) :
    Appended dst res (x :: xs) := by
  refine ⟨?_, ?_, ?_, h2.lowerFence.trans h1.lowerFence, h2.upperFence.trans h1.upperFence,
    h2.prefixLen.trans h1.prefixLen, h2.isLeaf.trans h1.isLeaf,
    h2.upperInnerNode.trans h1.upperInnerNode, h2.hint.trans h1.hint⟩
  · rw [h2.slot, h1.slot]; simp
  · rw [h2.spaceUsed, h1.spaceUsed]; simp only [List.map_cons, List.sum_cons, List.map_nil,
      List.sum_nil]; omega
  · rw [h2.dataOffset, h1.dataOffset]; simp only [List.map_cons, List.sum_cons, List.map_nil,
      List.sum_nil]; omega

/-- Writing one slot at the end of the slot directory. -/
theorem appended_one (dst : BTreeNode) (slotId : Nat) (key payload : List Nat)
    (hlen : dst.slot.length = slotId)
    (hfit : key.length + payload.length ≤ dst.dataOffset) (hoff : dst.dataOffset < 2 ^ 16)
    (hused : dst.spaceUsed + (key.length + payload.length) < 2 ^ 16) :
    Appended dst
      (({ dst with dataOffset := u16 ((dst.dataOffset : Int) - ((key.length + payload.length : Nat) : Int)),
                   spaceUsed := u16 ((dst.spaceUsed : Int) + ((key.length + payload.length : Nat) : Int)) }).setSlot
        slotId ⟨u16 ((dst.dataOffset : Int) - ((key.length + payload.length : Nat) : Int)),
          head key, key, payload⟩)
      [⟨u16 ((dst.dataOffset : Int) - ((key.length + payload.length : Nat) : Int)),
          head key, key, payload⟩] := by
  subst hlen
  have e1 := u16_sub dst.dataOffset (key.length + payload.length) hfit hoff
  have e2 := u16_add dst.spaceUsed (key.length + payload.length) hused
  refine ⟨?_, ?_, ?_, rfl, rfl, rfl, rfl, rfl, rfl⟩
  · rw [setSlot_append]; simp
  · simp only [setSlot, e2, List.map_cons, List.map_nil, List.sum_cons, List.sum_nil, Slot.size,
      Nat.add_zero]
  · simp only [setSlot, e1, List.map_cons, List.map_nil, List.sum_cons, List.sum_nil, Slot.size,
      Nat.add_zero]

/-- The loop of `copyKeyValueRange` in the case that the prefix does not shrink: it
appends the source slots, each cut by the growth `d` of the prefix. -/
theorem copyLoop_grows (n : BTreeNode) (dstSlot srcSlot d : Nat) :
    ∀ (k i : Nat) (dst : BTreeNode), dst.prefixLen - n.prefixLen = d →
      dst.slot.length = dstSlot + i →
      srcSlot + i + k ≤ n.count →
      ((((n.slot.drop (srcSlot + i)).take k).map (trimSlot d)).map Slot.size).sum
        ≤ dst.dataOffset →
      dst.dataOffset < 2 ^ 16 →
      dst.spaceUsed + ((((n.slot.drop (srcSlot + i)).take k).map (trimSlot d)).map Slot.size).sum
        < 2 ^ 16 →
      Appended dst (copyLoop n true dstSlot srcSlot k i dst)
        (((n.slot.drop (srcSlot + i)).take k).map (trimSlot d)) := by
  intro k
  induction k with
  | zero =>
    intro i dst _ _ _ _ _ _
    simp only [copyLoop, List.take_zero, List.map_nil]
    exact Appended.nil dst
  | succ k ih =>
    intro i dst hd hlen hcnt hfit hoff hused
    have hm : srcSlot + i < n.slot.length := by unfold count at hcnt; omega
    rw [drop_take_succ _ _ _ hm] at hfit hused ⊢
    simp only [List.map_cons, List.sum_cons] at hfit hused ⊢
    rw [copyLoop]
    simp only [if_true]
    rw [n.slotAt_lt _ hm, hd]
    have hsz : (trimSlot d n.slot[srcSlot + i]).size =
        (n.slot[srcSlot + i].key.drop d).length + n.slot[srcSlot + i].payload.length := rfl
    rw [hsz] at hfit hused
    have h1 := appended_one dst (dstSlot + i)
      (n.slot[srcSlot + i].key.drop d) n.slot[srcSlot + i].payload
      hlen (by omega) hoff (by omega)
    have h1c : Appended dst _ [trimSlot d n.slot[srcSlot + i]] :=
      ⟨h1.slot, h1.spaceUsed, h1.dataOffset, h1.lowerFence, h1.upperFence, h1.prefixLen,
        h1.isLeaf, h1.upperInnerNode, h1.hint⟩
    have e1 := h1.dataOffset
    have e2 := h1.spaceUsed
    simp only [List.map_cons, List.map_nil, List.sum_cons, List.sum_nil, Slot.size,
      Nat.add_zero] at e1 e2
    refine Appended.step h1c (ih (i + 1) _ ?_ ?_ ?_ ?_ ?_ ?_) (by rw [hsz]; exact hfit)
    · exact hd
    · rw [setSlot]; simp; omega
    · omega
    · rw [e1]; exact Nat.le_sub_of_add_le (by rw [Nat.add_comm] at hfit; exact hfit)
    · rw [e1]; omega
    · rw [e2]
      rw [Nat.add_assoc]
      exact hused

theorem makeHint_hint (n : BTreeNode) (i : Nat) (hi : i < hintCount) :
    n.makeHint.hint i = (n.slotAt (n.count / (hintCount + 1) * (i + 1))).head := by
  simp only [makeHint, if_pos hi]

theorem slotAt_content (n : BTreeNode) (i : Nat) :
    (n.slotAt i).content = (n.slot.map Slot.content).getD i (default : Slot).content := by
  unfold slotAt
  rw [List.getD_map]

theorem slotAt_head_congr (n m : BTreeNode)
    (h : m.slot.map Slot.content = n.slot.map Slot.content) (i : Nat) :
    (m.slotAt i).head = (n.slotAt i).head := by
  have h1 := m.slotAt_content i
  have h2 := n.slotAt_content i
  rw [h, ← h2] at h1
  exact congrArg Prod.fst h1

theorem map_key_eq (l : List Slot) : l.map Slot.key = (l.map Slot.content).map (fun c => c.2.1) := by
  simp [Slot.content]

theorem map_size_eq (l : List Slot) :
    l.map Slot.size = (l.map Slot.content).map (fun c => c.2.1.length + c.2.2.length) := by
  simp [Slot.content, Slot.size]

theorem mem_content (l : List Slot) (s : Slot) (hs : s ∈ l) : s.content ∈ l.map Slot.content :=
  List.mem_map_of_mem _ hs

/-- `SlotsOK` depends on the slots through what they store only. -/
theorem SlotsOK.congr {n m : BTreeNode} (h : SlotsOK n)
    (hslot : m.slot.map Slot.content = n.slot.map Slot.content)
    (hlo : m.lowerFence = n.lowerFence) (hup : m.upperFence = n.upperFence)
    (hp : m.prefixLen = n.prefixLen)
    (hhint : 2 * hintCount < m.count → ∀ i, i < hintCount →
      m.hint i = (m.slotAt (m.count / (hintCount + 1) * (i + 1))).head) : SlotsOK m := by
  have hall : ∀ s ∈ m.slot, s.head = head s.key ∧ isBytes s.key := by
    intro s hs
    have := mem_content _ _ hs
    rw [hslot, List.mem_map] at this
    obtain ⟨s', hs', e⟩ := this
    have e1 : s'.head = s.head := congrArg Prod.fst e
    have e2 : s'.key = s.key := congrArg (fun c => c.2.1) e
    rw [← e1, ← e2]
    exact ⟨h.head_eq s' hs', h.bytes s' hs'⟩
  refine ⟨by rw [hp, hlo, hup]; exact h.prefix_eq, fun s hs => (hall s hs).1,
    fun s hs => (hall s hs).2, ?_, hhint⟩
  rw [map_key_eq, hslot, ← map_key_eq]
  exact h.sorted

/-- A fresh page after `setFences`. -/
theorem setFences_new (isLeaf : Bool) (lo hi : List Nat) (h : lo.length + hi.length ≤ pageSize) :
    ((BTreeNode.new isLeaf).setFences lo hi).slot = [] ∧
    ((BTreeNode.new isLeaf).setFences lo hi).lowerFence = lo ∧
    ((BTreeNode.new isLeaf).setFences lo hi).upperFence = hi ∧
    ((BTreeNode.new isLeaf).setFences lo hi).prefixLen = commonPrefixLen lo hi ∧
    ((BTreeNode.new isLeaf).setFences lo hi).spaceUsed = lo.length + hi.length ∧
    ((BTreeNode.new isLeaf).setFences lo hi).dataOffset = pageSize - (lo.length + hi.length) ∧
    ((BTreeNode.new isLeaf).setFences lo hi).isLeaf = isLeaf ∧
    ((BTreeNode.new isLeaf).setFences lo hi).upperInnerNode = noNeighbour ∧
    ((BTreeNode.new isLeaf).setFences lo hi).hint = fun _ => 0 := by
  have hp : pageSize = 4096 := rfl
  rw [hp] at h ⊢
  have e1 : u16 (((4096 : Nat) : Int) - (lo.length : Nat)) = 4096 - lo.length :=
    u16_sub 4096 lo.length (by omega) (by norm_num)
  have e2 : u16 (((0 : Nat) : Int) + (lo.length : Nat)) = 0 + lo.length :=
    u16_add 0 lo.length (by omega)
  have e3 : u16 (((4096 - lo.length : Nat) : Int) - (hi.length : Nat)) = 4096 - lo.length - hi.length :=
    u16_sub _ _ (by omega) (by omega)
  have e4 : u16 (((0 + lo.length : Nat) : Int) + (hi.length : Nat)) = 0 + lo.length + hi.length :=
    u16_add _ _ (by omega)
  simp only [setFences, insertFence, BTreeNode.new, if_true, hp, e1, e2, e3, e4,
    Bool.false_eq_true, if_false]
  exact ⟨trivial, trivial, trivial, trivial, by omega, by omega, trivial, trivial, trivial⟩

theorem trimSlot_zero_content (s : Slot) (h : s.head = head s.key) :
    (trimSlot 0 s).content = s.content := by
  simp [trimSlot, Slot.content, h]

theorem trimSlot_zero_size (s : Slot) : (trimSlot 0 s).size = s.size := by
  simp [trimSlot, Slot.size]

theorem usedBytes_le (n : BTreeNode) (h : SpaceOK n) : n.usedBytes ≤ pageSize := by
  have := h.used
  have := h.heap
  omega

theorem map_trimSlot_zero_content (l : List Slot) (h : ∀ s ∈ l, s.head = head s.key) :
    (l.map (trimSlot 0)).map Slot.content = l.map Slot.content := by
  rw [List.map_map]
  apply List.map_congr_left
  intro s hs
  exact trimSlot_zero_content s (h s hs)

theorem map_trimSlot_zero_size (l : List Slot) :
    (l.map (trimSlot 0)).map Slot.size = l.map Slot.size := by
  rw [List.map_map]
  apply List.map_congr_left
  intro s _
  exact trimSlot_zero_size s

theorem count_eq_of_content (n m : BTreeNode)
    (h : m.slot.map Slot.content = n.slot.map Slot.content) : m.count = n.count := by
  have := congrArg List.length h
  simpa using this

theorem usedBytes_congr (m n : BTreeNode)
    (hslot : m.slot.map Slot.content = n.slot.map Slot.content)
    (hlo : m.lowerFence = n.lowerFence) (hup : m.upperFence = n.upperFence) :
    m.usedBytes = n.usedBytes := by
  unfold usedBytes
  rw [hlo, hup, map_size_eq m.slot, hslot, ← map_size_eq]

theorem take_count (n : BTreeNode) : n.slot.take n.count = n.slot :=
  List.take_of_length_le (Nat.le_refl n.slot.length)

/-- `compactify()` on a well-formed page: the page stores the same fences and slots, is
well formed, and all of its free space lies between the slot directory and the heap. -/
theorem compactify_spec (n : BTreeNode) (hs : SlotsOK n) (hsp : SpaceOK n) :
    n.compactify.slot.map Slot.content = n.slot.map Slot.content ∧
    n.compactify.lowerFence = n.lowerFence ∧ n.compactify.upperFence = n.upperFence ∧
    n.compactify.prefixLen = n.prefixLen ∧ n.compactify.isLeaf = n.isLeaf ∧
    n.compactify.upperInnerNode = n.upperInnerNode ∧
    n.compactify.spaceUsed = n.usedBytes ∧
    n.compactify.dataOffset = pageSize - n.usedBytes ∧
    SlotsOK n.compactify ∧ SpaceOK n.compactify := by
  have hub := n.usedBytes_le hsp
  have hub2 : n.lowerFence.length + n.upperFence.length + (n.slot.map Slot.size).sum ≤ pageSize :=
    hub
  have hp : pageSize = 4096 := rfl
  obtain ⟨f1, f2, f3, f4, f5, f6, f7, f8, f9⟩ :=
    setFences_new n.isLeaf n.lowerFence n.upperFence (by omega)
  have hgrow : decide (n.prefixLen ≤
      ((BTreeNode.new n.isLeaf).setFences n.lowerFence n.upperFence).prefixLen) = true := by
    rw [f4, ← hs.prefix_eq]; simp
  have hcopy := copyLoop_grows n 0 0 0 n.count 0
    ((BTreeNode.new n.isLeaf).setFences n.lowerFence n.upperFence)
    (by rw [f4, ← hs.prefix_eq]; simp) (by rw [f1]; rfl) (by omega)
    (by
      rw [f6, Nat.zero_add, List.drop_zero, n.take_count,
        map_trimSlot_zero_size]
      omega)
    (by rw [f6]; omega)
    (by
      rw [f5, Nat.zero_add, List.drop_zero, n.take_count,
        map_trimSlot_zero_size]
      omega)
  rw [Nat.zero_add, List.drop_zero, n.take_count] at hcopy
  have hslot := hcopy.slot
  rw [f1, List.map_nil, List.nil_append, map_trimSlot_zero_content _ hs.head_eq] at hslot
  have hused := hcopy.spaceUsed
  rw [f5, map_trimSlot_zero_size] at hused
  have hoff := hcopy.dataOffset
  rw [f6, map_trimSlot_zero_size] at hoff
  have hc : n.compactify = ({ copyLoop n true 0 0 n.count 0
      ((BTreeNode.new n.isLeaf).setFences n.lowerFence n.upperFence) with
      upperInnerNode := n.upperInnerNode }).makeHint := by
    unfold compactify copyKeyValueRange getLowerFence getUpperFence
    simp only []
    rw [hgrow]
  generalize copyLoop n true 0 0 n.count 0
      ((BTreeNode.new n.isLeaf).setFences n.lowerFence n.upperFence) = c at hcopy hslot hused hoff hc
  have hslot2 : n.compactify.slot.map Slot.content = n.slot.map Slot.content := by
    rw [hc]; exact hslot
  have hcount : n.compactify.count = n.count := count_eq_of_content _ _ hslot2
  have hlo : n.compactify.lowerFence = n.lowerFence := by rw [hc]; exact hcopy.lowerFence.trans f2
  have hup : n.compactify.upperFence = n.upperFence := by rw [hc]; exact hcopy.upperFence.trans f3
  have hpl : n.compactify.prefixLen = n.prefixLen := by
    rw [hc]; exact (hcopy.prefixLen.trans f4).trans hs.prefix_eq.symm
  have hsu : n.compactify.spaceUsed = n.usedBytes := by
    rw [hc]; show c.spaceUsed = _; rw [hused]; rfl
  have hdo : n.compactify.dataOffset = pageSize - n.usedBytes := by
    rw [hc]; show c.dataOffset = _; rw [hoff]; unfold usedBytes; omega
  refine ⟨hslot2, hlo, hup, hpl, by rw [hc]; exact hcopy.isLeaf.trans f7, by rw [hc]; rfl,
    hsu, hdo, ?_, ?_⟩
  · refine hs.congr hslot2 hlo hup hpl ?_
    intro _ i hi
    rw [hc]
    exact makeHint_hint _ i hi
  · refine ⟨?_, ?_, ?_⟩
    · rw [hsu]
      exact (usedBytes_congr _ _ hslot2 hlo hup).symm
    · rw [hsu, hdo]; omega
    · rw [hdo]
      have h1 := hsp.fit
      have h2 := hsp.heap
      have h3 := hsp.used
      unfold slotEnd at h1 ⊢
      rw [hcount]
      omega

end BTreeNode
/-! ## `insertInPage` -/

namespace BTreeNode

theorem freeSpace_eq (n : BTreeNode) (h : SpaceOK n) : n.freeSpace = n.dataOffset - n.slotEnd := by
  have h1 := h.fit
  have h2 := h.heap
  have hp : pageSize = 4096 := rfl
  unfold freeSpace
  exact u32_sub _ _ h1 (by omega)

theorem freeSpaceAfterCompaction_eq (n : BTreeNode) (h : SpaceOK n) :
    n.freeSpaceAfterCompaction = pageSize - n.slotEnd - n.spaceUsed := by
  have h1 := h.fit
  have h2 := h.heap
  have hp : pageSize = 4096 := rfl
  unfold freeSpaceAfterCompaction u32
  have : ((pageSize : Int) - n.slotEnd - n.spaceUsed) % 2 ^ 32
      = ((pageSize - n.slotEnd - n.spaceUsed : Nat) : Int) := by omega
  rw [this]
  rfl

theorem spaceNeeded_eq (n : BTreeNode) (keyLen payloadLen : Nat) (h1 : n.prefixLen ≤ keyLen)
    (h2 : keyLen + payloadLen < 2 ^ 16) :
    n.spaceNeeded keyLen payloadLen = sizeofSlot + (keyLen - n.prefixLen) + payloadLen := by
  have hs : sizeofSlot = 10 := rfl
  unfold spaceNeeded u32
  have : ((sizeofSlot : Int) + ((keyLen : Int) - n.prefixLen) + payloadLen) % 2 ^ 32
      = ((sizeofSlot + (keyLen - n.prefixLen) + payloadLen : Nat) : Int) := by omega
  rw [this]
  rfl

theorem mem_take_key (n : BTreeNode) (r : Nat) (a : List Nat)
    (ha : a ∈ (n.slot.take r).map Slot.key) : ∃ i, i < r ∧ i < n.count ∧ a = n.getKey i := by
  rw [List.mem_map] at ha
  obtain ⟨s, hs, rfl⟩ := ha
  obtain ⟨i, hi, rfl⟩ := List.mem_iff_getElem.mp hs
  rw [List.length_take] at hi
  refine ⟨i, by omega, by unfold count; omega, ?_⟩
  unfold getKey
  rw [n.slotAt_lt i (by unfold count; omega), List.getElem_take]

theorem mem_drop_key (n : BTreeNode) (r : Nat) (a : List Nat)
    (ha : a ∈ (n.slot.drop r).map Slot.key) : ∃ i, r ≤ i ∧ i < n.count ∧ a = n.getKey i := by
  rw [List.mem_map] at ha
  obtain ⟨s, hs, rfl⟩ := ha
  obtain ⟨i, hi, rfl⟩ := List.mem_iff_getElem.mp hs
  rw [List.length_drop] at hi
  refine ⟨r + i, by omega, by unfold count; omega, ?_⟩
  unfold getKey
  rw [n.slotAt_lt (r + i) (by unfold count; omega), List.getElem_drop]

/-- Putting a key at the position `lowerBound` returns keeps the keys in order. -/
theorem sorted_insert (n : BTreeNode) (h : SlotsOK n) (r : Nat) (s : Slot)
    (hlo : ∀ i, i < r → i < n.count → n.getKey i ≤ s.key)
    (hhi : ∀ i, r ≤ i → i < n.count → s.key ≤ n.getKey i) :
    ((n.slot.take r ++ [s] ++ n.slot.drop r).map Slot.key).Pairwise (· ≤ ·) := by
  have hs := h.sorted
  rw [← List.take_append_drop r n.slot, List.map_append, List.pairwise_append] at hs
  obtain ⟨s1, s2, s3⟩ := hs
  simp only [List.map_append, List.map_cons, List.map_nil, List.append_assoc, List.singleton_append]
  rw [List.pairwise_append]
  refine ⟨s1, ?_, ?_⟩
  · rw [List.pairwise_cons]
    refine ⟨fun b hb => ?_, s2⟩
    obtain ⟨i, h1, h2, rfl⟩ := n.mem_drop_key r b hb
    exact hhi i h1 h2
  · intro a ha b hb
    rw [List.mem_cons] at hb
    rcases hb with rfl | hb
    · obtain ⟨i, h1, h2, rfl⟩ := n.mem_take_key r a ha
      exact hlo i h1 h2
    · exact s3 a ha b hb

theorem insertInPage_eq (n : BTreeNode) (key payload : List Nat) :
    n.insertInPage key payload =
      (if n.spaceNeeded key.length payload.length > n.freeSpace then n.compactify else n).insertAt
        ((if n.spaceNeeded key.length payload.length > n.freeSpace then n.compactify
          else n).lowerBound key).1 key payload := rfl

theorem take_append_cons_drop {α : Type} (l : List α) (r : Nat) (x y : α) (hr : r ≤ l.length) :
    (l.take r ++ [x] ++ l.drop r).take r ++ [y] ++ (l.take r ++ [x] ++ l.drop r).drop (r + 1)
      = l.take r ++ [y] ++ l.drop r := by
  have h1 : (l.take r).length = r := by rw [List.length_take]; omega
  have e1 : (l.take r ++ [x] ++ l.drop r).take r = l.take r := by
    rw [List.append_assoc, List.take_append_of_le_length (by omega), List.take_of_length_le (by omega)]
  have e2 : (l.take r ++ [x] ++ l.drop r).drop (r + 1) = l.drop r := by
    rw [List.append_assoc, List.drop_append_eq_append_drop, h1]
    simp
  rw [e1, e2]

/-- What `insertAt` writes. -/
theorem insertAt_fields (n : BTreeNode) (slotId : Nat) (key payload : List Nat)
    (hr : slotId ≤ n.count)
    (hfit : (key.drop n.prefixLen).length + payload.length ≤ n.dataOffset)
    (hoff : n.dataOffset < 2 ^ 16)
    (hused : n.spaceUsed + ((key.drop n.prefixLen).length + payload.length) < 2 ^ 16) :
    (n.insertAt slotId key payload).slot =
      n.slot.take slotId ++ [⟨n.dataOffset - ((key.drop n.prefixLen).length + payload.length),
        head (key.drop n.prefixLen), key.drop n.prefixLen, payload⟩] ++ n.slot.drop slotId ∧
    (n.insertAt slotId key payload).lowerFence = n.lowerFence ∧
    (n.insertAt slotId key payload).upperFence = n.upperFence ∧
    (n.insertAt slotId key payload).prefixLen = n.prefixLen ∧
    (n.insertAt slotId key payload).isLeaf = n.isLeaf ∧
    (n.insertAt slotId key payload).upperInnerNode = n.upperInnerNode ∧
    (n.insertAt slotId key payload).spaceUsed =
      n.spaceUsed + ((key.drop n.prefixLen).length + payload.length) ∧
    (n.insertAt slotId key payload).dataOffset =
      n.dataOffset - ((key.drop n.prefixLen).length + payload.length) := by
  have e1 := u16_sub n.dataOffset _ hfit hoff
  have e2 := u16_add n.spaceUsed _ (by omega : n.spaceUsed + ((key.drop n.prefixLen).length + payload.length) < 2 ^ 16)
  simp only [insertAt, storeKeyValue, updateHint, setSlot, e1, e2]
  refine ⟨?_, trivial, trivial, trivial, trivial, trivial, trivial, trivial⟩
  exact take_append_cons_drop n.slot slotId _ _ hr

theorem le_of_append_le_append (p a b : List Nat) (h : p ++ a ≤ p ++ b) : a ≤ b := by
  rcases le_iff_lt_or_eq.mp h with h | h
  · exact le_of_lt (lt_of_append_lt_append p a b h)
  · exact le_of_eq (List.append_cancel_left h)

theorem getD_take_append {α : Type} (l rest : List α) (r j : Nat) (d : α) (hj : j < r)
    (hr : r ≤ l.length) : (l.take r ++ rest).getD j d = l.getD j d := by
  have h1 : j < (l.take r).length := by rw [List.length_take]; omega
  rw [List.getD_eq_getElem _ _ (by rw [List.length_append]; omega),
    List.getD_eq_getElem _ _ (by omega), List.getElem_append_left h1, List.getElem_take]

/-- The hints after `insertAt`: `updateHint` recomputes a hint, or leaves it alone when the
slot it samples lies before the slot written and the sampling distance is unchanged. -/
theorem insertAt_hint (n : BTreeNode) (slotId : Nat) (key payload : List Nat) (i : Nat)
    (hi : i < hintCount) :
    (n.insertAt slotId key payload).hint i =
        ((n.insertAt slotId key payload).slotAt
          ((n.insertAt slotId key payload).count / (hintCount + 1) * (i + 1))).head ∨
    ((n.insertAt slotId key payload).hint i = n.hint i ∧
      hintCount * 2 + 1 < (n.insertAt slotId key payload).count ∧
      ((n.insertAt slotId key payload).count - 1) / (hintCount + 1) =
        (n.insertAt slotId key payload).count / (hintCount + 1) ∧
      i + 1 < slotId / ((n.insertAt slotId key payload).count / (hintCount + 1))) := by
  unfold insertAt updateHint
  simp only []
  split
  · rename_i hc
    by_cases hb : slotId /
        ((({ n with slot := n.slot.take slotId ++ [n.slotAt slotId] ++ n.slot.drop slotId }
          ).storeKeyValue slotId key payload).count / (hintCount + 1)) - 1 ≤ i
    · left
      simp only [hb, hi, and_self, if_true]
      rfl
    · right
      simp only [hb, false_and, if_false]
      refine ⟨rfl, hc.1, hc.2.1, ?_⟩
      have aux : ∀ q : Nat, ¬ q - 1 ≤ i → i + 1 < q := fun q h => by omega
      exact aux _ hb
  · left
    simp only [Nat.zero_le, hi, and_self, if_true]
    rfl

theorem sum_insert (l : List Slot) (r : Nat) (x : Slot) :
    ((l.take r ++ [x] ++ l.drop r).map Slot.size).sum = (l.map Slot.size).sum + x.size := by
  have h := congrArg (fun t => (t.map Slot.size).sum) (List.take_append_drop r l)
  simp only [List.map_append, List.sum_append] at h
  simp only [List.map_append, List.sum_append, List.map_cons, List.map_nil, List.sum_cons,
    List.sum_nil]
  omega

/-- `insertAt` at the slot `lowerBound` returns, on a well-formed page with room between
slot directory and heap, for a key that carries the prefix of the page: the page stays well
formed. -/
theorem insertAt_ok (n : BTreeNode) (hs : SlotsOK n) (hsp : SpaceOK n) (key payload : List Nat)
    (hk : isBytes key) (hpre : n.getPrefix ++ key.drop n.prefixLen = key)
    (hroom : sizeofSlot + (key.drop n.prefixLen).length + payload.length
      ≤ n.dataOffset - n.slotEnd) :
    SlotsOK (n.insertAt (n.lowerBound key).1 key payload) ∧
    SpaceOK (n.insertAt (n.lowerBound key).1 key payload) := by
  obtain ⟨l1, l2, l3⟩ := n.lowerBound_le hs key hk
  have hfit := hsp.fit
  have hheap := hsp.heap
  have hp : pageSize = 4096 := rfl
  have hss : sizeofSlot = 10 := rfl
  have hse : n.slotEnd = sizeofHeader + sizeofSlot * n.count := rfl
  obtain ⟨f1, f2, f3, f4, f5, f6, f7, f8⟩ := n.insertAt_fields (n.lowerBound key).1 key payload l1
    (by omega) (by omega) (by omega)
  generalize hr : (n.lowerBound key).1 = r at l1 l2 l3 f1 f2 f3 f4 f5 f6 f7 f8 ⊢
  generalize hm : n.insertAt r key payload = m at f1 f2 f3 f4 f5 f6 f7 f8 ⊢
  have hcount : m.count = n.count + 1 := by
    unfold count
    rw [f1]
    simp only [List.length_append, List.length_take, List.length_drop, List.length_cons,
      List.length_nil]
    unfold count at l1
    omega
  have hmem : ∀ s ∈ m.slot, s ∈ n.slot ∨
      s = ⟨n.dataOffset - ((key.drop n.prefixLen).length + payload.length),
        head (key.drop n.prefixLen), key.drop n.prefixLen, payload⟩ := by
    intro s hs'
    rw [f1] at hs'
    simp only [List.mem_append, List.mem_singleton] at hs'
    rcases hs' with (h | h) | h
    · exact Or.inl (List.mem_of_mem_take h)
    · exact Or.inr h
    · exact Or.inl (List.mem_of_mem_drop h)
  have hlow : ∀ j, j < r → m.slotAt j = n.slotAt j := by
    intro j hj
    unfold slotAt
    rw [f1, List.append_assoc]
    exact getD_take_append _ _ _ _ _ hj l1
  constructor
  · refine ⟨by rw [f4, f2, f3]; exact hs.prefix_eq, ?_, ?_, ?_, ?_⟩
    · intro s hs'
      rcases hmem s hs' with h | h
      · exact hs.head_eq s h
      · rw [h]
    · intro s hs'
      rcases hmem s hs' with h | h
      · exact hs.bytes s h
      · rw [h]; exact isBytes_drop _ hk
    · rw [f1]
      apply n.sorted_insert hs r
      · intro i h1 h2
        apply le_of_append_le_append n.getPrefix
        show _ ≤ n.getPrefix ++ key.drop n.prefixLen
        rw [hpre]
        exact l2 i h1
      · intro i h1 h2
        apply le_of_append_le_append n.getPrefix
        show n.getPrefix ++ key.drop n.prefixLen ≤ _
        rw [hpre]
        exact l3 i h1 h2
    · intro hc i hi
      rw [← hm]
      rcases n.insertAt_hint r key payload i hi with h | ⟨h1, h2, h3, h4⟩
      · exact h
      · rw [hm] at h1 h2 h3 h4 ⊢
        rw [hcount] at h2 h3 h4 ⊢
        simp only [hintCount, Nat.add_sub_cancel] at h2 h3 h4 hi ⊢
        have hold := hs.hint_eq (by simp only [hintCount]; omega) i hi
        simp only [hintCount] at hold
        rw [h1, hold, h3]
        have hd : 0 < (n.count + 1) / 17 := Nat.div_pos (by omega) (by omega)
        generalize (n.count + 1) / 17 = dist at h4 hd ⊢
        have hlt : dist * (i + 1) < r := by
          have h5 : i + 2 ≤ r / dist := h4
          have h6 := (Nat.le_div_iff_mul_le hd).mp h5
          have h7 : (i + 2) * dist = dist * (i + 1) + dist := by ring
          omega
        rw [hlow _ hlt]
  · refine ⟨?_, ?_, ?_⟩
    · rw [f7, hsp.used]
      unfold usedBytes
      rw [f2, f3, f1, sum_insert]
      simp only [Slot.size]
      omega
    · rw [f7, f8]; omega
    · rw [f8]
      unfold slotEnd
      rw [hcount]
      rw [hse] at hroom hfit
      rw [hss] at hroom hfit ⊢
      omega

theorem getKey_congr (n m : BTreeNode)
    (h : m.slot.map Slot.content = n.slot.map Slot.content) (i : Nat) :
    m.getKey i = n.getKey i := by
  have h1 := m.slotAt_content i
  have h2 := n.slotAt_content i
  rw [h, ← h2] at h1
  exact congrArg (fun c => c.2.1) h1

theorem getPrefix_congr (n m : BTreeNode) (hlo : m.lowerFence = n.lowerFence)
    (hp : m.prefixLen = n.prefixLen) : m.getPrefix = n.getPrefix := by
  unfold getPrefix
  rw [hlo, hp]

theorem entries_eq (n : BTreeNode) :
    n.entries = (n.slot.map Slot.content).map (fun c => (n.getPrefix ++ c.2.1, c.2.2)) := by
  simp [entries, Slot.content]

theorem entries_congr (n m : BTreeNode)
    (h : m.slot.map Slot.content = n.slot.map Slot.content)
    (hlo : m.lowerFence = n.lowerFence) (hp : m.prefixLen = n.prefixLen) :
    m.entries = n.entries := by
  rw [entries_eq, entries_eq, h, getPrefix_congr n m hlo hp]

/-- The page `insertInPage` searches and writes: the page itself, or the page compacted.
It stores the same, is well formed and has the room needed between slot directory and
heap. -/
theorem insertInPage_page (n : BTreeNode) (hs : SlotsOK n) (hsp : SpaceOK n)
    (key payload : List Nat) (hpl : n.prefixLen ≤ key.length)
    (hlen : key.length + payload.length < 2 ^ 16)
    (hroom : n.hasSpaceFor key.length payload.length = true) (n1 : BTreeNode)
    (hn1 : (if n.spaceNeeded key.length payload.length > n.freeSpace then n.compactify else n)
      = n1) :
    n1.slot.map Slot.content = n.slot.map Slot.content ∧
    n1.lowerFence = n.lowerFence ∧ n1.upperFence = n.upperFence ∧
    n1.prefixLen = n.prefixLen ∧ n1.isLeaf = n.isLeaf ∧
    n1.upperInnerNode = n.upperInnerNode ∧ SlotsOK n1 ∧ SpaceOK n1 ∧
    sizeofSlot + (key.length - n.prefixLen) + payload.length ≤ n1.dataOffset - n1.slotEnd := by
  have e1 := n.spaceNeeded_eq key.length payload.length hpl hlen
  have e2 := n.freeSpaceAfterCompaction_eq hsp
  have e3 := n.freeSpace_eq hsp
  unfold hasSpaceFor at hroom
  rw [decide_eq_true_eq, e1, e2] at hroom
  rw [e1, e3] at hn1
  by_cases hc : sizeofSlot + (key.length - n.prefixLen) + payload.length
      > n.dataOffset - n.slotEnd
  · rw [if_pos hc] at hn1
    subst hn1
    obtain ⟨c1, c2, c3, c4, c5, c6, c7, c8, c9, c10⟩ := n.compactify_spec hs hsp
    refine ⟨c1, c2, c3, c4, c5, c6, c9, c10, ?_⟩
    have hcount := count_eq_of_content _ _ c1
    have hse : n.compactify.slotEnd = n.slotEnd := by unfold slotEnd; rw [hcount]
    rw [c8, hse, ← hsp.used]
    omega
  · rw [if_neg hc] at hn1
    subst hn1
    exact ⟨rfl, rfl, rfl, rfl, rfl, rfl, hs, hsp, by omega⟩

/-- `insertInPage(key, payload)` on a well-formed page that has space for the pair, for a
key that carries the prefix of the page: the pair becomes a new entry at a slot `r` that
keeps the keys in order (when the key is stored already, directly in front of an entry
with this key), the other entries are kept, and the page stays well formed. -/
theorem insertInPage_spec (n : BTreeNode) (hs : SlotsOK n) (hsp : SpaceOK n)
    (key payload : List Nat) (hk : isBytes key)
    (hpre : n.getPrefix ++ key.drop n.prefixLen = key)
    (hlen : key.length + payload.length < 2 ^ 16)
    (hroom : n.hasSpaceFor key.length payload.length = true) :
    ∃ r, r ≤ n.count ∧
      (key ∈ n.keys → r < n.count ∧ n.getPrefix ++ n.getKey r = key) ∧
      (n.insertInPage key payload).entries =
        n.entries.take r ++ [(key, payload)] ++ n.entries.drop r ∧
      (n.insertInPage key payload).isLeaf = n.isLeaf ∧
      (n.insertInPage key payload).upperInnerNode = n.upperInnerNode ∧
      (n.insertInPage key payload).lowerFence = n.lowerFence ∧
      (n.insertInPage key payload).upperFence = n.upperFence ∧
      (n.insertInPage key payload).prefixLen = n.prefixLen ∧
      SlotsOK (n.insertInPage key payload) ∧ SpaceOK (n.insertInPage key payload) := by
  have hplen := n.getPrefix_length hs
  have hpl : n.prefixLen ≤ key.length := by
    have := congrArg List.length hpre
    rw [List.length_append, hplen] at this
    omega
  rw [insertInPage_eq]
  generalize hn1 : (if n.spaceNeeded key.length payload.length > n.freeSpace then n.compactify
    else n) = n1
  obtain ⟨c1, c2, c3, c4, c5, c6, c7, c8, c9⟩ :=
    n.insertInPage_page hs hsp key payload hpl hlen hroom n1 hn1
  have hpfx : n1.getPrefix = n.getPrefix := getPrefix_congr n n1 c2 c4
  have hcount : n1.count = n.count := count_eq_of_content _ _ c1
  have hdrop : (key.drop n.prefixLen).length = key.length - n.prefixLen := List.length_drop _ _
  have hpre1 : n1.getPrefix ++ key.drop n1.prefixLen = key := by rw [hpfx, c4]; exact hpre
  obtain ⟨o1, o2⟩ := n1.insertAt_ok c7 c8 key payload hk hpre1 (by rw [c4, hdrop]; exact c9)
  obtain ⟨l1, l2⟩ := n1.lowerBound_spec c7 key hk _ rfl
  obtain ⟨b1, b2, b3⟩ := n1.lowerBound_le c7 key hk
  have hfit := c8.fit
  have hheap := c8.heap
  have hp : pageSize = 4096 := rfl
  obtain ⟨f1, f2, f3, f4, f5, f6, f7, f8⟩ :=
    n1.insertAt_fields (n1.lowerBound key).1 key payload b1
      (by rw [c4, hdrop]; omega) (by omega) (by rw [c4, hdrop]; omega)
  refine ⟨(n1.lowerBound key).1, by rw [← hcount]; exact b1, ?_, ?_, f5.trans c5, f6.trans c6,
    f2.trans c2, f3.trans c3, f4.trans c4, o1, o2⟩
  · intro hmem
    have hmem1 : key ∈ n1.keys := by
      obtain ⟨i, hi, e⟩ := (n.mem_keys_iff key).mp hmem
      exact (n1.mem_keys_iff key).mpr ⟨i, by rw [hcount]; exact hi,
        by rw [hpfx, getKey_congr n n1 c1]; exact e⟩
    obtain ⟨_, q1, q2⟩ := n1.lowerBound_found c7 key hk hmem1
    rw [hpfx, getKey_congr n n1 c1] at q2
    exact ⟨by rw [← hcount]; exact q1, q2⟩
  · have e1 : (n1.insertAt (n1.lowerBound key).1 key payload).getPrefix = n.getPrefix := by
      rw [getPrefix_congr n1 _ f2 f4, hpfx]
    have hE : n1.entries = n.entries := entries_congr n n1 c1 c2 c4
    rw [← hE]
    show List.map (fun s => ((n1.insertAt (n1.lowerBound key).1 key payload).getPrefix ++ s.key,
      s.payload)) (n1.insertAt (n1.lowerBound key).1 key payload).slot = _
    rw [e1, f1]
    unfold entries
    rw [hpfx]
    simp only [List.map_append, List.map_cons, List.map_nil, List.map_take, List.map_drop, c4, hpre]

end BTreeNode
/-! ## The tree: descent, `insert` into a leaf with room, `lookup` -/

namespace BTree

open BTreeNode

theorem descend_update (t : BTree) (leaf : Nat) (m : BTreeNode)
    (hl : (t.nodes leaf).isInner = false) (hm : m.isInner = false) (key : List Nat) :
    ∀ (fuel node : Nat) (parent : Option Nat),
      descend { t with nodes := Function.update t.nodes leaf m } key fuel node parent =
        descend t key fuel node parent := by
  intro fuel
  induction fuel with
  | zero => intro node parent; rfl
  | succ fuel ih =>
    intro node parent
    rw [descend, descend]
    by_cases hn : node = leaf
    · subst hn
      simp only [Function.update_same, hm, hl, Bool.false_eq_true, if_false]
    · simp only [Function.update_noteq hn]
      split
      · exact ih _ _
      · rfl

theorem descend_isLeaf (t : BTree) (key : List Nat) :
    ∀ (fuel node : Nat) (parent : Option Nat) (leaf : Nat) (p : Option Nat),
      descend t key fuel node parent = some (leaf, p) → (t.nodes leaf).isInner = false := by
  intro fuel
  induction fuel with
  | zero => intro node parent leaf p h; simp [descend] at h
  | succ fuel ih =>
    intro node parent leaf p h
    rw [descend] at h
    by_cases hn : (t.nodes node).isInner = true
    · rw [if_pos hn] at h
      exact ih _ _ _ _ h
    · rw [if_neg hn] at h
      simp only [Option.some.injEq, Prod.mk.injEq] at h
      rw [← h.1]
      simpa using hn

end BTree

theorem unique_of_count_one {α : Type} (E : List (List Nat × α)) (k : List Nat) (a b : α)
    (h : ((E.map Prod.fst).filter (fun x => decide (x = k))).length = 1)
    (ha : (k, a) ∈ E) (hb : (k, b) ∈ E) : a = b := by
  induction E with
  | nil => simp at ha
  | cons e E ih =>
    by_cases he : e.1 = k
    · simp only [List.map_cons, List.filter_cons, he, decide_True, if_true, List.length_cons] at h
      have hnone : ∀ c, (k, c) ∉ E := by
        intro c hc
        have : k ∈ (E.map Prod.fst).filter (fun x => decide (x = k)) := by
          rw [List.mem_filter]
          exact ⟨List.mem_map.mpr ⟨(k, c), hc, rfl⟩, by simp⟩
        have hpos := List.length_pos_of_mem this
        omega
      rw [List.mem_cons] at ha hb
      rcases ha with ha | ha
      · rcases hb with hb | hb
        · rw [← ha] at hb
          exact (Prod.mk.inj hb).2.symm
        · exact absurd hb (hnone b)
      · exact absurd ha (hnone a)
    · simp only [List.map_cons, List.filter_cons, he, decide_False, Bool.false_eq_true,
        if_false] at h
      rw [List.mem_cons] at ha hb
      rcases ha with ha | ha
      · exact absurd (congrArg Prod.fst ha).symm he
      · rcases hb with hb | hb
        · exact absurd (congrArg Prod.fst hb).symm he
        · exact ih h ha hb

namespace BTreeNode

theorem keys_eq_map_fst (n : BTreeNode) : n.keys = n.entries.map Prod.fst := by
  simp [keys, entries]

theorem entries_getElem (n : BTreeNode) (i : Nat) (hi : i < n.entries.length) :
    n.entries[i] = (n.getPrefix ++ n.getKey i, n.getPayload i) := by
  have hi2 : i < n.count := by simpa [entries] using hi
  simp only [entries, List.getElem_map, getKey, getPayload, n.slotAt_lt i hi2]

theorem entries_length (n : BTreeNode) : n.entries.length = n.count := by
  simp [entries, count]

theorem prefix_append_drop (n : BTreeNode) (hs : SlotsOK n) (k v : List Nat) (hv : (k, v) ∈ n.entries) :
    n.getPrefix ++ k.drop n.prefixLen = k := by
  unfold entries at hv
  rw [List.mem_map] at hv
  obtain ⟨s, _, e⟩ := hv
  have e1 : n.getPrefix ++ s.key = k := congrArg Prod.fst e
  rw [← e1, ← n.getPrefix_length hs, List.drop_left]

end BTreeNode

namespace BTree

open BTreeNode

/-- C4 (amended). For every B-tree in which the leaf reached for `k` is well formed, stores
`k` exactly once, with payload `v`, and has space for `(k, v')` without a split, a second
`insert(k, v')` is not an update: it returns and leaves all other pages alone, the leaf
stores the new entry `(k, v')` directly in front of the old entry `(k, v)` and is well
formed, the number of entries stored under `k` is two, and `lookup(k)` reports found with
the payload of one of these two entries. -/
theorem insert_existing_key (t : BTree) (fuel rounds : Nat) (k v v' : List Nat)
    (leaf : Nat) (parent : Option Nat)
    (hd : descend t k fuel t.root none = some (leaf, parent))
    (hs : SlotsOK (t.nodes leaf)) (hsp : SpaceOK (t.nodes leaf)) (hk : isBytes k)
    (hlen : k.length + v'.length ≤ maxKVSize)
    (hv : (k, v) ∈ (t.nodes leaf).entries) (huniq : (t.nodes leaf).countKey k = 1)
    (hroom : (t.nodes leaf).hasSpaceFor k.length v'.length = true) :
    ∃ t' r, insert fuel k v' (rounds + 1) t = some t' ∧ t'.root = t.root ∧
      (∀ pid, pid ≠ leaf → t'.nodes pid = t.nodes pid) ∧
      r < (t.nodes leaf).count ∧
      (t'.nodes leaf).entries = (t.nodes leaf).entries.take r ++ [(k, v'), (k, v)]
        ++ (t.nodes leaf).entries.drop (r + 1) ∧
      (t'.nodes leaf).countKey k = 2 ∧
      SlotsOK (t'.nodes leaf) ∧ SpaceOK (t'.nodes leaf) ∧
      ∃ p, (p = v ∨ p = v') ∧
        ∀ sz, t'.lookup fuel k sz = some ((p.length : Int), p.take (umin p.length sz)) := by
  have hmk : maxKVSize = 995 := by decide
  have hpre := (t.nodes leaf).prefix_append_drop hs k v hv
  have hkeys : k ∈ (t.nodes leaf).keys := by
    rw [keys_eq_map_fst]
    exact List.mem_map.mpr ⟨(k, v), hv, rfl⟩
  obtain ⟨r, r1, r2, r3, r4, r5, r6, r7, r8, r9, r10⟩ :=
    (t.nodes leaf).insertInPage_spec hs hsp k v' hk hpre (by omega) hroom
  obtain ⟨r2a, r2b⟩ := r2 hkeys
  have huniq2 : (((t.nodes leaf).entries.map Prod.fst).filter
      (fun x => decide (x = k))).length = 1 := by
    rw [← keys_eq_map_fst]; exact huniq
  have hrlen : r < (t.nodes leaf).entries.length := by rw [entries_length]; exact r2a
  have hEr : (t.nodes leaf).entries[r] = (k, v) := by
    rw [entries_getElem _ _ hrlen, r2b]
    have hin : (k, (t.nodes leaf).getPayload r) ∈ (t.nodes leaf).entries := by
      have := List.getElem_mem hrlen
      rw [entries_getElem _ _ hrlen, r2b] at this
      exact this
    rw [unique_of_count_one _ k _ _ huniq2 hin hv]
  have hdrop : (t.nodes leaf).entries.drop r = (k, v) :: (t.nodes leaf).entries.drop (r + 1) := by
    rw [List.drop_eq_getElem_cons hrlen, hEr]
  generalize hm : (t.nodes leaf).insertInPage k v' = m at r3 r4 r5 r6 r7 r8 r9 r10
  have hent : m.entries = (t.nodes leaf).entries.take r ++ [(k, v'), (k, v)]
      ++ (t.nodes leaf).entries.drop (r + 1) := by
    rw [r3, hdrop]; simp
  have hleafInner := descend_isLeaf t k fuel t.root none leaf parent hd
  have hmInner : m.isInner = false := by
    unfold isInner at hleafInner ⊢
    rw [r4]; exact hleafInner
  refine ⟨{ t with nodes := Function.update t.nodes leaf m }, r, ?_, rfl, ?_, r2a, ?_, ?_, ?_, ?_, ?_⟩
  · rw [insert, hd]
    simp only [hroom, if_true, hm]
  · intro pid hpid
    exact Function.update_noteq hpid _ _
  · simp only [Function.update_same]; exact hent
  · simp only [Function.update_same]
    unfold countKey
    rw [keys_eq_map_fst, hent]
    have h0 := huniq2
    rw [← List.take_append_drop r (t.nodes leaf).entries, hdrop] at h0
    simp only [List.map_append, List.map_cons, List.filter_append, List.filter_cons,
      decide_True, if_true, List.length_append, List.length_cons, List.map_nil,
      List.filter_nil, List.length_nil] at h0 ⊢
    omega
  · simp only [Function.update_same]; exact r9
  · simp only [Function.update_same]; exact r10
  · obtain ⟨b1, b2, b3⟩ := m.lowerBound_found r9 k hk (by
      rw [keys_eq_map_fst, hent]; simp)
    have hlt : (m.lowerBound k).1 < m.entries.length := by rw [entries_length]; exact b2
    have hin : (k, m.getPayload (m.lowerBound k).1) ∈ m.entries := by
      have := List.getElem_mem hlt
      rw [entries_getElem _ _ hlt, b3] at this
      exact this
    refine ⟨m.getPayload (m.lowerBound k).1, ?_, ?_⟩
    · rw [hent] at hin
      simp only [List.mem_append, List.mem_cons, Prod.mk.injEq, true_and, List.mem_nil_iff,
        or_false] at hin
      rcases hin with (h | h | h) | h
      · exact Or.inl (unique_of_count_one _ k _ _ huniq2 (List.mem_of_mem_take h) hv)
      · exact Or.inr h
      · exact Or.inl h
      · exact Or.inl (unique_of_count_one _ k _ _ huniq2 (List.mem_of_mem_drop h) hv)
    · intro sz
      unfold lookup findLeafS
      rw [descend_update t leaf m hleafInner hmInner k fuel t.root none, hd]
      simp only [Option.map_some', Function.update_same, b1, Bool.not_true, Bool.false_eq_true,
        if_false]
      rfl

end BTree
/-! ## The insert scenarios -/

namespace BTree

open BTreeNode

theorem tree42_leaf_ok : SlotsOK (tree42.nodes 1) ∧ SpaceOK (tree42.nodes 1) := by
  refine ⟨⟨by decide, by decide, ?_, ?_, by decide⟩, ⟨by decide, by decide, by decide⟩⟩
  · intro s hs
    have : s.key = key42 := by
      have hs2 : s ∈ [(⟨4090, 42, key42, [0xAB, 0xCD]⟩ : Slot)] := hs
      rw [List.mem_singleton] at hs2
      rw [hs2]
    rw [this]
    unfold isBytes
    decide
  · have : (tree42.nodes 1).slot.map Slot.key = [key42] := by decide
    rw [this]
    exact List.pairwise_singleton _ _

set_option maxRecDepth 100000 in
/-- C4, counterexample. Into the empty tree insert `[0,0,0,0x2A]` with payload
`[0xAB,0xCD]`; `lookup` then returns length 2 and these bytes. A second insert of the same
key with payload `[0xEE]` is no update: `lookup` still returns length 2 and `[0xAB,0xCD]`,
and the leaf holds two entries under the key. -/
theorem insert_twice_counterexample :
    insert 4 key42 [0xAB, 0xCD] 4 (BTree.new 1) = some tree42 ∧
    tree42.lookup 4 key42 8 = some (2, [0xAB, 0xCD]) ∧
    insert 4 key42 [0xEE] 4 tree42 = some tree42twice ∧
    tree42twice.lookup 4 key42 8 = some (2, [0xAB, 0xCD]) ∧
    tree42twice.findLeafS 4 key42 = some 1 ∧
    (tree42twice.nodes 1).entries = [(key42, [0xEE]), (key42, [0xAB, 0xCD])] ∧
    (tree42twice.nodes 1).countKey key42 = 2 :=
  ⟨rfl, by decide, rfl, by decide, by decide, by decide, by decide⟩

set_option maxRecDepth 100000 in
/-- Instance of `insert_existing_key`: the second insert of `[0,0,0,0x2A]` into the tree
that stores it with payload `[0xAB,0xCD]`. -/
theorem insert_existing_key_witness :
    ∃ t' r, insert 4 key42 [0xEE] (3 + 1) tree42 = some t' ∧ t'.root = tree42.root ∧
      (∀ pid, pid ≠ 1 → t'.nodes pid = tree42.nodes pid) ∧
      r < (tree42.nodes 1).count ∧
      (t'.nodes 1).entries = (tree42.nodes 1).entries.take r ++ [(key42, [0xEE]), (key42, [0xAB, 0xCD])]
        ++ (tree42.nodes 1).entries.drop (r + 1) ∧
      (t'.nodes 1).countKey key42 = 2 ∧
      SlotsOK (t'.nodes 1) ∧ SpaceOK (t'.nodes 1) ∧
      ∃ p, (p = [0xAB, 0xCD] ∨ p = [0xEE]) ∧
        ∀ sz, t'.lookup 4 key42 sz = some ((p.length : Int), p.take (umin p.length sz)) :=
  insert_existing_key tree42 4 3 key42 [0xAB, 0xCD] [0xEE] 1 none (by decide)
    tree42_leaf_ok.1 tree42_leaf_ok.2 (by unfold isBytes; decide) (by decide) (by decide)
    (by decide) (by decide)

set_option maxRecDepth 100000 in
/-- C3, failing input. Into the empty tree insert the six pairs of `overflowInput`, each
within `maxKVSize`. The sixth insert splits the root leaf (page 1) at the 995-byte key C:
the new root (page 2) sends C to page 1, which received the fences `[]` and C and the
entries A, B, C. Its heap then starts at byte 116, inside the slot directory, which ends
at byte 126: the condition asserted at the end of `copyKeyValueRange` is false, and the
995 key bytes of C were written from byte 116 on, over `slot[2]` itself. -/
theorem insert_split_overflow :
    (∀ kv ∈ overflowInput, kv.1.length + kv.2.length ≤ maxKVSize) ∧
    insertAll 8 8 overflowInput (BTree.new 1) = some overflowTree ∧
    overflowTree.root = 2 ∧ (overflowTree.nodes 2).isLeaf = false ∧
    (overflowTree.nodes 2).lookupInner keyC = 1 ∧
    (overflowTree.nodes 1).count = 3 ∧ (overflowTree.nodes 1).spaceUsed = 3980 ∧
    (overflowTree.nodes 1).dataOffset = 116 ∧ (overflowTree.nodes 1).slotEnd = 126 ∧
    ((overflowTree.nodes 1).slotAt 2).offset = 116 ∧
    ((overflowTree.nodes 1).slotAt 2).keyLen = 995 :=
  ⟨by decide, rfl, by decide, by decide, by decide, by decide, by decide, by decide, by decide,
    by decide, by decide⟩

set_option maxRecDepth 100000 in
/-- C5, failing input. In the tree built from `overflowInput`, `remove(C)` descends to
page 1 (position 0 of the root, page 2) and searches it for C. The slot that was written
for C is `slot[2]`, which occupies the bytes from `sizeofHeader + 2 * sizeofSlot = 116` on;
its key bytes were written from offset 116 on, so the slot was overwritten by them and the
page is not well formed. -/
theorem remove_after_overflow :
    overflowTree.descendPos keyC 8 overflowTree.root none 0 = some (1, some 2, 0) ∧
    sizeofHeader + 2 * sizeofSlot = 116 ∧
    ((overflowTree.nodes 1).slotAt 2).offset = 116 ∧
    ((overflowTree.nodes 1).slotAt 2).offset + ((overflowTree.nodes 1).slotAt 2).keyLen = 1111 ∧
    ¬ SpaceOK (overflowTree.nodes 1) := by
  refine ⟨by decide, by decide, by decide, by decide, fun h => ?_⟩
  have := h.fit
  revert this
  decide

set_option maxRecDepth 100000 in
/-- C6, failing input. The tree built from the six distinct keys of `overflowInput` has
the two leaves 1 and 3 under the root 2; `scanAsc` from the smallest key A starts in page
1, whose heap (from byte 116) overlaps its slot directory (up to byte 126). -/
theorem scan_after_overflow :
    (overflowInput.map Prod.fst).Nodup ∧
    overflowTree.findLeafS 8 keyA = some 1 ∧
    (overflowTree.nodes 1).lowerBound keyA = (0, true) ∧
    (overflowTree.nodes 1).nextLeafNode = 3 ∧
    (overflowTree.nodes 1).dataOffset < (overflowTree.nodes 1).slotEnd :=
  ⟨by decide, by decide, by decide, by decide, by decide⟩

end BTree
/-! ## Theorems: `unfixS`, `unfixX` -/

namespace BufferManager

open RHBSU64Map BufTagged

theorem lookup_find {Value : Type} (t : RHBSU64Map Value) (pid : Nat) (d : Value)
    (hl : t.lookup pid = some d) : ∃ i, t.find pid = some i ∧ (t.entries i).val = d := by
  unfold lookup at hl
  cases hh : t.find pid with
  | none => rw [hh] at hl; simp at hl
  | some i =>
    rw [hh] at hl
    simp only [Option.map_some', Option.some.injEq] at hl
    exact ⟨i, rfl, hl⟩

theorem lookup_none_find {Value : Type} (t : RHBSU64Map Value) (pid : Nat)
    (hl : t.lookup pid = none) : t.find pid = none := by
  unfold lookup at hl
  cases hh : t.find pid with
  | none => rfl
  | some i => rw [hh] at hl; simp at hl

/-- The four outcomes of `unfixS` (`exclusive = false`) and `unfixX` (`exclusive = true`) in
an arbitrary state: not resident, not in_use, in_use with io_lock (`unfixX` only, the check
`ensure(!buf_ptr->io_lock())`), and the regular case. -/
theorem unfix_cases (bm : BufferManager) (pid : Nat) (exclusive : Bool) :
    (bm.page_table.lookup pid = none →
      (if exclusive then bm.unfixX pid else bm.unfixS pid) = .error .not_resident) ∧
    (∀ d, bm.page_table.lookup pid = some d → d.in_use = false →
      (if exclusive then bm.unfixX pid else bm.unfixS pid) = .error .not_in_use) ∧
    (∀ d, bm.page_table.lookup pid = some d → d.in_use = true → d.io_lock = true →
      bm.unfixX pid = .error .io_locked) ∧
    (∀ d, bm.page_table.lookup pid = some d → d.in_use = true →
      (exclusive = true → d.io_lock = false) →
      ∃ bm' d', (if exclusive then bm.unfixX pid else bm.unfixS pid) = .ok bm' ∧
        bm'.page_table.lookup pid = some d' ∧ d'.id = d.id ∧
        d'.in_use = false ∧ d'.marked = true ∧ d'.dirty = (exclusive || d.dirty) ∧
        d'.evicting = d.evicting ∧ d'.io_lock = d.io_lock ∧
        (∀ pid', pid' ≠ pid → bm'.page_table.lookup pid' = bm.page_table.lookup pid') ∧
        bm' = { bm with page_table := bm'.page_table }) := by
  have hun : (if exclusive then bm.unfixX pid else bm.unfixS pid) = unfix exclusive bm pid := by
    cases exclusive <;> rfl
  rw [hun]
  refine ⟨?_, ?_, ?_, ?_⟩
  · intro hl
    unfold unfix
    rw [lookup_none_find _ _ hl]
  · intro d hl huse
    obtain ⟨i, hf, hv⟩ := lookup_find _ _ _ hl
    unfold unfix
    simp only [hf, hv, huse, Bool.not_false, if_true]
  · intro d hl huse hio
    obtain ⟨i, hf, hv⟩ := lookup_find _ _ _ hl
    unfold unfixX unfix
    simp only [hf, hv, huse, Bool.not_true, Bool.false_eq_true, if_false, if_true,
      io_lock_set_marked, io_lock_set_dirty, io_lock_set_in_use, hio, and_self]
  · intro d hl huse hio
    obtain ⟨i, hf, hv⟩ := lookup_find _ _ _ hl
    unfold unfix
    simp only [hf, hv, huse, Bool.not_true, Bool.false_eq_true, if_false]
    cases exclusive with
    | false =>
      simp only [Bool.false_eq_true, false_and, if_false]
      refine ⟨_, (d.set_in_use false).set_marked true, rfl, ?_, ?_, ?_, ?_, ?_, ?_, ?_, ?_, rfl⟩
      · show lookup (setVal _ _ _) _ = _
        rw [lookup_setVal _ pid i _ hf]; simp
      · simp
      · simp
      · simp
      · simp
      · simp
      · simp
      · intro pid' hp
        show lookup (setVal _ _ _) _ = _
        rw [lookup_setVal _ pid i _ hf, if_neg hp]
    | true =>
      have hio' := hio rfl
      simp only [if_true, true_and, io_lock_set_marked, io_lock_set_dirty, io_lock_set_in_use,
        hio', Bool.false_eq_true, if_false]
      refine ⟨_, ((d.set_in_use false).set_dirty true).set_marked true, rfl, ?_, ?_, ?_, ?_, ?_, ?_, ?_, ?_, rfl⟩
      · show lookup (setVal _ _ _) _ = _
        rw [lookup_setVal _ pid i _ hf]; simp
      · simp
      · simp
      · simp
      · simp
      · simp
      · simp [hio']
      · intro pid' hp
        show lookup (setVal _ _ _) _ = _
        rw [lookup_setVal _ pid i _ hf, if_neg hp]

/-- The check `ensure(!buf_ptr->io_lock())` of `unfixX` fires in the state `bmLockedUse`,
whose descriptor of PID 1 is in_use and io-locked; no reachable state holds such a
descriptor (`Core.excl`). -/
theorem unfix_io_locked_state :
    (bmLockedUse.page_table.lookup 1).map (fun d => (d.id, d.in_use, d.io_lock))
      = some (1, true, true) ∧
    failsWith (bmLockedUse.unfixX 1) .io_locked = true :=
  ⟨by decide, by decide⟩

end BufferManager
/-! ## Theorems: `BaseReactor::wake` -/

namespace BaseReactor

/-- C15 (amended). For every fiber `f`: when `f` is Parked and the ready ring holds fewer
than `MAX_FIBERS = 256` fibers, `wake(f)` sets `f` to Ready, appends it to the ready queue
and returns true, changing nothing else; when `f` is Parked and the ring is full, `wake(f)`
does not return (`ensure(ready_.push(f))` fails); when `f` is null, Ready, Running or
Finished it returns false and leaves the reactor unchanged. -/
theorem wake_contract (r : BaseReactor) (f : Option Nat) :
    (∀ x, f = some x → r.state x = FiberState.Parked → r.ready_.length ≠ MAX_FIBERS →
      r.wake f = .ok ({ r with state := Function.update r.state x FiberState.Ready,
                               ready_ := r.ready_ ++ [x] }, true)) ∧
    (∀ x, f = some x → r.state x = FiberState.Parked → r.ready_.length = MAX_FIBERS →
      r.wake f = .error .ring_full) ∧
    ((f = none ∨ ∃ x, f = some x ∧ r.state x ≠ FiberState.Parked) →
      r.wake f = .ok (r, false)) := by
  refine ⟨?_, ?_, ?_⟩
  · intro x hf hp hlen
    subst hf
    simp [wake, push, hp, hlen]
  · intro x hf hp hlen
    subst hf
    simp [wake, push, hp, hlen]
  · intro h
    rcases h with h | ⟨x, hf, hp⟩
    · subst h; rfl
    · subst hf
      unfold wake
      by_cases hfin : r.state x = FiberState.Finished
      · simp [hfin]
      · simp [hfin, hp]

/-- Instance of `wake_contract`: waking the parked fiber 7 of `allParked` makes it Ready
and the only entry of the ready queue. -/
theorem wake_contract_witness :
    allParked.wake (some 7) = .ok ({ allParked with
      state := Function.update allParked.state 7 FiberState.Ready, ready_ := [7] }, true) :=
  (wake_contract allParked (some 7)).1 7 rfl rfl (by decide)

set_option maxRecDepth 100000 in
/-- C15, counterexample. Starting with all fibers parked and an empty ready ring, `wake`
on the fibers 0 to 255 fills the ring (`fullRing`); fiber 256 is still Parked, and
`wake` on it does not set it Ready and return true: the `ensure` on the push fails. -/
theorem wake_counterexample :
    allParked.wakeEach (List.range 256) = .ok fullRing ∧
    fullRing.ready_ = List.range 256 ∧
    fullRing.state 256 = FiberState.Parked ∧
    BufferManager.failsWith (fullRing.wake (some 256)) .ring_full = true := by
  refine ⟨?_, ?_, ?_, ?_⟩
  · rfl
  · decide
  · decide
  · decide

end BaseReactor
/-! ## Theorems: `clock_sweep_next` -/

namespace RHBSU64Map

variable {Value : Type} {σ : Type}

theorem visitSlots_calls (cb : σ → Nat → Value → σ × Value × Bool) :
    ∀ (l : List Nat) (e : Nat → Entry Value) (s : σ) (calls : List Nat),
      ∃ taken, (visitSlots cb l e s calls).2.2.2 = calls ++ taken ∧ taken <+: l ∧
        (∀ i, (visitSlots cb l e s calls).2.2.1 = some i → taken.getLast? = some i) ∧
        ((visitSlots cb l e s calls).2.2.1 = none → taken = l) := by
  intro l
  induction l with
  | nil =>
    intro e s calls
    exact ⟨[], by simp [visitSlots], List.prefix_refl _, by simp [visitSlots], fun _ => rfl⟩
  | cons i is ih =>
    intro e s calls
    unfold visitSlots
    by_cases hr : (cb s (e i).key (e i).val).2.2 = true
    · simp only [hr, if_true]
      refine ⟨[i], rfl, ?_, ?_, ?_⟩
      · exact ⟨is, rfl⟩
      · intro j hj
        simp only [Option.some.injEq] at hj
        subst hj
        rfl
      · intro h
        simp at h
    · simp only [hr, if_false, Bool.false_eq_true]
      obtain ⟨taken, h1, h2, h3, h4⟩ := ih (Function.update e i ⟨(e i).key,
        (cb s (e i).key (e i).val).2.1⟩) (cb s (e i).key (e i).val).1 (calls ++ [i])
      refine ⟨i :: taken, ?_, ?_, ?_, ?_⟩
      · rw [h1]; simp
      · exact (List.prefix_cons_inj i).2 h2
      · intro j hj
        have h := h3 j hj
        cases taken with
        | nil => simp at h
        | cons a as => simpa [List.getLast?_cons_cons] using h
      · intro h
        rw [h4 h]

theorem sweepLoop_spec (cb : σ → Nat → Value → σ × Value × Bool) :
    ∀ (fuel : Nat) (t : RHBSU64Map Value) (s : σ) (calls : List Nat),
      WF t → t.sweep_ < t.n →
      sweepLoop (total cb) fuel t s calls =
        .ok ({ t with
                entries := (visitSlots cb (((List.range fuel).map
                  (fun j => (t.sweep_ + j) % t.n)).filter (fun i => decide (t.ctrl i ≠ 0)))
                  t.entries s calls).1,
                sweep_ := match (visitSlots cb (((List.range fuel).map
                  (fun j => (t.sweep_ + j) % t.n)).filter (fun i => decide (t.ctrl i ≠ 0)))
                  t.entries s calls).2.2.1 with
                  | none => (t.sweep_ + fuel) % t.n
                  | some i => (i + 1) % t.n },
              (visitSlots cb (((List.range fuel).map
                  (fun j => (t.sweep_ + j) % t.n)).filter (fun i => decide (t.ctrl i ≠ 0)))
                  t.entries s calls).2.1,
              ((visitSlots cb (((List.range fuel).map
                  (fun j => (t.sweep_ + j) % t.n)).filter (fun i => decide (t.ctrl i ≠ 0)))
                  t.entries s calls).2.2.1).isSome,
              (visitSlots cb (((List.range fuel).map
                  (fun j => (t.sweep_ + j) % t.n)).filter (fun i => decide (t.ctrl i ≠ 0)))
                  t.entries s calls).2.2.2) := by
  intro fuel
  induction fuel with
  | zero =>
    intro t s calls hw hs
    simp [sweepLoop, visitSlots, Nat.mod_eq_of_lt hs]
  | succ f ih =>
    intro t s calls hw hs
    have hmask : (t.sweep_ + 1) &&& t.mask = (t.sweep_ + 1) % t.n := hw.and_mask _
    have hpos : 0 < t.n := hw.pos
    have hlist : (List.range (f + 1)).map (fun j => (t.sweep_ + j) % t.n)
        = t.sweep_ :: (List.range f).map (fun j => ((t.sweep_ + 1) % t.n + j) % t.n) := by
      rw [List.range_succ_eq_map, List.map_cons, List.map_map]
      congr 1
      · simp [Nat.mod_eq_of_lt hs]
      · apply List.map_congr_left
        intro j _
        simp only [Function.comp, Nat.succ_eq_add_one]
        rw [Nat.mod_add_mod]
        congr 1
        omega
    have hfin : ((t.sweep_ + 1) % t.n + f) % t.n = (t.sweep_ + (f + 1)) % t.n := by
      rw [Nat.mod_add_mod]; congr 1; omega
    rw [hlist]
    unfold sweepLoop
    simp only [hmask]
    by_cases hc : t.ctrl t.sweep_ = 0
    · simp only [hc, ne_eq, not_true_eq_false, if_false, List.filter_cons, decide_False,
        Bool.false_eq_true]
      have key := ih { t with sweep_ := (t.sweep_ + 1) % t.n } s calls hw (Nat.mod_lt _ hpos)
      rw [key]
      simp only [hfin, ne_eq]
    · simp only [hc, ne_eq, not_false_eq_true, if_true, List.filter_cons, decide_True]
      simp only [total]
      unfold visitSlots
      by_cases hr : (cb s (t.entries t.sweep_).key (t.entries t.sweep_).val).2.2 = true
      · simp only [hr, if_true, setVal, Option.isSome_some]
      · simp only [hr, if_false, Bool.false_eq_true]
        have key := ih (({ t with sweep_ := (t.sweep_ + 1) % t.n } : RHBSU64Map Value).setVal
            t.sweep_ (cb s (t.entries t.sweep_).key (t.entries t.sweep_).val).2.1)
            (cb s (t.entries t.sweep_).key (t.entries t.sweep_).val).1 (calls ++ [t.sweep_])
            hw (Nat.mod_lt _ hpos)
        rw [key]
        simp only [setVal, hfin, ne_eq]

theorem rotation_nodup (t : RHBSU64Map Value) (hpos : 0 < t.n) : t.rotation.Nodup := by
  unfold rotation
  refine List.Nodup.map_on ?_ (List.nodup_range _)
  intro j hj k hk h
  rw [List.mem_range] at hj hk
  have h1 : j ≡ k [MOD t.n] := Nat.ModEq.add_left_cancel' t.sweep_ h
  have h2 := Nat.ModEq.eq_of_lt_of_lt h1 hj hk
  exact h2

theorem mem_rotation (t : RHBSU64Map Value) (hs : t.sweep_ < t.n) (i : Nat) :
    i ∈ t.rotation ↔ i < t.n := by
  unfold rotation
  rw [List.mem_map]
  constructor
  · rintro ⟨j, _, rfl⟩
    exact Nat.mod_lt _ (by omega)
  · intro hi
    by_cases h : t.sweep_ ≤ i
    · refine ⟨i - t.sweep_, List.mem_range.2 (by omega), ?_⟩
      rw [show t.sweep_ + (i - t.sweep_) = i by omega]
      exact Nat.mod_eq_of_lt hi
    · refine ⟨i + t.n - t.sweep_, List.mem_range.2 (by omega), ?_⟩
      rw [show t.sweep_ + (i + t.n - t.sweep_) = i + t.n by omega, Nat.add_mod_right]
      exact Nat.mod_eq_of_lt hi

theorem filter_range_length (ctrl : Nat → Nat) :
    ∀ m, ((List.range m).filter (fun i => decide (ctrl i ≠ 0))).length = countOcc ctrl m := by
  intro m
  induction m with
  | zero => rfl
  | succ m ih =>
    rw [List.range_succ, List.filter_append, List.length_append, ih]
    show _ = countOcc ctrl m + (if ctrl m = 0 then 0 else 1)
    by_cases h : ctrl m = 0
    · simp [h]
    · simp [h]

theorem occupied_nodup (t : RHBSU64Map Value) (hpos : 0 < t.n) : t.occupied.Nodup :=
  (rotation_nodup t hpos).filter _

theorem mem_occupied (t : RHBSU64Map Value) (hs : t.sweep_ < t.n) (i : Nat) :
    i ∈ t.occupied ↔ i < t.n ∧ t.ctrl i ≠ 0 := by
  unfold occupied
  rw [List.mem_filter, mem_rotation t hs]
  simp

theorem occupied_length (t : RHBSU64Map Value) (hs : t.sweep_ < t.n) :
    t.occupied.length = countOcc t.ctrl t.n := by
  rw [← filter_range_length]
  unfold occupied
  apply List.Perm.length_eq
  apply List.Perm.filter
  rw [List.perm_ext_iff_of_nodup (rotation_nodup t (by omega)) (List.nodup_range _)]
  intro i
  rw [mem_rotation t hs, List.mem_range]

/-- C12. For every well-formed page table whose hand is a slot, and every boolean callback
`cb` (it sees the key and may rewrite the value of the slot, it cannot insert or erase):
`clock_sweep_next` returns, and what it does is `visitSlots` along the occupied slots in
slot order from the hand (`occupied`, which lists every occupied slot exactly once). The
slots `calls` it calls the callback on are therefore a prefix of `occupied`; if the callback
accepts at slot `i` the sweep stops there (`i` is the last call), returns true and leaves
the hand at `(i + 1) % n`; if it never accepts, the calls are exactly the `size()` occupied
slots, the hand ends where it started and the result is false; on an empty table there is
no call and the result is false. -/
theorem clock_sweep_contract (t : RHBSU64Map Value) (cb : σ → Nat → Value → σ × Value × Bool)
    (s : σ) (hw : WF t) (hcnt : Cnt t) (hs : t.sweep_ < t.n) :
    ∃ e' s' acc calls,
      visitSlots cb t.occupied t.entries s [] = (e', s', acc, calls) ∧
      clock_sweep_next (total cb) t s =
        .ok ({ t with entries := e',
                      sweep_ := match acc with
                        | none => t.sweep_
                        | some i => (i + 1) % t.n }, s', acc.isSome, calls) ∧
      t.occupied.Nodup ∧ (∀ i, i ∈ t.occupied ↔ i < t.n ∧ t.ctrl i ≠ 0) ∧
      calls <+: t.occupied ∧
      (∀ i, acc = some i → calls.getLast? = some i) ∧
      (acc = none → calls = t.occupied ∧ calls.length = t.sz) ∧
      (t.sz = 0 → calls = [] ∧ acc = none) := by
  have hpos : 0 < t.n := hw.pos
  have hlen : t.occupied.length = t.sz := by rw [occupied_length t hs]; exact hcnt.symm
  obtain ⟨taken, h1, h2, h3, h4⟩ := visitSlots_calls cb t.occupied t.entries s []
  rw [List.nil_append] at h1
  refine ⟨_, _, _, _, rfl, ?_, occupied_nodup t hpos, mem_occupied t hs, ?_, ?_, ?_, ?_⟩
  · unfold clock_sweep_next
    by_cases hz : t.sz = 0
    · have hocc : t.occupied = [] := List.length_eq_zero.1 (hlen.trans hz)
      rw [if_pos hz, hocc]
      rfl
    · simp only [hz, if_false]
      rw [sweepLoop_spec cb t.n t s [] hw hs]
      have hmod : (t.sweep_ + t.n) % t.n = t.sweep_ := by
        rw [Nat.add_mod_right]; exact Nat.mod_eq_of_lt hs
      simp only [hmod]
      rfl
  · rw [h1]; exact h2
  · intro i hi
    rw [h1]; exact h3 i hi
  · intro hn
    rw [h1, h4 hn]
    exact ⟨rfl, hlen⟩
  · intro hz
    have hocc : t.occupied = [] := List.length_eq_zero.1 (hlen.trans hz)
    rw [hocc]
    simp [visitSlots]

/-- Instance of `clock_sweep_contract`: on `exampleTable` (capacity 4, hand 0, keys 3 and 2 in
the slots 1 and 2) with the callback that accepts keys above 2, the sweep calls the callback
on slot 1 only, returns true and leaves the hand on slot 2. -/
theorem clock_sweep_contract_witness :
    ∃ e' s' acc calls,
      visitSlots exampleCallback exampleTable.occupied exampleTable.entries 2 []
        = (e', s', acc, calls) ∧
      clock_sweep_next (total exampleCallback) exampleTable 2 =
        .ok ({ exampleTable with entries := e',
                                 sweep_ := match acc with
                                   | none => exampleTable.sweep_
                                   | some i => (i + 1) % exampleTable.n }, s', acc.isSome, calls) ∧
      acc = some 1 ∧ calls = [1] ∧ exampleTable.occupied = [1, 2] :=
  match clock_sweep_contract exampleTable exampleCallback 2
      ⟨⟨2, by decide, by decide⟩, by decide⟩
      (show exampleTable.sz = countOcc exampleTable.ctrl exampleTable.n by decide)
      (by decide) with
  | ⟨e', s', acc, calls, h1, h2, _⟩ =>
    ⟨e', s', acc, calls, h1, h2,
      (congrArg (fun r => r.2.2.1) h1).symm.trans (by decide),
      (congrArg (fun r => r.2.2.2) h1).symm.trans (by decide), by decide⟩

end RHBSU64Map
/-! ## Theorems: the invariant under the primitive changes of the page table -/

namespace BufferManager

open RHBSU64Map BufTagged

theorem has_unique {t : PageTable} (h : Inv t) (k : Nat) (v1 v2 : BufTagged)
    (h1 : Has t k v1) (h2 : Has t k v2) : v1 = v2 := by
  obtain ⟨a, ha, hca, hka, hva⟩ := h1
  obtain ⟨b, hb, hcb, hkb, hvb⟩ := h2
  have hab : a = b := h.uniq a b ha hb hca hcb (hka.trans hkb.symm)
  subst hab
  exact hva.symm.trans hvb

theorem has_of_find {t : PageTable} (h : Inv t) (k i : Nat) (hf : t.find k = some i) :
    i < t.n ∧ t.ctrl i ≠ 0 ∧ (t.entries i).key = k ∧ Has t k (t.entries i).val := by
  obtain ⟨h1, h2, h3⟩ := (find_eq_some_iff h k i).1 hf
  exact ⟨h1, h2, h3, i, h1, h2, h3, rfl⟩

theorem has_setVal {t : PageTable} (h : Inv t) (i : Nat) (v : BufTagged) (hi : i < t.n)
    (hc : t.ctrl i ≠ 0) (k' : Nat) (v' : BufTagged) :
    Has (t.setVal i v) k' v' ↔
      ((k' = (t.entries i).key ∧ v' = v) ∨ (k' ≠ (t.entries i).key ∧ Has t k' v')) :=
  update_has h.uniq (t.entries i).key v i hi hc rfl k' v'

theorem inv_setVal {t : PageTable} (h : Inv t) (i : Nat) (v : BufTagged) :
    Inv (t.setVal i v) :=
  update_inv h.wf h.disp h.step h.uniq h.emp h.cnt h.low v i

theorem Core.keep_setVal {pt : PageTable} {fr : Nat → Nat} {fl : List Nat} (h : Core pt fr fl)
    (i : Nat) (v : BufTagged) (hi : i < pt.n) (hc : pt.ctrl i ≠ 0)
    (hid : v.id = (pt.entries i).val.id) (hex : v.in_use = true → v.io_lock = false) :
    Core (pt.setVal i v) fr fl := by
  have hold : Has pt (pt.entries i).key (pt.entries i).val := ⟨i, hi, hc, rfl, rfl⟩
  have hh := has_setVal h.inv i v hi hc
  refine ⟨inv_setVal h.inv i v, h.hand, ?_, ?_, h.free_nodup, h.free_lt, ?_, ?_⟩
  · intro pid d hd
    rcases (hh pid d).1 hd with ⟨hk, hv⟩ | ⟨_, hd'⟩
    · rw [hv, hid, hk]; exact h.back _ _ hold
    · exact h.back _ _ hd'
  · intro pid d hd
    rcases (hh pid d).1 hd with ⟨hk, hv⟩ | ⟨_, hd'⟩
    · rw [hv, hid]; exact h.idb _ _ hold
    · exact h.idb _ _ hd'
  · intro b hb pid d hd
    rcases (hh pid d).1 hd with ⟨hk, hv⟩ | ⟨_, hd'⟩
    · rw [hv, hid]; exact h.free_unref b hb _ _ hold
    · exact h.free_unref b hb _ _ hd'
  · intro pid d hd
    rcases (hh pid d).1 hd with ⟨hk, hv⟩ | ⟨_, hd'⟩
    · rw [hv]; exact hex
    · exact h.excl _ _ hd'

theorem Batch.batch_setVal {pt : PageTable} {fr : Nat → Nat} {l : List Nat} (hinv : Inv pt)
    (h : Batch pt fr l) (i : Nat) (v : BufTagged) (hi : i < pt.n) (hc : pt.ctrl i ≠ 0)
    (hid : v.id = (pt.entries i).val.id) : Batch (pt.setVal i v) fr l := by
  have hold : Has pt (pt.entries i).key (pt.entries i).val := ⟨i, hi, hc, rfl, rfl⟩
  have hh := has_setVal hinv i v hi hc
  refine ⟨h.nodup, ?_⟩
  intro b hb
  obtain ⟨d, hd, hdb⟩ := h.ref b hb
  by_cases hk : fr b = (pt.entries i).key
  · refine ⟨v, (hh _ _).2 (Or.inl ⟨hk, rfl⟩), ?_⟩
    rw [hk] at hd
    rw [hid, ← has_unique hinv _ _ _ hd hold]
    exact hdb
  · exact ⟨d, (hh _ _).2 (Or.inr ⟨hk, hd⟩), hdb⟩

theorem SweepBatch.sweep_setVal {pt : PageTable} {fr : Nat → Nat} {l : List Nat} (hinv : Inv pt)
    (h : SweepBatch pt fr l) (i : Nat) (v : BufTagged) (hi : i < pt.n) (hc : pt.ctrl i ≠ 0)
    (hid : v.id = (pt.entries i).val.id)
    (hev : (pt.entries i).val.evicting = true → v.evicting = true) :
    SweepBatch (pt.setVal i v) fr l := by
  have hold : Has pt (pt.entries i).key (pt.entries i).val := ⟨i, hi, hc, rfl, rfl⟩
  have hh := has_setVal hinv i v hi hc
  refine ⟨h.nodup, ?_⟩
  intro b hb
  obtain ⟨d, hd, hdb, hde⟩ := h.ref b hb
  by_cases hk : fr b = (pt.entries i).key
  · rw [hk] at hd
    have hdo := has_unique hinv _ _ _ hd hold
    subst hdo
    exact ⟨v, (hh _ _).2 (Or.inl ⟨hk, rfl⟩), hid.trans hdb, hev hde⟩
  · exact ⟨d, (hh _ _).2 (Or.inr ⟨hk, hd⟩), hdb, hde⟩

theorem mem_of_getLast? {l : List Nat} {b : Nat} (h : l.getLast? = some b) :
    l = l.dropLast ++ [b] := by
  have := List.dropLast_append_getLast? b h
  exact this.symm

theorem Core.keep_insert {pt pt' : PageTable} {fr : Nat → Nat} {fl : List Nat} (h : Core pt fr fl)
    (bid pid : Nat) (v : BufTagged) (hlast : fl.getLast? = some bid)
    (hins : pt.insert pid v = .ok (pt', true)) (hid : v.id = bid)
    (hex : v.in_use = true → v.io_lock = false) :
    Core pt' (Function.update fr bid pid) fl.dropLast := by
  obtain ⟨hinv', hn, hsw, hh, hb, _⟩ := insert_spec h.inv pid v pt' true hins
  have hfl := mem_of_getLast? hlast
  have hmem : bid ∈ fl := by rw [hfl]; simp
  have hnd : (fl.dropLast ++ [bid]).Nodup := by rw [← hfl]; exact h.free_nodup
  have hnot : bid ∉ fl.dropLast := by
    intro hc
    have := (List.nodup_append.1 hnd).2.2
    exact this hc (List.mem_singleton.2 rfl)
  have hsub : ∀ b, b ∈ fl.dropLast → b ∈ fl := fun b hb => List.dropLast_subset fl hb
  refine ⟨hinv', ?_, ?_, ?_, ?_, ?_, ?_, ?_⟩
  · rw [hsw, hn]; exact h.hand
  · intro p d hd
    rcases (hh p d).1 hd with ⟨hk, hv⟩ | ⟨_, hd'⟩
    · rw [hv, hid, hk]; simp
    · have hne : d.id ≠ bid := h.free_unref bid hmem _ _ hd'
      rw [Function.update_noteq hne]
      exact h.back _ _ hd'
  · intro p d hd
    rcases (hh p d).1 hd with ⟨hk, hv⟩ | ⟨_, hd'⟩
    · rw [hv, hid]; exact h.free_lt bid hmem
    · exact h.idb _ _ hd'
  · exact (List.nodup_append.1 hnd).1
  · intro b hb
    exact h.free_lt b (hsub b hb)
  · intro b hb p d hd
    rcases (hh p d).1 hd with ⟨hk, hv⟩ | ⟨_, hd'⟩
    · rw [hv, hid]
      intro hc
      exact hnot (hc ▸ hb)
    · exact h.free_unref b (hsub b hb) _ _ hd'
  · intro p d hd
    rcases (hh p d).1 hd with ⟨hk, hv⟩ | ⟨_, hd'⟩
    · rw [hv]; exact hex
    · exact h.excl _ _ hd'

theorem Batch.batch_insert {pt pt' : PageTable} {fr : Nat → Nat} {fl l : List Nat}
    (h : Core pt fr fl) (hb : Batch pt fr l) (bid pid : Nat) (v : BufTagged)
    (hlast : fl.getLast? = some bid) (hins : pt.insert pid v = .ok (pt', true)) :
    Batch pt' (Function.update fr bid pid) l := by
  obtain ⟨hinv', hn, hsw, hh, hbb, _⟩ := insert_spec h.inv pid v pt' true hins
  have habs : ∀ v', ¬ Has pt pid v' := hbb.1 rfl
  have hfl := mem_of_getLast? hlast
  have hmem : bid ∈ fl := by rw [hfl]; simp
  refine ⟨hb.nodup, ?_⟩
  intro b hbl
  obtain ⟨d, hd, hdb⟩ := hb.ref b hbl
  have hne : b ≠ bid := by
    intro hc
    exact h.free_unref bid hmem _ _ hd (hdb.trans hc)
  rw [Function.update_noteq hne]
  have hk : fr b ≠ pid := by
    intro hc
    rw [hc] at hd
    exact habs d hd
  exact ⟨d, (hh _ _).2 (Or.inr ⟨hk, hd⟩), hdb⟩

theorem Core.keep_erase {pt : PageTable} {fr : Nat → Nat} {fl : List Nat} (h : Core pt fr fl)
    (bid : Nat) (d : BufTagged) (hd : Has pt (fr bid) d) (hid : d.id = bid) :
    Core (pt.erase (fr bid)).1 fr (fl ++ [bid]) := by
  obtain ⟨hinv', hn, hsw, hh, _, _⟩ := erase_spec h.inv (fr bid)
  have hnot : bid ∉ fl := fun hc => h.free_unref bid hc _ _ hd hid
  refine ⟨hinv', ?_, ?_, ?_, ?_, ?_, ?_, ?_⟩
  · rw [hsw, hn]; exact h.hand
  · intro p d' hd'
    exact h.back _ _ ((hh p d').1 hd').2
  · intro p d' hd'
    exact h.idb _ _ ((hh p d').1 hd').2
  · rw [List.nodup_append]
    refine ⟨h.free_nodup, List.nodup_singleton _, ?_⟩
    intro a ha hb
    rw [List.mem_singleton] at hb
    subst hb
    exact hnot ha
  · intro b hb
    rcases List.mem_append.1 hb with hb | hb
    · exact h.free_lt b hb
    · rw [List.mem_singleton] at hb
      rw [hb, ← hid]
      exact h.idb _ _ hd
  · intro b hb p d' hd'
    obtain ⟨hne, hold⟩ := (hh p d').1 hd'
    rcases List.mem_append.1 hb with hb | hb
    · exact h.free_unref b hb _ _ hold
    · rw [List.mem_singleton] at hb
      intro hc
      apply hne
      rw [← h.back _ _ hold, hc, hb]
  · intro p d' hd'
    exact h.excl _ _ ((hh p d').1 hd').2

theorem Batch.batch_erase {pt : PageTable} {fr : Nat → Nat} {l : List Nat} (hinv : Inv pt)
    (hb : Batch pt fr l) (bid : Nat) (d : BufTagged) (hd : Has pt (fr bid) d)
    (hid : d.id = bid) (hnot : bid ∉ l) : Batch (pt.erase (fr bid)).1 fr l := by
  obtain ⟨hinv', hn, hsw, hh, _, _⟩ := erase_spec hinv (fr bid)
  refine ⟨hb.nodup, ?_⟩
  intro b hbl
  obtain ⟨d', hd', hdb⟩ := hb.ref b hbl
  have hk : fr b ≠ fr bid := by
    intro hc
    rw [hc] at hd'
    have := has_unique hinv _ _ _ hd' hd
    apply hnot
    rw [← hid, ← this, hdb]
    exact hbl
  exact ⟨d', (hh _ _).2 ⟨hk, hd'⟩, hdb⟩

end BufferManager
/-! ## Theorems: every step of the buffer manager keeps the invariant -/

namespace BufferManager

open RHBSU64Map BufTagged

theorem Consistent.flags {p : Bool} {bm bm' : BufferManager} (h : Consistent p bm)
    (i : Nat) (v : BufTagged) (hi : i < bm.page_table.n) (hc : bm.page_table.ctrl i ≠ 0)
    (hid : v.id = (bm.page_table.entries i).val.id)
    (hex : v.in_use = true → v.io_lock = false)
    (hpt : bm'.page_table = bm.page_table.setVal i v) (hfr : bm'.framePid = bm.framePid)
    (hfl : bm'.freeList = bm.freeList) (hte : bm'.toEvict = bm.toEvict)
    (htw : bm'.toWrite = bm.toWrite) : Consistent p bm' := by
  unfold Consistent
  rw [hpt, hfr, hfl, hte, htw]
  exact ⟨h.1.keep_setVal i v hi hc hid hex, fun hp => (h.2 hp).batch_setVal h.1.inv i v hi hc hid⟩

theorem Consistent.pop {p : Bool} {bm bm' : BufferManager} (h : Consistent p bm)
    (bid pid : Nat) (v : BufTagged) (pt : PageTable) (w : List Nat)
    (hlast : bm.freeList.getLast? = some bid)
    (hins : bm.page_table.insert pid v = .ok (pt, true)) (hid : v.id = bid)
    (hex : v.in_use = true → v.io_lock = false)
    (hpt : bm'.page_table = pt)
    (hfr : bm'.buffer_frames = Function.update bm.buffer_frames bid ⟨pid, w⟩)
    (hfl : bm'.freeList = bm.freeList.dropLast) (hte : bm'.toEvict = bm.toEvict)
    (htw : bm'.toWrite = bm.toWrite) : Consistent p bm' := by
  have hfp : bm'.framePid = Function.update bm.framePid bid pid := by
    funext b
    unfold framePid
    rw [hfr]
    by_cases hb : b = bid
    · subst hb; simp
    · simp [Function.update_noteq hb]
  unfold Consistent
  rw [hpt, hfp, hfl, hte, htw]
  exact ⟨h.1.keep_insert bid pid v hlast hins hid hex,
    fun hp => (h.2 hp).batch_insert h.1 bid pid v hlast hins⟩

theorem Consistent.same {p : Bool} {bm bm' : BufferManager} (h : Consistent p bm)
    (hpt : bm'.page_table = bm.page_table) (hfr : bm'.framePid = bm.framePid)
    (hfl : bm'.freeList = bm.freeList) (hte : bm'.toEvict = bm.toEvict)
    (htw : bm'.toWrite = bm.toWrite) : Consistent p bm' := by
  unfold Consistent
  rw [hpt, hfr, hfl, hte, htw]
  exact h

theorem range_rev_nodup (n : Nat) : ((List.range n).map fun i => n - i - 1).Nodup := by
  refine List.Nodup.map_on ?_ (List.nodup_range _)
  intro a ha b hb h
  rw [List.mem_range] at ha hb
  omega

theorem init_consistent (cfg : Config) (page_count page_table_sz : Nat) (bm : BufferManager)
    (hpc : page_count ≤ 2 ^ 52) (hsz : page_table_sz < 2 ^ 64)
    (h : init cfg page_count page_table_sz = .ok bm) : Consistent false bm := by
  unfold init at h
  cases hn : RHBSU64Map.new (BufTagged.mk 0) page_table_sz with
  | error e => rw [hn] at h; simp at h
  | ok pt =>
    rw [hn] at h
    simp only at h
    cases hi : pt.insert 0 (((BufTagged.ofBid 0).set_dirty true).set_marked true) with
    | error e => rw [hi] at h; simp at h
    | ok r =>
      obtain ⟨pt1, b⟩ := r
      rw [hi] at h
      simp only at h
      split at h
      · simp at h
      · simp only [Except.ok.injEq] at h
        subst h
        obtain ⟨h0, hn0, _, hno⟩ := new_inv (BufTagged.mk 0) page_table_sz hsz pt hn
        obtain ⟨hinv, hn1, hsw, hh, _, _⟩ := insert_spec h0 0 _ pt1 b hi
        have hs0 : pt.sweep_ = 0 := by
          unfold RHBSU64Map.new at hn
          split at hn
          · simp at hn
          · simp only [Except.ok.injEq] at hn
            rw [← hn]
        have hval : ∀ pid d, Has pt1 pid d →
            pid = 0 ∧ d = ((BufTagged.ofBid 0).set_dirty true).set_marked true := by
          intro pid d hd
          rcases (hh pid d).1 hd with hk | ⟨_, hd'⟩
          · exact hk
          · exact absurd hd' (hno _ _)
        have hid0 : (((BufTagged.ofBid 0).set_dirty true).set_marked true).id = 0 := by
          rw [id_set_marked, id_set_dirty, id_ofBid 0 (by positivity)]
        refine ⟨⟨hinv, ?_, ?_, ?_, ?_, ?_, ?_, ?_⟩, fun hp => by simp at hp⟩
        · show pt1.sweep_ < pt1.n
          rw [hsw, hs0]
          exact hinv.wf.pos
        · intro pid d hd
          obtain ⟨h1, h2⟩ := hval pid d hd
          rw [h1]; rfl
        · intro pid d hd
          obtain ⟨h1, h2⟩ := hval pid d hd
          rw [h2, hid0]; positivity
        · exact (range_rev_nodup page_count).filter _
        · intro b hb
          have hb1 := (List.mem_filter.1 hb).1
          obtain ⟨i, hi1, hi2⟩ := List.mem_map.1 hb1
          rw [List.mem_range] at hi1
          have : (2 : Nat) ^ 52 ≤ 2 ^ 59 := Nat.pow_le_pow_right (by decide) (by decide)
          omega
        · intro b hb pid d hd
          obtain ⟨h1, h2⟩ := hval pid d hd
          have hb2 := (List.mem_filter.1 hb).2
          rw [h2, hid0]
          intro hc
          subst hc
          simp at hb2
        · intro pid d hd
          obtain ⟨h1, h2⟩ := hval pid d hd
          rw [h2]
          simp

theorem ensureFreePages_consistent {p : Bool} {bm bm1 : BufferManager} (h : Consistent p bm)
    (he : bm.ensureFreePages = .ok bm1) : Consistent p bm1 := by
  obtain ⟨ef, r1, rfl⟩ := ensureFreePages_eq bm bm1 he
  exact h

theorem allocPage_consistent {p : Bool} {bm bm' : BufferManager} {ptr : PagePtr}
    (h : Consistent p bm) (ha : bm.allocPage = .ok (bm', ptr)) : Consistent p bm' := by
  unfold allocPage at ha
  cases he : bm.ensureFreePages with
  | error e => rw [he] at ha; simp at ha
  | ok bm1 =>
    rw [he] at ha
    have h1 := ensureFreePages_consistent h he
    simp only at ha
    split at ha
    · simp only [Except.ok.injEq, Prod.mk.injEq] at ha
      obtain ⟨e1, _⟩ := ha
      subst e1
      exact h1
    · cases hg : bm1.freeList.getLast? with
      | none => rw [hg] at ha; simp at ha
      | some bid =>
        rw [hg] at ha
        simp only at ha
        cases hi : bm1.page_table.insert bm1.allocCount
            ((((BufTagged.ofBid bid).set_dirty true).set_in_use true).set_marked true) with
        | error e => rw [hi] at ha; simp at ha
        | ok r =>
          obtain ⟨pt, b⟩ := r
          rw [hi] at ha
          simp only at ha
          cases b with
          | false => simp at ha
          | true =>
            simp only [Bool.not_true, Bool.false_eq_true, if_false] at ha
            split at ha
            · simp at ha
            · simp only [Except.ok.injEq, Prod.mk.injEq] at ha
              obtain ⟨e1, _⟩ := ha
              subst e1
              have hmem : bid ∈ bm1.freeList := by
                rw [mem_of_getLast? hg]; simp
              have hb59 := h1.1.free_lt bid hmem
              refine h1.pop bid bm1.allocCount _ pt [] hg hi ?_ ?_ rfl rfl rfl rfl rfl
              · rw [id_set_marked, id_set_in_use, id_set_dirty, id_ofBid bid hb59]
              · intro _; simp

theorem handleFault_begin_consistent {p : Bool} {bm bm' : BufferManager} {self pid : Nat}
    {s : Suspended} (h : Consistent p bm) (ha : bm.handleFault_begin self pid = .ok (bm', s)) :
    Consistent p bm' := by
  unfold handleFault_begin at ha
  cases he : bm.ensureFreePages with
  | error e => rw [he] at ha; simp at ha
  | ok bm1 =>
    rw [he] at ha
    have h1 := ensureFreePages_consistent h he
    simp only at ha
    split at ha
    · simp only [Except.ok.injEq, Prod.mk.injEq] at ha
      obtain ⟨e1, _⟩ := ha
      subst e1
      exact h1
    · cases hg : bm1.freeList.getLast? with
      | none => rw [hg] at ha; simp at ha
      | some bid =>
        rw [hg] at ha
        simp only at ha
        cases hi : bm1.page_table.insert pid
            (((BufTagged.ofBid bid).set_io_lock true).set_marked true) with
        | error e => rw [hi] at ha; simp at ha
        | ok r =>
          obtain ⟨pt, b⟩ := r
          rw [hi] at ha
          simp only at ha
          cases b with
          | false => simp at ha
          | true =>
            simp only [Bool.not_true, Bool.false_eq_true, if_false, Except.ok.injEq,
              Prod.mk.injEq] at ha
            obtain ⟨e1, _⟩ := ha
            subst e1
            have hmem : bid ∈ bm1.freeList := by
              rw [mem_of_getLast? hg]; simp
            have hb59 := h1.1.free_lt bid hmem
            refine h1.pop bid pid _ pt [self] hg hi ?_ ?_ rfl rfl rfl rfl rfl
            · rw [id_set_marked, id_set_io_lock, id_ofBid bid hb59]
            · intro hu; simp at hu

theorem fix_consistent {p : Bool} {bm bm' : BufferManager} {exclusive : Bool} {pid : Nat}
    {ptr : PagePtr} (h : Consistent p bm) (ha : fix exclusive bm pid = .ok (bm', ptr)) :
    Consistent p bm' := by
  unfold fix at ha
  simp only at ha
  cases hf : bm.page_table.find pid with
  | none =>
    simp only [hf, Except.ok.injEq, Prod.mk.injEq] at ha
    obtain ⟨e1, _⟩ := ha
    subst e1
    exact h
  | some i =>
    obtain ⟨hi, hc, hk, hhas⟩ := has_of_find h.1.inv pid i hf
    simp only [hf] at ha
    split at ha
    · simp only [Except.ok.injEq, Prod.mk.injEq] at ha
      obtain ⟨e1, _⟩ := ha
      subst e1
      exact h
    · rename_i hio
      split at ha
      · simp at ha
      · split at ha
        · simp at ha
        · simp only [Except.ok.injEq, Prod.mk.injEq] at ha
          obtain ⟨e1, _⟩ := ha
          subst e1
          refine h.flags i _ hi hc ?_ ?_ rfl rfl rfl rfl rfl
          · cases exclusive <;> simp
          · intro _
            cases exclusive <;> simpa using hio

theorem unfix_consistent {p : Bool} {bm bm' : BufferManager} {exclusive : Bool} {pid : Nat}
    (h : Consistent p bm) (ha : unfix exclusive bm pid = .ok bm') : Consistent p bm' := by
  unfold unfix at ha
  cases hf : bm.page_table.find pid with
  | none => simp [hf] at ha
  | some i =>
    obtain ⟨hi, hc, hk, hhas⟩ := has_of_find h.1.inv pid i hf
    simp only [hf] at ha
    split at ha
    · simp at ha
    · cases exclusive with
      | false =>
        simp only [Bool.false_eq_true, false_and, if_false, Except.ok.injEq] at ha
        subst ha
        refine h.flags i _ hi hc ?_ ?_ rfl rfl rfl rfl rfl
        · simp
        · intro hu; simp at hu
      | true =>
        simp only [if_true, true_and] at ha
        split at ha
        · simp at ha
        · simp only [Except.ok.injEq] at ha
          subst ha
          refine h.flags i _ hi hc ?_ ?_ rfl rfl rfl rfl rfl
          · simp
          · intro hu; simp at hu

theorem framePid_waiting (bm : BufferManager) (bid : Nat) (w : List Nat) :
    (fun b => (Function.update bm.buffer_frames bid
      { bm.buffer_frames bid with waiting := w } b).pid) = bm.framePid := by
  funext b
  unfold framePid
  by_cases hb : b = bid
  · subst hb; simp
  · simp [Function.update_noteq hb]

theorem handleFault_end_consistent {p : Bool} {bm bm' : BufferManager} {self pid bid : Nat}
    {rc : Int} {nvme_cmds : Bool} (h : Consistent p bm)
    (ha : bm.handleFault_end self pid bid rc nvme_cmds = .ok bm') : Consistent p bm' := by
  unfold handleFault_end at ha
  split at ha
  · simp at ha
  · cases hw : (bm.buffer_frames bid).waiting with
    | nil => simp [hw] at ha
    | cons w ws =>
      simp only [hw] at ha
      split at ha
      · simp at ha
      · cases hwk : wakeAll bm.r ws with
        | error e => simp [hwk] at ha
        | ok r1 =>
          simp only [hwk] at ha
          cases hf : bm.page_table.find pid with
          | none => simp [hf] at ha
          | some i =>
            obtain ⟨hi, hc, hk, hhas⟩ := has_of_find h.1.inv pid i hf
            simp only [hf, Except.ok.injEq] at ha
            subst ha
            refine h.flags i _ hi hc ?_ ?_ rfl (framePid_waiting bm bid []) rfl rfl rfl
            · simp
            · intro _; simp

theorem handleWait_consistent {p : Bool} {bm bm' : BufferManager} {self bid : Nat}
    (h : Consistent p bm) (ha : bm.handleWait self bid = .ok bm') : Consistent p bm' := by
  unfold handleWait at ha
  cases hw : (bm.buffer_frames bid).waiting with
  | nil => simp [hw] at ha
  | cons w ws =>
    simp only [hw] at ha
    cases hf : bm.page_table.find (bm.buffer_frames bid).pid with
    | none => simp [hf] at ha
    | some i =>
      simp only [hf] at ha
      split at ha
      · simp at ha
      · simp only [Except.ok.injEq] at ha
        subst ha
        exact h.same rfl (framePid_waiting bm bid _) rfl rfl rfl

end BufferManager
/-! ## Theorems: `evict` keeps the invariant -/

namespace BufferManager

open RHBSU64Map BufTagged

theorem Core.keep_hand {pt : PageTable} {fr : Nat → Nat} {fl : List Nat} (h : Core pt fr fl)
    (x : Nat) (hx : x < pt.n) : Core { pt with sweep_ := x } fr fl :=
  ⟨⟨h.inv.wf, h.inv.disp, h.inv.step, h.inv.uniq, h.inv.emp, h.inv.low, h.inv.cnt⟩, hx,
    h.back, h.idb, h.free_nodup, h.free_lt, h.free_unref, h.excl⟩

theorem SweepBatch.sweep_hand {pt : PageTable} {fr : Nat → Nat} {l : List Nat}
    (h : SweepBatch pt fr l) (x : Nat) : SweepBatch { pt with sweep_ := x } fr l :=
  ⟨h.nodup, h.ref⟩

theorem SweepBatch.sweep_add {pt : PageTable} {fr : Nat → Nat} {fl l l' : List Nat}
    (h : Core pt fr fl) (hb : SweepBatch pt fr l) (i : Nat) (v : BufTagged) (hi : i < pt.n)
    (hc : pt.ctrl i ≠ 0) (hfr : fr (pt.entries i).val.id = (pt.entries i).key)
    (hne : (pt.entries i).val.evicting = false) (hid : v.id = (pt.entries i).val.id)
    (hev : v.evicting = true) (hp : l'.Perm ((pt.entries i).val.id :: l)) :
    SweepBatch (pt.setVal i v) fr l' := by
  have hold : Has pt (pt.entries i).key (pt.entries i).val := ⟨i, hi, hc, rfl, rfl⟩
  have hh := has_setVal h.inv i v hi hc
  have hkey : ∀ b, b ∈ l → fr b ≠ (pt.entries i).key := by
    intro b hbl hk
    obtain ⟨d, hd, hdb, hde⟩ := hb.ref b hbl
    rw [hk] at hd
    have := has_unique h.inv _ _ _ hd hold
    rw [this, hne] at hde
    simp at hde
  have hnot : (pt.entries i).val.id ∉ l := fun hm => hkey _ hm hfr
  refine ⟨?_, ?_⟩
  · rw [hp.nodup_iff, List.nodup_cons]
    exact ⟨hnot, hb.nodup⟩
  · intro b hbl
    rw [hp.mem_iff, List.mem_cons] at hbl
    rcases hbl with hbl | hbl
    · subst hbl
      exact ⟨v, (hh _ _).2 (Or.inl ⟨hfr, rfl⟩), hid, hev⟩
    · obtain ⟨d, hd, hdb, hde⟩ := hb.ref b hbl
      exact ⟨d, (hh _ _).2 (Or.inr ⟨hkey b hbl, hd⟩), hdb, hde⟩

theorem evictCallback_core {pt : PageTable} {fl : List Nat} (frames : Nat → BufferFrame)
    (eb : Nat) (s s1 : SweepState) (v1 : BufTagged) (r : Bool) (i : Nat)
    (h : Core pt (fun b => (frames b).pid) fl)
    (hb : SweepBatch pt (fun b => (frames b).pid) (s.toEvict ++ s.toWrite))
    (hi : i < pt.n) (hc : pt.ctrl i ≠ 0)
    (hcb : evictCallback frames eb s (pt.entries i).key (pt.entries i).val = .ok (s1, v1, r)) :
    Core (pt.setVal i v1) (fun b => (frames b).pid) fl ∧
      SweepBatch (pt.setVal i v1) (fun b => (frames b).pid) (s1.toEvict ++ s1.toWrite) := by
  have hold : Has pt (pt.entries i).key (pt.entries i).val := ⟨i, hi, hc, rfl, rfl⟩
  have hexo := h.excl _ _ hold
  unfold evictCallback at hcb
  simp only at hcb
  split at hcb
  · simp at hcb
  · rename_i hfr
    simp only [ne_eq, not_not] at hfr
    split at hcb
    · simp only [Except.ok.injEq, Prod.mk.injEq] at hcb
      obtain ⟨e1, e2, _⟩ := hcb
      subst e1; subst e2
      exact ⟨h.keep_setVal i _ hi hc rfl hexo, hb.sweep_setVal h.inv i _ hi hc rfl (fun x => x)⟩
    · rename_i huse
      split at hcb
      · simp only [Except.ok.injEq, Prod.mk.injEq] at hcb
        obtain ⟨e1, e2, _⟩ := hcb
        subst e1; subst e2
        exact ⟨h.keep_setVal i _ hi hc rfl hexo, hb.sweep_setVal h.inv i _ hi hc rfl (fun x => x)⟩
      · split at hcb
        · simp only [Except.ok.injEq, Prod.mk.injEq] at hcb
          obtain ⟨e1, e2, _⟩ := hcb
          subst e1; subst e2
          exact ⟨h.keep_setVal i _ hi hc rfl hexo, hb.sweep_setVal h.inv i _ hi hc rfl (fun x => x)⟩
        · rename_i hev
          split at hcb
          · simp only [Except.ok.injEq, Prod.mk.injEq] at hcb
            obtain ⟨e1, e2, _⟩ := hcb
            subst e1; subst e2
            refine ⟨h.keep_setVal i _ hi hc (by simp) ?_, hb.sweep_setVal h.inv i _ hi hc (by simp) ?_⟩
            · intro hu
              simp only [in_use_set_marked] at hu
              exact absurd hu huse
            · intro hu
              exact absurd hu hev
          · split at hcb
            · simp at hcb
            · have hev' : (pt.entries i).val.evicting = false := by
                simpa using hev
              split at hcb
              · simp only [Except.ok.injEq, Prod.mk.injEq] at hcb
                obtain ⟨e1, e2, _⟩ := hcb
                subst e1; subst e2
                refine ⟨h.keep_setVal i _ hi hc (by simp) ?_,
                  SweepBatch.sweep_add h hb i _ hi hc hfr hev' (by simp) (by simp) ?_⟩
                · intro hu
                  simp only [in_use_set_dirty, in_use_set_evicting] at hu
                  exact absurd hu huse
                · show (s.toEvict ++ (s.toWrite ++ [(pt.entries i).val.id])).Perm _
                  rw [← List.append_assoc]
                  exact List.perm_append_singleton _ _
              · simp only [Except.ok.injEq, Prod.mk.injEq] at hcb
                obtain ⟨e1, e2, _⟩ := hcb
                subst e1; subst e2
                refine ⟨h.keep_setVal i _ hi hc (by simp) ?_,
                  SweepBatch.sweep_add h hb i _ hi hc hfr hev' (by simp) (by simp) ?_⟩
                · intro hu
                  simp only [in_use_set_evicting] at hu
                  exact absurd hu huse
                · show ((s.toEvict ++ [(pt.entries i).val.id]) ++ s.toWrite).Perm _
                  rw [List.append_assoc, List.singleton_append]
                  exact List.perm_middle

theorem sweepLoop_core {fl : List Nat} (frames : Nat → BufferFrame) (eb : Nat) :
    ∀ (fuel : Nat) (t : PageTable) (s : SweepState) (calls : List Nat) (t' : PageTable)
      (s' : SweepState) (r : Bool) (calls' : List Nat),
      Core t (fun b => (frames b).pid) fl →
      SweepBatch t (fun b => (frames b).pid) (s.toEvict ++ s.toWrite) →
      sweepLoop (evictCallback frames eb) fuel t s calls = .ok (t', s', r, calls') →
      Core t' (fun b => (frames b).pid) fl ∧
        SweepBatch t' (fun b => (frames b).pid) (s'.toEvict ++ s'.toWrite) := by
  intro fuel
  induction fuel with
  | zero =>
    intro t s calls t' s' r calls' h hb hs
    simp only [sweepLoop, Except.ok.injEq, Prod.mk.injEq] at hs
    obtain ⟨e1, e2, _⟩ := hs
    subst e1; subst e2
    exact ⟨h, hb⟩
  | succ f ih =>
    intro t s calls t' s' r calls' h hb hs
    have hx : (t.sweep_ + 1) &&& t.mask < t.n := by
      rw [h.inv.wf.and_mask]
      exact Nat.mod_lt _ h.inv.wf.pos
    have h1 := h.keep_hand _ hx
    have hb1 := hb.sweep_hand ((t.sweep_ + 1) &&& t.mask)
    unfold sweepLoop at hs
    simp only at hs
    split at hs
    · rename_i hc
      cases hcb : evictCallback frames eb s (t.entries t.sweep_).key
          (t.entries t.sweep_).val with
      | error e => simp [hcb] at hs
      | ok res =>
        obtain ⟨s1, v1, r1⟩ := res
        simp only [hcb] at hs
        obtain ⟨h2, hb2⟩ := evictCallback_core frames eb s s1 v1 r1 t.sweep_ h1 hb1 h.hand hc hcb
        split at hs
        · simp only [Except.ok.injEq, Prod.mk.injEq] at hs
          obtain ⟨e1, e2, _⟩ := hs
          subst e1; subst e2
          exact ⟨h2, hb2⟩
        · exact ih _ _ _ _ _ _ _ h2 hb2 hs
    · exact ih _ _ _ _ _ _ _ h1 hb1 hs

theorem evict_begin_consistent {bm bm' : BufferManager} (h : Consistent false bm)
    (ha : bm.evict_begin = .ok bm') : Consistent true bm' := by
  unfold evict_begin at ha
  cases hs : bm.page_table.clock_sweep_next
      (evictCallback bm.buffer_frames bm.cfg.evict_batch) ⟨[], [], 0⟩ with
  | error e => simp [hs] at ha
  | ok res =>
    obtain ⟨pt, s, r, calls⟩ := res
    simp only [hs, Except.ok.injEq] at ha
    subst ha
    have h0 : SweepBatch bm.page_table bm.framePid
        ((⟨[], [], 0⟩ : SweepState).toEvict ++ (⟨[], [], 0⟩ : SweepState).toWrite) :=
      ⟨List.nodup_nil, fun b hb => by simp at hb⟩
    have key : Core pt bm.framePid bm.freeList ∧
        SweepBatch pt bm.framePid (s.toEvict ++ s.toWrite) := by
      unfold clock_sweep_next at hs
      split at hs
      · simp only [Except.ok.injEq, Prod.mk.injEq] at hs
        obtain ⟨e1, e2, _⟩ := hs
        subst e1; subst e2
        exact ⟨h.1, h0⟩
      · exact sweepLoop_core bm.buffer_frames _ _ _ _ _ _ _ _ _ h.1 h0 hs
    exact ⟨key.1, fun _ => ⟨key.2.nodup, fun b hb =>
      match key.2.ref b hb with
      | ⟨d, h1, h2, _⟩ => ⟨d, h1, h2⟩⟩⟩

theorem Batch.batch_tail {pt : PageTable} {fr : Nat → Nat} {b : Nat} {l : List Nat}
    (h : Batch pt fr (b :: l)) : Batch pt fr l ∧ b ∉ l :=
  ⟨⟨(List.nodup_cons.1 h.nodup).2, fun x hx => h.ref x (List.mem_cons_of_mem _ hx)⟩,
    (List.nodup_cons.1 h.nodup).1⟩

theorem evictNow_core {bm bm' : BufferManager} {bid : Nat} {l : List Nat} {e : Bool}
    (h : Core bm.page_table bm.framePid bm.freeList)
    (hb : Batch bm.page_table bm.framePid (bid :: l))
    (ha : bm.evictNow bid = .ok (bm', e)) :
    Core bm'.page_table bm'.framePid bm'.freeList ∧ Batch bm'.page_table bm'.framePid l := by
  obtain ⟨d, hd, hdb⟩ := hb.ref bid (List.mem_cons_self _ _)
  unfold evictNow at ha
  simp only at ha
  cases hf : bm.page_table.find (bm.buffer_frames bid).pid with
  | none => simp [hf] at ha
  | some i =>
    obtain ⟨hi, hc, hk, hhas⟩ := has_of_find h.inv _ i hf
    have hbuf : (bm.page_table.entries i).val = d := has_unique h.inv _ _ _ hhas hd
    have hone := h.keep_setVal i ((bm.page_table.entries i).val.set_evicting false) hi hc
      (by simp) (by simpa using h.excl _ _ hhas)
    have hbone := (hb.batch_setVal h.inv i ((bm.page_table.entries i).val.set_evicting false) hi hc
      (by simp)).batch_tail
    simp only [hf] at ha
    split at ha
    · simp at ha
    · split at ha
      · simp only [Except.ok.injEq, Prod.mk.injEq] at ha
        obtain ⟨e1, _⟩ := ha
        subst e1
        exact ⟨hone, hbone.1⟩
      · split at ha
        · simp only [Except.ok.injEq, Prod.mk.injEq] at ha
          obtain ⟨e1, _⟩ := ha
          subst e1
          exact ⟨hone, hbone.1⟩
        · split at ha
          · simp at ha
          · split at ha
            · simp at ha
            · simp only [Except.ok.injEq, Prod.mk.injEq] at ha
              obtain ⟨e1, _⟩ := ha
              subst e1
              have hnew : Has (bm.page_table.setVal i
                  ((bm.page_table.entries i).val.set_evicting false)) (bm.framePid bid)
                  ((bm.page_table.entries i).val.set_evicting false) :=
                (has_setVal h.inv i _ hi hc _ _).2 (Or.inl ⟨hk.symm, rfl⟩)
              have hidn : ((bm.page_table.entries i).val.set_evicting false).id = bid := by
                rw [id_set_evicting, hbuf]; exact hdb
              exact ⟨hone.keep_erase bid _ hnew hidn,
                hbone.1.batch_erase hone.inv bid _ hnew hidn hbone.2⟩

theorem evictAll_core : ∀ (l : List Nat) (bm bm' : BufferManager) (c c' : Nat),
    Core bm.page_table bm.framePid bm.freeList → Batch bm.page_table bm.framePid l →
    evictAll bm l c = .ok (bm', c') →
    Core bm'.page_table bm'.framePid bm'.freeList := by
  intro l
  induction l with
  | nil =>
    intro bm bm' c c' h hb ha
    simp only [evictAll, Except.ok.injEq, Prod.mk.injEq] at ha
    obtain ⟨e1, _⟩ := ha
    subst e1
    exact h
  | cons bid l ih =>
    intro bm bm' c c' h hb ha
    unfold evictAll at ha
    cases hn : bm.evictNow bid with
    | error e => simp [hn] at ha
    | ok res =>
      obtain ⟨bm1, ev⟩ := res
      simp only [hn] at ha
      obtain ⟨h1, hb1⟩ := evictNow_core h hb hn
      exact ih bm1 bm' _ c' h1 hb1 ha

theorem evict_end_consistent {bm bm' : BufferManager} {rc : Int} {nvme_cmds : Bool}
    (h : Consistent true bm) (ha : bm.evict_end rc nvme_cmds = .ok bm') :
    Consistent false bm' := by
  unfold evict_end at ha
  split at ha
  · simp at ha
  · simp only at ha
    split at ha
    · simp at ha
    · rename_i bm2 cnt hn
      simp only [Except.ok.injEq] at ha
      subst ha
      exact ⟨evictAll_core _ _ bm2 _ cnt (by exact h.1) (by exact h.2 rfl) hn,
        fun hp => by simp at hp⟩

/-- The invariant holds in every reachable state. -/
theorem reach_consistent : ∀ (p : Bool) (bm : BufferManager), Reach p bm → Consistent p bm := by
  intro p bm h
  induction h with
  | init cfg pc sz bm h1 h2 h3 => exact init_consistent cfg pc sz bm h1 h2 h3
  | allocPage p bm bm' ptr _ ha ih => exact allocPage_consistent ih ha
  | fix p ex bm bm' pid ptr _ ha ih => exact fix_consistent ih ha
  | unfix p ex bm bm' pid _ ha ih => exact unfix_consistent ih ha
  | handleFault_begin p bm bm' self pid s _ ha ih => exact handleFault_begin_consistent ih ha
  | handleFault_end p bm bm' self pid bid rc nv _ ha ih =>
    exact handleFault_end_consistent ih ha
  | handleWait p bm bm' self bid _ ha ih => exact handleWait_consistent ih ha
  | evict_begin bm bm' _ ha ih => exact evict_begin_consistent ih ha
  | evict_end bm bm' rc nv _ ha ih => exact evict_end_consistent ih ha
  | sched p bm r ef _ ih => exact ih

end BufferManager
/-! ## Theorems: the invariants of the reachable states, and `unfix` in a reachable state -/

namespace BufferManager

open RHBSU64Map BufTagged

/-- The state after `init()` with 4 frames and one `allocPage()` is reachable. -/
theorem reach_bmAlloc1 : Reach false bmAlloc1 :=
  Reach.allocPage false bmInit4 bmAlloc1 (some 1)
    (Reach.init ⟨64, 1, 10⟩ 4 8 bmInit4 (by norm_num) (by norm_num) rfl) rfl

/-- C19. Descriptor bijection: in every state reachable from `init` through `allocPage`,
`handleFault`, `fixS`/`fixX`, `unfixS`/`unfixX`, `handleWait` and `evict` (interleaved at
their suspension points), every occupied page-table entry `(pid, d)` has
`buffer_frames[d.id()].pid == pid`, and two entries with the same BID are the same entry. -/
theorem descriptor_bijection (p : Bool) (bm : BufferManager) (h : Reach p bm) :
    (∀ pid d, Has bm.page_table pid d → (bm.buffer_frames d.id).pid = pid) ∧
    (∀ pid1 d1 pid2 d2, Has bm.page_table pid1 d1 → Has bm.page_table pid2 d2 →
      d1.id = d2.id → pid1 = pid2 ∧ d1 = d2) := by
  have hc := (reach_consistent p bm h).1
  refine ⟨hc.back, ?_⟩
  intro pid1 d1 pid2 d2 h1 h2 hid
  have e : pid1 = pid2 := by
    rw [← hc.back _ _ h1, ← hc.back _ _ h2, hid]
  subst e
  exact ⟨rfl, has_unique hc.inv _ _ _ h1 h2⟩

/-- Instance of `descriptor_bijection`: after `init()` with 4 frames and one `allocPage()`
the entries are `(0, frame 0)` and `(1, frame 1)`, and the frames point back. -/
theorem descriptor_bijection_witness :
    (∀ pid d, Has bmAlloc1.page_table pid d → (bmAlloc1.buffer_frames d.id).pid = pid) ∧
    (∀ pid1 d1 pid2 d2, Has bmAlloc1.page_table pid1 d1 → Has bmAlloc1.page_table pid2 d2 →
      d1.id = d2.id → pid1 = pid2 ∧ d1 = d2) :=
  descriptor_bijection false bmAlloc1 reach_bmAlloc1

/-- C20. Free-list disjointness: in every state reachable from `init` through `allocPage`,
`handleFault`, `fixS`/`fixX`, `unfixS`/`unfixX`, `handleWait` and `evict` (interleaved at
their suspension points), no BID occurs twice on the free list and no BID on the free list
is the BID of a page-table descriptor. -/
theorem free_list_disjoint (p : Bool) (bm : BufferManager) (h : Reach p bm) :
    bm.freeList.Nodup ∧
    (∀ pid d, Has bm.page_table pid d → d.id ∉ bm.freeList) := by
  have hc := (reach_consistent p bm h).1
  exact ⟨hc.free_nodup, fun pid d hd hm => hc.free_unref _ hm pid d hd rfl⟩

/-- Instance of `free_list_disjoint`: after `init()` with 4 frames and one `allocPage()`
the free list is `[3, 2]`. -/
theorem free_list_disjoint_witness :
    bmAlloc1.freeList = [3, 2] ∧ bmAlloc1.freeList.Nodup ∧
    (∀ pid d, Has bmAlloc1.page_table pid d → d.id ∉ bmAlloc1.freeList) :=
  ⟨by decide, free_list_disjoint false bmAlloc1 reach_bmAlloc1⟩

/-- C11. In every reachable state: `unfixS` (`exclusive = false`) and `unfixX`
(`exclusive = true`) on a PID that is not resident, or whose descriptor is not in_use, are
a fatal error; for every resident PID whose descriptor has in_use set, `unfixS(pid)` clears
in_use and sets marked, `unfixX(pid)` clears in_use and sets marked and dirty, and both
leave the descriptor's BID, its remaining flags, every other page-table entry and the rest
of the state unchanged. -/
theorem unfix_contract (p : Bool) (bm : BufferManager) (hr : Reach p bm) (pid : Nat)
    (exclusive : Bool) :
    (bm.page_table.lookup pid = none →
      (if exclusive then bm.unfixX pid else bm.unfixS pid) = .error .not_resident) ∧
    (∀ d, bm.page_table.lookup pid = some d → d.in_use = false →
      (if exclusive then bm.unfixX pid else bm.unfixS pid) = .error .not_in_use) ∧
    (∀ d, bm.page_table.lookup pid = some d → d.in_use = true →
      ∃ bm' d', (if exclusive then bm.unfixX pid else bm.unfixS pid) = .ok bm' ∧
        bm'.page_table.lookup pid = some d' ∧ d'.id = d.id ∧
        d'.in_use = false ∧ d'.marked = true ∧ d'.dirty = (exclusive || d.dirty) ∧
        d'.evicting = d.evicting ∧ d'.io_lock = d.io_lock ∧
        (∀ pid', pid' ≠ pid → bm'.page_table.lookup pid' = bm.page_table.lookup pid') ∧
        bm' = { bm with page_table := bm'.page_table }) := by
  have hc := (reach_consistent p bm hr).1
  obtain ⟨h1, h2, _, h4⟩ := unfix_cases bm pid exclusive
  refine ⟨h1, h2, ?_⟩
  intro d hl hu
  have hio : d.io_lock = false :=
    hc.excl pid d ((lookup_eq_some_iff hc.inv pid d).1 hl) hu
  exact h4 d hl hu (fun _ => hio)

/-- Instance of `unfix_contract`: after `init()` with 4 frames and `allocPage()`, PID 1
is in_use; `unfixX(1)` returns and leaves it not in_use, marked and dirty. -/
theorem unfix_contract_witness :
    ∃ bm' d', bmAlloc1.unfixX 1 = .ok bm' ∧
      bm'.page_table.lookup 1 = some d' ∧ d'.id = 1 ∧ d'.in_use = false ∧ d'.marked = true ∧
      d'.dirty = true :=
  have h := (unfix_contract false bmAlloc1 reach_bmAlloc1 1 true).2.2
    ((((BufTagged.ofBid 1).set_dirty true).set_in_use true).set_marked true) rfl (by decide)
  match h with
  | ⟨bm', d', h1, h2, h3, h4, h5, h6, _⟩ => ⟨bm', d', h1, h2, h3.trans (by decide), h4, h5,
      h6.trans (by decide)⟩

end BufferManager
/-! ## Theorems: `fix` on a page that the eviction round has selected -/

namespace BufferManager

open RHBSU64Map BufTagged

theorem entries_setVal {Value : Type} (t : RHBSU64Map Value) (i : Nat) (v : Value) :
    ((t.setVal i v).entries i).val = v := by
  simp [setVal]

theorem erase_lookup {t : PageTable} (h : Inv t) (k : Nat) (d : BufTagged)
    (hl : t.lookup k = some d) :
    (t.erase k).2 = true ∧ (t.erase k).1.lookup k = none ∧
      ∀ k', k' ≠ k → (t.erase k).1.lookup k' = t.lookup k' := by
  obtain ⟨hinv', _, _, hh, hb, _⟩ := erase_spec h k
  refine ⟨hb.2 ⟨d, (lookup_eq_some_iff h k d).1 hl⟩, ?_, ?_⟩
  · rw [lookup_eq_none_iff hinv']
    intro v hv
    exact ((hh k v).1 hv).1 rfl
  · intro k' hk
    cases hl' : t.lookup k' with
    | none =>
      rw [lookup_eq_none_iff hinv']
      intro v hv
      exact (lookup_eq_none_iff h k').1 hl' v ((hh k' v).1 hv).2
    | some v =>
      rw [lookup_eq_some_iff hinv']
      exact (hh k' v).2 ⟨hk, (lookup_eq_some_iff h k' v).1 hl'⟩

/-- C18 (amended). When the eviction round has marked the descriptor `d` of a resident PID
as evicting (not io-locked, not in_use, the frame pointing back to the PID), a fiber's
`fixS`/`fixX` of that PID does not restart: it returns the page of the descriptor's BID and
sets in_use and marked, leaving evicting set and the restart context untouched; the round's
`evictNow` on that frame then clears evicting, finds the descriptor in_use and leaves the
page resident and the free list unchanged. If no fiber fixes the PID and the page is clean,
`evictNow` erases the PID and pushes the BID on the free list, and a later `fixS`/`fixX`
returns null with restart-context `PageFault{pid}`. -/
theorem fix_while_evicting (bm : BufferManager) (pid : Nat) (d : BufTagged) (exclusive : Bool)
    (hinv : Inv bm.page_table) (hl : bm.page_table.lookup pid = some d)
    (hev : d.evicting = true) (hio : d.io_lock = false) (huse : d.in_use = false)
    (hpc : 0 < bm.page_count) (hfr : (bm.buffer_frames d.id).pid = pid) :
    (∃ bm1 d1, fix exclusive bm pid = .ok (bm1, some d.id) ∧
        bm1.restart_ctx = bm.restart_ctx ∧ bm1.page_table.lookup pid = some d1 ∧
        d1.id = d.id ∧ d1.in_use = true ∧ d1.marked = true ∧ d1.evicting = true ∧
      ∃ bm2 d2, bm1.evictNow d.id = .ok (bm2, false) ∧
        bm2.page_table.lookup pid = some d2 ∧ d2.id = d.id ∧ d2.in_use = true ∧
        d2.evicting = false ∧ bm2.freeList = bm.freeList) ∧
    (d.dirty = false →
      ∃ bm3, bm.evictNow d.id = .ok (bm3, true) ∧ bm3.page_table.lookup pid = none ∧
        bm3.freeList = bm.freeList ++ [d.id] ∧
        ∃ bm4, fix exclusive bm3 pid = .ok (bm4, none) ∧
          bm4.restart_ctx = .PageFaultException pid) := by
  obtain ⟨i, hf, hv⟩ := lookup_find _ _ _ hl
  have hvalid : bm.isValidPtr 0 = true := by simp [isValidPtr, hpc]
  constructor
  · have hfix : fix exclusive bm pid = .ok (({ bm with
        fixes := (bm.fixes + 1) % 2 ^ 64,
        page_table := bm.page_table.setVal i
          (if exclusive then ((d.set_in_use true).set_marked true).set_dirty true
            else (d.set_in_use true).set_marked true) } : BufferManager), some d.id) := by
      unfold fix
      simp only [hf, hv, hio, huse, Bool.false_eq_true, if_false]
      have hvalid' : ({ bm with fixes := (bm.fixes + 1) % 2 ^ 64 } : BufferManager).isValidPtr 0
          = true := hvalid
      simp only [hvalid', Bool.not_true, Bool.false_eq_true, if_false]
    have hnow : evictNow ({ bm with
        fixes := (bm.fixes + 1) % 2 ^ 64,
        page_table := bm.page_table.setVal i
          (if exclusive then ((d.set_in_use true).set_marked true).set_dirty true
            else (d.set_in_use true).set_marked true) } : BufferManager) d.id =
        .ok (({ bm with
               fixes := (bm.fixes + 1) % 2 ^ 64,
               page_table := (bm.page_table.setVal i
                 (if exclusive then ((d.set_in_use true).set_marked true).set_dirty true
                   else (d.set_in_use true).set_marked true)).setVal i
                 ((if exclusive then ((d.set_in_use true).set_marked true).set_dirty true
                   else (d.set_in_use true).set_marked true).set_evicting false) } :
                 BufferManager), false) := by
      unfold evictNow
      simp only [hfr, find_setVal, hf, entries_setVal]
      cases exclusive <;> simp [hev]
    have hl1 : (bm.page_table.setVal i
        (if exclusive then ((d.set_in_use true).set_marked true).set_dirty true
          else (d.set_in_use true).set_marked true)).lookup pid =
        some (if exclusive then ((d.set_in_use true).set_marked true).set_dirty true
          else (d.set_in_use true).set_marked true) := by
      rw [lookup_setVal _ pid i _ hf, if_pos rfl]
    have hl2 : ((bm.page_table.setVal i
        (if exclusive then ((d.set_in_use true).set_marked true).set_dirty true
          else (d.set_in_use true).set_marked true)).setVal i
        ((if exclusive then ((d.set_in_use true).set_marked true).set_dirty true
          else (d.set_in_use true).set_marked true).set_evicting false)).lookup pid =
        some ((if exclusive then ((d.set_in_use true).set_marked true).set_dirty true
          else (d.set_in_use true).set_marked true).set_evicting false) := by
      rw [lookup_setVal _ pid i _ (by rw [find_setVal]; exact hf), if_pos rfl]
    refine ⟨_, _, hfix, rfl, hl1, ?_, ?_, ?_, ?_, _, _, hnow, hl2, ?_, ?_, ?_, rfl⟩
    · cases exclusive <;> simp
    · cases exclusive <;> simp
    · cases exclusive <;> simp
    · cases exclusive <;> simp [hev]
    · cases exclusive <;> simp
    · cases exclusive <;> simp
    · cases exclusive <;> simp
  · intro hdirty
    have hinv1 : Inv (bm.page_table.setVal i (d.set_evicting false)) := inv_setVal hinv i _
    have hl1 : (bm.page_table.setVal i (d.set_evicting false)).lookup pid
        = some (d.set_evicting false) := by
      rw [lookup_setVal _ pid i _ hf, if_pos rfl]
    obtain ⟨he1, he2, _⟩ := erase_lookup hinv1 pid _ hl1
    have hnow : bm.evictNow d.id = .ok (({ bm with
        page_table := ((bm.page_table.setVal i (d.set_evicting false)).erase pid).1,
        freeList := bm.freeList ++ [d.id] } : BufferManager), true) := by
      unfold evictNow
      simp only [hfr, hf, hv, hev, Bool.not_true, Bool.false_eq_true, if_false,
        in_use_set_evicting, huse, dirty_set_evicting, hdirty, io_lock_set_evicting, hio, he1]
    have hfix : fix exclusive ({ bm with
        page_table := ((bm.page_table.setVal i (d.set_evicting false)).erase pid).1,
        freeList := bm.freeList ++ [d.id] } : BufferManager) pid = .ok (({ bm with
          page_table := ((bm.page_table.setVal i (d.set_evicting false)).erase pid).1,
          freeList := bm.freeList ++ [d.id],
          fixes := (bm.fixes + 1) % 2 ^ 64,
          restarts := (bm.restarts + 1) % 2 ^ 64,
          restart_ctx := .PageFaultException pid } : BufferManager), none) := by
      unfold fix
      have hfn := lookup_none_find _ _ he2
      simp only [hfn]
    exact ⟨_, hnow, he2, rfl, _, hfix, rfl⟩

end BufferManager

namespace BufferManager

open RHBSU64Map BufTagged

/-- The state `scSwept` is reached from `init`: a second eviction round has swept and is
parked on its writes. -/
theorem reach_scSwept : Reach true scSwept :=
  Reach.evict_begin scRound1 scSwept
    (Reach.evict_end scSwept1 scRound1 0 false
      (Reach.evict_begin scUnfixed scSwept1
        (Reach.unfix false true scAlloc scUnfixed 1
          (Reach.allocPage false scPinned scAlloc (some 1)
            (Reach.fix false false bmInit4 scPinned 0 (some 0)
              (Reach.init ⟨64, 1, 10⟩ 4 8 bmInit4 (by norm_num) (by norm_num) rfl) rfl)
            rfl)
          rfl)
        rfl)
      rfl)
    rfl

/-- Instance of `fix_while_evicting` in the state `scSwept`, where the eviction round has
marked PID 1 (frame 1) evicting: `fixS(1)` returns the page of frame 1. -/
theorem fix_while_evicting_witness :
    ∃ bm1 d1, fix false scSwept 1 = .ok (bm1, some 1) ∧
      bm1.restart_ctx = scSwept.restart_ctx ∧ bm1.page_table.lookup 1 = some d1 ∧
      d1.in_use = true ∧ d1.evicting = true :=
  match (fix_while_evicting scSwept 1 ⟨36⟩ false
      (reach_consistent true scSwept reach_scSwept).1.inv rfl (by decide) (by decide)
      (by decide) (by decide) (by decide)).1 with
  | ⟨bm1, d1, h1, h2, h3, _, h5, _, h7, _⟩ => ⟨bm1, d1, h1, h2, h3, h5, h7⟩

/-- C18, counterexample. With the metadata page pinned, PID 1 is allocated (frame 1) and
unfixed; a first eviction round clears its mark, the sweep of the second round marks it
evicting and queues frame 1 for write-back (`scSwept`). A fiber's `fixS(1)` now returns the
page of frame 1, not null, and the restart context is not `Restart{1}` (it still holds its
initial value); when the round completes, `evictNow` finds PID 1 in_use and PID 1 stays
resident in frame 1, so no retry sees it absent. -/
theorem fix_evicting_counterexample :
    scRound1.evict_begin = .ok scSwept ∧
    scSwept.descriptor 1 = some (1, false, false, true, false, false) ∧
    scSwept.toEvict = [] ∧ scSwept.toWrite = [1] ∧
    scSwept.fixS 1 = .ok (scRefixed, some 1) ∧
    scRefixed.restart_ctx = .PageFaultException 0 ∧
    scRefixed.descriptor 1 = some (1, true, false, true, false, true) ∧
    scRefixed.evict_end 4096 false = .ok scKept ∧
    scKept.descriptor 1 = some (1, true, false, false, false, true) ∧
    scKept.freeList = [3, 2] :=
  ⟨rfl, by decide, by decide, by decide, rfl, by decide, by decide, rfl, by decide, by decide⟩

end BufferManager
/-! ## Theorems: `insert` returns or fails in its own checks -/

namespace RHBSU64Map

variable {Value : Type}

theorem slack_update (ctrl : Nat → Nat) (i d : Nat) :
    ∀ m, i < m → ctrl i < d → d ≤ 254 →
      slack (Function.update ctrl i d) m + (d - ctrl i) = slack ctrl m := by
  intro m
  induction m with
  | zero => intro h; omega
  | succ m ih =>
    intro hi hc hd
    show slack (Function.update ctrl i d) m + (254 - Function.update ctrl i d m) + (d - ctrl i)
      = slack ctrl m + (254 - ctrl m)
    by_cases him : i = m
    · subst him
      have hsame : ∀ q, q ≤ i → slack (Function.update ctrl i d) q = slack ctrl q := by
        intro q
        induction q with
        | zero => intro _; rfl
        | succ q ihq =>
          intro hq
          show slack (Function.update ctrl i d) q + (254 - Function.update ctrl i d q)
            = slack ctrl q + (254 - ctrl q)
          rw [ihq (by omega), Function.update_noteq (by omega)]
      rw [hsame i (Nat.le_refl _), Function.update_same]
      omega
    · have := ih (by omega) hc hd
      rw [Function.update_noteq (Ne.symm him)]
      omega

theorem slack_le (ctrl : Nat → Nat) : ∀ m, slack ctrl m ≤ 254 * m := by
  intro m
  induction m with
  | zero => exact Nat.le_refl _
  | succ m ih =>
    show slack ctrl m + (254 - ctrl m) ≤ 254 * (m + 1)
    omega

/-- The loop of `insert` is never cut off when it is given more iterations than
`255 * slack + (254 - dist)`: a step without a swap raises `dist`, a swap lowers the slack. -/
theorem insertLoop_fuel : ∀ (fuel : Nat) (t : RHBSU64Map Value) (k : Nat) (v : Value)
    (i dist : Nat), WF t → i < t.n → dist ≤ 254 →
    255 * slack t.ctrl t.n + (254 - dist) < fuel →
    insertLoop fuel t k v i dist ≠ .error .out_of_fuel := by
  intro fuel
  induction fuel with
  | zero => intro t k v i dist _ _ _ h; omega
  | succ f ih =>
    intro t k v i dist hw hi hd hf
    unfold insertLoop
    simp only
    by_cases hc : t.ctrl i = 0
    · simp [hc]
    · simp only [hc, if_false]
      by_cases hk : (t.entries i).key = k
      · simp [hk]
      · simp only [hk, if_false]
        have hi1 : (i + 1) &&& t.mask < t.n := by
          rw [hw.and_mask]; exact Nat.mod_lt _ hw.pos
        by_cases hlt : t.ctrl i < dist
        · simp only [hlt, if_true]
          have hm : (t.ctrl i + 1) % 256 = t.ctrl i + 1 := Nat.mod_eq_of_lt (by omega)
          rw [hm]
          by_cases h255 : t.ctrl i + 1 = 255
          · simp [h255]
          · simp only [h255, if_false]
            have hsl := slack_update t.ctrl i dist t.n hi hlt hd
            exact ih _ _ _ _ _ hw hi1 (by omega) (by
              show 255 * slack (Function.update t.ctrl i dist) t.n + (254 - (t.ctrl i + 1)) < f
              omega)
        · simp only [hlt, if_false]
          have hm : (dist + 1) % 256 = dist + 1 := Nat.mod_eq_of_lt (by omega)
          rw [hm]
          by_cases h255 : dist + 1 = 255
          · simp [h255]
          · simp only [h255, if_false]
            exact ih _ _ _ _ _ hw hi1 (by omega) (by omega)

theorem insertLoop_error : ∀ (fuel : Nat) (t : RHBSU64Map Value) (k : Nat) (v : Value)
    (i dist : Nat) (e : Fatal), insertLoop fuel t k v i dist = .error e →
    e = .out_of_fuel ∨ e = .probe_overflow := by
  intro fuel
  induction fuel with
  | zero =>
    intro t k v i dist e h
    simp only [insertLoop, Except.error.injEq] at h
    exact Or.inl h.symm
  | succ f ih =>
    intro t k v i dist e h
    unfold insertLoop at h
    simp only at h
    by_cases hc : t.ctrl i = 0
    · simp [hc] at h
    · simp only [hc, if_false] at h
      by_cases hk : (t.entries i).key = k
      · simp [hk] at h
      · simp only [hk, if_false] at h
        by_cases hlt : t.ctrl i < dist
        · simp only [hlt, if_true] at h
          split at h
          · simp only [Except.error.injEq] at h
            exact Or.inr h.symm
          · exact ih _ _ _ _ _ _ h
        · simp only [hlt, if_false] at h
          split at h
          · simp only [Except.error.injEq] at h
            exact Or.inr h.symm
          · exact ih _ _ _ _ _ _ h

/-- `insert` is not cut off by the iteration bound of its loop. -/
theorem insert_total (t : RHBSU64Map Value) (hw : WF t) (k : Nat) (v : Value) :
    t.insert k v ≠ .error .out_of_fuel := by
  unfold insert
  by_cases hk : k = EMPTY_KEY
  · simp [hk]
  · simp only [hk, if_false]
    apply insertLoop_fuel _ _ _ _ _ _ hw
    · unfold index
      rw [hw.and_mask]; exact Nat.mod_lt _ hw.pos
    · omega
    · have := slack_le t.ctrl t.n
      unfold insertFuel
      omega

theorem insert_error (t : RHBSU64Map Value) (hw : WF t) (k : Nat) (v : Value) (e : Fatal)
    (h : t.insert k v = .error e) :
    (k = EMPTY_KEY ∧ e = .empty_key) ∨ (k ≠ EMPTY_KEY ∧ e = .probe_overflow) := by
  have htot := insert_total t hw k v
  unfold insert at h htot
  by_cases hk : k = EMPTY_KEY
  · simp only [hk, if_true, Except.error.injEq] at h
    exact Or.inl ⟨hk, h.symm⟩
  · simp only [hk, if_false] at h htot
    rcases insertLoop_error _ _ _ _ _ _ _ h with he | he
    · rw [he] at h
      exact absurd h htot
    · exact Or.inr ⟨hk, he⟩

theorem countOcc_full (ctrl : Nat → Nat) :
    ∀ m, countOcc ctrl m = m → ∀ j, j < m → ctrl j ≠ 0 := by
  intro m
  induction m with
  | zero => intro _ j hj; omega
  | succ m ih =>
    intro h j hj
    have hle := countOcc_le ctrl m
    have h' : countOcc ctrl m + (if ctrl m = 0 then 0 else 1) = m + 1 := h
    by_cases hc : ctrl m = 0
    · simp only [hc, if_true] at h'
      omega
    · simp only [hc, if_false] at h'
      by_cases hjm : j = m
      · subst hjm; exact hc
      · exact ih (by omega) j (by omega)

/-- In a table without an empty slot the loop of `insert` cannot return for a key that is
not stored. -/
theorem insertLoop_full : ∀ (fuel : Nat) (t : RHBSU64Map Value) (k : Nat) (v : Value)
    (i dist : Nat), WF t → Uniq t → (∀ j, j < t.n → t.ctrl j ≠ 0) →
    (∀ j, j < t.n → (t.entries j).key ≠ k) → i < t.n → 1 ≤ dist → dist ≤ 254 →
    ∀ r, insertLoop fuel t k v i dist ≠ .ok r := by
  intro fuel
  induction fuel with
  | zero =>
    intro t k v i dist _ _ _ _ _ _ _ r h
    simp [insertLoop] at h
  | succ f ih =>
    intro t k v i dist hw hu hocc habs hi h1 hd r h
    unfold insertLoop at h
    simp only [hocc i hi, habs i hi, if_false] at h
    have hi1 : (i + 1) &&& t.mask < t.n := by
      rw [hw.and_mask]; exact Nat.mod_lt _ hw.pos
    by_cases hlt : t.ctrl i < dist
    · simp only [hlt, if_true] at h
      have hm : (t.ctrl i + 1) % 256 = t.ctrl i + 1 := Nat.mod_eq_of_lt (by omega)
      rw [hm] at h
      split at h
      · simp at h
      · rename_i h255
        refine ih _ _ _ _ _ (by exact hw) ?_ ?_ ?_ (by exact hi1) (by omega) (by omega) r h
        · intro a b ha hb hca hcb hkey
          by_cases hai : a = i
          · by_cases hbi : b = i
            · rw [hai, hbi]
            · subst hai
              simp only [Function.update_same, Function.update_noteq hbi] at hkey
              exact absurd hkey.symm (habs b hb)
          · by_cases hbi : b = i
            · subst hbi
              simp only [Function.update_same, Function.update_noteq hai] at hkey
              exact absurd hkey (habs a ha)
            · simp only [Function.update_noteq hai, Function.update_noteq hbi] at hkey hca hcb
              exact hu a b ha hb hca hcb hkey
        · intro j hj
          show Function.update t.ctrl i dist j ≠ 0
          by_cases hji : j = i
          · subst hji; rw [Function.update_same]; omega
          · rw [Function.update_noteq hji]; exact hocc j hj
        · intro j hj
          show (Function.update t.entries i ⟨k, v⟩ j).key ≠ (t.entries i).key
          by_cases hji : j = i
          · subst hji; rw [Function.update_same]; exact fun e => habs j hi e.symm
          · rw [Function.update_noteq hji]
            intro e
            exact hji (hu j i hj hi (hocc j hj) (hocc i hi) e)
    · simp only [hlt, if_false] at h
      have hm : (dist + 1) % 256 = dist + 1 := Nat.mod_eq_of_lt (by omega)
      rw [hm] at h
      split at h
      · simp at h
      · exact ih _ _ _ _ _ hw hu hocc habs hi1 (by omega) (by omega) r h

theorem run_inv : ∀ (ops : List (Op Value)) (t t' : RHBSU64Map Value) (bs : List Bool),
    Inv t → run t ops = .ok (t', bs) → Inv t' := by
  intro ops
  induction ops with
  | nil =>
    intro t t' bs h hr
    simp only [run, Except.ok.injEq, Prod.mk.injEq] at hr
    rw [← hr.1]; exact h
  | cons op ops ih =>
    intro t t' bs h hr
    cases op with
    | insert k v =>
      unfold run at hr
      cases hi : t.insert k v with
      | error e => simp [hi] at hr
      | ok r =>
        obtain ⟨t1, b⟩ := r
        simp only [hi] at hr
        cases hr1 : run t1 ops with
        | error e => simp [hr1] at hr
        | ok r2 =>
          obtain ⟨t2, bs2⟩ := r2
          simp only [hr1, Except.ok.injEq, Prod.mk.injEq] at hr
          rw [← hr.1]
          exact ih t1 t2 bs2 (insert_spec h k v t1 b hi).1 hr1
    | erase k =>
      unfold run at hr
      cases hr1 : run (t.erase k).1 ops with
      | error e => simp [hr1] at hr
      | ok r2 =>
        obtain ⟨t2, bs2⟩ := r2
        simp only [hr1, Except.ok.injEq, Prod.mk.injEq] at hr
        rw [← hr.1]
        exact ih _ t2 bs2 (erase_spec h k).1 hr1

theorem inv_fullTable : Inv fullTable := by
  have h0 : RHBSU64Map.new (0 : Nat) 2 = .ok freshTable2 := rfl
  have hr : run freshTable2 [.insert 1 10, .insert 2 20] = .ok (fullTable, [true, true]) := rfl
  exact run_inv _ _ _ _ (new_inv 0 2 (by norm_num) _ h0).1 hr

end RHBSU64Map
/-! ## Theorems: `handleFault` -/

namespace BufferManager

open RHBSU64Map BufTagged

theorem ensureFreePages_error (bm : BufferManager) (e : Fatal)
    (h : bm.ensureFreePages = .error e) : e = .ring_full := by
  unfold ensureFreePages at h
  split at h
  · unfold wakeup at h
    split at h
    · simp at h
    · cases hw : bm.r.wake bm.eviction_fiber.ctx with
      | ok r => obtain ⟨r1, b⟩ := r; simp [hw] at h
      | error e1 =>
        simp only [hw, Except.error.injEq] at h
        subst h
        unfold BaseReactor.wake at hw
        split at hw
        · simp at hw
        · split at hw
          · simp at hw
          · split at hw
            · split at hw
              · simp only [Except.error.injEq] at hw
                exact hw.symm
              · simp at hw
            · simp at hw
  · simp at h

/-- C14 (amended). In every reachable state with a non-empty free list, for every PID that
is not resident, `handleFault(pid)` by the fiber `self` either fails fatally, in
`ensure(k != EMPTY_KEY)` when the PID is the sentinel `~0`, in the probe-distance check of
the page-table insert, or in the `ensure` of the ready ring when it wakes the eviction
fiber, or it reaches the park inside `mini::io` having popped the last BID of the free
list, inserted a descriptor for the PID with that BID and exactly the flags io_lock and
marked, and set the frame's back-pointer to the PID (wait list: the own operation), every
other entry being unchanged. When the read completion is then delivered in a state where
the descriptor is still as inserted and the own operation still heads the wait list, with a
full-page result (or `nvme_cmds`) and the waiters woken without failure, `handleFault`
leaves the descriptor with io_lock cleared, marked set, not in_use, not dirty, and the read
counter increased by one (modulo `2 ^ 64`). -/
theorem handleFault_contract (p : Bool) (bm : BufferManager) (hr : Reach p bm)
    (self pid : Nat) (hne : bm.freeList ≠ []) (hnr : bm.page_table.lookup pid = none) :
    (∃ bm1 bid d, bm.handleFault_begin self pid = .ok (bm1, .reading bid) ∧
        bm.freeList.getLast? = some bid ∧ bm1.freeList = bm.freeList.dropLast ∧
        bm1.page_table.lookup pid = some d ∧ d.id = bid ∧
        d.io_lock = true ∧ d.marked = true ∧ d.in_use = false ∧ d.dirty = false ∧
        d.evicting = false ∧
        (bm1.buffer_frames bid).pid = pid ∧ (bm1.buffer_frames bid).waiting = [self] ∧
        (∀ pid', pid' ≠ pid → bm1.page_table.lookup pid' = bm.page_table.lookup pid') ∧
        bm1.readCount = bm.readCount ∧
        ∀ (bm2 : BufferManager) (ws : List Nat) (rc : Int) (nvme_cmds : Bool) (r1 : BaseReactor),
          bm2.page_table.lookup pid = some d →
          (bm2.buffer_frames bid).waiting = self :: ws →
          (nvme_cmds = true ∨ rc = 4096) → wakeAll bm2.r ws = .ok r1 →
          ∃ bm3 d3, bm2.handleFault_end self pid bid rc nvme_cmds = .ok bm3 ∧
            bm3.page_table.lookup pid = some d3 ∧ d3.id = bid ∧
            d3.io_lock = false ∧ d3.marked = true ∧ d3.in_use = false ∧ d3.dirty = false ∧
            bm3.readCount = (bm2.readCount + 1) % 2 ^ 64) ∨
    (pid = EMPTY_KEY ∧ bm.handleFault_begin self pid = .error .empty_key) ∨
    bm.handleFault_begin self pid = .error .probe_overflow ∨
    bm.handleFault_begin self pid = .error .ring_full := by
  have hc := (reach_consistent p bm hr).1
  unfold handleFault_begin
  cases he : bm.ensureFreePages with
  | error e =>
    right; right; right
    rw [ensureFreePages_error bm e he]
  | ok bm0 =>
    obtain ⟨ef, r0, rfl⟩ := ensureFreePages_eq bm bm0 he
    have hemp : bm.freeList.isEmpty = false := by
      cases hl : bm.freeList with
      | nil => exact absurd hl hne
      | cons a l => rfl
    simp only [hemp, Bool.false_eq_true, if_false]
    cases hg : bm.freeList.getLast? with
    | none =>
      exfalso
      cases hl : bm.freeList with
      | nil => exact hne hl
      | cons a l => rw [hl] at hg; simp [List.getLast?_cons_cons] at hg
    | some bid =>
      have hmem : bid ∈ bm.freeList := by
        rw [mem_of_getLast? hg]; simp
      have hb59 := hc.free_lt bid hmem
      simp only
      cases hi : bm.page_table.insert pid
          (((BufTagged.ofBid bid).set_io_lock true).set_marked true) with
      | error e =>
        right
        rcases insert_error _ hc.inv.wf pid _ e hi with ⟨h1, h2⟩ | ⟨_, h2⟩
        · left; exact ⟨h1, by rw [h2]⟩
        · right; left; rw [h2]
      | ok res =>
        left
        obtain ⟨pt, b⟩ := res
        obtain ⟨i1, i2, i3, i4⟩ := insert_lookup hc.inv pid _ pt b hi
        have hb : b = true := i4.2 hnr
        subst hb
        simp only [Bool.not_true, Bool.false_eq_true, if_false]
        refine ⟨_, bid, _, rfl, rfl, rfl, i2, ?_, ?_, ?_, ?_, ?_, ?_, ?_, ?_, i3, rfl, ?_⟩
        · rw [id_set_marked, id_set_io_lock, id_ofBid bid hb59]
        · simp
        · simp
        · simp
        · simp
        · simp
        · simp
        · simp
        · intro bm2 ws rc nvme_cmds r1 hl2 hw2 hrc hwake
          obtain ⟨i, hf, hv⟩ := lookup_find _ _ _ hl2
          have hcond : ¬ ((!nvme_cmds) = true ∧ rc ≠ (pageSize : Int)) := by
            rintro ⟨h1, h2⟩
            rcases hrc with h | h
            · rw [h] at h1; simp at h1
            · exact h2 (by rw [h]; rfl)
          refine ⟨{ bm2 with
                      r := r1,
                      buffer_frames := Function.update bm2.buffer_frames bid
                        { bm2.buffer_frames bid with waiting := [] },
                      page_table := bm2.page_table.setVal i
                        ((((BufTagged.ofBid bid).set_io_lock true).set_marked true).set_io_lock
                          false),
                      readCount := (bm2.readCount + 1) % 2 ^ 64 },
            (((BufTagged.ofBid bid).set_io_lock true).set_marked true).set_io_lock false,
            ?_, ?_, ?_, ?_, ?_, ?_, ?_, rfl⟩
          · unfold handleFault_end
            simp only [hcond, if_false, hw2, ne_eq, not_true_eq_false, hwake, hf, hv]
          · show lookup (setVal _ _ _) _ = _
            rw [lookup_setVal _ pid i _ hf, if_pos rfl]
          · rw [id_set_io_lock, id_set_marked, id_set_io_lock, id_ofBid bid hb59]
          · simp
          · simp
          · simp
          · simp

/-- Instance of `handleFault_contract`: after `init()` with 4 frames (free list 3, 2, 1),
`handleFault(1)` by fiber 1 pops frame 1 and parks on the read. -/
theorem handleFault_contract_witness :
    bmInit4.handleFault_begin 1 1 = .ok (bmFault1, .reading 1) ∧
    bmFault1.descriptor 1 = some (1, false, false, false, true, true) ∧
    bmFault1.handleFault_end 1 1 1 4096 false = .ok bmRead1 ∧
    bmRead1.descriptor 1 = some (1, false, false, false, false, true) ∧
    bmRead1.readCount = bmFault1.readCount + 1 ∧
    ((∃ bm1 bid d, bmInit4.handleFault_begin 1 1 = .ok (bm1, .reading bid) ∧
        bm1.page_table.lookup 1 = some d ∧ d.id = bid) ∨
      (1 = EMPTY_KEY ∧ bmInit4.handleFault_begin 1 1 = .error .empty_key) ∨
      bmInit4.handleFault_begin 1 1 = .error .probe_overflow ∨
      bmInit4.handleFault_begin 1 1 = .error .ring_full) :=
  ⟨rfl, by decide, rfl, by decide, by decide,
    (handleFault_contract false bmInit4
      (Reach.init ⟨64, 1, 10⟩ 4 8 bmInit4 (by norm_num) (by norm_num) rfl) 1 1 (by decide)
      rfl).imp
      (fun ⟨bm1, bid, d, h1, _, _, h4, h5, _⟩ => ⟨bm1, bid, d, h1, h4, h5⟩) id⟩

/-- C14, counterexample. After `init()` with 4 frames the free list is not empty and neither
the sentinel PID `2 ^ 64 - 1` nor PID 1 is resident. `handleFault(2 ^ 64 - 1)` inserts no
descriptor: it fails in `ensure(k != EMPTY_KEY)` of the page-table insert. `handleFault(1)`
reaches its read, but when the completion delivers a short read (`rc = 0`) it fails in
`ensure(rc == pageSize)` and leaves io_lock set and the read counter as it was. -/
theorem handleFault_counterexample :
    bmInit4.freeList = [3, 2, 1] ∧
    bmInit4.page_table.lookup (2 ^ 64 - 1) = none ∧
    failsWith (bmInit4.handleFault_begin 1 (2 ^ 64 - 1)) .empty_key = true ∧
    bmInit4.page_table.lookup 1 = none ∧
    bmInit4.handleFault_begin 1 1 = .ok (bmFault1, .reading 1) ∧
    failsWith (bmFault1.handleFault_end 1 1 1 0 false) .io_failed = true := by
  refine ⟨by decide, rfl, by decide, rfl, rfl, by decide⟩

end BufferManager
/-! ## Theorems: the split scenario with 3800-byte payloads -/

namespace BTreeNode
open Tpcc (memcmp bytesLE ofBytesLE)

theorem insertInPage_first (p1 : List Nat) (h1 : p1.length = 3800) :
    ((BTreeNode.new true).insertInPage [0x01] p1).slot = [⟨295, 16777216, [0x01], p1⟩] ∧
    ((BTreeNode.new true).insertInPage [0x01] p1).spaceUsed = 3801 ∧
    ((BTreeNode.new true).insertInPage [0x01] p1).dataOffset = 295 ∧
    ((BTreeNode.new true).insertInPage [0x01] p1).prefixLen = 0 ∧
    ((BTreeNode.new true).insertInPage [0x01] p1).isLeaf = true ∧
    ((BTreeNode.new true).insertInPage [0x01] p1).lowerFence = [] ∧
    ((BTreeNode.new true).insertInPage [0x01] p1).upperFence = [] ∧
    ((BTreeNode.new true).insertInPage [0x01] p1).upperInnerNode = noNeighbour := by
  simp +decide [insertInPage, BTreeNode.new, spaceNeeded, freeSpace, slotEnd, count, lowerBound,
    getPrefix, searchHint, lowerBoundLoop, storeKeyValue, setSlot, updateHint, slotAt, memcmp,
    umin, head, h1, u16, u32, sizeofSlot, sizeofHeader, pageSize, hintCount]

end BTreeNode

namespace BTreeNode
open Tpcc (memcmp bytesLE ofBytesLE)

theorem splitNode_parent (n : BTreeNode) (leftPID : Nat) (parent : BTreeNode) (sepSlot : Nat)
    (sep : List Nat) (newPid : Nat) :
    (n.splitNode leftPID parent sepSlot sep newPid).parent =
      (if (parent.lowerBound sep).1 = parent.count then { parent with upperInnerNode := newPid }
        else parent.setChild (parent.lowerBound sep).1 newPid).insertInPage sep
        (bytesLE sizeofPID leftPID) := by
  unfold splitNode
  simp only
  split <;> rfl

theorem single_hasSpaceFor (n : BTreeNode) (s : Slot) (hs : n.slot = [s]) (hu : n.spaceUsed = 3801)
    (hp : n.prefixLen = 0) : n.hasSpaceFor 1 3800 = false := by
  simp +decide [hasSpaceFor, spaceNeeded, freeSpaceAfterCompaction, slotEnd, count, hs, hu, hp,
    u32, sizeofSlot, sizeofHeader, pageSize]

theorem single_findSeparator (n : BTreeNode) (off hd : Nat) (p : List Nat)
    (hs : n.slot = [⟨off, hd, [0x01], p⟩]) (hl : n.isLeaf = true) (hp : n.prefixLen = 0) :
    n.findSeparator false = ⟨1, 0, false⟩ ∧ n.getSep ⟨1, 0, false⟩ = [0x01] := by
  simp +decide [findSeparator, isInner, hl, count, hs, commonPrefix, slotAt, Slot.keyLen, umin,
    commonPrefixLoop, hp, getKey, getSep, getPrefix]

theorem single_splitNode (n : BTreeNode) (p : List Nat) (hlen : p.length = 3800)
    (hs : n.slot = [⟨295, 16777216, [0x01], p⟩]) (hl : n.isLeaf = true) (hp : n.prefixLen = 0)
    (hlf : n.lowerFence = []) (huf : n.upperFence = []) (hup : n.upperInnerNode = noNeighbour)
    (parent : BTreeNode) :
    (n.splitNode 1 parent 0 [0x01] 3).left.slot = [⟨294, 16777216, [0x01], p⟩] ∧
    (n.splitNode 1 parent 0 [0x01] 3).left.prefixLen = 0 ∧
    (n.splitNode 1 parent 0 [0x01] 3).left.isLeaf = true ∧
    (n.splitNode 1 parent 0 [0x01] 3).right.slot = [] ∧
    (n.splitNode 1 parent 0 [0x01] 3).right.prefixLen = 0 ∧
    (n.splitNode 1 parent 0 [0x01] 3).right.isLeaf = true ∧
    (n.splitNode 1 parent 0 [0x01] 3).right.spaceUsed = 1 ∧
    (n.splitNode 1 parent 0 [0x01] 3).right.dataOffset = 4095 := by
  simp +decide [splitNode, hl, setFences, insertFence, BTreeNode.new, getLowerFence, getUpperFence,
    hlf, huf, copyKeyValueRange, copyLoop, hp, commonPrefixLen, slotAt, hs, makeHint, count,
    setSlot, hlen, u16, pageSize, head, nextLeafNode, hup]

end BTreeNode

namespace BTreeNode
open Tpcc (memcmp bytesLE ofBytesLE)

theorem insertInPage_right (n : BTreeNode) (p : List Nat) (hlen : p.length = 3800)
    (hs : n.slot = []) (hp : n.prefixLen = 0) (hl : n.isLeaf = true) (hu : n.spaceUsed = 1)
    (hd : n.dataOffset = 4095) :
    n.hasSpaceFor 1 3800 = true ∧
    (n.insertInPage [0x02] p).slot = [⟨294, 33554432, [0x02], p⟩] ∧
    (n.insertInPage [0x02] p).prefixLen = 0 ∧
    (n.insertInPage [0x02] p).isLeaf = true := by
  simp +decide [hasSpaceFor, freeSpaceAfterCompaction, insertInPage, spaceNeeded, freeSpace,
    slotEnd, count, lowerBound, getPrefix, searchHint, lowerBoundLoop, storeKeyValue, setSlot,
    updateHint, slotAt, memcmp, umin, head, hlen, u16, u32, sizeofSlot, sizeofHeader, pageSize,
    hintCount, hs, hp, hl, hu, hd]

theorem single_lowerBound (n : BTreeNode) (off b : Nat) (p : List Nat)
    (hs : n.slot = [⟨off, b * 2 ^ 24, [b], p⟩]) (hp : n.prefixLen = 0) :
    n.lowerBound [b] = (0, true) ∧ n.getPayload 0 = p ∧ (n.slotAt 0).payloadLen = p.length := by
  simp +decide [lowerBound, getPrefix, hp, memcmp, umin, searchHint, count, hs, hintCount,
    lowerBoundLoop, slotAt, head, getKey, Slot.keyLen, getPayload, Slot.payloadLen]

end BTreeNode

namespace BTree
open BTreeNode
open Tpcc (memcmp bytesLE ofBytesLE)

theorem trySplit_root_leaf (t : BTree) (n : BTreeNode) (hr : t.root = 1) (ha : t.allocCount = 2)
    (hso : t.splitOrdered = false) (hn : t.nodes 1 = n)
    (g1 : n.findSeparator false = ⟨1, 0, false⟩) (g2 : n.getSep ⟨1, 0, false⟩ = [0x01]) :
    trySplit 4 4 t 1 none =
      some { nodes := Function.update (Function.update (Function.update (Function.update t.nodes 2
                { BTreeNode.new false with upperInnerNode := 1 }) 3
                (n.splitNode 1 { BTreeNode.new false with upperInnerNode := 1 } 0 [0x01] 3).right)
                2 (n.splitNode 1 { BTreeNode.new false with upperInnerNode := 1 } 0 [0x01] 3).parent)
                1 (n.splitNode 1 { BTreeNode.new false with upperInnerNode := 1 } 0 [0x01] 3).left,
             root := 2, allocCount := 4, splitOrdered := false } := by
  have hP0 : ({ BTreeNode.new false with upperInnerNode := 1 } : BTreeNode).hasSpaceFor 1 sizeofPID
      = true := by decide
  unfold trySplit
  simp only [ha, hso, Option.getD_none, Function.update_same, ne_eq, OfNat.ofNat_ne_one,
    not_false_eq_true, Function.update_noteq, hn, g1, g2, hP0, if_true, Nat.reduceAdd,
    Nat.reducePow, Nat.reduceMod, show (1 : Nat) ≠ 2 by decide]

end BTree

namespace BTree
open BTreeNode
open Tpcc (memcmp bytesLE ofBytesLE)

theorem insert_room (t : BTree) (k p : List Nat) (rounds node : Nat) (parent : Option Nat)
    (hd : descend t k 4 t.root none = some (node, parent))
    (hs : (t.nodes node).hasSpaceFor k.length p.length = true) :
    insert 4 k p (rounds + 1) t =
      some { t with nodes := Function.update t.nodes node ((t.nodes node).insertInPage k p) } := by
  unfold insert
  simp only [hd, hs, if_true]

theorem insert_split (t t1 : BTree) (k p : List Nat) (rounds node : Nat) (parent : Option Nat)
    (hd : descend t k 4 t.root none = some (node, parent))
    (hs : (t.nodes node).hasSpaceFor k.length p.length = false)
    (ht : trySplit 4 4 t node parent = some t1) :
    insert 4 k p (rounds + 1) t = insert 4 k p rounds t1 := by
  conv => lhs; unfold insert
  simp only [hd, hs, ht, Bool.false_eq_true, if_false]

theorem descend_leaf (t : BTree) (k : List Nat) (node : Nat) (parent : Option Nat)
    (hl : (t.nodes node).isLeaf = true) :
    descend t k 4 node parent = some (node, parent) := by
  simp [descend, isInner, hl]

theorem descend_inner (t : BTree) (k : List Nat) (node : Nat) (parent : Option Nat)
    (hl : (t.nodes node).isInner = true)
    (hc : (t.nodes ((t.nodes node).lookupInner k)).isLeaf = true) :
    descend t k 4 node parent = some ((t.nodes node).lookupInner k, some node) := by
  have hl' : (t.nodes node).isLeaf = false := by
    unfold isInner at hl
    simpa using hl
  simp [descend, isInner, hl', hc]

theorem lookup_at (t : BTree) (k p : List Nat) (leaf : Nat) (parent : Option Nat)
    (hd : descend t k 4 t.root none = some (leaf, parent))
    (hb : (t.nodes leaf).lowerBound k = (0, true)) (hp : (t.nodes leaf).getPayload 0 = p)
    (hl : ((t.nodes leaf).slotAt 0).payloadLen = p.length) (hlen : p.length ≤ 4096) :
    lookup t 4 k 4096 = some ((p.length : Int), p) := by
  have hu : umin p.length 4096 = p.length := by
    unfold umin
    split
    · rfl
    · omega
  simp [lookup, findLeafS, hd, hb, hp, hl, hu]

end BTree

namespace BTree
open BTreeNode
open Tpcc (memcmp bytesLE ofBytesLE)

theorem split_parent (n : BTreeNode) :
    (n.splitNode 1 { BTreeNode.new false with upperInnerNode := 1 } 0 [0x01] 3).parent.isInner
      = true ∧
    (n.splitNode 1 { BTreeNode.new false with upperInnerNode := 1 } 0 [0x01] 3).parent.count = 1 ∧
    (n.splitNode 1 { BTreeNode.new false with upperInnerNode := 1 } 0 [0x01] 3).parent.lookupInner
      [0x01] = 1 ∧
    (n.splitNode 1 { BTreeNode.new false with upperInnerNode := 1 } 0 [0x01] 3).parent.lookupInner
      [0x02] = 3 ∧
    (n.splitNode 1 { BTreeNode.new false with upperInnerNode := 1 } 0 [0x01] 3).parent.getPrefix ++
      (n.splitNode 1 { BTreeNode.new false with upperInnerNode := 1 } 0 [0x01] 3).parent.getKey 0
      = [0x01] ∧
    (n.splitNode 1 { BTreeNode.new false with upperInnerNode := 1 } 0 [0x01] 3).parent.getChild 0
      = 1 ∧
    (n.splitNode 1 { BTreeNode.new false with upperInnerNode := 1 } 0 [0x01] 3).parent.upperInnerNode
      = 3 := by
  rw [splitNode_parent]
  decide

/-- C16 (amended). In a build without assertions (`NDEBUG`), with 4096-byte pages, for all
payloads `p1`, `p2` of 3800 bytes: `insert([0x01], p1)` into the empty tree returns and
leaves the root a leaf with one entry and no room for a second one; `insert([0x02], p2)`
then splits that leaf and returns: the root is a new inner node (PID 2) with exactly one
separator, `[0x01]`, over the old leaf (PID 1) and the new leaf (PID 3), and the lookups of
both keys return their payloads. -/
theorem split_scenario (p1 p2 : List Nat) (h1 : p1.length = 3800) (h2 : p2.length = 3800) :
    ∃ t1 t2, insert 4 [0x01] p1 4 (BTree.new 1) = some t1 ∧
      t1.root = 1 ∧ (t1.nodes 1).isLeaf = true ∧ (t1.nodes 1).count = 1 ∧
      (t1.nodes 1).hasSpaceFor 1 3800 = false ∧
      insert 4 [0x02] p2 4 t1 = some t2 ∧
      t2.root = 2 ∧ (t2.nodes 2).isInner = true ∧ (t2.nodes 2).count = 1 ∧
      (t2.nodes 2).getPrefix ++ (t2.nodes 2).getKey 0 = [0x01] ∧
      (t2.nodes 2).getChild 0 = 1 ∧ (t2.nodes 2).upperInnerNode = 3 ∧
      (t2.nodes 1).isLeaf = true ∧ (t2.nodes 3).isLeaf = true ∧
      lookup t2 4 [0x01] 4096 = some (3800, p1) ∧
      lookup t2 4 [0x02] 4096 = some (3800, p2) := by
  have hstep1 : insert 4 [0x01] p1 4 (BTree.new 1) =
      some { BTree.new 1 with
        nodes := Function.update (BTree.new 1).nodes 1
          ((BTreeNode.new true).insertInPage [0x01] p1) } := by
    apply insert_room (BTree.new 1) [0x01] p1 3 1 none (descend_leaf _ _ _ _ rfl)
    simp +decide [BTree.new, BTreeNode.new, hasSpaceFor, spaceNeeded,
      freeSpaceAfterCompaction, slotEnd, count, h1, u32, sizeofSlot, sizeofHeader, pageSize]
  obtain ⟨f1, f2, f3, f4, f5, f6, f7, f8⟩ := insertInPage_first p1 h1
  generalize (BTreeNode.new true).insertInPage [0x01] p1 = n at hstep1 f1 f2 f3 f4 f5 f6 f7 f8
  obtain ⟨g1, g2⟩ := single_findSeparator n 295 16777216 p1 f1 f5 f4
  have g3 := single_hasSpaceFor n _ f1 f2 f4
  obtain ⟨s1, s2, s3, s4, s5, s6, s7, s8⟩ := single_splitNode n p1 h1 f1 f5 f4 f6 f7 f8
    { BTreeNode.new false with upperInnerNode := 1 }
  obtain ⟨q1, q2, q3, q4, q5, q6, q7⟩ := split_parent n
  obtain ⟨r1, r2, r3, r4⟩ := insertInPage_right _ p2 h2 s4 s5 s6 s7 s8
  obtain ⟨T1, hT1⟩ : ∃ T : BTree, T = { BTree.new 1 with
      nodes := Function.update (BTree.new 1).nodes 1 n } := ⟨_, rfl⟩
  have a1 : T1.root = 1 := by rw [hT1]; rfl
  have a2 : T1.allocCount = 2 := by rw [hT1]; rfl
  have a3 : T1.splitOrdered = false := by rw [hT1]; rfl
  have a4 : T1.nodes 1 = n := by rw [hT1]; simp
  rw [← hT1] at hstep1
  have ht := trySplit_root_leaf T1 n a1 a2 a3 a4 g1 g2
  obtain ⟨T1s, hT1s⟩ : ∃ T : BTree, T =
      { nodes := Function.update (Function.update (Function.update (Function.update T1.nodes 2
                { BTreeNode.new false with upperInnerNode := 1 }) 3
                (n.splitNode 1 { BTreeNode.new false with upperInnerNode := 1 } 0 [0x01] 3).right)
                2 (n.splitNode 1 { BTreeNode.new false with upperInnerNode := 1 } 0 [0x01] 3).parent)
                1 (n.splitNode 1 { BTreeNode.new false with upperInnerNode := 1 } 0 [0x01] 3).left,
        root := 2, allocCount := 4, splitOrdered := false } := ⟨_, rfl⟩
  rw [← hT1s] at ht
  have b1 : T1s.root = 2 := by rw [hT1s]
  have b2 : T1s.nodes 2 =
      (n.splitNode 1 { BTreeNode.new false with upperInnerNode := 1 } 0 [0x01] 3).parent := by
    rw [hT1s]; simp
  have b3 : T1s.nodes 3 =
      (n.splitNode 1 { BTreeNode.new false with upperInnerNode := 1 } 0 [0x01] 3).right := by
    rw [hT1s]; simp
  have b1' : T1s.nodes 1 =
      (n.splitNode 1 { BTreeNode.new false with upperInnerNode := 1 } 0 [0x01] 3).left := by
    rw [hT1s]; simp
  have hd1 : descend T1 [0x02] 4 T1.root none = some (1, none) := by
    rw [a1]; exact descend_leaf _ _ _ _ (by rw [a4]; exact f5)
  have hstep2 : insert 4 [0x02] p2 4 T1 = insert 4 [0x02] p2 3 T1s :=
    insert_split T1 T1s [0x02] p2 3 1 none hd1 (by rw [a4, h2]; exact g3) ht
  have hd2 : descend T1s [0x02] 4 T1s.root none = some (3, some 2) := by
    rw [b1]
    have := descend_inner T1s [0x02] 2 none (by rw [b2]; exact q1)
      (by rw [b2, q4, b3]; exact s6)
    rw [b2, q4] at this
    exact this
  have hstep3 := insert_room T1s [0x02] p2 2 3 (some 2) hd2 (by rw [b3, h2]; exact r1)
  rw [b3] at hstep3
  obtain ⟨T2, hT2⟩ : ∃ T : BTree, T = { T1s with
      nodes := Function.update T1s.nodes 3
        ((n.splitNode 1 { BTreeNode.new false with upperInnerNode := 1 } 0 [0x01] 3).right.insertInPage
          [0x02] p2) } := ⟨_, rfl⟩
  rw [← hT2] at hstep3
  have c0 : T2.root = 2 := by rw [hT2]; exact b1
  have c2 : T2.nodes 2 =
      (n.splitNode 1 { BTreeNode.new false with upperInnerNode := 1 } 0 [0x01] 3).parent := by
    rw [hT2]; simp [b2]
  have c1 : T2.nodes 1 =
      (n.splitNode 1 { BTreeNode.new false with upperInnerNode := 1 } 0 [0x01] 3).left := by
    rw [hT2]; simp [b1']
  have c3 : T2.nodes 3 =
      (n.splitNode 1 { BTreeNode.new false with upperInnerNode := 1 } 0 [0x01] 3).right.insertInPage
        [0x02] p2 := by
    rw [hT2]; simp
  have hdl1 : descend T2 [0x01] 4 T2.root none = some (1, some 2) := by
    rw [c0]
    have := descend_inner T2 [0x01] 2 none (by rw [c2]; exact q1)
      (by rw [c2, q3, c1]; exact s3)
    rw [c2, q3] at this
    exact this
  have hdl2 : descend T2 [0x02] 4 T2.root none = some (3, some 2) := by
    rw [c0]
    have := descend_inner T2 [0x02] 2 none (by rw [c2]; exact q1)
      (by rw [c2, q4, c3]; exact r4)
    rw [c2, q4] at this
    exact this
  obtain ⟨l1, l2, l3⟩ := single_lowerBound (T2.nodes 1) 294 1 p1 (by rw [c1]; exact s1)
    (by rw [c1]; exact s2)
  obtain ⟨m1, m2, m3⟩ := single_lowerBound (T2.nodes 3) 294 2 p2 (by rw [c3]; exact r2)
    (by rw [c3]; exact r3)
  have hlk1 := lookup_at T2 [0x01] p1 1 (some 2) hdl1 l1 l2 l3 (by omega)
  have hlk2 := lookup_at T2 [0x02] p2 3 (some 2) hdl2 m1 m2 m3 (by omega)
  rw [h1] at hlk1
  rw [h2] at hlk2
  refine ⟨T1, T2, hstep1, a1, ?_, ?_, ?_, hstep2.trans hstep3, c0, ?_, ?_, ?_, ?_, ?_, ?_, ?_,
    hlk1, hlk2⟩
  · rw [a4]; exact f5
  · rw [a4]; simp [count, f1]
  · rw [a4]; exact g3
  · rw [c2]; exact q1
  · rw [c2]; exact q2
  · rw [c2]; exact q5
  · rw [c2]; exact q6
  · rw [c2]; exact q7
  · rw [c1]; exact s3
  · rw [c3]; exact r4

/-- Instance of `split_scenario` for the payloads of 3800 bytes `0xAA` and `0xBB`. -/
theorem split_scenario_witness :
    ∃ t1 t2, insert 4 [0x01] payloadA 4 (BTree.new 1) = some t1 ∧
      insert 4 [0x02] payloadB 4 t1 = some t2 ∧
      t2.root = 2 ∧ (t2.nodes 2).isInner = true ∧ (t2.nodes 2).count = 1 ∧
      lookup t2 4 [0x01] 4096 = some (3800, payloadA) ∧
      lookup t2 4 [0x02] 4096 = some (3800, payloadB) :=
  match split_scenario payloadA payloadB (List.length_replicate _ _)
      (List.length_replicate _ _) with
  | ⟨t1, t2, h1, _, _, _, _, h6, h7, h8, h9, _, _, _, _, _, h15, h16⟩ =>
    ⟨t1, t2, h1, h6, h7, h8, h9, h15, h16⟩

/-- C16, counterexample. With assertions on, the first insert of the scenario does not
return: key and payload have `1 + 3800 = 3801` bytes, more than `maxKVSize = 995`, and the
assertion at the head of `BTree::insert` fails. -/
theorem insert_assert_counterexample :
    BTreeNode.maxKVSize = 995 ∧ [0x01].length + payloadA.length = 3801 ∧
    insertAsserted 4 [0x01] payloadA 4 (BTree.new 1) = .error .assert_kv_size := by
  have hl : payloadA.length = 3800 := List.length_replicate _ _
  refine ⟨by decide, by rw [hl]; rfl, ?_⟩
  unfold insertAsserted
  rw [if_neg]
  rw [hl]
  decide

end BTree
/-! ## Theorems: the adaptive submit -/

namespace UringReactor

theorem ioEach_cons (sa : Bool) (prob : Nat → Nat → Nat) (self rnd : Nat)
    (rest : List (Nat × Nat)) (r : UringReactor) :
    ioEach sa prob ((self, rnd) :: rest) r =
      match io sa prob rnd self r with
      | .error e => .error e
      | .ok r1 => ioEach sa prob rest r1 := rfl

theorem ioEach_append (sa : Bool) (prob : Nat → Nat → Nat) :
    ∀ (l1 l2 : List (Nat × Nat)) (r r1 : UringReactor),
      ioEach sa prob l1 r = .ok r1 →
      ioEach sa prob (l1 ++ l2) r = ioEach sa prob l2 r1 := by
  intro l1
  induction l1 with
  | nil =>
    intro l2 r r1 h
    simp only [ioEach, Except.ok.injEq] at h
    rw [h]; rfl
  | cons a l ih =>
    intro l2 r r1 h
    obtain ⟨self, rnd⟩ := a
    rw [List.cons_append, ioEach_cons]
    rw [ioEach_cons] at h
    cases hio : io sa prob rnd self r with
    | error e => simp [hio] at h
    | ok r2 =>
      simp only [hio] at h ⊢
      exact ih l2 r2 r1 h

/-- One `io` while fewer than `total_io_fibers = 8` fibers have contributed and the draw is
above the threshold: the request stays queued. -/
theorem io_quiet (prob : Nat → Nat → Nat) (rnd self : Nat) (r : UringReactor) (k : Nat)
    (ht : r.to_submit = k) (hf : r.fibers_since_first_io = k) (h8 : r.total_io_fibers = 8)
    (hk : k + 1 ≤ 7) (hr : prob 0 2 < rnd) :
    ∃ r1, io false prob rnd self r = .ok r1 ∧ r1.to_submit = (k + 1 : Nat) ∧
      r1.fibers_since_first_io = (k + 1 : Nat) ∧ r1.total_io_fibers = 8 ∧
      r1.num_submits = r.num_submits ∧ r1.outstanding_io = r.outstanding_io + 1 := by
  have h1 : (k : Int) + 1 ≠ 0 := by omega
  have h2 : (k : Int) + 1 > 0 := by omega
  have h3 : (k : Int) + 1 ≠ 8 := by omega
  have h4 : tableAt ((k : Int) + 1 - ((k : Int) + 1)) = .ok 0 := by
    rw [Int.sub_self]; rfl
  have h5 : tableAt ((8 : Int).tdiv 4) = .ok 2 := rfl
  have h6 : ¬ rnd ≤ prob 0 2 := by omega
  have e : io false prob rnd self r = .ok { r with
      outstanding_io := r.outstanding_io + 1,
      to_submit := (k : Int) + 1,
      fibers_since_first_io := (k : Int) + 1,
      state := Function.update r.state self FiberState.Parked } := by
    unfold io check_submit
    simp only [ht, hf, h8, h1, h2, h3, h4, h5, h6, if_false, if_true, Bool.false_eq_true]
  exact ⟨_, e, by push_cast; rfl, by push_cast; rfl, h8, rfl, rfl⟩

theorem ioEach_quiet (prob : Nat → Nat → Nat) :
    ∀ (l : List (Nat × Nat)) (r : UringReactor) (k : Nat),
      r.to_submit = k → r.fibers_since_first_io = k → r.total_io_fibers = 8 →
      k + l.length ≤ 7 → (∀ x, x ∈ l → prob 0 2 < x.2) →
      ∃ r1, ioEach false prob l r = .ok r1 ∧ r1.to_submit = (k + l.length : Nat) ∧
        r1.fibers_since_first_io = (k + l.length : Nat) ∧ r1.total_io_fibers = 8 ∧
        r1.num_submits = r.num_submits ∧ r1.outstanding_io = r.outstanding_io + l.length := by
  intro l
  induction l with
  | nil =>
    intro r k ht hf h8 _ _
    exact ⟨r, rfl, by simpa using ht, by simpa using hf, h8, rfl, by simp⟩
  | cons a l ih =>
    intro r k ht hf h8 hk hr
    obtain ⟨self, rnd⟩ := a
    simp only [List.length_cons] at hk
    obtain ⟨r1, e1, t1, f1, g1, n1, o1⟩ :=
      io_quiet prob rnd self r k ht hf h8 (by omega) (hr (self, rnd) (List.mem_cons_self _ _))
    obtain ⟨r2, e2, t2, f2, g2, n2, o2⟩ := ih r1 (k + 1) t1 f1 g1 (by omega)
      (fun x hx => hr x (List.mem_cons_of_mem _ hx))
    refine ⟨r2, ?_, ?_, ?_, g2, n2.trans n1, ?_⟩
    · unfold ioEach
      simp only [e1]
      exact e2
    · rw [t2]; simp only [List.length_cons]; congr 1; omega
    · rw [f2]; simp only [List.length_cons]; congr 1; omega
    · rw [o2, o1]; simp only [List.length_cons, Nat.cast_add, Nat.cast_one]; omega

/-- The `io` of the eighth fiber: every worker has contributed, the batch is submitted. -/
theorem io_eighth (prob : Nat → Nat → Nat) (rnd self : Nat) (r : UringReactor)
    (ht : r.to_submit = 7) (hf : r.fibers_since_first_io = 7) (h8 : r.total_io_fibers = 8) :
    ∃ r1, io false prob rnd self r = .ok r1 ∧ r1.to_submit = 0 ∧
      r1.fibers_since_first_io = 0 ∧ r1.num_submits = (r.num_submits + 1) % 2 ^ 64 ∧
      r1.outstanding_io = r.outstanding_io + 1 := by
  have e : io false prob rnd self r = .ok { r with
      outstanding_io := r.outstanding_io + 1,
      to_submit := 0,
      fibers_since_first_io := 0,
      num_submits := (r.num_submits + 1) % 2 ^ 64,
      state := Function.update r.state self FiberState.Parked } := by
    unfold io check_submit submitted
    simp +decide [ht, hf, h8]
  exact ⟨_, e, rfl, rfl, rfl, rfl⟩

/-- C17 (amended). With `total_io_fibers = 8`, the adaptive heuristic enabled and nothing
queued initially, when 8 fibers each enqueue one read through `io()` with no completion in
between and each of the first seven random draws is above the submit threshold (`prob 0 2`,
the value of `submit_prob`): no submission happens during the first seven enqueues (7
requests are queued, the submit counter is unchanged), the 8th enqueue triggers a
submission and it is the only one: afterwards the submit counter has increased by exactly
one and the queued count and the fiber count are back to zero. -/
theorem adaptive_submit (prob : Nat → Nat → Nat) (r : UringReactor) (first : List (Nat × Nat))
    (last : Nat × Nat) (ht : r.to_submit = 0) (hf : r.fibers_since_first_io = 0)
    (h8 : r.total_io_fibers = 8) (hlen : first.length = 7)
    (hdraw : ∀ x, x ∈ first → prob 0 2 < x.2) :
    ∃ r7 r8, ioEach false prob first r = .ok r7 ∧
      r7.num_submits = r.num_submits ∧ r7.to_submit = 7 ∧ r7.fibers_since_first_io = 7 ∧
      ioEach false prob (first ++ [last]) r = .ok r8 ∧
      r8.num_submits = (r.num_submits + 1) % 2 ^ 64 ∧ r8.to_submit = 0 ∧
      r8.fibers_since_first_io = 0 ∧ r8.outstanding_io = r.outstanding_io + 8 := by
  obtain ⟨r7, e7, t7, f7, g7, n7, o7⟩ := ioEach_quiet prob first r 0 ht hf h8 (by omega) hdraw
  rw [hlen] at t7 f7 o7
  obtain ⟨r8, e8, t8, f8, n8, o8⟩ := io_eighth prob last.2 last.1 r7 (by simpa using t7)
    (by simpa using f7) g7
  refine ⟨r7, r8, e7, n7, by simpa using t7, by simpa using f7, ?_, by rw [n8, n7], t8, f8, ?_⟩
  · rw [ioEach_append false prob first [last] r r7 e7]
    show ioEach false prob [(last.1, last.2)] r7 = _
    unfold ioEach
    simp only [e8]
    rfl
  · rw [o8, o7]; push_cast; omega

/-- Instance of `adaptive_submit`: eight fibers on the idle reactor, the first seven draws
being 999999. -/
theorem adaptive_submit_witness :
    ∃ r7 r8, ioEach false submitProb8
        [(1, 999999), (2, 999999), (3, 999999), (4, 999999), (5, 999999), (6, 999999),
          (7, 999999)] idle8 = .ok r7 ∧
      r7.num_submits = 0 ∧ r7.to_submit = 7 ∧
      ioEach false submitProb8
        ([(1, 999999), (2, 999999), (3, 999999), (4, 999999), (5, 999999), (6, 999999),
          (7, 999999)] ++ [(8, 0)]) idle8 = .ok r8 ∧
      r8.num_submits = 1 ∧ r8.to_submit = 0 ∧ r8.fibers_since_first_io = 0 :=
  match adaptive_submit submitProb8 idle8
      [(1, 999999), (2, 999999), (3, 999999), (4, 999999), (5, 999999), (6, 999999),
        (7, 999999)] (8, 0) rfl rfl rfl rfl (by decide) with
  | ⟨r7, r8, h1, h2, h3, _, h5, h6, h7, h8, _⟩ => ⟨r7, r8, h1, h2, h3, h5, h6, h7, h8⟩

/-- C17, counterexample. On the idle reactor with `total_io_fibers = 8` and the threshold
135335 (of 1000000): when the first draw is 0 and the others are 999999, the first enqueue
already submits, the 8th does not, and after the 8 enqueues the submit counter is 1 but 7
requests are queued and the fiber count is 7; when every draw is 0, each of the 8 enqueues
submits and the submit counter is 8. -/
theorem adaptive_submit_counterexample :
    counters (ioEach false submitProb8 [(1, 0)] idle8) = some (1, 0, 0) ∧
    counters (ioEach false submitProb8
      [(1, 0), (2, 999999), (3, 999999), (4, 999999), (5, 999999), (6, 999999), (7, 999999),
        (8, 999999)] idle8) = some (1, 7, 7) ∧
    counters (ioEach false submitProb8
      [(1, 0), (2, 0), (3, 0), (4, 0), (5, 0), (6, 0), (7, 0), (8, 0)] idle8) = some (8, 0, 0) := by
  decide

end UringReactor
/-! ## Theorems: flag compatibility in the reachable states -/

namespace BufferManager

open RHBSU64Map BufTagged

/-- The state after `init()` with 4 frames and a `handleFault(1)` that is parked on its read
is reachable. -/
theorem reach_bmFault1 : Reach false bmFault1 :=
  Reach.handleFault_begin false bmInit4 bmFault1 1 1 (.reading 1)
    (Reach.init ⟨64, 1, 10⟩ 4 8 bmInit4 (by norm_num) (by norm_num) rfl) rfl

/-- C21. Flag compatibility: in every state reachable from `init` through `allocPage`,
`handleFault`, `fixS`/`fixX`, `unfixS`/`unfixX`, `handleWait` and `evict` (interleaved at
their suspension points), no descriptor of the page table has both in_use and io_lock set:
neither the descriptor `find(pid)` points at, for any PID, nor the value of any occupied
slot. -/
theorem flag_compatibility (p : Bool) (bm : BufferManager) (h : Reach p bm) :
    (∀ pid d, bm.page_table.lookup pid = some d → ¬ (d.in_use = true ∧ d.io_lock = true)) ∧
    (∀ i, i < bm.page_table.n → bm.page_table.ctrl i ≠ 0 →
      ¬ ((bm.page_table.entries i).val.in_use = true ∧
         (bm.page_table.entries i).val.io_lock = true)) := by
  have hc := (reach_consistent p bm h).1
  refine ⟨?_, ?_⟩
  · rintro pid d hl ⟨hu, hio⟩
    have := hc.excl pid d ((lookup_eq_some_iff hc.inv pid d).1 hl) hu
    rw [this] at hio
    exact Bool.false_ne_true hio
  · rintro i hi hcz ⟨hu, hio⟩
    have := hc.excl _ _ ⟨i, hi, hcz, rfl, rfl⟩ hu
    rw [this] at hio
    exact Bool.false_ne_true hio

/-- Instance of `flag_compatibility`: while the read of `handleFault(1)` is in flight the
descriptor of PID 1 (frame 1) has io_lock set and in_use clear, and no descriptor has
both. -/
theorem flag_compatibility_witness :
    bmFault1.descriptor 1 = some (1, false, false, false, true, true) ∧
    (∀ pid d, bmFault1.page_table.lookup pid = some d →
      ¬ (d.in_use = true ∧ d.io_lock = true)) :=
  ⟨by decide, (flag_compatibility false bmFault1 reach_bmFault1).1⟩

end BufferManager
/-! ## Theorems: the robin-hood structure of the page table -/

namespace RHBSU64Map

variable {Value : Type}

/-- From a slot with control byte at most 1 the control bytes grow by at most one per
slot. -/
theorem ctrl_le_walk {t : RHBSU64Map Value} (hn : 0 < t.n) (hs : Step t) (l : Nat)
    (hl : l < t.n) (hc : t.ctrl l ≤ 1) : ∀ k, t.ctrl ((l + k) % t.n) ≤ 1 + k := by
  intro k
  induction k with
  | zero => rw [Nat.add_zero, Nat.mod_eq_of_lt hl]; omega
  | succ k ih =>
    have h1 := hs ((l + k) % t.n) (Nat.mod_lt _ hn)
    have h2 : ((l + k) % t.n + 1) % t.n = (l + (k + 1)) % t.n := by
      rw [Nat.mod_add_mod]; rfl
    rw [h2] at h1
    omega

/-- No control byte exceeds the capacity: a displacement is a distance within the table. -/
theorem ctrl_le_capacity {t : RHBSU64Map Value} (h : Inv t) (i : Nat) (hi : i < t.n) :
    t.ctrl i ≤ t.n := by
  obtain ⟨l, hl, hc⟩ := h.low
  have hn := h.wf.pos
  have hw := ctrl_le_walk hn h.step l hl hc ((i + t.n - l) % t.n)
  have hk : (i + t.n - l) % t.n < t.n := Nat.mod_lt _ hn
  have e : (l + (i + t.n - l) % t.n) % t.n = i := by
    rw [Nat.add_mod_mod, show l + (i + t.n - l) = i + t.n by omega, Nat.add_mod_right,
      Nat.mod_eq_of_lt hi]
  rw [e] at hw
  omega

/-- The displacement recorded in slot `i` is the distance of `i` from the home slot. -/
theorem displacement_eq (n hsh c i : Nat) (hn : 0 < n) (hi : i < n) (hc1 : 1 ≤ c)
    (hcn : c ≤ n) (e : (hsh + c - 1) % n = i) : (i + n - hsh % n) % n + 1 = c := by
  have hh : hsh % n < n := Nat.mod_lt _ hn
  have e1 : (hsh % n + (c - 1)) % n = i := by
    rw [Nat.mod_add_mod, ← e]
    congr 1
    omega
  by_cases hlt : hsh % n + (c - 1) < n
  · rw [Nat.mod_eq_of_lt hlt] at e1
    rw [← e1, show hsh % n + (c - 1) + n - hsh % n = (c - 1) + n by omega, Nat.add_mod_right,
      Nat.mod_eq_of_lt (by omega)]
    omega
  · have h2 : (hsh % n + (c - 1)) % n = hsh % n + (c - 1) - n := by
      rw [Nat.mod_eq_sub_mod (by omega), Nat.mod_eq_of_lt (by omega)]
    rw [h2] at e1
    rw [← e1, show hsh % n + (c - 1) - n + n - hsh % n = c - 1 by omega,
      Nat.mod_eq_of_lt (by omega)]
    omega

/-- C22. The robin-hood structure is an invariant of the page table: in every state `t`
reached from the table the constructor builds (capacity a power of two, a `size_t`) by
`insert` and `erase` calls that return normally, for every slot `i`: the control byte is 0
exactly when the key of the slot is the sentinel `~0`; and if the slot is occupied, its
control byte is `((i - home) mod capacity) + 1` with `home = splitmix64(key) & (capacity -
1)`, it is at most 254, and every slot from the home slot up to `i` is occupied (no
tombstone, no empty slot inside a probe chain). -/
theorem robin_hood_invariant (dflt : Value) (cap : Nat) (t0 t : RHBSU64Map Value)
    (ops : List (Op Value)) (bs : List Bool) (hcap : cap < 2 ^ 64)
    (h0 : RHBSU64Map.new dflt cap = .ok t0) (hr : run t0 ops = .ok (t, bs)) :
    t.n = cap ∧ t.mask = cap - 1 ∧
    ∀ i, i < t.n →
      (t.ctrl i = 0 ↔ (t.entries i).key = EMPTY_KEY) ∧
      (t.ctrl i ≠ 0 →
        t.ctrl i = (i + t.n - t.index (hash (t.entries i).key)) % t.n + 1 ∧
        t.ctrl i ≤ 254 ∧
        ∀ d, d ≤ (i + t.n - t.index (hash (t.entries i).key)) % t.n →
          t.ctrl ((t.index (hash (t.entries i).key) + d) % t.n) ≠ 0) := by
  obtain ⟨hi0, hn0, _, _⟩ := new_inv dflt cap hcap t0 h0
  have hinv : Inv t := run_inv ops t0 t bs hi0 hr
  have hn : t.n = cap := by
    have : ∀ (ops : List (Op Value)) (a b : RHBSU64Map Value) (bs : List Bool), Inv a →
        run a ops = .ok (b, bs) → b.n = a.n := by
      intro ops
      induction ops with
      | nil =>
        intro a b bs _ h
        simp only [run, Except.ok.injEq, Prod.mk.injEq] at h
        rw [← h.1]
      | cons op ops ih =>
        intro a b bs ha h
        cases op with
        | insert k v =>
          unfold run at h
          cases hi : a.insert k v with
          | error e => simp [hi] at h
          | ok r =>
            obtain ⟨t1, b1⟩ := r
            simp only [hi] at h
            cases hr1 : run t1 ops with
            | error e => simp [hr1] at h
            | ok r2 =>
              obtain ⟨t2, bs2⟩ := r2
              simp only [hr1, Except.ok.injEq, Prod.mk.injEq] at h
              rw [← h.1]
              have hs := insert_spec ha k v t1 b1 hi
              rw [ih t1 t2 bs2 hs.1 hr1, hs.2.1]
        | erase k =>
          unfold run at h
          cases hr1 : run (a.erase k).1 ops with
          | error e => simp [hr1] at h
          | ok r2 =>
            obtain ⟨t2, bs2⟩ := r2
            simp only [hr1, Except.ok.injEq, Prod.mk.injEq] at h
            rw [← h.1]
            have hs := erase_spec ha k
            rw [ih _ t2 bs2 hs.1 hr1, hs.2.1]
    rw [this ops t0 t bs hi0 hr, hn0]
  refine ⟨hn, by rw [hinv.wf.2, hn], ?_⟩
  intro i hi
  refine ⟨hinv.emp i hi, ?_⟩
  intro hc
  obtain ⟨h254, hslot⟩ := hinv.disp i hi hc
  have hpos := hinv.wf.pos
  have hcn := ctrl_le_capacity hinv i hi
  have hidx : t.index (hash (t.entries i).key) = hash (t.entries i).key % t.n :=
    hinv.wf.and_mask _
  have hd := displacement_eq t.n (hash (t.entries i).key) (t.ctrl i) i hpos hi (by omega) hcn
    hslot
  rw [hidx]
  refine ⟨hd.symm, h254, ?_⟩
  intro d hdle
  have hch := chain hinv.disp hinv.step i hi hc (d + 1) (by omega) (by omega)
  have e : (hash (t.entries i).key + (d + 1) - 1) % t.n
      = (hash (t.entries i).key % t.n + d) % t.n := by
    rw [Nat.mod_add_mod]
    congr 1
  rw [e] at hch
  omega

/-- Instance of `robin_hood_invariant`: capacity 4 and the calls of `exampleOps`. In the
table they leave, key 3 lies in its home slot 1 with control byte 1 and key 2 in its home
slot 2, while slot 0 is empty. -/
theorem robin_hood_invariant_witness :
    (exampleTable.ctrl 0, exampleTable.ctrl 1, exampleTable.ctrl 2, exampleTable.ctrl 3)
      = (0, 1, 1, 0) ∧
    ((exampleTable.entries 1).key, (exampleTable.entries 2).key) = (3, 2) ∧
    exampleTable.n = 4 ∧ exampleTable.mask = 4 - 1 ∧
    ∀ i, i < exampleTable.n →
      (exampleTable.ctrl i = 0 ↔ (exampleTable.entries i).key = EMPTY_KEY) ∧
      (exampleTable.ctrl i ≠ 0 →
        exampleTable.ctrl i
          = (i + exampleTable.n - exampleTable.index (hash (exampleTable.entries i).key))
              % exampleTable.n + 1 ∧
        exampleTable.ctrl i ≤ 254 ∧
        ∀ d, d ≤ (i + exampleTable.n
              - exampleTable.index (hash (exampleTable.entries i).key)) % exampleTable.n →
          exampleTable.ctrl ((exampleTable.index (hash (exampleTable.entries i).key) + d)
            % exampleTable.n) ≠ 0) :=
  ⟨by decide, by decide,
    robin_hood_invariant 0 4 exampleTable0 exampleTable exampleOps
      [true, true, true, false, true, false] (by decide) rfl rfl⟩

end RHBSU64Map
/-! ## Theorems: `next_pow2` -/

namespace BufferManager

theorem bitLength_spec : ∀ (w x : Nat), 0 < x → x < 2 ^ w →
    2 ^ (bitLength w x - 1) ≤ x ∧ x < 2 ^ bitLength w x ∧ 1 ≤ bitLength w x ∧
      bitLength w x ≤ w := by
  intro w
  induction w with
  | zero => intro x h0 h1; simp at h1; omega
  | succ w ih =>
    intro x h0 h1
    unfold bitLength
    rw [if_neg (by omega)]
    by_cases hx : x / 2 = 0
    · have hx1 : x = 1 := by omega
      subst hx1
      cases w with
      | zero => simp [bitLength]
      | succ w => simp [bitLength]
    · have hlt : x / 2 < 2 ^ w := by
        rw [Nat.div_lt_iff_lt_mul (by decide)]
        rw [Nat.pow_succ] at h1
        exact h1
      obtain ⟨a, b, c, d⟩ := ih (x / 2) (by omega) hlt
      refine ⟨?_, ?_, by omega, by omega⟩
      · rw [Nat.add_sub_cancel]
        have : 2 ^ bitLength w (x / 2) = 2 ^ (bitLength w (x / 2) - 1) * 2 := by
          rw [← Nat.pow_succ]
          congr 1
          omega
        rw [this]
        omega
      · rw [Nat.pow_succ]
        omega

theorem toU64_natCast (n : Nat) (h : n < 2 ^ 64) : toU64 (n : Int) = n := by
  unfold toU64
  omega

theorem shlInt1_small (k : Nat) (h : k < 31) : shlInt1 k = some (((2 ^ k : Nat) : Int)) := by
  unfold shlInt1
  rw [if_pos h]
  push_cast
  rfl

theorem pred_u64 (x : Nat) (h1 : 1 ≤ x) (h2 : x < 2 ^ 64) : (x + 2 ^ 64 - 1) % 2 ^ 64 = x - 1 := by
  omega

theorem clzl_pos (y : Nat) (h : 0 < y) : clzl y = some (64 - bitLength 64 y) := by
  unfold clzl
  rw [if_neg (by omega)]

/-- `next_pow2(x)` while the shift count stays below 31: `2 ^ k` for `k` the bit length of
`x - 1`. -/
theorem next_pow2_eq (x k : Nat) (h1 : 2 ≤ x) (h2 : x < 2 ^ 64) (hk : bitLength 64 (x - 1) = k)
    (hk31 : k < 31) : next_pow2 x = some (2 ^ k) := by
  have hk64 : 64 - (64 - k) = k := by omega
  have hlt : 2 ^ k < 2 ^ 64 := Nat.pow_lt_pow_right (by decide) (by omega)
  unfold next_pow2
  rw [pred_u64 x (by omega) h2, clzl_pos _ (by omega), hk, Option.some_bind, hk64,
    shlInt1_small k hk31, Option.map_some', toU64_natCast _ hlt]

/-- Where the shift stays within `int`, `next_pow2` is right: for `2 ≤ x ≤ 2 ^ 30` it
returns the smallest power of two that is at least `x`. -/
theorem next_pow2_small (x : Nat) (h2 : 2 ≤ x) (hx : x ≤ 2 ^ 30) :
    ∃ k, next_pow2 x = some (2 ^ k) ∧ x ≤ 2 ^ k ∧ ∀ j, x ≤ 2 ^ j → 2 ^ k ≤ 2 ^ j := by
  have hx64 : x < 2 ^ 64 := by omega
  obtain ⟨a, b, c, d⟩ := bitLength_spec 64 (x - 1) (by omega) (by omega)
  generalize hkk : bitLength 64 (x - 1) = k at a b c d
  have hk : k ≤ 30 := by
    by_contra hc
    have h31 : 2 ^ 30 ≤ 2 ^ (k - 1) := Nat.pow_le_pow_right (by decide) (by omega)
    omega
  refine ⟨k, next_pow2_eq x k h2 hx64 hkk (by omega), by omega, ?_⟩
  intro j hj
  apply Nat.pow_le_pow_right (by decide)
  by_contra hc
  have : 2 ^ j ≤ 2 ^ (k - 1) := Nat.pow_le_pow_right (by decide) (by omega)
  omega

/-- C29, failing input. For `page_count = 2 ^ 30` (`virt_size` 4 TiB) and the default
`page_table_factor = 1.5` the argument of `next_pow2` is `x = 1610612736`, between `2 ^ 30`
and `2 ^ 31`, so the smallest power of two that is at least `x` is `2 ^ 31`. The shift count
is 31 and `1 << 31` is evaluated in `int`: the lambda returns `INT_MIN` converted to `u64`,
`2 ^ 64 - 2 ^ 31`, which is no power of two, and the `RHBSU64Map` constructor rejects it
(`std::invalid_argument`). From `x = 2 ^ 31 + 1` on the shift count is 32 or more and the
shift is undefined. -/
theorem next_pow2_overflow :
    next_pow2 1610612736 = some (2 ^ 64 - 2 ^ 31) ∧
    (2 ^ 30 < 1610612736 ∧ 1610612736 ≤ 2 ^ 31) ∧
    (∀ k, 2 ^ 64 - 2 ^ 31 ≠ 2 ^ k) ∧
    (initWith ⟨64, 1, 10⟩ (2 ^ 30) 1610612736).map (fun r => failsWith r .invalid_argument)
      = some true ∧
    next_pow2 (2 ^ 31 + 1) = none := by
  refine ⟨by decide, by decide, ?_, by decide, by decide⟩
  intro k h
  have hk : k < 64 := by
    have : 2 ^ k < 2 ^ 64 := by omega
    exact (Nat.pow_lt_pow_iff_right (by decide)).1 this
  interval_cases k <;> omega

end BufferManager
/-! ## Theorems: the victim selection of an eviction round -/

namespace BufferManager

open RHBSU64Map BufTagged

theorem evictCallback_step (frames : Nat → BufferFrame) (eb : Nat) (s : SweepState) (pid : Nat)
    (buf : BufTagged) (x : SweepState × BufTagged × Bool)
    (h : evictCallback frames eb s pid buf = .ok x) : evictStep eb s pid buf = x := by
  unfold evictCallback at h
  unfold evictStep
  simp only at h ⊢
  by_cases hf : (frames buf.id).pid ≠ pid
  · rw [if_pos hf] at h
    simp at h
  · rw [if_neg hf] at h
    by_cases h1 : buf.in_use = true
    · rw [if_pos h1] at h ⊢
      exact Except.ok.inj h
    · rw [if_neg h1] at h ⊢
      by_cases h2 : buf.io_lock = true
      · rw [if_pos h2] at h ⊢
        exact Except.ok.inj h
      · rw [if_neg h2] at h ⊢
        by_cases h3 : buf.evicting = true
        · rw [if_pos h3] at h ⊢
          exact Except.ok.inj h
        · rw [if_neg h3] at h ⊢
          by_cases h4 : buf.marked = true
          · rw [if_pos h4] at h ⊢
            exact Except.ok.inj h
          · rw [if_neg h4] at h ⊢
            by_cases hp : pid = 0
            · rw [if_pos hp] at h
              simp at h
            · rw [if_neg hp] at h
              by_cases h5 : (buf.set_evicting true).dirty = true
              · rw [if_pos h5] at h ⊢
                exact Except.ok.inj h
              · rw [if_neg h5] at h ⊢
                exact Except.ok.inj h

/-- What `evictStep` returns, in terms of `candidate` and `swept`. -/
theorem evictStep_eq (eb : Nat) (s : SweepState) (pid : Nat) (d : BufTagged) :
    (evictStep eb s pid d).2.1 = d.swept ∧
    (evictStep eb s pid d).1.toWrite
      = s.toWrite ++ (if d.candidate && d.dirty then [d.id] else []) ∧
    (evictStep eb s pid d).1.toEvict
      = s.toEvict ++ (if d.candidate && !d.dirty then [d.id] else []) ∧
    (evictStep eb s pid d).2.2
      = (d.candidate && decide ((evictStep eb s pid d).1.toEvict.length
          + (evictStep eb s pid d).1.toWrite.length = eb)) := by
  unfold evictStep swept candidate
  cases h1 : d.in_use <;> cases h2 : d.io_lock <;> cases h3 : d.evicting <;>
    cases h4 : d.marked <;> cases h5 : d.dirty <;> simp [h1, h2, h3, h4, h5]

/-- A sweep that returns is the sweep with a callback that cannot fail and agrees with the
given one wherever that returns. -/
theorem sweepLoop_recover {Value σ : Type} (cb : σ → Nat → Value → Except Fatal (σ × Value × Bool))
    (cbT : σ → Nat → Value → σ × Value × Bool)
    (hcb : ∀ s k v x, cb s k v = .ok x → cbT s k v = x) :
    ∀ (fuel : Nat) (t : RHBSU64Map Value) (s : σ) (calls : List Nat)
      (r : RHBSU64Map Value × σ × Bool × List Nat),
      sweepLoop cb fuel t s calls = .ok r → sweepLoop (total cbT) fuel t s calls = .ok r := by
  intro fuel
  induction fuel with
  | zero =>
    intro t s calls r h
    simpa [sweepLoop] using h
  | succ f ih =>
    intro t s calls r h
    unfold sweepLoop at h ⊢
    simp only at h ⊢
    by_cases hc : t.ctrl t.sweep_ ≠ 0
    · rw [if_pos hc] at h ⊢
      cases hx : cb s (t.entries t.sweep_).key (t.entries t.sweep_).val with
      | error e => rw [hx] at h; simp at h
      | ok x =>
        obtain ⟨s1, v1, b⟩ := x
        rw [hx] at h
        simp only at h
        have := hcb _ _ _ _ hx
        simp only [total, this]
        by_cases hb : b = true
        · rw [if_pos hb] at h ⊢
          exact h
        · rw [if_neg hb] at h ⊢
          exact ih _ _ _ _ h
    · rw [if_neg hc] at h ⊢
      exact ih _ _ _ _ h

/-- The sweep along a list of distinct slots, in terms of `swept`, `dirtyVictims` and
`cleanVictims`: the slots `taken` it called the callback on are a prefix of the list; their
descriptors are replaced by `swept` of them and no other slot changes; the BIDs of the
selected ones are appended to the batches in the order of the calls; the batches do not
outgrow `evict_batch`, and the sweep stops exactly when they reach it. -/
theorem visitSlots_evict (eb : Nat) :
    ∀ (l : List Nat) (e : Nat → Entry BufTagged) (s : SweepState) (calls : List Nat),
      l.Nodup →
      ∃ taken, taken <+: l ∧
        (visitSlots (evictStep eb) l e s calls).2.2.2 = calls ++ taken ∧
        (∀ i, (visitSlots (evictStep eb) l e s calls).1 i
          = if i ∈ taken then ⟨(e i).key, (e i).val.swept⟩ else e i) ∧
        (visitSlots (evictStep eb) l e s calls).2.1.toWrite = s.toWrite ++ dirtyVictims e taken ∧
        (visitSlots (evictStep eb) l e s calls).2.1.toEvict = s.toEvict ++ cleanVictims e taken ∧
        (s.toEvict.length + s.toWrite.length < eb →
          (visitSlots (evictStep eb) l e s calls).2.1.toEvict.length
            + (visitSlots (evictStep eb) l e s calls).2.1.toWrite.length ≤ eb) ∧
        ((visitSlots (evictStep eb) l e s calls).2.2.1 = none → taken = l) := by
  intro l
  induction l with
  | nil =>
    intro e s calls _
    refine ⟨[], List.prefix_refl _, by simp [visitSlots], ?_, ?_, ?_, ?_, fun _ => rfl⟩
    · intro i; simp [visitSlots]
    · simp [visitSlots, dirtyVictims]
    · simp [visitSlots, cleanVictims]
    · intro h; simp only [visitSlots]; omega
  | cons i is ih =>
    intro e s calls hnd
    obtain ⟨hni, hnd'⟩ := List.nodup_cons.1 hnd
    obtain ⟨q1, q2, q3, q4⟩ := evictStep_eq eb s (e i).key (e i).val
    unfold visitSlots
    simp only []
    by_cases hr : (evictStep eb s (e i).key (e i).val).2.2 = true
    · rw [if_pos hr]
      rw [q4] at hr
      simp only [Bool.and_eq_true, decide_eq_true_eq] at hr
      refine ⟨[i], ⟨is, rfl⟩, rfl, ?_, ?_, ?_, ?_, ?_⟩
      · intro j
        by_cases hj : j = i
        · subst hj; simp [q1]
        · simp [hj, Function.update_noteq hj]
      · show (evictStep eb s (e i).key (e i).val).1.toWrite = _
        rw [q2]
        unfold dirtyVictims
        by_cases hcd : ((e i).val.candidate && (e i).val.dirty) = true
        · simp [hcd]
        · simp [hcd]
      · show (evictStep eb s (e i).key (e i).val).1.toEvict = _
        rw [q3]
        unfold cleanVictims
        by_cases hcd : ((e i).val.candidate && !(e i).val.dirty) = true
        · simp [hcd]
        · simp [hcd]
      · intro _
        show (evictStep eb s (e i).key (e i).val).1.toEvict.length
          + (evictStep eb s (e i).key (e i).val).1.toWrite.length ≤ eb
        omega
      · intro h; simp at h
    · rw [if_neg hr]
      obtain ⟨taken, p1, p2, p3, p4, p5, p6, p7⟩ :=
        ih (Function.update e i ⟨(e i).key, (evictStep eb s (e i).key (e i).val).2.1⟩)
          (evictStep eb s (e i).key (e i).val).1 (calls ++ [i]) hnd'
      have hsub : ∀ j, j ∈ taken → j ≠ i := by
        intro j hj hji
        subst hji
        exact hni (p1.subset hj)
      have hsame : ∀ j, j ∈ taken →
          Function.update e i ⟨(e i).key, (evictStep eb s (e i).key (e i).val).2.1⟩ j = e j :=
        fun j hj => Function.update_noteq (hsub j hj) _ _
      have hdv : dirtyVictims (Function.update e i
          ⟨(e i).key, (evictStep eb s (e i).key (e i).val).2.1⟩) taken = dirtyVictims e taken := by
        unfold dirtyVictims
        rw [List.filter_congr (fun j hj => by rw [hsame j hj])]
        exact List.map_congr_left (fun j hj => by rw [hsame j (List.mem_of_mem_filter hj)])
      have hcv : cleanVictims (Function.update e i
          ⟨(e i).key, (evictStep eb s (e i).key (e i).val).2.1⟩) taken = cleanVictims e taken := by
        unfold cleanVictims
        rw [List.filter_congr (fun j hj => by rw [hsame j hj])]
        exact List.map_congr_left (fun j hj => by rw [hsame j (List.mem_of_mem_filter hj)])
      refine ⟨i :: taken, (List.prefix_cons_inj i).2 p1, ?_, ?_, ?_, ?_, ?_, ?_⟩
      · rw [p2]; simp
      · intro j
        rw [p3 j]
        by_cases hj : j = i
        · subst hj
          have : j ∉ taken := fun hm => hsub j hm rfl
          simp [this, q1]
        · by_cases hm : j ∈ taken
          · simp [hm, hj, Function.update_noteq hj]
          · simp [hm, hj, Function.update_noteq hj]
      · rw [p4, hdv, q2, List.append_assoc]
        congr 1
        unfold dirtyVictims
        by_cases hcd : ((e i).val.candidate && (e i).val.dirty) = true
        · simp [hcd, List.filter_cons]
        · simp [hcd, List.filter_cons]
      · rw [p5, hcv, q3, List.append_assoc]
        congr 1
        unfold cleanVictims
        by_cases hcd : ((e i).val.candidate && !(e i).val.dirty) = true
        · simp [hcd, List.filter_cons]
        · simp [hcd, List.filter_cons]
      · intro hlt
        apply p6
        rw [q4] at hr
        rw [q2, q3] at hr ⊢
        cases hc : (e i).val.candidate with
        | false => simpa [hc] using hlt
        | true =>
          simp only [hc, Bool.true_and, decide_eq_true_eq] at hr
          cases hd : (e i).val.dirty with
          | false =>
            simp only [hc, hd, Bool.true_and, Bool.not_false, Bool.and_self, if_true,
              Bool.and_false, Bool.false_eq_true, if_false, List.append_nil,
              List.length_append, List.length_singleton] at hr ⊢
            omega
          | true =>
            simp only [hc, hd, Bool.true_and, Bool.not_true, Bool.and_self, if_true,
              Bool.and_false, Bool.false_eq_true, if_false, List.append_nil,
              List.length_append, List.length_singleton] at hr ⊢
            omega
      · intro h
        rw [p7 h]

/-- The sweep of `evict` on a well-formed page table, when it returns: the callback was
called on a prefix `calls` of the occupied slots in hand order; control bytes, keys and size
are as before; the descriptor of a slot in `calls` is `swept` of what it was, every other
slot is untouched; `toWrite` and `toEvict` list the BIDs of the dirty and the clean
candidates among `calls`, in call order; and the batches hold at most `evict_batch` BIDs
when `evict_batch ≥ 1`. -/
theorem clock_sweep_evict (frames : Nat → BufferFrame) (eb : Nat) (t t' : PageTable)
    (s' : SweepState) (r : Bool) (calls : List Nat) (hw : WF t) (hc : Cnt t)
    (hs : t.sweep_ < t.n)
    (h : t.clock_sweep_next (evictCallback frames eb) ⟨[], [], 0⟩ = .ok (t', s', r, calls)) :
    calls <+: t.occupied ∧ t'.ctrl = t.ctrl ∧ t'.n = t.n ∧ t'.mask = t.mask ∧ t'.sz = t.sz ∧
    (∀ i, t'.entries i
      = if i ∈ calls then ⟨(t.entries i).key, (t.entries i).val.swept⟩ else t.entries i) ∧
    s'.toWrite = dirtyVictims t.entries calls ∧ s'.toEvict = cleanVictims t.entries calls ∧
    (1 ≤ eb → s'.toEvict.length + s'.toWrite.length ≤ eb) ∧
    (r = false → calls = t.occupied) := by
  unfold clock_sweep_next at h
  by_cases hz : t.sz = 0
  · rw [if_pos hz] at h
    simp only [Except.ok.injEq, Prod.mk.injEq] at h
    obtain ⟨e1, e2, e3, e4⟩ := h
    subst e1; subst e2; subst e4
    refine ⟨List.nil_prefix, rfl, rfl, rfl, rfl, ?_, rfl, rfl, ?_, ?_⟩
    · intro i; simp
    · intro _; simp
    · intro _
      have hlen : t.occupied.length = 0 := by
        rw [occupied_length t hs, ← hc, hz]
      exact (List.length_eq_zero.1 hlen).symm
  · rw [if_neg hz] at h
    have h2 := sweepLoop_recover (evictCallback frames eb) (evictStep eb)
      (evictCallback_step frames eb) t.n t ⟨[], [], 0⟩ [] _ h
    rw [sweepLoop_spec (evictStep eb) t.n t ⟨[], [], 0⟩ [] hw hs] at h2
    obtain ⟨taken, p1, p2, p3, p4, p5, p6, p7⟩ :=
      visitSlots_evict eb t.occupied t.entries ⟨[], [], 0⟩ [] (occupied_nodup t hw.pos)
    have hocc : ((List.range t.n).map (fun j => (t.sweep_ + j) % t.n)).filter
        (fun i => decide (t.ctrl i ≠ 0)) = t.occupied := rfl
    rw [hocc] at h2
    simp only [Except.ok.injEq, Prod.mk.injEq] at h2
    obtain ⟨e1, e2, e3, e4⟩ := h2
    rw [List.nil_append] at p2
    rw [e4] at p2
    rw [e2] at p4 p5 p6
    subst p2
    refine ⟨p1, by rw [← e1], by rw [← e1], by rw [← e1], by rw [← e1], ?_, ?_, ?_, ?_, ?_⟩
    · intro i
      rw [← e1]
      exact p3 i
    · simpa using p4
    · simpa using p5
    · intro hb
      exact p6 (by simpa using hb)
    · intro hr
      apply p7
      rw [← e3] at hr
      cases hv : (visitSlots (evictStep eb) t.occupied t.entries ⟨[], [], 0⟩ []).2.2.1 with
      | none => rfl
      | some x => rw [hv] at hr; simp at hr

/-- When the sweep along a list stops at a slot, the visit of that slot has filled the
batches: they hold exactly `evict_batch` BIDs. -/
theorem visitSlots_stop (eb : Nat) :
    ∀ (l : List Nat) (e : Nat → Entry BufTagged) (s : SweepState) (calls : List Nat),
      (visitSlots (evictStep eb) l e s calls).2.2.1 ≠ none →
      (visitSlots (evictStep eb) l e s calls).2.1.toEvict.length
        + (visitSlots (evictStep eb) l e s calls).2.1.toWrite.length = eb := by
  intro l
  induction l with
  | nil =>
    intro e s calls h
    simp [visitSlots] at h
  | cons i is ih =>
    intro e s calls h
    obtain ⟨_, _, _, q4⟩ := evictStep_eq eb s (e i).key (e i).val
    unfold visitSlots at h ⊢
    simp only [] at h ⊢
    by_cases hr : (evictStep eb s (e i).key (e i).val).2.2 = true
    · rw [if_pos hr]
      rw [q4] at hr
      simp only [Bool.and_eq_true, decide_eq_true_eq] at hr
      exact hr.2
    · rw [if_neg hr] at h ⊢
      exact ih _ _ _ h

/-- When the sweep along a list of distinct slots stops, the last slot it called the
callback on held a candidate. -/
theorem visitSlots_last (eb : Nat) :
    ∀ (l : List Nat) (e : Nat → Entry BufTagged) (s : SweepState) (calls : List Nat),
      l.Nodup → (visitSlots (evictStep eb) l e s calls).2.2.1 ≠ none →
      ∃ j, (visitSlots (evictStep eb) l e s calls).2.2.2.getLast? = some j ∧ j ∈ l ∧
        (e j).val.candidate = true := by
  intro l
  induction l with
  | nil =>
    intro e s calls _ h
    simp [visitSlots] at h
  | cons i is ih =>
    intro e s calls hnd h
    obtain ⟨hni, hnd'⟩ := List.nodup_cons.1 hnd
    obtain ⟨_, _, _, q4⟩ := evictStep_eq eb s (e i).key (e i).val
    unfold visitSlots at h ⊢
    simp only [] at h ⊢
    by_cases hr : (evictStep eb s (e i).key (e i).val).2.2 = true
    · rw [if_pos hr]
      rw [q4] at hr
      simp only [Bool.and_eq_true, decide_eq_true_eq] at hr
      exact ⟨i, by simp, List.mem_cons_self _ _, hr.1⟩
    · rw [if_neg hr] at h ⊢
      obtain ⟨j, h1, h2, h3⟩ := ih _ _ _ hnd' h
      have hji : j ≠ i := fun e1 => hni (e1 ▸ h2)
      rw [Function.update_noteq hji] at h3
      exact ⟨j, h1, List.mem_cons_of_mem _ h2, h3⟩

/-- The sweep of `evict` reports `true` only when the batches hold exactly `evict_batch`
BIDs, and then the last slot visited held a candidate. -/
theorem clock_sweep_stop (frames : Nat → BufferFrame) (eb : Nat) (t t' : PageTable)
    (s' : SweepState) (r : Bool) (calls : List Nat) (hw : WF t) (hs : t.sweep_ < t.n)
    (h : t.clock_sweep_next (evictCallback frames eb) ⟨[], [], 0⟩ = .ok (t', s', r, calls))
    (hr : r = true) :
    s'.toEvict.length + s'.toWrite.length = eb ∧
    ∃ j, calls.getLast? = some j ∧ (t.entries j).val.candidate = true := by
  unfold clock_sweep_next at h
  by_cases hz : t.sz = 0
  · rw [if_pos hz] at h
    simp only [Except.ok.injEq, Prod.mk.injEq] at h
    obtain ⟨_, _, e3, _⟩ := h
    rw [hr] at e3
    simp at e3
  · rw [if_neg hz] at h
    have h2 := sweepLoop_recover (evictCallback frames eb) (evictStep eb)
      (evictCallback_step frames eb) t.n t ⟨[], [], 0⟩ [] _ h
    rw [sweepLoop_spec (evictStep eb) t.n t ⟨[], [], 0⟩ [] hw hs] at h2
    have hocc : ((List.range t.n).map (fun j => (t.sweep_ + j) % t.n)).filter
        (fun i => decide (t.ctrl i ≠ 0)) = t.occupied := rfl
    rw [hocc] at h2
    simp only [Except.ok.injEq, Prod.mk.injEq] at h2
    obtain ⟨_, e2, e3, e4⟩ := h2
    have hsome : (visitSlots (evictStep eb) t.occupied t.entries ⟨[], [], 0⟩ []).2.2.1
        ≠ none := by
      intro hn
      rw [hn, hr] at e3
      simp at e3
    refine ⟨?_, ?_⟩
    · rw [← e2]
      exact visitSlots_stop eb _ _ _ _ hsome
    · obtain ⟨j, h1, _, h3⟩ := visitSlots_last eb t.occupied t.entries ⟨[], [], 0⟩ []
        (occupied_nodup t hw.pos) hsome
      rw [e4] at h1
      exact ⟨j, h1, h3⟩

end BufferManager
/-! ## Theorems: victim selection in a reachable state -/

namespace BufTagged

theorem swept_of_skip (d : BufTagged)
    (h : d.in_use = true ∨ d.io_lock = true ∨ d.evicting = true) : d.swept = d := by
  unfold swept
  rcases h with h | h | h <;> simp [h]

theorem swept_of_marked (d : BufTagged) (h1 : d.in_use = false) (h2 : d.io_lock = false)
    (h3 : d.evicting = false) (h4 : d.marked = true) : d.swept = d.set_marked false := by
  unfold swept
  simp [h1, h2, h3, h4]

theorem candidate_iff (d : BufTagged) :
    d.candidate = true ↔
      d.in_use = false ∧ d.io_lock = false ∧ d.evicting = false ∧ d.marked = false := by
  unfold candidate
  cases d.in_use <;> cases d.io_lock <;> cases d.evicting <;> cases d.marked <;> simp

theorem swept_of_candidate (d : BufTagged) (h : d.candidate = true) :
    d.swept = (if d.dirty then (d.set_evicting true).set_dirty false else d.set_evicting true) ∧
    d.swept.id = d.id ∧ d.swept.evicting = true ∧ d.swept.dirty = false ∧
    d.swept.in_use = false ∧ d.swept.io_lock = false ∧ d.swept.marked = false := by
  obtain ⟨h1, h2, h3, h4⟩ := (candidate_iff d).1 h
  unfold swept
  cases h5 : d.dirty <;> simp [h1, h2, h3, h4, h5]

theorem id_swept (d : BufTagged) : d.swept.id = d.id := by
  unfold swept
  split
  · rfl
  · split
    · simp
    · split <;> simp

end BufTagged

namespace BufferManager

open RHBSU64Map BufTagged

/-- Two occupied slots whose descriptors carry the same BID are the same slot. -/
theorem slot_of_id {pt : PageTable} {fr : Nat → Nat} {fl : List Nat} (h : Core pt fr fl)
    (i j : Nat) (hi : i < pt.n) (hj : j < pt.n) (hci : pt.ctrl i ≠ 0) (hcj : pt.ctrl j ≠ 0)
    (hid : (pt.entries i).val.id = (pt.entries j).val.id) : i = j := by
  have h1 := h.back _ _ ⟨i, hi, hci, rfl, rfl⟩
  have h2 := h.back _ _ ⟨j, hj, hcj, rfl, rfl⟩
  rw [hid] at h1
  exact h.inv.uniq i j hi hj hci hcj (h1.symm.trans h2)

theorem mem_dirtyVictims (e : Nat → Entry BufTagged) (l : List Nat) (b : Nat) :
    b ∈ dirtyVictims e l ↔
      ∃ i, i ∈ l ∧ (e i).val.candidate = true ∧ (e i).val.dirty = true ∧ (e i).val.id = b := by
  unfold dirtyVictims
  simp only [List.mem_map, List.mem_filter, Bool.and_eq_true]
  constructor
  · rintro ⟨i, ⟨h1, h2, h3⟩, h4⟩
    exact ⟨i, h1, h2, h3, h4⟩
  · rintro ⟨i, h1, h2, h3, h4⟩
    exact ⟨i, ⟨h1, h2, h3⟩, h4⟩

theorem mem_cleanVictims (e : Nat → Entry BufTagged) (l : List Nat) (b : Nat) :
    b ∈ cleanVictims e l ↔
      ∃ i, i ∈ l ∧ (e i).val.candidate = true ∧ (e i).val.dirty = false ∧ (e i).val.id = b := by
  unfold cleanVictims
  simp only [List.mem_map, List.mem_filter, Bool.and_eq_true, Bool.not_eq_true']
  constructor
  · rintro ⟨i, ⟨h1, h2, h3⟩, h4⟩
    exact ⟨i, h1, h2, h3, h4⟩
  · rintro ⟨i, h1, h2, h3, h4⟩
    exact ⟨i, ⟨h1, h2, h3⟩, h4⟩

/-- The state `scRound1` is reached from `init`: a first eviction round has completed. -/
theorem reach_scRound1 : Reach false scRound1 :=
  Reach.evict_end scSwept1 scRound1 0 false
    (Reach.evict_begin scUnfixed scSwept1
      (Reach.unfix false true scAlloc scUnfixed 1
        (Reach.allocPage false scPinned scAlloc (some 1)
          (Reach.fix false false bmInit4 scPinned 0 (some 0)
            (Reach.init ⟨64, 1, 10⟩ 4 8 bmInit4 (by norm_num) (by norm_num) rfl) rfl)
          rfl)
        rfl)
      rfl)
    rfl

/-- What the sweep of an eviction round does in a state that satisfies the invariant: the
table `bm'.page_table` and the batches in terms of the slots `calls` the callback was
called on. -/
theorem evict_begin_calls {bm bm' : BufferManager} (h : Consistent false bm)
    (he : bm.evict_begin = .ok bm') :
    ∃ calls, calls <+: bm.page_table.occupied ∧
      bm'.page_table.ctrl = bm.page_table.ctrl ∧ bm'.page_table.n = bm.page_table.n ∧
      (∀ i, bm'.page_table.entries i
        = if i ∈ calls then ⟨(bm.page_table.entries i).key, (bm.page_table.entries i).val.swept⟩
          else bm.page_table.entries i) ∧
      bm'.toWrite = dirtyVictims bm.page_table.entries calls ∧
      bm'.toEvict = cleanVictims bm.page_table.entries calls ∧
      (1 ≤ bm.cfg.evict_batch → bm'.toEvict.length + bm'.toWrite.length ≤ bm.cfg.evict_batch) ∧
      bm' = { bm with page_table := bm'.page_table, toEvict := bm'.toEvict,
                      toWrite := bm'.toWrite } ∧
      (calls = bm.page_table.occupied ∨
        (bm'.toEvict.length + bm'.toWrite.length = bm.cfg.evict_batch ∧
          ∃ j, calls.getLast? = some j ∧ (bm.page_table.entries j).val.candidate = true)) := by
  unfold evict_begin at he
  cases hs : bm.page_table.clock_sweep_next
      (evictCallback bm.buffer_frames bm.cfg.evict_batch) ⟨[], [], 0⟩ with
  | error e => simp [hs] at he
  | ok res =>
    obtain ⟨pt, s, r, calls⟩ := res
    simp only [hs, Except.ok.injEq] at he
    subst he
    obtain ⟨p1, p2, p3, _, _, p6, p7, p8, p9, p10⟩ :=
      clock_sweep_evict bm.buffer_frames bm.cfg.evict_batch bm.page_table pt s r calls
        h.1.inv.wf h.1.inv.cnt h.1.hand hs
    refine ⟨calls, p1, p2, p3, p6, p7, p8, p9, rfl, ?_⟩
    cases hr : r with
    | false => exact Or.inl (p10 hr)
    | true =>
      exact Or.inr (clock_sweep_stop bm.buffer_frames bm.cfg.evict_batch bm.page_table pt s r
        calls h.1.inv.wf h.1.hand hs hr)

/-- C23. Victim selection of an eviction round with `evict_batch ≥ 1`, started in a
reachable state, when the sweep returns. The callback is called on the slots `visited`: the
occupied slots in the order of the hand, from the hand on, up to and including the visit
that fills the batches to `evict_batch` (the last slot visited then held a candidate), or
all of them when no visit does. `toWrite` lists the BIDs of the visited dirty candidates
(not in_use, not io_lock, not evicting, not marked) and `toEvict` those of the visited
clean candidates, in the order of the visits. A
descriptor in a slot that is not visited is unchanged and not listed. Of the visited ones, a
descriptor that is in_use, io_lock or evicting is unchanged; a marked one loses its mark and
nothing else; a candidate gets evicting set and dirty cleared and its BID is listed, in
`toWrite` when it was dirty and in `toEvict` when it was clean. Hence `toEvict` and
`toWrite` together hold at most `evict_batch` BIDs and no BID twice, every listed BID is
that of a descriptor that was a candidate and is evicting and clean afterwards, no entry
appears or disappears, and nothing but the page table and the two batches changes. -/
theorem victim_selection (bm bm' : BufferManager) (hr : Reach false bm)
    (hb : 1 ≤ bm.cfg.evict_batch) (he : bm.evict_begin = .ok bm') :
    (∃ visited : List Nat,
      visited <+: bm.page_table.occupied ∧
      (visited = bm.page_table.occupied ∨
        (bm'.toEvict.length + bm'.toWrite.length = bm.cfg.evict_batch ∧
          ∃ j, visited.getLast? = some j ∧ (bm.page_table.entries j).val.candidate = true)) ∧
      bm'.toWrite = dirtyVictims bm.page_table.entries visited ∧
      bm'.toEvict = cleanVictims bm.page_table.entries visited ∧
      ∀ pid d, bm.page_table.lookup pid = some d →
        ∃ i, i < bm.page_table.n ∧ bm.page_table.ctrl i ≠ 0 ∧
          (bm.page_table.entries i).key = pid ∧ (bm.page_table.entries i).val = d ∧
          (i ∉ visited →
            bm'.page_table.lookup pid = some d ∧ d.id ∉ bm'.toEvict ++ bm'.toWrite) ∧
          (i ∈ visited →
            (d.in_use = true ∨ d.io_lock = true ∨ d.evicting = true →
              bm'.page_table.lookup pid = some d) ∧
            (d.in_use = false → d.io_lock = false → d.evicting = false → d.marked = true →
              bm'.page_table.lookup pid = some (d.set_marked false)) ∧
            (d.in_use = false → d.io_lock = false → d.evicting = false → d.marked = false →
              bm'.page_table.lookup pid
                = some (if d.dirty then (d.set_evicting true).set_dirty false
                        else d.set_evicting true) ∧
              (d.dirty = true → d.id ∈ bm'.toWrite) ∧
              (d.dirty = false → d.id ∈ bm'.toEvict)))) ∧
    (bm'.toEvict ++ bm'.toWrite).Nodup ∧
    bm'.toEvict.length + bm'.toWrite.length ≤ bm.cfg.evict_batch ∧
    (∀ bid, bid ∈ bm'.toEvict ++ bm'.toWrite →
      ∃ pid d, bm.page_table.lookup pid = some d ∧ d.id = bid ∧
        d.in_use = false ∧ d.io_lock = false ∧ d.evicting = false ∧ d.marked = false ∧
        (bid ∈ bm'.toWrite ↔ d.dirty = true) ∧ (bid ∈ bm'.toEvict ↔ d.dirty = false) ∧
        ∃ d', bm'.page_table.lookup pid = some d' ∧ d'.id = bid ∧ d'.evicting = true ∧
          d'.dirty = false ∧ d'.in_use = false ∧ d'.io_lock = false ∧ d'.marked = false) ∧
    (∀ pid d, bm.page_table.lookup pid = some d →
      (d.in_use = true ∨ d.io_lock = true ∨ d.evicting = true →
        bm'.page_table.lookup pid = some d) ∧
      (d.in_use = false → d.io_lock = false → d.evicting = false → d.marked = true →
        bm'.page_table.lookup pid = some d ∨
          bm'.page_table.lookup pid = some (d.set_marked false)) ∧
      (d.candidate = true →
        (bm'.page_table.lookup pid = some d ∧ d.id ∉ bm'.toEvict ++ bm'.toWrite) ∨
        (bm'.page_table.lookup pid
            = some (if d.dirty then (d.set_evicting true).set_dirty false
                    else d.set_evicting true) ∧
          d.id ∈ bm'.toEvict ++ bm'.toWrite))) ∧
    (∀ pid, bm.page_table.lookup pid = none → bm'.page_table.lookup pid = none) ∧
    bm' = { bm with page_table := bm'.page_table, toEvict := bm'.toEvict,
                    toWrite := bm'.toWrite } := by
  have hc := reach_consistent false bm hr
  have hc' := evict_begin_consistent hc he
  obtain ⟨calls, c1, c2, c3, c4, c5, c6, c7, c8, c9⟩ := evict_begin_calls hc he
  have hinv := hc.1.inv
  have hinv' := hc'.1.inv
  have hocc : ∀ i, i ∈ calls → i < bm.page_table.n ∧ bm.page_table.ctrl i ≠ 0 :=
    fun i hi => (mem_occupied bm.page_table hc.1.hand i).1 (c1.subset hi)
  -- the entry a slot holds after the sweep
  have hafter : ∀ i, i < bm.page_table.n → bm.page_table.ctrl i ≠ 0 →
      bm'.page_table.lookup (bm.page_table.entries i).key
        = some (if i ∈ calls then (bm.page_table.entries i).val.swept
                else (bm.page_table.entries i).val) := by
    intro i hi hci
    rw [lookup_eq_some_iff hinv']
    refine ⟨i, by rw [c3]; exact hi, by rw [c2]; exact hci, ?_, ?_⟩
    · rw [c4 i]; split <;> rfl
    · rw [c4 i]; split <;> rfl
  -- a listed BID comes from a candidate slot among the calls
  have hlisted : ∀ bid, bid ∈ bm'.toEvict ++ bm'.toWrite →
      ∃ i, i ∈ calls ∧ (bm.page_table.entries i).val.candidate = true ∧
        (bm.page_table.entries i).val.id = bid := by
    intro bid hm
    rw [List.mem_append, c5, c6, mem_dirtyVictims, mem_cleanVictims] at hm
    rcases hm with ⟨i, h1, h2, _, h4⟩ | ⟨i, h1, h2, _, h4⟩
    · exact ⟨i, h1, h2, h4⟩
    · exact ⟨i, h1, h2, h4⟩
  have hsame : ∀ i j, i < bm.page_table.n → bm.page_table.ctrl i ≠ 0 → j ∈ calls →
      (bm.page_table.entries j).val.id = (bm.page_table.entries i).val.id → j = i := by
    intro i j hi hci hj hid
    obtain ⟨hj1, hj2⟩ := hocc j hj
    exact slot_of_id hc.1 j i hj1 hi hj2 hci hid
  have hw : ∀ i, i ∈ calls → (bm.page_table.entries i).val.candidate = true →
      ((bm.page_table.entries i).val.id ∈ bm'.toWrite
        ↔ (bm.page_table.entries i).val.dirty = true) := by
    intro i hi hcand
    obtain ⟨hi1, hi2⟩ := hocc i hi
    rw [c5, mem_dirtyVictims]
    constructor
    · rintro ⟨j, h1, _, h3, h4⟩
      have := hsame i j hi1 hi2 h1 h4
      subst this
      exact h3
    · intro hd
      exact ⟨i, hi, hcand, hd, rfl⟩
  have hev : ∀ i, i ∈ calls → (bm.page_table.entries i).val.candidate = true →
      ((bm.page_table.entries i).val.id ∈ bm'.toEvict
        ↔ (bm.page_table.entries i).val.dirty = false) := by
    intro i hi hcand
    obtain ⟨hi1, hi2⟩ := hocc i hi
    rw [c6, mem_cleanVictims]
    constructor
    · rintro ⟨j, h1, _, h3, h4⟩
      have := hsame i j hi1 hi2 h1 h4
      subst this
      exact h3
    · intro hd
      exact ⟨i, hi, hcand, hd, rfl⟩
  refine ⟨⟨calls, c1, c9, c5, c6, ?_⟩, (hc'.2 rfl).nodup, c7 hb, ?_, ?_, ?_, c8⟩
  · intro pid d hl
    obtain ⟨i, hi1, hi2, hk, hv⟩ := (lookup_eq_some_iff hinv pid d).1 hl
    have hl' := hafter i hi1 hi2
    rw [hk, hv] at hl'
    refine ⟨i, hi1, hi2, hk, hv, ?_, ?_⟩
    · intro hm
      rw [hl', if_neg hm]
      refine ⟨rfl, ?_⟩
      intro hin
      obtain ⟨j, hj, _, hid⟩ := hlisted d.id hin
      have := hsame i j hi1 hi2 hj (by rw [hid, hv])
      subst this
      exact hm hj
    · intro hm
      rw [if_pos hm] at hl'
      refine ⟨?_, ?_, ?_⟩
      · intro hs
        rw [hl', swept_of_skip d hs]
      · intro h1 h2 h3 h4
        rw [hl', swept_of_marked d h1 h2 h3 h4]
      · intro h1 h2 h3 h4
        have hcand : d.candidate = true := (candidate_iff d).2 ⟨h1, h2, h3, h4⟩
        have hcand' : (bm.page_table.entries i).val.candidate = true := by rw [hv]; exact hcand
        rw [hl', (swept_of_candidate d hcand).1]
        refine ⟨rfl, ?_, ?_⟩
        · intro hd
          rw [← hv]
          exact (hw i hm hcand').2 (by rw [hv]; exact hd)
        · intro hd
          rw [← hv]
          exact (hev i hm hcand').2 (by rw [hv]; exact hd)
  · intro bid hm
    obtain ⟨i, hi, hcand, hid⟩ := hlisted bid hm
    obtain ⟨hi1, hi2⟩ := hocc i hi
    obtain ⟨f1, f2, f3, f4⟩ := (candidate_iff _).1 hcand
    obtain ⟨_, g1, g2, g3, g4, g5, g6⟩ := swept_of_candidate _ hcand
    have hl := hafter i hi1 hi2
    rw [if_pos hi] at hl
    refine ⟨(bm.page_table.entries i).key, (bm.page_table.entries i).val,
      (lookup_eq_some_iff hinv _ _).2 ⟨i, hi1, hi2, rfl, rfl⟩, hid, f1, f2, f3, f4, ?_, ?_,
      _, hl, g1.trans hid, g2, g3, g4, g5, g6⟩
    · rw [← hid]; exact hw i hi hcand
    · rw [← hid]; exact hev i hi hcand
  · intro pid d hl
    obtain ⟨i, hi1, hi2, hk, hv⟩ := (lookup_eq_some_iff hinv pid d).1 hl
    have hl' := hafter i hi1 hi2
    rw [hk, hv] at hl'
    refine ⟨?_, ?_, ?_⟩
    · intro hs
      rw [hl', swept_of_skip d hs]
      simp
    · intro h1 h2 h3 h4
      rw [hl', swept_of_marked d h1 h2 h3 h4]
      by_cases hm : i ∈ calls
      · right; rw [if_pos hm]
      · left; rw [if_neg hm]
    · intro hcand
      by_cases hm : i ∈ calls
      · right
        rw [hl', if_pos hm, (swept_of_candidate d hcand).1]
        refine ⟨rfl, ?_⟩
        rw [List.mem_append]
        have hcand' : (bm.page_table.entries i).val.candidate = true := by rw [hv]; exact hcand
        cases hd : d.dirty with
        | true =>
          right
          rw [← hv]
          exact (hw i hm hcand').2 (by rw [hv]; exact hd)
        | false =>
          left
          rw [← hv]
          exact (hev i hm hcand').2 (by rw [hv]; exact hd)
      · left
        rw [hl', if_neg hm]
        refine ⟨rfl, ?_⟩
        intro hin
        obtain ⟨j, hj, _, hid⟩ := hlisted d.id hin
        have := hsame i j hi1 hi2 hj (by rw [hid, hv])
        subst this
        exact hm hj
  · intro pid hl
    rw [lookup_eq_none_iff hinv] at hl
    rw [lookup_eq_none_iff hinv']
    rintro v ⟨i, hi1, hi2, hk, _⟩
    rw [c3] at hi1
    rw [c2] at hi2
    apply hl (bm.page_table.entries i).val
    refine ⟨i, hi1, hi2, ?_, rfl⟩
    rw [← hk, c4 i]
    split <;> rfl

/-- Instance of `victim_selection`: in the state `scRound1` (PID 0 pinned, PID 1 in frame 1
dirty and unmarked, `evict_batch = 64`) the sweep visits both occupied slots and selects
frame 1 for write-back; the batch is not full, so every occupied slot was visited. -/
theorem victim_selection_witness :
    scRound1.evict_begin = .ok scSwept ∧ scSwept.toWrite = [1] ∧ scSwept.toEvict = [] ∧
    scRound1.descriptor 0 = some (0, true, true, false, false, true) ∧
    scSwept.descriptor 0 = some (0, true, true, false, false, true) ∧
    scRound1.descriptor 1 = some (1, false, true, false, false, false) ∧
    scSwept.descriptor 1 = some (1, false, false, true, false, false) ∧
    (scSwept.toEvict ++ scSwept.toWrite).Nodup ∧
    scSwept.toEvict.length + scSwept.toWrite.length ≤ scRound1.cfg.evict_batch ∧
    ∃ visited : List Nat, visited = scRound1.page_table.occupied ∧
      scSwept.toWrite = dirtyVictims scRound1.page_table.entries visited :=
  have h := victim_selection scRound1 scSwept reach_scRound1 (by decide) rfl
  ⟨rfl, by decide, by decide, by decide, by decide, by decide, by decide, h.2.1, h.2.2.1,
    match h.1 with
    | ⟨visited, _, h2, h3, _⟩ =>
      ⟨visited, h2.resolve_right (fun hfull => absurd hfull.1 (by decide)), h3⟩⟩

end BufferManager
/-! ## Theorems: the batches stay evicting and unlocked until the commit -/

namespace BufferManager

open RHBSU64Map BufTagged

theorem framePid_update (bm : BufferManager) (bid pid : Nat) (w : List Nat) :
    (fun b => (Function.update bm.buffer_frames bid ⟨pid, w⟩ b).pid)
      = Function.update bm.framePid bid pid := by
  funext b
  unfold framePid
  by_cases hb : b = bid
  · subst hb; simp
  · simp [Function.update_noteq hb]

theorem allocPage_shape {bm bm' : BufferManager} {ptr : PagePtr}
    (ha : bm.allocPage = .ok (bm', ptr)) : StepShape bm bm' := by
  unfold allocPage at ha
  cases he : bm.ensureFreePages with
  | error e => rw [he] at ha; simp at ha
  | ok bm1 =>
    rw [he] at ha
    obtain ⟨ef, r1, rfl⟩ := ensureFreePages_eq bm bm1 he
    simp only at ha
    split at ha
    · simp only [Except.ok.injEq, Prod.mk.injEq] at ha
      obtain ⟨e1, _⟩ := ha
      subst e1
      exact StepShape.same rfl rfl rfl rfl rfl
    · cases hg : bm.freeList.getLast? with
      | none => rw [hg] at ha; simp at ha
      | some bid =>
        rw [hg] at ha
        simp only at ha
        cases hi : bm.page_table.insert bm.allocCount
            ((((BufTagged.ofBid bid).set_dirty true).set_in_use true).set_marked true) with
        | error e => rw [hi] at ha; simp at ha
        | ok r =>
          obtain ⟨pt, b⟩ := r
          rw [hi] at ha
          simp only at ha
          cases b with
          | false => simp at ha
          | true =>
            simp only [Bool.not_true, Bool.false_eq_true, if_false] at ha
            split at ha
            · simp at ha
            · simp only [Except.ok.injEq, Prod.mk.injEq] at ha
              obtain ⟨e1, _⟩ := ha
              subst e1
              exact StepShape.pop bid bm.allocCount _ pt hg hi rfl
                (framePid_update bm bid bm.allocCount []) rfl rfl rfl

theorem handleFault_begin_shape {bm bm' : BufferManager} {self pid : Nat} {s : Suspended}
    (ha : bm.handleFault_begin self pid = .ok (bm', s)) : StepShape bm bm' := by
  unfold handleFault_begin at ha
  cases he : bm.ensureFreePages with
  | error e => rw [he] at ha; simp at ha
  | ok bm1 =>
    rw [he] at ha
    obtain ⟨ef, r1, rfl⟩ := ensureFreePages_eq bm bm1 he
    simp only at ha
    split at ha
    · simp only [Except.ok.injEq, Prod.mk.injEq] at ha
      obtain ⟨e1, _⟩ := ha
      subst e1
      exact StepShape.same rfl rfl rfl rfl rfl
    · cases hg : bm.freeList.getLast? with
      | none => rw [hg] at ha; simp at ha
      | some bid =>
        rw [hg] at ha
        simp only at ha
        cases hi : bm.page_table.insert pid
            (((BufTagged.ofBid bid).set_io_lock true).set_marked true) with
        | error e => rw [hi] at ha; simp at ha
        | ok r =>
          obtain ⟨pt, b⟩ := r
          rw [hi] at ha
          simp only at ha
          cases b with
          | false => simp at ha
          | true =>
            simp only [Bool.not_true, Bool.false_eq_true, if_false, Except.ok.injEq,
              Prod.mk.injEq] at ha
            obtain ⟨e1, _⟩ := ha
            subst e1
            exact StepShape.pop bid pid _ pt hg hi rfl (framePid_update bm bid pid [self])
              rfl rfl rfl

theorem fix_shape {bm bm' : BufferManager} {exclusive : Bool} {pid : Nat} {ptr : PagePtr}
    (hinv : Inv bm.page_table) (ha : fix exclusive bm pid = .ok (bm', ptr)) :
    StepShape bm bm' := by
  unfold fix at ha
  simp only at ha
  cases hf : bm.page_table.find pid with
  | none =>
    simp only [hf, Except.ok.injEq, Prod.mk.injEq] at ha
    obtain ⟨e1, _⟩ := ha
    subst e1
    exact StepShape.same rfl rfl rfl rfl rfl
  | some i =>
    obtain ⟨hi, hc, hk, hhas⟩ := has_of_find hinv pid i hf
    simp only [hf] at ha
    split at ha
    · simp only [Except.ok.injEq, Prod.mk.injEq] at ha
      obtain ⟨e1, _⟩ := ha
      subst e1
      exact StepShape.same rfl rfl rfl rfl rfl
    · split at ha
      · simp at ha
      · split at ha
        · simp at ha
        · simp only [Except.ok.injEq, Prod.mk.injEq] at ha
          obtain ⟨e1, _⟩ := ha
          subst e1
          refine StepShape.flags i _ hi hc ?_ ?_ ?_ rfl rfl rfl rfl rfl
          · cases exclusive <;> simp
          · cases exclusive <;> simp
          · intro h0
            cases exclusive <;> simpa using h0

theorem unfix_shape {bm bm' : BufferManager} {exclusive : Bool} {pid : Nat}
    (hinv : Inv bm.page_table) (ha : unfix exclusive bm pid = .ok bm') : StepShape bm bm' := by
  unfold unfix at ha
  cases hf : bm.page_table.find pid with
  | none => simp [hf] at ha
  | some i =>
    obtain ⟨hi, hc, hk, hhas⟩ := has_of_find hinv pid i hf
    simp only [hf] at ha
    split at ha
    · simp at ha
    · cases exclusive with
      | false =>
        simp only [Bool.false_eq_true, false_and, if_false, Except.ok.injEq] at ha
        subst ha
        refine StepShape.flags i _ hi hc ?_ ?_ ?_ rfl rfl rfl rfl rfl
        · simp
        · simp
        · intro h0; simpa using h0
      | true =>
        simp only [if_true, true_and] at ha
        split at ha
        · simp at ha
        · simp only [Except.ok.injEq] at ha
          subst ha
          refine StepShape.flags i _ hi hc ?_ ?_ ?_ rfl rfl rfl rfl rfl
          · simp
          · simp
          · intro h0; simpa using h0

theorem handleFault_end_shape {bm bm' : BufferManager} {self pid bid : Nat} {rc : Int}
    {nvme_cmds : Bool} (hinv : Inv bm.page_table)
    (ha : bm.handleFault_end self pid bid rc nvme_cmds = .ok bm') : StepShape bm bm' := by
  unfold handleFault_end at ha
  split at ha
  · simp at ha
  · cases hw : (bm.buffer_frames bid).waiting with
    | nil => simp [hw] at ha
    | cons w ws =>
      simp only [hw] at ha
      split at ha
      · simp at ha
      · cases hwk : wakeAll bm.r ws with
        | error e => simp [hwk] at ha
        | ok r1 =>
          simp only [hwk] at ha
          cases hf : bm.page_table.find pid with
          | none => simp [hf] at ha
          | some i =>
            obtain ⟨hi, hc, hk, hhas⟩ := has_of_find hinv pid i hf
            simp only [hf, Except.ok.injEq] at ha
            subst ha
            refine StepShape.flags i _ hi hc ?_ ?_ ?_ rfl (framePid_waiting bm bid []) rfl rfl
              rfl
            · simp
            · simp
            · intro _; simp

theorem handleWait_shape {bm bm' : BufferManager} {self bid : Nat}
    (ha : bm.handleWait self bid = .ok bm') : StepShape bm bm' := by
  unfold handleWait at ha
  cases hw : (bm.buffer_frames bid).waiting with
  | nil => simp [hw] at ha
  | cons w ws =>
    simp only [hw] at ha
    cases hf : bm.page_table.find (bm.buffer_frames bid).pid with
    | none => simp [hf] at ha
    | some i =>
      simp only [hf] at ha
      split at ha
      · simp at ha
      · simp only [Except.ok.injEq] at ha
        subst ha
        exact StepShape.same rfl (framePid_waiting bm bid _) rfl rfl rfl

/-- A step of one of the three shapes keeps the batches flagged. -/
theorem Armed.preserved {p : Bool} {bm bm' : BufferManager} (hc : Consistent p bm)
    (h : Armed p bm) (hs : StepShape bm bm') : Armed p bm' := by
  intro hp
  have hfl := h hp
  have hbatch := hc.2 hp
  unfold Flagged at hfl ⊢
  cases hs with
  | same e1 e2 e3 e4 e5 =>
    rw [e1, e2, e4, e5]
    exact hfl
  | flags i v hi hci hid hev hio e1 e2 e3 e4 e5 =>
    rw [e1, e2, e4, e5]
    intro b hb d hd
    rcases (has_setVal hc.1.inv i v hi hci _ _).1 hd with ⟨hk, hv⟩ | ⟨_, hd'⟩
    · have hold : Has bm.page_table (bm.framePid b) (bm.page_table.entries i).val := by
        rw [hk]; exact ⟨i, hi, hci, rfl, rfl⟩
      obtain ⟨f1, f2⟩ := hfl b hb _ hold
      rw [hv, hev]
      exact ⟨f1, hio f2⟩
    · exact hfl b hb d hd'
  | pop bid pid v pt hg hi e1 e2 e3 e4 e5 =>
    rw [e1, e2, e4, e5]
    obtain ⟨_, _, _, hh, hbb, _⟩ := insert_spec hc.1.inv pid v pt true hi
    have habs : ∀ v', ¬ Has bm.page_table pid v' := hbb.1 rfl
    have hmem : bid ∈ bm.freeList := by rw [mem_of_getLast? hg]; simp
    intro b hb d hd
    obtain ⟨d0, hd0, hdb⟩ := hbatch.ref b hb
    have hne : b ≠ bid := by
      intro hcon
      exact hc.1.free_unref bid hmem _ _ hd0 (hdb.trans hcon)
    rw [Function.update_noteq hne] at hd
    rcases (hh _ _).1 hd with ⟨hk, _⟩ | ⟨_, hd'⟩
    · rw [hk] at hd0
      exact absurd hd0 (habs d0)
    · exact hfl b hb d hd'

/-- After the sweep of a round the batches are flagged. -/
theorem evict_begin_armed {bm bm' : BufferManager} (h : Consistent false bm)
    (he : bm.evict_begin = .ok bm') : Armed true bm' := by
  intro _
  have hc' := evict_begin_consistent h he
  obtain ⟨calls, c1, c2, c3, c4, c5, c6, _, _⟩ := evict_begin_calls h he
  intro b hb d hd
  have hocc : ∀ i, i ∈ calls → i < bm.page_table.n ∧ bm.page_table.ctrl i ≠ 0 :=
    fun i hi => (mem_occupied bm.page_table h.1.hand i).1 (c1.subset hi)
  have hsel : ∃ i, i ∈ calls ∧ (bm.page_table.entries i).val.candidate = true ∧
      (bm.page_table.entries i).val.id = b := by
    rw [List.mem_append, c5, c6, mem_dirtyVictims, mem_cleanVictims] at hb
    rcases hb with ⟨i, h1, h2, _, h4⟩ | ⟨i, h1, h2, _, h4⟩
    · exact ⟨i, h1, h2, h4⟩
    · exact ⟨i, h1, h2, h4⟩
  obtain ⟨i, hi, hcand, hid⟩ := hsel
  obtain ⟨hi1, hi2⟩ := hocc i hi
  obtain ⟨_, g1, g2, _, _, g5, _⟩ := swept_of_candidate _ hcand
  have hnew : Has bm'.page_table (bm.page_table.entries i).key
      (bm.page_table.entries i).val.swept := by
    refine ⟨i, by rw [c3]; exact hi1, by rw [c2]; exact hi2, ?_, ?_⟩
    · rw [c4 i, if_pos hi]
    · rw [c4 i, if_pos hi]
  have hback := hc'.1.back _ _ hnew
  rw [g1, hid] at hback
  rw [hback] at hd
  have := has_unique hc'.1.inv _ _ _ hd hnew
  rw [this]
  exact ⟨g2, g5⟩

/-- In every reachable state with an eviction round under way, the descriptors of the
batches are evicting and not io-locked. -/
theorem reach_armed : ∀ (p : Bool) (bm : BufferManager), Reach p bm → Armed p bm := by
  intro p bm h
  induction h with
  | init cfg pc sz bm h1 h2 h3 => intro hp; simp at hp
  | allocPage p bm bm' ptr hr ha ih =>
    exact ih.preserved (reach_consistent p bm hr) (allocPage_shape ha)
  | fix p ex bm bm' pid ptr hr ha ih =>
    exact ih.preserved (reach_consistent p bm hr) (fix_shape (reach_consistent p bm hr).1.inv ha)
  | unfix p ex bm bm' pid hr ha ih =>
    exact ih.preserved (reach_consistent p bm hr) (unfix_shape (reach_consistent p bm hr).1.inv ha)
  | handleFault_begin p bm bm' self pid s hr ha ih =>
    exact ih.preserved (reach_consistent p bm hr) (handleFault_begin_shape ha)
  | handleFault_end p bm bm' self pid bid rc nv hr ha ih =>
    exact ih.preserved (reach_consistent p bm hr)
      (handleFault_end_shape (reach_consistent p bm hr).1.inv ha)
  | handleWait p bm bm' self bid hr ha ih =>
    exact ih.preserved (reach_consistent p bm hr) (handleWait_shape ha)
  | evict_begin bm bm' hr ha ih => exact evict_begin_armed (reach_consistent false bm hr) ha
  | evict_end bm bm' rc nv hr ha ih => intro hp; simp at hp
  | sched p bm r ef hr ih => exact ih

end BufferManager
/-! ## Theorems: the commit step of an eviction round -/

namespace BufferManager

open RHBSU64Map BufTagged

/-- `evictNow(bid)` on the head of a flagged batch: it returns, clears evicting, and evicts
exactly when the descriptor is neither in_use nor dirty. -/
theorem evictNow_spec {bm : BufferManager} {bid : Nat} {l : List Nat}
    (h : Core bm.page_table bm.framePid bm.freeList)
    (hb : Batch bm.page_table bm.framePid (bid :: l))
    (hf : Flagged bm.page_table bm.framePid (bid :: l)) :
    ∃ d bm1, bm.page_table.lookup (bm.buffer_frames bid).pid = some d ∧ d.id = bid ∧
      d.evicting = true ∧ bm.evictable bid = (!d.in_use && !d.dirty) ∧
      bm.evictNow bid = .ok (bm1, bm.evictable bid) ∧
      bm1 = { bm with page_table := bm1.page_table, freeList := bm1.freeList } ∧
      bm1.freeList = (if bm.evictable bid then bm.freeList ++ [bid] else bm.freeList) ∧
      bm1.page_table.lookup (bm.buffer_frames bid).pid
        = (if bm.evictable bid then none else some (d.set_evicting false)) ∧
      (∀ pid, pid ≠ (bm.buffer_frames bid).pid →
        bm1.page_table.lookup pid = bm.page_table.lookup pid) ∧
      Core bm1.page_table bm1.framePid bm1.freeList ∧
      Batch bm1.page_table bm1.framePid l ∧ Flagged bm1.page_table bm1.framePid l := by
  obtain ⟨d, hd, hdb⟩ := hb.ref bid (List.mem_cons_self _ _)
  obtain ⟨hev, hio⟩ := hf bid (List.mem_cons_self _ _) d hd
  have hl : bm.page_table.lookup (bm.buffer_frames bid).pid = some d :=
    (lookup_eq_some_iff h.inv _ d).2 hd
  obtain ⟨i, hfind, hv⟩ := lookup_find _ _ _ hl
  have hevb : bm.evictable bid = (!d.in_use && !d.dirty) := by
    unfold evictable
    rw [hl]
  have hinv1 : Inv (bm.page_table.setVal i (d.set_evicting false)) := inv_setVal h.inv i _
  have hl1 : (bm.page_table.setVal i (d.set_evicting false)).lookup (bm.buffer_frames bid).pid
      = some (d.set_evicting false) := by
    rw [lookup_setVal _ _ i _ hfind]; simp
  have hl1' : ∀ pid, pid ≠ (bm.buffer_frames bid).pid →
      (bm.page_table.setVal i (d.set_evicting false)).lookup pid = bm.page_table.lookup pid := by
    intro pid hp
    rw [lookup_setVal _ _ i _ hfind, if_neg hp]
  obtain ⟨e1, e2, e3⟩ := erase_lookup hinv1 _ _ hl1
  -- the outcome of `evictNow`
  have hout : ∃ bm1, bm.evictNow bid = .ok (bm1, bm.evictable bid) ∧
      bm1 = { bm with page_table := bm1.page_table, freeList := bm1.freeList } ∧
      bm1.freeList = (if bm.evictable bid then bm.freeList ++ [bid] else bm.freeList) ∧
      bm1.page_table.lookup (bm.buffer_frames bid).pid
        = (if bm.evictable bid then none else some (d.set_evicting false)) ∧
      (∀ pid, pid ≠ (bm.buffer_frames bid).pid →
        bm1.page_table.lookup pid = bm.page_table.lookup pid) := by
    rw [hevb]
    unfold evictNow
    simp only [hfind, hv, hev, Bool.not_true, Bool.false_eq_true, if_false,
      in_use_set_evicting, dirty_set_evicting, io_lock_set_evicting, hio]
    cases hu : d.in_use with
    | true =>
      simp only [if_true, Bool.not_true, Bool.false_and, Bool.false_eq_true, if_false]
      exact ⟨_, rfl, rfl, rfl, hl1, hl1'⟩
    | false =>
      cases hdd : d.dirty with
      | true =>
        simp only [if_true, Bool.not_true, Bool.and_false, Bool.false_eq_true, if_false]
        exact ⟨_, rfl, rfl, rfl, hl1, hl1'⟩
      | false =>
        simp only [Bool.false_eq_true, if_false, Bool.not_false, Bool.and_self, if_true, e1]
        refine ⟨_, rfl, rfl, rfl, e2, ?_⟩
        intro pid hp
        show ((bm.page_table.setVal i (d.set_evicting false)).erase _).1.lookup pid = _
        rw [e3 pid hp, hl1' pid hp]
  obtain ⟨bm1, o1, o2, o3, o4, o5⟩ := hout
  obtain ⟨hcore1, hbatch1⟩ := evictNow_core h hb o1
  have hfr : bm1.framePid = bm.framePid := by rw [o2]; rfl
  refine ⟨d, bm1, hl, hdb, hev, hevb, o1, o2, o3, o4, o5, hcore1, hbatch1, ?_⟩
  intro b hbl d' hd'
  obtain ⟨d0, hd0, hd0b⟩ := hb.ref b (List.mem_cons_of_mem _ hbl)
  have hnot : bid ∉ l := (List.nodup_cons.1 hb.nodup).1
  have hne : bm.framePid b ≠ (bm.buffer_frames bid).pid := by
    intro hcon
    have hcon' : bm.framePid b = bm.framePid bid := hcon
    rw [hcon'] at hd0
    have := has_unique h.inv _ _ _ hd0 hd
    apply hnot
    rw [← hdb, ← this, hd0b]
    exact hbl
  rw [hfr] at hd'
  have hl' := (lookup_eq_some_iff hcore1.inv _ d').2 hd'
  rw [o5 _ hne] at hl'
  exact hf b (List.mem_cons_of_mem _ hbl) d' ((lookup_eq_some_iff h.inv _ d').1 hl')

/-- The loops over the batches: every `evictNow` returns; the frames of the evictable
descriptors are pushed onto the free list in batch order and counted, their PIDs erased;
the other descriptors of the batch lose evicting only; entries outside the batch do not
change. -/
theorem evictAll_spec : ∀ (l : List Nat) (bm : BufferManager) (c : Nat),
    Core bm.page_table bm.framePid bm.freeList → Batch bm.page_table bm.framePid l →
    Flagged bm.page_table bm.framePid l →
    ∃ bm', evictAll bm l c = .ok (bm', c + (l.filter bm.evictable).length) ∧
      bm' = { bm with page_table := bm'.page_table, freeList := bm'.freeList } ∧
      bm'.freeList = bm.freeList ++ l.filter bm.evictable ∧
      (∀ b, b ∈ l → ∃ d, bm.page_table.lookup (bm.buffer_frames b).pid = some d ∧ d.id = b ∧
        d.evicting = true ∧ bm.evictable b = (!d.in_use && !d.dirty) ∧
        bm'.page_table.lookup (bm.buffer_frames b).pid
          = (if bm.evictable b then none else some (d.set_evicting false))) ∧
      (∀ pid, (∀ b, b ∈ l → (bm.buffer_frames b).pid ≠ pid) →
        bm'.page_table.lookup pid = bm.page_table.lookup pid) := by
  intro l
  induction l with
  | nil =>
    intro bm c h hb hf
    exact ⟨bm, by simp [evictAll], rfl, by simp, fun b hb => by simp at hb, fun _ _ => rfl⟩
  | cons bid l ih =>
    intro bm c h hb hf
    obtain ⟨d, bm1, s1, s2, s3, s4, s5, s6, s7, s8, s9, s10, s11, s12⟩ := evictNow_spec h hb hf
    have hfr : bm1.buffer_frames = bm.buffer_frames := by rw [s6]
    have hnot : bid ∉ l := (List.nodup_cons.1 hb.nodup).1
    have hne : ∀ b, b ∈ l → (bm.buffer_frames b).pid ≠ (bm.buffer_frames bid).pid := by
      intro b hbl hcon
      obtain ⟨d0, hd0, hd0b⟩ := hb.ref b (List.mem_cons_of_mem _ hbl)
      have hd := (lookup_eq_some_iff h.inv _ d).1 s1
      have hcon' : bm.framePid b = bm.framePid bid := hcon
      rw [hcon'] at hd0
      have := has_unique h.inv _ _ _ hd0 hd
      apply hnot
      rw [← s2, ← this, hd0b]
      exact hbl
    have hev : ∀ b, b ∈ l → bm1.evictable b = bm.evictable b := by
      intro b hbl
      unfold evictable
      rw [hfr, s9 _ (hne b hbl)]
    have hfilter : l.filter bm1.evictable = l.filter bm.evictable :=
      List.filter_congr hev
    obtain ⟨bm', t1, t2, t3, t4, t5⟩ :=
      ih bm1 (if bm.evictable bid then c + 1 else c) s10 s11 s12
    refine ⟨bm', ?_, ?_, ?_, ?_, ?_⟩
    · unfold evictAll
      rw [s5]
      simp only []
      rw [t1, hfilter]
      cases hE : bm.evictable bid with
      | true =>
        simp only [if_true, List.filter_cons, hE, List.length_cons]
        congr 2
        omega
      | false =>
        simp only [Bool.false_eq_true, if_false, List.filter_cons, hE]
    · rw [t2, s6]
    · rw [t3, s7, hfilter]
      cases hE : bm.evictable bid with
      | true => simp [List.filter_cons, hE]
      | false => simp [List.filter_cons, hE]
    · intro b hbm
      rcases List.mem_cons.1 hbm with hbe | hbl
      · subst hbe
        refine ⟨d, s1, s2, s3, s4, ?_⟩
        rw [t5 _ (fun b' hb' => by rw [hfr]; exact hne b' hb')]
        exact s8
      · obtain ⟨d', u1, u2, u3, u4, u5⟩ := t4 b hbl
        rw [hfr, s9 _ (hne b hbl)] at u1
        rw [hfr] at u5
        rw [hev b hbl] at u4 u5
        exact ⟨d', u1, u2, u3, u4, u5⟩
    · intro pid hp
      have h1 := t5 pid (fun b hbl => by rw [hfr]; exact hp b (List.mem_cons_of_mem _ hbl))
      rw [h1]
      exact s9 pid (fun hcon => hp bid (List.mem_cons_self _ _) hcon.symm)

end BufferManager
/-! ## Theorems: the commit step in a reachable state -/

namespace BufferManager

open RHBSU64Map BufTagged

/-- C24 (amended). Commit step of an eviction round that is under way in a reachable state,
once the writes have completed (no write was issued, or `nvme_cmds`, or `rc == pageSize`):
`evict` returns, and for every BID in `toEvict` and `toWrite` the descriptor `d` of the
frame's PID is evicting beforehand and has evicting cleared in any case. If `d` is in_use,
or dirty again, that is all: the entry stays with its other flags and the BID is not on the
free list. Otherwise the PID is erased from the page table and the BID is on the free list
exactly once. Entries of no batch frame do not change; the free list grows by the evicted
BIDs in batch order; the used-frame counter decreases by their number, the write counter
grows by `|toWrite|`, and nothing else changes. -/
theorem evict_commit (bm : BufferManager) (rc : Int) (nvme_cmds : Bool) (hr : Reach true bm)
    (hio : bm.toWrite = [] ∨ nvme_cmds = true ∨ rc = pageSize) :
    ∃ bm', bm.evict_end rc nvme_cmds = .ok bm' ∧
      (∀ bid, bid ∈ bm.toEvict ++ bm.toWrite →
        ∃ d, bm.page_table.lookup (bm.buffer_frames bid).pid = some d ∧ d.id = bid ∧
          d.evicting = true ∧
          (d.in_use = true ∨ d.dirty = true →
            bm'.page_table.lookup (bm.buffer_frames bid).pid = some (d.set_evicting false) ∧
              bid ∉ bm'.freeList) ∧
          (d.in_use = false → d.dirty = false →
            bm'.page_table.lookup (bm.buffer_frames bid).pid = none ∧ bid ∉ bm.freeList ∧
              bm'.freeList.count bid = 1)) ∧
      (∀ pid, (∀ bid, bid ∈ bm.toEvict ++ bm.toWrite → (bm.buffer_frames bid).pid ≠ pid) →
        bm'.page_table.lookup pid = bm.page_table.lookup pid) ∧
      bm'.freeList = bm.freeList ++ (bm.toEvict ++ bm.toWrite).filter bm.evictable ∧
      bm'.physUsedCount
        = (bm.physUsedCount + 2 ^ 64
            - ((bm.toEvict ++ bm.toWrite).filter bm.evictable).length % 2 ^ 64) % 2 ^ 64 ∧
      bm'.writeCount = (bm.writeCount + bm.toWrite.length) % 2 ^ 64 ∧
      bm' = { bm with page_table := bm'.page_table, freeList := bm'.freeList,
                      physUsedCount := bm'.physUsedCount, writeCount := bm'.writeCount } := by
  have hc := reach_consistent true bm hr
  have harm := reach_armed true bm hr rfl
  have hbatch := hc.2 rfl
  obtain ⟨bm2, t1, t2, t3, t4, t5⟩ :=
    evictAll_spec (bm.toEvict ++ bm.toWrite)
      { bm with writeCount := (bm.writeCount + bm.toWrite.length) % 2 ^ 64 } 0
      (by exact hc.1) (by exact hbatch) (by exact harm)
  have hev : BufferManager.evictable
      { bm with writeCount := (bm.writeCount + bm.toWrite.length) % 2 ^ 64 }
      = bm.evictable := rfl
  rw [hev] at t1 t3 t4
  rw [Nat.zero_add] at t1
  have hend : bm.evict_end rc nvme_cmds
      = .ok { bm2 with physUsedCount := (bm2.physUsedCount + 2 ^ 64
          - ((bm.toEvict ++ bm.toWrite).filter bm.evictable).length % 2 ^ 64) % 2 ^ 64 } := by
    unfold evict_end
    have hno : ¬ (bm.toWrite.length > 0 ∧ (!nvme_cmds) = true ∧ rc ≠ pageSize) := by
      rintro ⟨h1, h2, h3⟩
      rcases hio with h | h | h
      · rw [h] at h1; simp at h1
      · rw [h] at h2; simp at h2
      · exact h3 h
    rw [if_neg hno]
    simp only []
    rw [t1]
  have hreach' : Reach false { bm2 with physUsedCount := (bm2.physUsedCount + 2 ^ 64
      - ((bm.toEvict ++ bm.toWrite).filter bm.evictable).length % 2 ^ 64) % 2 ^ 64 } :=
    Reach.evict_end bm _ rc nvme_cmds hr hend
  have hnd : (bm.freeList ++ (bm.toEvict ++ bm.toWrite).filter bm.evictable).Nodup := by
    have := (reach_consistent false _ hreach').1.free_nodup
    rw [← t3]
    exact this
  refine ⟨_, hend, ?_, t5, t3, ?_, ?_, ?_⟩
  · intro bid hbid
    obtain ⟨d, u1, u2, u3, u4, u5⟩ := t4 bid hbid
    have hd : Has bm.page_table (bm.buffer_frames bid).pid d :=
      (lookup_eq_some_iff hc.1.inv _ d).1 u1
    have hnfl : bid ∉ bm.freeList := fun hm => hc.1.free_unref bid hm _ _ hd u2
    refine ⟨d, u1, u2, u3, ?_, ?_⟩
    · intro hor
      have hE : bm.evictable bid = false := by
        rw [u4]
        rcases hor with h | h <;> simp [h]
      rw [hE] at u5
      refine ⟨u5, ?_⟩
      show bid ∉ bm2.freeList
      rw [t3, List.mem_append, List.mem_filter]
      rintro (hm | ⟨_, hm⟩)
      · exact hnfl hm
      · rw [hE] at hm; simp at hm
    · intro h1 h2
      have hE : bm.evictable bid = true := by rw [u4]; simp [h1, h2]
      rw [hE] at u5
      refine ⟨u5, hnfl, ?_⟩
      show bm2.freeList.count bid = 1
      rw [t3]
      exact List.count_eq_one_of_mem hnd
        (List.mem_append_right _ (List.mem_filter.2 ⟨hbid, hE⟩))
  · show (bm2.physUsedCount + 2 ^ 64 - _ % 2 ^ 64) % 2 ^ 64 = _
    rw [t2]
  · show bm2.writeCount = _
    rw [t2]
  · rw [t2]

/-- Instance of `evict_commit` in the state `scSwept`, where the round has queued frame 1
(PID 1, evicting, neither in_use nor dirty) for write-back: the commit erases PID 1 and
pushes frame 1 onto the free list. -/
theorem evict_commit_witness :
    ∃ bm', scSwept.evict_end 4096 false = .ok bm' ∧
      bm'.freeList = [3, 2, 1] ∧ bm'.physUsedCount = 1 ∧
      ∃ d, scSwept.page_table.lookup (scSwept.buffer_frames 1).pid = some d ∧ d.id = 1 ∧
        d.evicting = true ∧
        (d.in_use = false → d.dirty = false →
          bm'.page_table.lookup (scSwept.buffer_frames 1).pid = none ∧ 1 ∉ scSwept.freeList ∧
            bm'.freeList.count 1 = 1) :=
  match evict_commit scSwept 4096 false reach_scSwept (Or.inr (Or.inr rfl)) with
  | ⟨bm', h1, h2, _, h4, h5, _⟩ =>
    ⟨bm', h1, h4.trans (by decide), h5.trans (by decide),
      match h2 1 (by decide) with
      | ⟨d, g1, g2, g3, _, g5⟩ => ⟨d, g1, g2, g3, g5⟩⟩

/-- C24, counterexample. In the state `scRefixed` the round has queued frame 1 for
write-back and a fiber has fixed PID 1 since: its descriptor is in_use and evicting. The
commit (`evict` after the write completed) leaves the entry and the free list in place but
clears evicting, so the descriptor does not stay as it was. The same holds in `scRedirtied`,
where PID 1 is not in_use but dirty again. -/
theorem evict_commit_counterexample :
    scRefixed.toEvict ++ scRefixed.toWrite = [1] ∧
    scRefixed.descriptor 1 = some (1, true, false, true, false, true) ∧
    scRefixed.evict_end 4096 false = .ok scKept ∧
    scKept.descriptor 1 = some (1, true, false, false, false, true) ∧
    scKept.descriptor 1 ≠ scRefixed.descriptor 1 ∧ scKept.freeList = scRefixed.freeList ∧
    scRedirtied.descriptor 1 = some (1, false, true, true, false, true) ∧
    scRedirtied.evict_end 4096 false = .ok scKeptDirty ∧
    scKeptDirty.descriptor 1 = some (1, false, true, false, false, true) :=
  ⟨by decide, by decide, rfl, by decide, by decide, by decide, by decide, rfl, by decide⟩

end BufferManager
/-! ## Theorems: the checks of an eviction round in a reachable state -/

namespace BufferManager

open RHBSU64Map BufTagged

/-- On a table that satisfies the invariant the sweep callback passes its back-pointer
check: it can only fail in `ensure(pid != 0)`. -/
theorem evictCallback_error {pt : PageTable} {fl : List Nat} (frames : Nat → BufferFrame)
    (eb : Nat) (s : SweepState) (i : Nat) (e : Fatal)
    (h : Core pt (fun b => (frames b).pid) fl) (hi : i < pt.n) (hc : pt.ctrl i ≠ 0)
    (hcb : evictCallback frames eb s (pt.entries i).key (pt.entries i).val = .error e) :
    e = .evict_metadata ∧ (pt.entries i).key = 0 ∧ (pt.entries i).val.candidate = true := by
  have hback : (frames (pt.entries i).val.id).pid = (pt.entries i).key :=
    h.back _ _ ⟨i, hi, hc, rfl, rfl⟩
  unfold evictCallback at hcb
  simp only [hback, ne_eq, not_true_eq_false, if_false] at hcb
  by_cases h1 : (pt.entries i).val.in_use = true
  · rw [if_pos h1] at hcb; exact absurd hcb (by simp)
  rw [if_neg h1] at hcb
  by_cases h2 : (pt.entries i).val.io_lock = true
  · rw [if_pos h2] at hcb; exact absurd hcb (by simp)
  rw [if_neg h2] at hcb
  by_cases h3 : (pt.entries i).val.evicting = true
  · rw [if_pos h3] at hcb; exact absurd hcb (by simp)
  rw [if_neg h3] at hcb
  by_cases h4 : (pt.entries i).val.marked = true
  · rw [if_pos h4] at hcb; exact absurd hcb (by simp)
  rw [if_neg h4] at hcb
  by_cases hp : (pt.entries i).key = 0
  · rw [if_pos hp] at hcb
    simp only [Except.error.injEq] at hcb
    refine ⟨hcb.symm, hp, ?_⟩
    rw [candidate_iff]
    exact ⟨by simpa using h1, by simpa using h2, by simpa using h3, by simpa using h4⟩
  · rw [if_neg hp] at hcb
    split at hcb <;> exact absurd hcb (by simp)

theorem sweepLoop_error {fl : List Nat} (frames : Nat → BufferFrame) (eb : Nat) :
    ∀ (fuel : Nat) (t : PageTable) (s : SweepState) (calls : List Nat) (e : Fatal),
      Core t (fun b => (frames b).pid) fl →
      SweepBatch t (fun b => (frames b).pid) (s.toEvict ++ s.toWrite) →
      sweepLoop (evictCallback frames eb) fuel t s calls = .error e → e = .evict_metadata := by
  intro fuel
  induction fuel with
  | zero =>
    intro t s calls e h hb hs
    simp [sweepLoop] at hs
  | succ f ih =>
    intro t s calls e h hb hs
    have hx : (t.sweep_ + 1) &&& t.mask < t.n := by
      rw [h.inv.wf.and_mask]
      exact Nat.mod_lt _ h.inv.wf.pos
    have h1 := h.keep_hand _ hx
    have hb1 := hb.sweep_hand ((t.sweep_ + 1) &&& t.mask)
    unfold sweepLoop at hs
    simp only at hs
    split at hs
    · rename_i hc
      cases hcb : evictCallback frames eb s (t.entries t.sweep_).key
          (t.entries t.sweep_).val with
      | error e1 =>
        simp only [hcb, Except.error.injEq] at hs
        rw [← hs]
        exact (evictCallback_error frames eb s t.sweep_ e1 h h.hand hc hcb).1
      | ok res =>
        obtain ⟨s1, v1, r1⟩ := res
        simp only [hcb] at hs
        obtain ⟨h2, hb2⟩ := evictCallback_core frames eb s s1 v1 r1 t.sweep_ h1 hb1 h.hand hc hcb
        split at hs
        · simp at hs
        · exact ih _ _ _ _ h2 hb2 hs
    · exact ih _ _ _ _ h1 hb1 hs

/-- In a reachable state the sweep of an eviction round passes the back-pointer check
`ensure(frame.pid == pid)` at every entry it visits: if the sweep fails, it fails in
`ensure(pid != 0)`. -/
theorem evict_begin_error (bm : BufferManager) (hr : Reach false bm) (e : Fatal)
    (he : bm.evict_begin = .error e) : e = .evict_metadata := by
  have h := reach_consistent false bm hr
  unfold evict_begin at he
  cases hs : bm.page_table.clock_sweep_next
      (evictCallback bm.buffer_frames bm.cfg.evict_batch) ⟨[], [], 0⟩ with
  | ok res =>
    obtain ⟨pt, s, r, calls⟩ := res
    simp [hs] at he
  | error e1 =>
    simp only [hs, Except.error.injEq] at he
    rw [← he]
    unfold clock_sweep_next at hs
    split at hs
    · simp at hs
    · have h0 : SweepBatch bm.page_table bm.framePid
          ((⟨[], [], 0⟩ : SweepState).toEvict ++ (⟨[], [], 0⟩ : SweepState).toWrite) :=
        ⟨List.nodup_nil, fun b hb => by simp at hb⟩
      exact sweepLoop_error bm.buffer_frames _ _ _ _ _ _ h.1 h0 hs

/-- The state `mdRound` is reached from `init` with two frames: `allocPage`, `unfixX(1)`, a
second `allocPage` that finds no free frame, and one eviction round. -/
theorem reach_mdRound : Reach false mdRound :=
  Reach.evict_end mdSwept mdRound 0 false
    (Reach.evict_begin mdStarved mdSwept
      (Reach.allocPage false mdUnfixed mdStarved none
        (Reach.unfix false true bmInit2Alloc mdUnfixed 1
          (Reach.allocPage false bmInit2 bmInit2Alloc (some 1)
            (Reach.init ⟨64, 1, 10⟩ 2 4 bmInit2 (by norm_num) (by norm_num) rfl) rfl)
          rfl)
        rfl)
      rfl)
    rfl

/-- C30, failing input. `init` with two frames (`evict_batch = 64`, `free_target = 0.1`),
`allocPage()` (PID 1 into frame 1, the last free frame), `unfixX(1)`, and a second
`allocPage()`: it finds the free list empty, wakes the eviction fiber and returns null. The
first eviction round visits PID 0 and PID 1, both marked, clears the marks and selects
nothing; it issues no write, so the eviction fiber does not park, and with the free list
still empty it starts the next round. In that state, which is reachable, PID 0 is unmarked,
not in_use, not io_lock and not evicting, and the sweep of the second round fails in
`ensure(pid != 0)`. -/
theorem evict_metadata_reached :
    Reach false mdRound ∧
    (mdUnfixed.allocPage.map Prod.snd).toOption = some none ∧
    mdStarved.eviction_fiber.running = true ∧ mdStarved.freeList = [] ∧
    mdStarved.descriptor 0 = some (0, false, true, false, false, true) ∧
    mdStarved.evict_begin = .ok mdSwept ∧ mdSwept.toEvict ++ mdSwept.toWrite = [] ∧
    mdSwept.evict_end 0 false = .ok mdRound ∧ mdRound.freeList = [] ∧
    mdRound.descriptor 0 = some (0, false, true, false, false, false) ∧
    mdRound.evict_begin = .error .evict_metadata :=
  ⟨reach_mdRound, by decide, by decide, by decide, by decide, rfl, by decide, rfl, by decide,
    by decide, rfl⟩

end BufferManager
/-! ## Theorems: `lowerBound` against a plain binary search -/

namespace BTreeNode

theorem getKey_lt (n : BTreeNode) (hstrict : (n.slot.map Slot.key).Pairwise (· < ·))
    (i j : Nat) (hij : i < j) (hj : j < n.count) : n.getKey i < n.getKey j := by
  have hi : i < n.count := by omega
  have hs := List.pairwise_iff_getElem.mp hstrict i j (by simpa using hi) (by simpa using hj) hij
  simp only [List.getElem_map] at hs
  unfold getKey slotAt
  rw [List.getD_eq_getElem _ _ hi, List.getD_eq_getElem _ _ hj]
  exact hs

theorem plainSearchLoop_spec (n : BTreeNode) (h : SlotsOK n) (skey : List Nat) :
    ∀ (fuel lower upper : Nat) (r : Nat × Bool), lower ≤ upper → upper ≤ n.count →
      upper - lower < fuel →
      (∀ i, i < lower → n.getPrefix ++ n.getKey i < skey) →
      (∀ i, upper ≤ i → i < n.count → skey < n.getPrefix ++ n.getKey i) →
      n.plainSearchLoop skey fuel lower upper = r →
      (r.2 = true → r.1 < n.count ∧ n.getPrefix ++ n.getKey r.1 = skey) ∧
      (r.2 = false → r.1 ≤ n.count ∧ (∀ i, i < r.1 → n.getPrefix ++ n.getKey i < skey) ∧
        (∀ i, r.1 ≤ i → i < n.count → skey < n.getPrefix ++ n.getKey i)) := by
  intro fuel
  induction fuel with
  | zero => intro lower upper _ _ _ hf; omega
  | succ fuel ih =>
    intro lower upper r hlu huc hf hlo hup hr
    rw [plainSearchLoop] at hr
    by_cases hlt : lower < upper
    · rw [if_pos hlt] at hr
      simp only [] at hr
      have hmid1 : lower ≤ (upper - lower) / 2 + lower := by omega
      have hmid2 : (upper - lower) / 2 + lower < upper := by omega
      generalize (upper - lower) / 2 + lower = mid at hmid1 hmid2 hr
      have hm : mid < n.count := by omega
      by_cases c1 : skey < n.getPrefix ++ n.getKey mid
      · rw [if_pos c1] at hr
        exact ih lower mid r hmid1 (by omega) (by omega) hlo
          (fun i hi hc => lt_of_lt_of_le c1
            (append_le_append _ _ _ (n.getKey_le h mid i hi hc))) hr
      · rw [if_neg c1] at hr
        by_cases c2 : n.getPrefix ++ n.getKey mid < skey
        · rw [if_pos c2] at hr
          exact ih (mid + 1) upper r (by omega) huc (by omega)
            (fun i hi => lt_of_le_of_lt
              (append_le_append _ _ _ (n.getKey_le h i mid (by omega) hm)) c2) hup hr
        · rw [if_neg c2] at hr
          subst hr
          refine ⟨fun _ => ⟨hm, ?_⟩, fun hc => by simp at hc⟩
          exact le_antisymm (not_lt.1 c1) (not_lt.1 c2)
    · rw [if_neg hlt] at hr
      have : lower = upper := by omega
      subst this
      subst hr
      exact ⟨fun hc => by simp at hc, fun _ => ⟨huc, hlo, hup⟩⟩

/-- What both searches return on a page with strictly ascending keys is determined by the
keys: a result that splits the page at the search key, exact or not, is unique. -/
theorem search_unique (n : BTreeNode) (h : SlotsOK n)
    (hstrict : (n.slot.map Slot.key).Pairwise (· < ·)) (skey : List Nat) (r : Nat × Bool)
    (h1 : r.2 = true → r.1 < n.count ∧ n.getPrefix ++ n.getKey r.1 = skey)
    (h2 : r.2 = false → r.1 ≤ n.count ∧ (∀ i, i < r.1 → n.getPrefix ++ n.getKey i < skey) ∧
      (∀ i, r.1 ≤ i → i < n.count → skey < n.getPrefix ++ n.getKey i)) :
    r.1 ≤ n.count ∧ (∀ i, i < r.1 → n.getPrefix ++ n.getKey i < skey) ∧
      (∀ i, r.1 ≤ i → i < n.count → skey ≤ n.getPrefix ++ n.getKey i) ∧
      (r.2 = true ↔ r.1 < n.count ∧ n.getPrefix ++ n.getKey r.1 = skey) := by
  cases hf : r.2 with
  | true =>
    obtain ⟨q1, q2⟩ := h1 hf
    refine ⟨le_of_lt q1, ?_, ?_, ⟨fun _ => ⟨q1, q2⟩, fun _ => rfl⟩⟩
    · intro i hi
      rw [← q2]
      exact append_lt_append _ _ _ (n.getKey_lt hstrict i _ hi q1)
    · intro i hi1 hi2
      rw [← q2]
      exact append_le_append _ _ _ (n.getKey_le h _ i hi1 hi2)
  | false =>
    obtain ⟨q1, q2, q3⟩ := h2 hf
    refine ⟨q1, q2, fun i hi1 hi2 => le_of_lt (q3 i hi1 hi2), ?_⟩
    constructor
    · intro hc; simp at hc
    · rintro ⟨p1, p2⟩
      have := q3 r.1 (Nat.le_refl _) p1
      rw [p2] at this
      exact absurd this (lt_irrefl _)

/-- C25. For every page whose prefix is the common prefix of its fences, whose slots cache
the heads of the key bytes they store, whose keys are bytes in strictly ascending order and
whose hints (once there are more than `2 * hintCount` slots) are the heads `makeHint` and
`updateHint` sample, and for every search key of bytes: `lowerBound` returns the least slot
whose full key is at least the search key (`count` if there is none: every slot before the
one returned holds a smaller key, every slot from it on a key at least as large), it sets
`foundExactOut` exactly when that slot holds the search key, and slot and flag are those of
a plain byte-wise binary search over the full keys. -/
theorem lowerBound_contract (n : BTreeNode) (h : SlotsOK n)
    (hstrict : (n.slot.map Slot.key).Pairwise (· < ·)) (skey : List Nat) (hk : isBytes skey) :
    (n.lowerBound skey).1 ≤ n.count ∧
    (∀ i, i < (n.lowerBound skey).1 → n.getPrefix ++ n.getKey i < skey) ∧
    (∀ i, (n.lowerBound skey).1 ≤ i → i < n.count → skey ≤ n.getPrefix ++ n.getKey i) ∧
    ((n.lowerBound skey).2 = true ↔
      (n.lowerBound skey).1 < n.count ∧ n.getPrefix ++ n.getKey (n.lowerBound skey).1 = skey) ∧
    n.lowerBound skey = n.plainSearch skey := by
  obtain ⟨l1, l2⟩ := n.lowerBound_spec h skey hk _ rfl
  obtain ⟨p1, p2⟩ := n.plainSearchLoop_spec h skey (n.count + 1) 0 n.count _ (Nat.zero_le _)
    (Nat.le_refl _) (by omega) (fun i hi => by omega) (fun i h1 h2 => by omega) rfl
  obtain ⟨a1, a2, a3, a4⟩ := n.search_unique h hstrict skey _ l1 l2
  obtain ⟨b1, b2, b3, b4⟩ := n.search_unique h hstrict skey _ p1 p2
  refine ⟨a1, a2, a3, a4, ?_⟩
  show n.lowerBound skey = n.plainSearchLoop skey (n.count + 1) 0 n.count
  have hidx : (n.lowerBound skey).1 = (n.plainSearchLoop skey (n.count + 1) 0 n.count).1 := by
    rcases Nat.lt_trichotomy (n.lowerBound skey).1
      (n.plainSearchLoop skey (n.count + 1) 0 n.count).1 with c | c | c
    · have x1 := b2 _ c
      have x2 := a3 _ (Nat.le_refl _) (by omega)
      exact absurd (lt_of_lt_of_le x1 x2) (lt_irrefl _)
    · exact c
    · have x1 := a2 _ c
      have x2 := b3 _ (Nat.le_refl _) (by omega)
      exact absurd (lt_of_lt_of_le x1 x2) (lt_irrefl _)
  have hflag : (n.lowerBound skey).2 = (n.plainSearchLoop skey (n.count + 1) 0 n.count).2 := by
    rw [Bool.eq_iff_iff, a4, b4, hidx]
  exact Prod.ext hidx hflag

set_option maxRecDepth 1000000 in
/-- The page `wideLeaf` is well formed for the searches and its keys ascend strictly. -/
theorem wideLeaf_ok :
    SlotsOK wideLeaf ∧ (wideLeaf.slot.map Slot.key).Pairwise (· < ·) := by
  refine ⟨⟨by decide, by decide, ?_, by decide, fun _ => by decide⟩, by decide⟩
  unfold isBytes
  decide

set_option maxRecDepth 1000000 in
/-- Instance of `lowerBound_contract` on `wideLeaf` (40 slots, keys `1, 4, ..., 118`): the
search for `[50]` consults the hints, returns slot 17 (key `[52]`) without an exact match,
as the plain search does; the search for `[52]` returns slot 17 with an exact match. -/
theorem lowerBound_contract_witness :
    wideLeaf.count = 40 ∧ wideLeaf.searchHint (head [50]) 0 40 = (16, 18) ∧
    wideLeaf.lowerBound [50] = (17, false) ∧ wideLeaf.lowerBound [52] = (17, true) ∧
    wideLeaf.getKey 17 = [52] ∧
    wideLeaf.lowerBound [50] = wideLeaf.plainSearch [50] ∧
    ((wideLeaf.lowerBound [52]).2 = true ↔
      (wideLeaf.lowerBound [52]).1 < wideLeaf.count ∧
        wideLeaf.getPrefix ++ wideLeaf.getKey (wideLeaf.lowerBound [52]).1 = [52]) :=
  ⟨by decide, by decide, by decide, by decide, by decide,
    (lowerBound_contract wideLeaf wideLeaf_ok.1 wideLeaf_ok.2 [50]
      (by unfold isBytes; decide)).2.2.2.2,
    (lowerBound_contract wideLeaf wideLeaf_ok.1 wideLeaf_ok.2 [52]
      (by unfold isBytes; decide)).2.2.2.1⟩

end BTreeNode
/-! ## Theorems: `compactify` and the space accounting -/

namespace BTreeNode

theorem map_kv_of_content (a b : List Slot) (h : a.map Slot.content = b.map Slot.content) :
    a.map (fun s => (s.key, s.payload)) = b.map (fun s => (s.key, s.payload)) := by
  have := congrArg (List.map (fun c : Nat × List Nat × List Nat => (c.2.1, c.2.2))) h
  simpa [Slot.content] using this

theorem entries_of_kv (n m : BTreeNode)
    (h : m.slot.map (fun s => (s.key, s.payload)) = n.slot.map (fun s => (s.key, s.payload)))
    (hlo : m.lowerFence = n.lowerFence) (hp : m.prefixLen = n.prefixLen) :
    m.entries = n.entries := by
  have e : ∀ k : BTreeNode, k.entries
      = (k.slot.map (fun s => (s.key, s.payload))).map (fun c => (k.getPrefix ++ c.1, c.2)) := by
    intro k
    simp [entries]
  rw [e, e, h, getPrefix_congr n m hlo hp]

/-- C27. For every page whose prefix is the common prefix of its fences, whose `spaceUsed`
is the total length of its two fence keys and of the key suffixes and payloads of its slots,
and whose content fits a page (these bytes, header and slot directory within 4096 bytes):
`compactify()` leaves the fences, the prefix length, the ordered list of full keys with
their payloads, the number of slots, the leaf flag and the upper/next pointer unchanged,
and afterwards `freeSpace()` is the `freeSpaceAfterCompaction()` of before, with
`freeSpace + spaceUsed + sizeof(header) + count * sizeof(slot) == 4096`. -/
theorem compactify_contract (n : BTreeNode)
    (hpre : n.prefixLen = commonPrefixLen n.lowerFence n.upperFence)
    (hused : n.spaceUsed = n.usedBytes) (hfit : n.usedBytes + n.slotEnd ≤ pageSize) :
    n.compactify.lowerFence = n.lowerFence ∧ n.compactify.upperFence = n.upperFence ∧
    n.compactify.prefixLen = n.prefixLen ∧ n.compactify.entries = n.entries ∧
    n.compactify.count = n.count ∧ n.compactify.isLeaf = n.isLeaf ∧
    n.compactify.upperInnerNode = n.upperInnerNode ∧
    n.compactify.spaceUsed = n.spaceUsed ∧
    n.compactify.freeSpace = n.freeSpaceAfterCompaction ∧
    n.compactify.freeSpace + n.compactify.spaceUsed + sizeofHeader
      + n.compactify.count * sizeofSlot = pageSize := by
  have hp : pageSize = 4096 := rfl
  have hse : n.slotEnd = sizeofHeader + sizeofSlot * n.count := rfl
  have hub2 : n.lowerFence.length + n.upperFence.length + (n.slot.map Slot.size).sum
      ≤ pageSize := by
    have : n.usedBytes = n.lowerFence.length + n.upperFence.length
        + (n.slot.map Slot.size).sum := rfl
    omega
  obtain ⟨f1, f2, f3, f4, f5, f6, f7, f8, f9⟩ :=
    setFences_new n.isLeaf n.lowerFence n.upperFence (by omega)
  have hgrow : decide (n.prefixLen ≤
      ((BTreeNode.new n.isLeaf).setFences n.lowerFence n.upperFence).prefixLen) = true := by
    rw [f4, ← hpre]; simp
  have hcopy := copyLoop_grows n 0 0 0 n.count 0
    ((BTreeNode.new n.isLeaf).setFences n.lowerFence n.upperFence)
    (by rw [f4, ← hpre]; simp) (by rw [f1]; rfl) (by omega)
    (by
      rw [f6, Nat.zero_add, List.drop_zero, n.take_count,
        map_trimSlot_zero_size]
      omega)
    (by rw [f6]; omega)
    (by
      rw [f5, Nat.zero_add, List.drop_zero, n.take_count,
        map_trimSlot_zero_size]
      omega)
  rw [Nat.zero_add, List.drop_zero, n.take_count] at hcopy
  have hslot := hcopy.slot
  rw [f1, List.map_nil, List.nil_append] at hslot
  have hu := hcopy.spaceUsed
  rw [f5, map_trimSlot_zero_size] at hu
  have hoff := hcopy.dataOffset
  rw [f6, map_trimSlot_zero_size] at hoff
  have hc : n.compactify = ({ copyLoop n true 0 0 n.count 0
      ((BTreeNode.new n.isLeaf).setFences n.lowerFence n.upperFence) with
      upperInnerNode := n.upperInnerNode }).makeHint := by
    unfold compactify copyKeyValueRange getLowerFence getUpperFence
    simp only []
    rw [hgrow]
  generalize copyLoop n true 0 0 n.count 0
      ((BTreeNode.new n.isLeaf).setFences n.lowerFence n.upperFence) = c at hcopy hslot hu hoff hc
  have hkv : n.compactify.slot.map (fun s => (s.key, s.payload))
      = n.slot.map (fun s => (s.key, s.payload)) := by
    have h1 := map_kv_of_content _ _ hslot
    rw [hc]
    show c.slot.map _ = _
    rw [h1, List.map_map]
    apply List.map_congr_left
    intro s _
    simp [trimSlot]
  have hcount : n.compactify.count = n.count := by
    have := congrArg List.length hkv
    simpa [count] using this
  have hlo : n.compactify.lowerFence = n.lowerFence := by rw [hc]; exact hcopy.lowerFence.trans f2
  have hup : n.compactify.upperFence = n.upperFence := by rw [hc]; exact hcopy.upperFence.trans f3
  have hpl : n.compactify.prefixLen = n.prefixLen := by
    rw [hc]; exact (hcopy.prefixLen.trans f4).trans hpre.symm
  have hsu : n.compactify.spaceUsed = n.usedBytes := by
    rw [hc]; show c.spaceUsed = _; rw [hu]; rfl
  have hdo : n.compactify.dataOffset = pageSize - n.usedBytes := by
    rw [hc]; show c.dataOffset = _; rw [hoff]; unfold usedBytes; omega
  have hfs : n.compactify.freeSpace = pageSize - n.usedBytes - n.slotEnd := by
    unfold freeSpace
    have : n.compactify.slotEnd = n.slotEnd := by unfold slotEnd; rw [hcount]
    rw [this, hdo]
    exact u32_sub _ _ (by omega) (by omega)
  have hfa : n.freeSpaceAfterCompaction = pageSize - n.usedBytes - n.slotEnd := by
    unfold freeSpaceAfterCompaction u32
    rw [hused]
    have : ((pageSize : Int) - n.slotEnd - n.usedBytes) % 2 ^ 32
        = ((pageSize - n.usedBytes - n.slotEnd : Nat) : Int) := by omega
    rw [this]
    rfl
  refine ⟨hlo, hup, hpl, entries_of_kv _ _ hkv hlo hpl, hcount,
    by rw [hc]; exact hcopy.isLeaf.trans f7, by rw [hc]; rfl, by rw [hsu, hused],
    by rw [hfs, hfa], ?_⟩
  rw [hfs, hsu, hcount]
  have hs1 : sizeofHeader = 96 := rfl
  have hs2 : sizeofSlot = 10 := rfl
  rw [hse, hp, hs1, hs2] at hfit
  rw [hse, hp, hs1, hs2]
  clear hfa hfs hdo hoff hu hub2
  omega

/-- Instance of `compactify_contract` on `holedLeaf`, which holds the entry `([2], [8])`
and three unused heap bytes: before the call `freeSpace()` is 3985 and
`freeSpaceAfterCompaction()` is 3988; afterwards `freeSpace()` is 3988 and the entry is
still there. -/
theorem compactify_contract_witness :
    holedLeaf.entries = [([2], [8])] ∧ holedLeaf.freeSpace = 3985 ∧
    holedLeaf.freeSpaceAfterCompaction = 3988 ∧
    holedLeaf.compactify.entries = holedLeaf.entries ∧
    holedLeaf.compactify.freeSpace = holedLeaf.freeSpaceAfterCompaction ∧
    holedLeaf.compactify.freeSpace + holedLeaf.compactify.spaceUsed + sizeofHeader
      + holedLeaf.compactify.count * sizeofSlot = pageSize :=
  have h := compactify_contract holedLeaf (by decide) (by decide) (by decide)
  ⟨by decide, by decide, by decide, h.2.2.2.1, h.2.2.2.2.2.2.2.2.1, h.2.2.2.2.2.2.2.2.2⟩

end BTreeNode
/-! ## Theorems: `splitNode` on a leaf whose separator is not truncated -/

namespace BTree

open BTreeNode

set_option maxRecDepth 100000 in
/-- C26, failing input. The root leaf after the first five inserts of `overflowInput` (each
pair within `maxKVSize`) is a well-formed page without fences that holds the five keys A <
B < C < D < E. `findSeparator` picks slot 2 and cannot truncate (the next key, D, has one
byte), so `getSep` returns the 995 bytes of C. `splitNode` gives the left node the fences
`[]` and C and copies A, B and C into it: 3980 heap bytes, so that its heap starts at byte
116 while its slot directory ends at byte 126. The condition asserted at the end of
`copyKeyValueRange` is false; the 995 key bytes of C were written from byte 116 on, over
`slot[2]` (bytes 116 to 125) itself, so the left node in memory does not hold the key C.
This is the defect of C3. -/
theorem splitNode_overflow :
    overflowLeaf.keys = [keyA, keyB, keyC, keyD, keyE] ∧
    overflowLeaf.keys.Pairwise (· < ·) ∧
    overflowLeaf.lowerFence = [] ∧ overflowLeaf.upperFence = [] ∧ SpaceOK overflowLeaf ∧
    overflowLeaf.findSeparator false = ⟨995, 2, false⟩ ∧
    overflowLeaf.getSep (overflowLeaf.findSeparator false) = keyC ∧
    overflowSplit.left.lowerFence = [] ∧ overflowSplit.left.upperFence = keyC ∧
    overflowSplit.left.count = 3 ∧ overflowSplit.left.spaceUsed = 3980 ∧
    overflowSplit.left.dataOffset = 116 ∧ overflowSplit.left.slotEnd = 126 ∧
    sizeofHeader + 2 * sizeofSlot = 116 ∧
    (overflowSplit.left.slotAt 2).offset = 116 ∧ (overflowSplit.left.slotAt 2).keyLen = 995 ∧
    ¬ SpaceOK overflowSplit.left := by
  refine ⟨by decide, by decide, by decide, by decide, ⟨by decide, by decide, by decide⟩,
    by decide, by decide, by decide, by decide, by decide, by decide, by decide, by decide,
    by decide, by decide, by decide, fun h => ?_⟩
  have := h.fit
  revert this
  decide

end BTree
/-! ## Theorems: `mergeNodes` -/

/-- Between two byte strings in lexicographic order, every string shares their common
prefix. -/
theorem commonPrefixLen_between : ∀ (a b c : List Nat), a ≤ b → b ≤ c →
    BTreeNode.commonPrefixLen a c ≤ BTreeNode.commonPrefixLen a b ∧
    BTreeNode.commonPrefixLen a c ≤ BTreeNode.commonPrefixLen b c ∧
    b.take (BTreeNode.commonPrefixLen a c) = a.take (BTreeNode.commonPrefixLen a c) := by
  intro a
  induction a with
  | nil => intro b c _ _; simp [BTreeNode.commonPrefixLen]
  | cons x a ih =>
    intro b c hab hbc
    cases c with
    | nil => simp [BTreeNode.commonPrefixLen]
    | cons z c =>
      by_cases hxz : x = z
      · subst hxz
        cases b with
        | nil =>
          exact absurd (nil_lt_cons x a) (not_lt.2 hab)
        | cons y b =>
          have h1 : ¬ (y :: b < x :: a) := not_lt.2 hab
          have h2 : ¬ (x :: c < y :: b) := not_lt.2 hbc
          rw [cons_lt_cons_iff] at h1 h2
          have hy : y = x := by
            by_contra hne
            rcases Nat.lt_or_ge y x with h | h
            · exact h1 (Or.inl h)
            · exact h2 (Or.inl (by omega))
          subst hy
          have hab' : a ≤ b := not_lt.1 (fun h => h1 (Or.inr ⟨rfl, h⟩))
          have hbc' : b ≤ c := not_lt.1 (fun h => h2 (Or.inr ⟨rfl, h⟩))
          obtain ⟨i1, i2, i3⟩ := ih b c hab' hbc'
          simp only [BTreeNode.commonPrefixLen, if_true, List.take_succ_cons]
          exact ⟨by omega, by omega, by rw [i3]⟩
      · simp [BTreeNode.commonPrefixLen, hxz]

theorem regrow_size (pre : List Nat) (k : Nat) (s : Slot) (hk : k ≤ pre.length) :
    (regrow pre k s).size = s.size + (pre.length - k) := by
  simp only [regrow, Slot.size, List.length_drop, List.length_append]
  omega

theorem regrow_sum (pre : List Nat) (k : Nat) (l : List Slot) (hk : k ≤ pre.length) :
    ((l.map (regrow pre k)).map Slot.size).sum
      = (l.map Slot.size).sum + (pre.length - k) * l.length := by
  induction l with
  | nil => simp
  | cons s l ih =>
    simp only [List.map_cons, List.sum_cons, List.length_cons, ih, regrow_size pre k s hk]
    rw [Nat.mul_succ]
    omega

theorem regrow_key (pre : List Nat) (k : Nat) (s : Slot) (hk : k ≤ pre.length) :
    pre.take k ++ (regrow pre k s).key = pre ++ s.key := by
  simp only [regrow]
  have : pre.take k = (pre ++ s.key).take k := by
    rw [List.take_append_of_le_length hk]
  rw [this, List.take_append_drop]

namespace BTreeNode

theorem Appended.items {dst res : BTreeNode} {a b : List Slot} (h : Appended dst res a)
    (hab : a.map Slot.content = b.map Slot.content) : Appended dst res b := by
  have hsz : a.map Slot.size = b.map Slot.size := by
    rw [map_size_eq a, map_size_eq b, hab]
  exact ⟨by rw [← hab]; exact h.slot, by rw [← hsz]; exact h.spaceUsed,
    by rw [← hsz]; exact h.dataOffset, h.lowerFence, h.upperFence, h.prefixLen, h.isLeaf,
    h.upperInnerNode, h.hint⟩

theorem Appended.trans {a b c : BTreeNode} {x y : List Slot} (h1 : Appended a b x)
    (h2 : Appended b c y) (hfit : (x.map Slot.size).sum + (y.map Slot.size).sum ≤ a.dataOffset) :
    Appended a c (x ++ y) := by
  refine ⟨?_, ?_, ?_, h2.lowerFence.trans h1.lowerFence, h2.upperFence.trans h1.upperFence,
    h2.prefixLen.trans h1.prefixLen, h2.isLeaf.trans h1.isLeaf,
    h2.upperInnerNode.trans h1.upperInnerNode, h2.hint.trans h1.hint⟩
  · rw [h2.slot, h1.slot]; simp
  · rw [h2.spaceUsed, h1.spaceUsed]; simp only [List.map_append, List.sum_append]; omega
  · rw [h2.dataOffset, h1.dataOffset]; simp only [List.map_append, List.sum_append]; omega

/-- The loop of `copyKeyValueRange` in the case that the prefix shrinks: it appends the
source slots, each with its full key cut to the prefix of the destination. -/
theorem copyLoop_shrinks (n : BTreeNode) (dstSlot srcSlot p : Nat) :
    ∀ (k i : Nat) (dst : BTreeNode), dst.prefixLen = p →
      dst.slot.length = dstSlot + i →
      srcSlot + i + k ≤ n.count →
      ((((n.slot.drop (srcSlot + i)).take k).map (regrow n.getPrefix p)).map Slot.size).sum
        ≤ dst.dataOffset →
      dst.dataOffset < 2 ^ 16 →
      dst.spaceUsed
        + ((((n.slot.drop (srcSlot + i)).take k).map (regrow n.getPrefix p)).map Slot.size).sum
        < 2 ^ 16 →
      Appended dst (copyLoop n false dstSlot srcSlot k i dst)
        (((n.slot.drop (srcSlot + i)).take k).map (regrow n.getPrefix p)) := by
  intro k
  induction k with
  | zero =>
    intro i dst _ _ _ _ _ _
    simp only [copyLoop, List.take_zero, List.map_nil]
    exact Appended.nil dst
  | succ k ih =>
    intro i dst hd hlen hcnt hfit hoff hused
    subst hd
    have hm : srcSlot + i < n.slot.length := by unfold count at hcnt; omega
    rw [drop_take_succ _ _ _ hm] at hfit hused ⊢
    simp only [List.map_cons, List.sum_cons] at hfit hused ⊢
    rw [copyLoop]
    simp only [Bool.false_eq_true, if_false]
    unfold copyKeyValue storeKeyValue getKey getPayload
    simp only []
    rw [n.slotAt_lt _ hm]
    have hsz : (regrow n.getPrefix dst.prefixLen n.slot[srcSlot + i]).size =
        ((n.getPrefix ++ n.slot[srcSlot + i].key).drop dst.prefixLen).length
          + n.slot[srcSlot + i].payload.length := rfl
    rw [hsz] at hfit hused
    have h1 := appended_one dst (dstSlot + i)
      ((n.getPrefix ++ n.slot[srcSlot + i].key).drop dst.prefixLen) n.slot[srcSlot + i].payload
      hlen (by omega) hoff (by omega)
    have h1c : Appended dst _ [regrow n.getPrefix dst.prefixLen n.slot[srcSlot + i]] :=
      ⟨h1.slot, h1.spaceUsed, h1.dataOffset, h1.lowerFence, h1.upperFence, h1.prefixLen,
        h1.isLeaf, h1.upperInnerNode, h1.hint⟩
    have e1 := h1.dataOffset
    have e2 := h1.spaceUsed
    simp only [List.map_cons, List.map_nil, List.sum_cons, List.sum_nil, Slot.size,
      Nat.add_zero] at e1 e2
    refine Appended.step h1c (ih (i + 1) _ ?_ ?_ ?_ ?_ ?_ ?_) (by rw [hsz]; exact hfit)
    · rfl
    · rw [setSlot]; simp; omega
    · omega
    · rw [e1]; exact Nat.le_sub_of_add_le (by rw [Nat.add_comm] at hfit; exact hfit)
    · rw [e1]; omega
    · rw [e2]
      rw [Nat.add_assoc]
      exact hused

theorem u32_natCast (m : Nat) (h : m < 2 ^ 32) : u32 (m : Int) = m := by
  unfold u32
  omega

/-- `copyKeyValueRange` of all slots of `n` behind the slots of `dst`, whose prefix is not
longer than that of `n`: in both branches of the source the slots arrive with their full
keys cut to the prefix of `dst`. -/
theorem copyRange_all (n dst : BTreeNode) (hpl : n.getPrefix.length = n.prefixLen)
    (hk : dst.prefixLen ≤ n.prefixLen)
    (hfit : (n.slot.map Slot.size).sum + (n.prefixLen - dst.prefixLen) * n.count
      ≤ dst.dataOffset)
    (hoff : dst.dataOffset < 2 ^ 16)
    (hused : dst.spaceUsed + ((n.slot.map Slot.size).sum
      + (n.prefixLen - dst.prefixLen) * n.count) < 2 ^ 16) :
    Appended dst (n.copyKeyValueRange dst dst.count 0 n.count)
      (n.slot.map (regrow n.getPrefix dst.prefixLen)) := by
  have hsum := regrow_sum n.getPrefix dst.prefixLen n.slot (by omega)
  rw [hpl] at hsum
  have hcnt : n.slot.length = n.count := rfl
  rw [hcnt] at hsum
  unfold copyKeyValueRange
  by_cases hg : n.prefixLen ≤ dst.prefixLen
  · have he : dst.prefixLen = n.prefixLen := by omega
    have hitems : (n.slot.map (trimSlot 0)).map Slot.content
        = (n.slot.map (regrow n.getPrefix dst.prefixLen)).map Slot.content := by
      rw [List.map_map, List.map_map]
      apply List.map_congr_left
      intro s _
      have : (n.getPrefix ++ s.key).drop dst.prefixLen = s.key := by
        rw [he, ← hpl]
        exact List.drop_left' rfl
      simp [trimSlot, regrow, Slot.content, this]
    have hsz : ((n.slot.map (trimSlot 0)).map Slot.size).sum
        = (n.slot.map Slot.size).sum + (n.prefixLen - dst.prefixLen) * n.count := by
      rw [map_trimSlot_zero_size, he]
      simp
    have h := copyLoop_grows n dst.count 0 0 n.count 0 dst (by omega) rfl (by omega)
      (by rw [Nat.zero_add, List.drop_zero, n.take_count, hsz]; exact hfit) hoff
      (by rw [Nat.zero_add, List.drop_zero, n.take_count, hsz]; exact hused)
    rw [Nat.zero_add, List.drop_zero, n.take_count] at h
    rw [decide_eq_true hg]
    exact h.items hitems
  · have h := copyLoop_shrinks n dst.count 0 dst.prefixLen n.count 0 dst rfl rfl (by omega)
      (by rw [Nat.zero_add, List.drop_zero, n.take_count, hsum]; exact hfit) hoff
      (by rw [Nat.zero_add, List.drop_zero, n.take_count, hsum]; exact hused)
    rw [Nat.zero_add, List.drop_zero, n.take_count] at h
    rw [decide_eq_false hg]
    exact h

theorem slotAt_eq (n : BTreeNode) (j : Nat) : n.slotAt j = (n.slot[j]?).getD default := by
  unfold slotAt
  simp

/-- The parent after `mergeNodes`: the slot of the left leaf is gone, the slot after it
(the separator of the right leaf) points to `pid`, every other slot is as before. -/
theorem merge_parent (parent : BTreeNode) (slotId pid : Nat) (hs : slotId + 1 < parent.count)
    (hpid : pid < 2 ^ 64) :
    ((parent.setChild (slotId + 1) pid).removeSlot slotId).count + 1 = parent.count ∧
    ((parent.setChild (slotId + 1) pid).removeSlot slotId).keys = parent.keys.eraseIdx slotId ∧
    ((parent.setChild (slotId + 1) pid).removeSlot slotId).getKey slotId
      = parent.getKey (slotId + 1) ∧
    ((parent.setChild (slotId + 1) pid).removeSlot slotId).getChild slotId = pid ∧
    (∀ j, j < slotId →
      ((parent.setChild (slotId + 1) pid).removeSlot slotId).slotAt j = parent.slotAt j) ∧
    (∀ j, slotId < j →
      ((parent.setChild (slotId + 1) pid).removeSlot slotId).slotAt j = parent.slotAt (j + 1)) ∧
    ((parent.setChild (slotId + 1) pid).removeSlot slotId).upperInnerNode
      = parent.upperInnerNode ∧
    ((parent.setChild (slotId + 1) pid).removeSlot slotId).lowerFence = parent.lowerFence ∧
    ((parent.setChild (slotId + 1) pid).removeSlot slotId).upperFence = parent.upperFence ∧
    ((parent.setChild (slotId + 1) pid).removeSlot slotId).isLeaf = parent.isLeaf := by
  have hlen : parent.slot.length = parent.count := rfl
  have hslot : ((parent.setChild (slotId + 1) pid).removeSlot slotId).slot
      = (parent.slot.set (slotId + 1)
          { parent.slotAt (slotId + 1) with
            payload := Tpcc.bytesLE sizeofPID pid
              ++ (parent.slotAt (slotId + 1)).payload.drop sizeofPID }).eraseIdx slotId := rfl
  have hat : ∀ j, ((parent.setChild (slotId + 1) pid).removeSlot slotId).slotAt j
      = (if j < slotId then parent.slotAt j
         else if j = slotId then
          { parent.slotAt (slotId + 1) with
            payload := Tpcc.bytesLE sizeofPID pid
              ++ (parent.slotAt (slotId + 1)).payload.drop sizeofPID }
         else parent.slotAt (j + 1)) := by
    intro j
    rw [slotAt_eq, hslot, List.getElem?_eraseIdx]
    by_cases h1 : j < slotId
    · rw [if_pos h1, if_pos h1, List.getElem?_set_ne (by omega), slotAt_eq]
    · rw [if_neg h1, if_neg h1]
      by_cases h2 : j = slotId
      · subst h2
        rw [if_pos rfl, List.getElem?_set_self (by omega)]
        rfl
      · rw [if_neg h2, List.getElem?_set_ne (by omega), slotAt_eq]
  refine ⟨?_, ?_, ?_, ?_, ?_, ?_, rfl, rfl, rfl, rfl⟩
  · show ((parent.setChild (slotId + 1) pid).removeSlot slotId).slot.length + 1 = _
    rw [hslot, List.length_eraseIdx, if_pos (by rw [List.length_set]; omega), List.length_set]
    omega
  · have hpre : ((parent.setChild (slotId + 1) pid).removeSlot slotId).getPrefix
        = parent.getPrefix := rfl
    unfold keys
    rw [hpre, hslot, List.eraseIdx_eq_take_drop_succ, List.eraseIdx_eq_take_drop_succ,
      List.map_append, List.map_take, List.map_drop]
    have hmap : (parent.slot.set (slotId + 1)
          { parent.slotAt (slotId + 1) with
            payload := Tpcc.bytesLE sizeofPID pid
              ++ (parent.slotAt (slotId + 1)).payload.drop sizeofPID }).map
          (fun s => parent.getPrefix ++ s.key)
        = parent.slot.map (fun s => parent.getPrefix ++ s.key) := by
      apply List.ext_getElem?
      intro j
      rw [List.getElem?_map, List.getElem?_map, List.getElem?_set]
      by_cases hj : slotId + 1 = j
      · subst hj
        rw [if_pos rfl, if_pos (by omega)]
        have : parent.slot[slotId + 1]? = some (parent.slotAt (slotId + 1)) := by
          rw [slotAt_eq, List.getElem?_eq_getElem (by omega)]
          rfl
        rw [this]
        rfl
      · rw [if_neg hj]
    rw [hmap]
  · unfold getKey
    rw [hat, if_neg (by omega), if_pos rfl]
  · unfold getChild getPayload
    rw [hat, if_neg (by omega), if_pos rfl]
    simp only []
    have hl : (Tpcc.bytesLE sizeofPID pid).length = sizeofPID := Tpcc.bytesLE_length _ _
    rw [List.take_left' hl, Tpcc.ofBytesLE_bytesLE]
    exact Nat.mod_eq_of_lt (by
      have : (256 : Nat) ^ sizeofPID = 2 ^ 64 := by decide
      rw [this]; exact hpid)
  · intro j hj
    rw [hat, if_pos hj]
  · intro j hj
    rw [hat, if_neg (by omega), if_neg (by omega)]

theorem commonPrefixLen_nil (a : List Nat) : commonPrefixLen a [] = 0 := by
  cases a <;> simp [commonPrefixLen]

theorem mergeNodes_leaf (n right parent : BTreeNode) (pid slotId : Nat)
    (hleaf : n.isLeaf = true) :
    n.mergeNodes pid slotId parent right
      = if n.spaceUpperBound right > pageSize then ⟨false, n, parent⟩
        else ⟨true,
          { (right.copyKeyValueRange
              (n.copyKeyValueRange
                ((BTreeNode.new n.isLeaf).setFences n.getLowerFence right.getUpperFence)
                0 0 n.count) n.count 0 right.count).makeHint with
            upperInnerNode := right.nextLeafNode },
          (parent.setChild (slotId + 1) pid).removeSlot slotId⟩ := by
  unfold mergeNodes spaceUpperBound
  simp only [hleaf, Bool.not_true, Bool.false_eq_true, if_false]

/-- The estimate of `mergeNodes` without the wrap-around of `unsigned`, for two adjacent
pages that fit. -/
theorem spaceUpperBound_eq (n right : BTreeNode) (k : Nat)
    (hk : k = commonPrefixLen n.lowerFence right.upperFence)
    (hk1 : k ≤ n.prefixLen) (hk2 : k ≤ right.prefixLen)
    (hp1 : n.prefixLen ≤ pageSize) (hp2 : right.prefixLen ≤ pageSize)
    (hc1 : n.count ≤ pageSize) (hc2 : right.count ≤ pageSize)
    (hu1 : n.spaceUsed ≤ pageSize) (hu2 : right.spaceUsed ≤ pageSize) :
    n.spaceUpperBound right
      = n.spaceUsed + right.spaceUsed + (sizeofHeader + sizeofSlot * (n.count + right.count))
        + (n.prefixLen - k) * n.count + (right.prefixLen - k) * right.count := by
  have f4 : ((BTreeNode.new n.isLeaf).setFences n.lowerFence right.upperFence).prefixLen
      = commonPrefixLen n.lowerFence right.upperFence := rfl
  have hp : pageSize = 4096 := rfl
  have hs1 : sizeofHeader = 96 := rfl
  have hs2 : sizeofSlot = 10 := rfl
  rw [hp] at hp1 hp2 hc1 hc2 hu1 hu2
  have g1 : (n.prefixLen - k) * n.count ≤ 4096 * 4096 :=
    Nat.mul_le_mul (by omega) hc1
  have g2 : (right.prefixLen - k) * right.count ≤ 4096 * 4096 :=
    Nat.mul_le_mul (by omega) hc2
  have e1 : ((n.prefixLen : Int) - (k : Int)) * (n.count : Int)
      = (((n.prefixLen - k) * n.count : Nat) : Int) := by
    rw [Nat.cast_mul, Nat.cast_sub hk1]
  have e2 : ((right.prefixLen : Int) - (k : Int)) * (right.count : Int)
      = (((right.prefixLen - k) * right.count : Nat) : Int) := by
    rw [Nat.cast_mul, Nat.cast_sub hk2]
  unfold spaceUpperBound getLowerFence getUpperFence
  simp only []
  rw [f4, ← hk, e1, e2, u32_natCast _ (by omega), u32_natCast _ (by omega)]
  generalize (n.prefixLen - k) * n.count = G1 at g1 ⊢
  generalize (right.prefixLen - k) * right.count = G2 at g2 ⊢
  rw [hs1, hs2]
  have e3 : ∀ (x : Int) (m : Nat), x = (m : Int) → m < 2 ^ 32 → u32 x = m := by
    intro x m hx hm
    rw [hx]
    exact u32_natCast m hm
  exact e3 _ _ (by push_cast; ring) (by omega)

theorem regrow_entries (pre : List Nat) (k : Nat) (p : List Nat) (l : List Slot)
    (hk : k ≤ pre.length) (hp : pre.take k = p) :
    (l.map (regrow pre k)).map (fun s => (p ++ s.key, s.payload))
      = l.map (fun s => (pre ++ s.key, s.payload)) := by
  rw [List.map_map]
  apply List.map_congr_left
  intro s _
  show (p ++ (regrow pre k s).key, (regrow pre k s).payload) = _
  rw [← hp, regrow_key pre k s hk]
  rfl

/-- C28. `mergeNodes` on a leaf `n` and its right neighbour `right` (the upper fence of `n`
is the lower fence of `right`, both pages well formed and within a page, `n` at slot
`slotId` of the parent and `right` at the next slot): the estimate is the sum computed
without wrap-around; if it exceeds `pageSize` the call returns false and leaves node and
parent as they are; otherwise, also when it equals `pageSize`, it returns true, the node
holds the entries of `n` followed by those of `right` with full keys and payloads, its fences
are the lower fence of `n` and the upper fence of `right`, its next leaf is that of `right`,
its counters are exact and the slot directory ends before the heap, and the parent has one
slot less, with the separator of `right` at `slotId` pointing to `pid` and the other slots
unchanged. -/
theorem mergeNodes_contract (n right parent : BTreeNode) (pid slotId : Nat)
    (hleaf : n.isLeaf = true)
    (hpn : n.prefixLen = commonPrefixLen n.lowerFence n.upperFence)
    (hpr : right.prefixLen = commonPrefixLen right.lowerFence right.upperFence)
    (hun : n.spaceUsed = n.usedBytes) (hur : right.spaceUsed = right.usedBytes)
    (hfn : n.usedBytes + n.slotEnd ≤ pageSize)
    (hfr : right.usedBytes + right.slotEnd ≤ pageSize)
    (hadj : n.upperFence = right.lowerFence)
    (ho1 : n.lowerFence ≤ n.upperFence)
    (ho2 : right.upperFence = [] ∨ right.lowerFence ≤ right.upperFence)
    (hs : slotId + 1 < parent.count) (hpid : pid < 2 ^ 64) :
    n.spaceUpperBound right
      = n.spaceUsed + right.spaceUsed + (sizeofHeader + sizeofSlot * (n.count + right.count))
        + (n.prefixLen - commonPrefixLen n.lowerFence right.upperFence) * n.count
        + (right.prefixLen - commonPrefixLen n.lowerFence right.upperFence) * right.count ∧
    (pageSize < n.spaceUpperBound right →
      n.mergeNodes pid slotId parent right = ⟨false, n, parent⟩) ∧
    (n.spaceUpperBound right ≤ pageSize →
      (n.mergeNodes pid slotId parent right).merged = true ∧
      (n.mergeNodes pid slotId parent right).node.entries = n.entries ++ right.entries ∧
      (n.mergeNodes pid slotId parent right).node.lowerFence = n.lowerFence ∧
      (n.mergeNodes pid slotId parent right).node.upperFence = right.upperFence ∧
      (n.mergeNodes pid slotId parent right).node.nextLeafNode = right.nextLeafNode ∧
      (n.mergeNodes pid slotId parent right).node.isLeaf = true ∧
      (n.mergeNodes pid slotId parent right).node.prefixLen
        = commonPrefixLen n.lowerFence right.upperFence ∧
      SpaceOK (n.mergeNodes pid slotId parent right).node ∧
      (n.mergeNodes pid slotId parent right).parent.count + 1 = parent.count ∧
      (n.mergeNodes pid slotId parent right).parent.keys = parent.keys.eraseIdx slotId ∧
      (n.mergeNodes pid slotId parent right).parent.getKey slotId
        = parent.getKey (slotId + 1) ∧
      (n.mergeNodes pid slotId parent right).parent.getChild slotId = pid ∧
      (∀ j, j < slotId →
        (n.mergeNodes pid slotId parent right).parent.slotAt j = parent.slotAt j) ∧
      (∀ j, slotId < j →
        (n.mergeNodes pid slotId parent right).parent.slotAt j = parent.slotAt (j + 1)) ∧
      (n.mergeNodes pid slotId parent right).parent.upperInnerNode = parent.upperInnerNode) := by
  have hp : pageSize = 4096 := rfl
  have hs1 : sizeofHeader = 96 := rfl
  have hs2 : sizeofSlot = 10 := rfl
  have hubn : n.usedBytes
      = n.lowerFence.length + n.upperFence.length + (n.slot.map Slot.size).sum := rfl
  have hubr : right.usedBytes
      = right.lowerFence.length + right.upperFence.length + (right.slot.map Slot.size).sum := rfl
  have hsen : n.slotEnd = sizeofHeader + sizeofSlot * n.count := rfl
  have hser : right.slotEnd = sizeofHeader + sizeofSlot * right.count := rfl
  have hln := commonPrefixLen_le n.lowerFence n.upperFence
  have hlr := commonPrefixLen_le right.lowerFence right.upperFence
  have hbet : commonPrefixLen n.lowerFence right.upperFence ≤ n.prefixLen ∧
      commonPrefixLen n.lowerFence right.upperFence ≤ right.prefixLen ∧
      right.lowerFence.take (commonPrefixLen n.lowerFence right.upperFence)
        = n.lowerFence.take (commonPrefixLen n.lowerFence right.upperFence) := by
    rcases ho2 with h | h
    · rw [h, commonPrefixLen_nil]
      simp
    · have := commonPrefixLen_between n.lowerFence n.upperFence right.upperFence ho1
        (by rw [hadj]; exact h)
      rw [hpn, hpr, ← hadj]
      exact this
  obtain ⟨hk1, hk2, ht⟩ := hbet
  rw [hubn, hsen, hp, hs1, hs2] at hfn
  rw [hubr, hser, hp, hs1, hs2] at hfr
  rw [hubn] at hun
  rw [hubr] at hur
  have hest := spaceUpperBound_eq n right _ rfl hk1 hk2 (by rw [hp]; omega) (by rw [hp]; omega)
    (by rw [hp]; omega) (by rw [hp]; omega) (by rw [hp]; omega) (by rw [hp]; omega)
  refine ⟨hest, ?_, ?_⟩
  · intro h
    rw [mergeNodes_leaf n right parent pid slotId hleaf, if_pos h]
  · intro h
    have hm := mergeNodes_leaf n right parent pid slotId hleaf
    rw [if_neg (Nat.not_lt.mpr h)] at hm
    rw [hest, hp, hs1, hs2] at h
    have hpln : n.getPrefix.length = n.prefixLen := by
      unfold getPrefix
      rw [List.length_take]
      omega
    have hplr : right.getPrefix.length = right.prefixLen := by
      unfold getPrefix
      rw [List.length_take]
      omega
    obtain ⟨f1, f2, f3, f4, f5, f6, f7, f8, f9⟩ :=
      setFences_new n.isLeaf n.lowerFence right.upperFence (by rw [hp]; omega)
    unfold getLowerFence getUpperFence at hm
    rw [hp] at f6
    have hsum1 := regrow_sum n.getPrefix (commonPrefixLen n.lowerFence right.upperFence) n.slot
      (by omega)
    have hsum2 := regrow_sum right.getPrefix (commonPrefixLen n.lowerFence right.upperFence)
      right.slot (by omega)
    rw [hpln] at hsum1
    rw [hplr] at hsum2
    have hcn : n.slot.length = n.count := rfl
    have hcr : right.slot.length = right.count := rfl
    rw [hcn] at hsum1
    rw [hcr] at hsum2
    generalize hG1 : (n.prefixLen - commonPrefixLen n.lowerFence right.upperFence) * n.count
      = G1 at h hsum1
    generalize hG2 : (right.prefixLen - commonPrefixLen n.lowerFence right.upperFence)
      * right.count = G2 at h hsum2
    generalize htmp : (BTreeNode.new n.isLeaf).setFences n.lowerFence right.upperFence = tmp
      at hm f1 f2 f3 f4 f5 f6 f7 f8 f9
    have hc0 : tmp.count = 0 := by
      unfold count
      rw [f1]
      rfl
    have h1 := copyRange_all n tmp hpln (by rw [f4]; exact hk1)
      (by rw [f4, f6, hG1]; omega) (by rw [f6]; omega) (by rw [f4, f5, hG1]; omega)
    rw [hc0, f4] at h1
    generalize htmp1 : n.copyKeyValueRange tmp 0 0 n.count = tmp1 at hm h1
    have hc1 : tmp1.count = n.count := by
      have := congrArg List.length h1.slot
      rw [f1] at this
      simpa using this
    have hd1 := h1.dataOffset
    have hu1 := h1.spaceUsed
    rw [hsum1, f6] at hd1
    rw [hsum1, f5] at hu1
    have h2 := copyRange_all right tmp1 hplr (by rw [h1.prefixLen, f4]; exact hk2)
      (by rw [h1.prefixLen, f4, hd1, hG2]; omega) (by rw [hd1]; omega)
      (by rw [h1.prefixLen, f4, hu1, hG2]; omega)
    rw [hc1, h1.prefixLen, f4] at h2
    generalize htmp2 : right.copyKeyValueRange tmp1 n.count 0 right.count = tmp2 at hm h2
    have h12 := Appended.trans h1 h2 (by rw [hsum1, hsum2, f6]; omega)
    have hslot := h12.slot
    rw [f1, List.map_nil, List.nil_append] at hslot
    have hsize : tmp2.slot.map Slot.size
        = (n.slot.map (regrow n.getPrefix (commonPrefixLen n.lowerFence right.upperFence))
          ++ right.slot.map
            (regrow right.getPrefix (commonPrefixLen n.lowerFence right.upperFence))).map
          Slot.size := by
      rw [map_size_eq, hslot, ← map_size_eq]
    have hkv := map_kv_of_content _ _ hslot
    have hlen2 := congrArg List.length hslot
    simp only [List.length_map, List.length_append] at hlen2
    have hd2 := h12.dataOffset
    have hu2 := h12.spaceUsed
    rw [List.map_append, List.sum_append, hsum1, hsum2, f6] at hd2
    rw [List.map_append, List.sum_append, hsum1, hsum2, f5] at hu2
    have hssum : (tmp2.slot.map Slot.size).sum
        = (n.slot.map Slot.size).sum + G1 + ((right.slot.map Slot.size).sum + G2) := by
      rw [hsize, List.map_append, List.sum_append, hsum1, hsum2]
    have hpar := merge_parent parent slotId pid hs hpid
    rw [hm]
    dsimp only
    refine ⟨rfl, ?_, ?_, ?_, rfl, ?_, ?_, ⟨?_, ?_, ?_⟩, hpar.1, hpar.2.1, hpar.2.2.1,
      hpar.2.2.2.1, hpar.2.2.2.2.1, hpar.2.2.2.2.2.1, hpar.2.2.2.2.2.2.1⟩
    · show tmp2.slot.map (fun s => (tmp2.lowerFence.take tmp2.prefixLen ++ s.key, s.payload))
        = n.entries ++ right.entries
      have e : ∀ (q : List Nat) (l : List Slot), l.map (fun s => (q ++ s.key, s.payload))
          = (l.map (fun s => (s.key, s.payload))).map (fun c => (q ++ c.1, c.2)) := by
        intro q l
        rw [List.map_map]
        rfl
      rw [h12.lowerFence, h12.prefixLen, f2, f4, e, hkv, ← e, List.map_append,
        regrow_entries n.getPrefix _ _ n.slot (by omega)
          (by unfold getPrefix; rw [List.take_take]; congr 1; omega),
        regrow_entries right.getPrefix _ _ right.slot (by omega)
          (by unfold getPrefix; rw [List.take_take, ← ht]; congr 1; omega)]
      rfl
    · show tmp2.lowerFence = _
      rw [h12.lowerFence, f2]
    · show tmp2.upperFence = _
      rw [h12.upperFence, f3]
    · show tmp2.isLeaf = true
      rw [h12.isLeaf, f7, hleaf]
    · show tmp2.prefixLen = _
      rw [h12.prefixLen, f4]
    · show tmp2.spaceUsed = tmp2.lowerFence.length + tmp2.upperFence.length
        + (tmp2.slot.map Slot.size).sum
      rw [hu2, h12.lowerFence, h12.upperFence, f2, f3, hssum]
    · show tmp2.spaceUsed + tmp2.dataOffset ≤ pageSize
      rw [hu2, hd2, hp]
      omega
    · show sizeofHeader + sizeofSlot * tmp2.slot.length ≤ tmp2.dataOffset
      rw [hd2, hs1, hs2, hlen2, hcn, hcr]
      omega

/-- The merge of `mergeLeft` (page 7) and `mergeRight` under `mergeParent`: the estimate is
159, the call returns true, the node holds the four entries with their full keys between
the fences `[1, 1, 1]` and `[1, 2]`, its next leaf is page 9, and the parent keeps one slot,
the separator `[1, 2]` pointing to page 7. -/
theorem mergeNodes_contract_witness :
    mergeLeft.entries = [([1, 1, 2], [20]), ([1, 1, 4], [40, 41])] ∧
    mergeRight.entries = [([1, 1, 7], [70]), ([1, 2], [90])] ∧
    mergeParent.keys = [[1, 1, 5], [1, 2]] ∧
    mergeParent.getChild 0 = 7 ∧ mergeParent.getChild 1 = 8 ∧
    mergeLeft.spaceUpperBound mergeRight = 159 ∧
    (mergeLeft.mergeNodes 7 0 mergeParent mergeRight).merged = true ∧
    (mergeLeft.mergeNodes 7 0 mergeParent mergeRight).node.entries
      = [([1, 1, 2], [20]), ([1, 1, 4], [40, 41]), ([1, 1, 7], [70]), ([1, 2], [90])] ∧
    (mergeLeft.mergeNodes 7 0 mergeParent mergeRight).node.lowerFence = [1, 1, 1] ∧
    (mergeLeft.mergeNodes 7 0 mergeParent mergeRight).node.upperFence = [1, 2] ∧
    (mergeLeft.mergeNodes 7 0 mergeParent mergeRight).node.nextLeafNode = 9 ∧
    SpaceOK (mergeLeft.mergeNodes 7 0 mergeParent mergeRight).node ∧
    (mergeLeft.mergeNodes 7 0 mergeParent mergeRight).parent.keys = [[1, 2]] ∧
    (mergeLeft.mergeNodes 7 0 mergeParent mergeRight).parent.getChild 0 = 7 :=
  have h := mergeNodes_contract mergeLeft mergeRight mergeParent 7 0 (by decide) (by decide)
    (by decide) (by decide) (by decide) (by decide) (by decide) (by decide) (by decide)
    (by decide) (by decide) (by decide)
  have h2 := h.2.2 (by decide)
  ⟨by decide, by decide, by decide, by decide, by decide, by decide, h2.1,
    h2.2.1.trans (by decide), h2.2.2.1.trans (by decide), h2.2.2.2.1.trans (by decide),
    h2.2.2.2.2.1.trans (by decide), h2.2.2.2.2.2.2.2.1,
    h2.2.2.2.2.2.2.2.2.2.1.trans (by decide), h2.2.2.2.2.2.2.2.2.2.2.2.1⟩

end BTreeNode
/-! ## Theorems: `insert` raises exactly when a displacement of 255 or more is needed -/

namespace RHBSU64Map

variable {Value : Type}

theorem wideLoop_succ : ∀ (f : Nat) (t : RHBSU64Map Value) (k : Nat) (v : Value) (i d : Nat)
    (r : RHBSU64Map Value × Bool), wideLoop f t k v i d = some r →
    wideLoop (f + 1) t k v i d = some r := by
  intro f
  induction f with
  | zero =>
    intro t k v i d r h
    simp [wideLoop] at h
  | succ f ih =>
    intro t k v i d r h
    rw [wideLoop] at h ⊢
    simp only [] at h ⊢
    by_cases h0 : t.ctrl i = 0
    · rw [if_pos h0] at h ⊢
      exact h
    · rw [if_neg h0] at h ⊢
      by_cases hk : (t.entries i).key = k
      · rw [if_pos hk] at h ⊢
        exact h
      · rw [if_neg hk] at h ⊢
        exact ih _ _ _ _ _ _ h

/-- More probes do not change what the unbounded loop returns. -/
theorem wideLoop_fuel (f g : Nat) (hfg : f ≤ g) (t : RHBSU64Map Value) (k : Nat) (v : Value)
    (i d : Nat) (r : RHBSU64Map Value × Bool) (h : wideLoop f t k v i d = some r) :
    wideLoop g t k v i d = some r := by
  induction g with
  | zero =>
    have : f = 0 := by omega
    subst this
    exact h
  | succ g ih =>
    by_cases hg : f = g + 1
    · subst hg
      exact h
    · exact wideLoop_succ g t k v i d r (ih (by omega))

/-- The unbounded loop never lowers a control byte, and keeps the capacity. -/
theorem wideLoop_ctrl_le : ∀ (f : Nat) (t : RHBSU64Map Value) (k : Nat) (v : Value) (i d : Nat)
    (r : RHBSU64Map Value × Bool), wideLoop f t k v i d = some r →
    r.1.n = t.n ∧ ∀ j, t.ctrl j ≤ r.1.ctrl j := by
  intro f
  induction f with
  | zero =>
    intro t k v i d r h
    simp [wideLoop] at h
  | succ f ih =>
    intro t k v i d r h
    rw [wideLoop] at h
    simp only [] at h
    by_cases h0 : t.ctrl i = 0
    · rw [if_pos h0] at h
      simp only [Option.some.injEq] at h
      subst h
      refine ⟨rfl, ?_⟩
      intro j
      show t.ctrl j ≤ Function.update t.ctrl i d j
      by_cases hj : j = i
      · subst hj
        rw [h0]
        exact Nat.zero_le _
      · rw [Function.update_noteq hj]
    · rw [if_neg h0] at h
      by_cases hk : (t.entries i).key = k
      · rw [if_pos hk] at h
        simp only [Option.some.injEq] at h
        subst h
        exact ⟨rfl, fun j => Nat.le_refl _⟩
      · rw [if_neg hk] at h
        by_cases hlt : t.ctrl i < d
        · simp only [if_pos hlt] at h
          obtain ⟨e1, e2⟩ := ih _ _ _ _ _ _ h
          refine ⟨e1, ?_⟩
          intro j
          refine Nat.le_trans ?_ (e2 j)
          show t.ctrl j ≤ Function.update t.ctrl i d j
          by_cases hj : j = i
          · subst hj
            rw [Function.update_same]
            omega
          · rw [Function.update_noteq hj]
        · simp only [if_neg hlt] at h
          exact ih _ _ _ _ _ _ h

/-- Where the loop of `insert` returns, the unbounded loop returns the same. -/
theorem wideLoop_of_insertLoop : ∀ (f : Nat) (t : RHBSU64Map Value) (k : Nat) (v : Value)
    (i d : Nat) (r : RHBSU64Map Value × Bool), d ≤ 254 →
    insertLoop f t k v i d = .ok r → wideLoop f t k v i d = some r := by
  intro f
  induction f with
  | zero =>
    intro t k v i d r _ h
    simp [insertLoop] at h
  | succ f ih =>
    intro t k v i d r hd h
    rw [insertLoop] at h
    rw [wideLoop]
    simp only [] at h ⊢
    by_cases h0 : t.ctrl i = 0
    · rw [if_pos h0] at h ⊢
      rw [Except.ok.inj h]
    · rw [if_neg h0] at h ⊢
      by_cases hk : (t.entries i).key = k
      · rw [if_pos hk] at h ⊢
        rw [Except.ok.inj h]
      · rw [if_neg hk] at h ⊢
        by_cases hlt : t.ctrl i < d
        · simp only [if_pos hlt] at h ⊢
          have e1 : (t.ctrl i + 1) % 256 = t.ctrl i + 1 := Nat.mod_eq_of_lt (by omega)
          rw [e1, if_neg (by omega)] at h
          exact ih _ _ _ _ _ _ (by omega) h
        · simp only [if_neg hlt] at h ⊢
          have e1 : (d + 1) % 256 = d + 1 := Nat.mod_eq_of_lt (by omega)
          rw [e1] at h
          by_cases h255 : d + 1 = 255
          · rw [if_pos h255] at h
            simp at h
          · rw [if_neg h255] at h
            exact ih _ _ _ _ _ _ (by omega) h

/-- An entry in hand at distance 255 or more, probing a slot that does not hold its key:
whatever the unbounded loop returns has a control byte of 255 or more. -/
theorem wideLoop_carry (f : Nat) (t : RHBSU64Map Value) (k : Nat) (v : Value) (i d : Nat)
    (hi : i < t.n) (hd : 255 ≤ d) (hne : t.ctrl i ≠ 0 → (t.entries i).key ≠ k)
    (r : RHBSU64Map Value × Bool) (h : wideLoop f t k v i d = some r) :
    ∃ j, j < t.n ∧ 255 ≤ r.1.ctrl j := by
  cases f with
  | zero => simp [wideLoop] at h
  | succ f =>
    rw [wideLoop] at h
    simp only [] at h
    by_cases h0 : t.ctrl i = 0
    · rw [if_pos h0] at h
      simp only [Option.some.injEq] at h
      subst h
      refine ⟨i, hi, ?_⟩
      show 255 ≤ Function.update t.ctrl i d i
      rw [Function.update_same]
      exact hd
    · rw [if_neg h0, if_neg (hne h0)] at h
      by_cases hlt : t.ctrl i < d
      · simp only [if_pos hlt] at h
        obtain ⟨_, e2⟩ := wideLoop_ctrl_le _ _ _ _ _ _ _ h
        refine ⟨i, hi, Nat.le_trans ?_ (e2 i)⟩
        show 255 ≤ Function.update t.ctrl i d i
        rw [Function.update_same]
        exact hd
      · simp only [if_neg hlt] at h
        obtain ⟨_, e2⟩ := wideLoop_ctrl_le _ _ _ _ _ _ _ h
        exact ⟨i, hi, Nat.le_trans (by omega) (e2 i)⟩

/-- Where the loop of `insert` raises the probe-distance overflow, the unbounded loop, if it
returns, has recorded a control byte of 255 or more. -/
theorem wideLoop_of_overflow : ∀ (fuel : Nat) (t : RHBSU64Map Value) (k : Nat) (v : Value)
    (i dist : Nat), WF t → Disp t → Step t → Uniq t → Emp t →
    i < t.n → 1 ≤ dist → dist ≤ 254 → (hash k + dist - 1) % t.n = i → k ≠ EMPTY_KEY →
    (2 ≤ dist → dist ≤ t.ctrl ((i + t.n - 1) % t.n) + 1) →
    (∀ j, j < t.n → t.ctrl j ≠ 0 → (t.entries j).key = k → dist ≤ t.ctrl j) →
    insertLoop fuel t k v i dist = .error .probe_overflow →
    ∀ r, wideLoop fuel t k v i dist = some r → ∃ j, j < t.n ∧ 255 ≤ r.1.ctrl j := by
  intro fuel
  induction fuel with
  | zero =>
    intro t k v i dist _ _ _ _ _ _ _ _ _ _ _ _ _ r h
    simp [wideLoop] at h
  | succ fuel ih =>
    intro t k v i dist hw hd hs hu he hi h1 h254 hslot hk hprev hnb h r hr
    rw [insertLoop] at h
    rw [wideLoop] at hr
    simp only [] at h hr
    by_cases h0 : t.ctrl i = 0
    · rw [if_pos h0] at h
      simp at h
    · rw [if_neg h0] at h hr
      by_cases hkey : (t.entries i).key = k
      · rw [if_pos hkey] at h
        simp at h
      · rw [if_neg hkey] at h hr
        have hi1 : (i + 1) &&& t.mask = (i + 1) % t.n := hw.and_mask _
        have hi1lt : (i + 1) % t.n < t.n := Nat.mod_lt _ hw.pos
        by_cases hsw : t.ctrl i < dist
        · simp only [if_pos hsw] at h hr
          have e1 : (t.ctrl i + 1) % 256 = t.ctrl i + 1 := Nat.mod_eq_of_lt (by omega)
          rw [e1, if_neg (by omega), hi1] at h
          rw [hi1] at hr
          have habs := absent_of_lt hd hs k i dist h1 hslot hnb hsw
          obtain ⟨g1, g2, g3, g4, g5⟩ := set_good hw hd hs hu he k v i dist hi h1 h254 hslot hk
            hprev habs hsw t.sz
          have hnone : ∀ j, j < t.n → Function.update t.ctrl i dist j ≠ 0 →
              (Function.update t.entries i (⟨k, v⟩ : Entry Value) j).key ≠ (t.entries i).key := by
            intro j hj hcj hkj
            by_cases hji : j = i
            · subst hji
              simp only [Function.update_same] at hkj
              exact hkey hkj.symm
            · rw [Function.update_noteq hji] at hcj hkj
              exact hji (hu j i hj hi hcj h0 hkj)
          exact ih _ (t.entries i).key (t.entries i).val ((i + 1) % t.n) (t.ctrl i + 1)
            g1 g2 g3 g4 g5 hi1lt (by omega) (by omega)
            (slot_succ t.n _ (t.ctrl i) i (by omega) (hd i hi h0).2)
            (fun e => h0 ((he i hi).mpr e))
            (by
              intro _
              simp only
              rw [succ_pred_mod t.n i hi]
              simp only [Function.update_same]
              omega)
            (by
              intro j hj hcj hkj
              exact absurd hkj (hnone j hj hcj))
            h r hr
        · simp only [if_neg hsw] at h hr
          have e1 : (dist + 1) % 256 = dist + 1 := Nat.mod_eq_of_lt (by omega)
          rw [e1, hi1] at h
          rw [hi1] at hr
          have hnb' : ∀ j, j < t.n → t.ctrl j ≠ 0 → (t.entries j).key = k →
              dist + 1 ≤ t.ctrl j := by
            intro j hj hcj hkj
            have h2 := hnb j hj hcj hkj
            by_contra hcon
            have he2 : t.ctrl j = dist := by omega
            have := (hd j hj hcj).2
            rw [hkj, he2, hslot] at this
            rw [this] at hkey
            exact hkey hkj
          by_cases hov : dist + 1 = 255
          · rw [hov] at hr
            refine wideLoop_carry fuel t k v ((i + 1) % t.n) 255 hi1lt (Nat.le_refl _) ?_ r hr
            intro hc hkk
            have := hnb' _ hi1lt hc hkk
            have := (hd _ hi1lt hc).1
            omega
          · rw [if_neg hov] at h
            exact ih t k v ((i + 1) % t.n) (dist + 1) hw hd hs hu he hi1lt (by omega)
              (by omega) (slot_succ t.n _ dist i h1 hslot) hk
              (by
                intro _
                rw [succ_pred_mod t.n i hi]
                omega)
              hnb' h r hr

theorem dist_pred (n e i : Nat) (hi : i < n) (he : e < n) (hne : e ≠ i) :
    (e + n - (i + 1) % n) % n + 1 = (e + n - i) % n := by
  by_cases h : i + 1 = n
  · rw [h, Nat.mod_self, Nat.sub_zero, Nat.add_mod_right, Nat.mod_eq_of_lt he,
      show e + n - i = e + 1 by omega, Nat.mod_eq_of_lt (by omega)]
  · rw [Nat.mod_eq_of_lt (by omega : i + 1 < n)]
    by_cases hgt : i < e
    · rw [show e + n - (i + 1) = (e - i - 1) + n by omega, Nat.add_mod_right,
        Nat.mod_eq_of_lt (by omega), show e + n - i = (e - i) + n by omega, Nat.add_mod_right,
        Nat.mod_eq_of_lt (by omega)]
      omega
    · rw [Nat.mod_eq_of_lt (by omega), Nat.mod_eq_of_lt (by omega)]
      omega

/-- With a free slot in the table the unbounded loop places the entry in hand before it has
probed every slot. -/
theorem wideLoop_ends (e : Nat) : ∀ (f : Nat) (t : RHBSU64Map Value) (k : Nat) (v : Value)
    (i d : Nat), WF t → i < t.n → e < t.n → t.ctrl e = 0 → (e + t.n - i) % t.n < f →
    wideLoop f t k v i d ≠ none := by
  intro f
  induction f with
  | zero =>
    intro t k v i d _ _ _ _ h
    omega
  | succ f ih =>
    intro t k v i d hw hi he h0e hf
    rw [wideLoop]
    simp only []
    by_cases h0 : t.ctrl i = 0
    · rw [if_pos h0]
      simp
    · rw [if_neg h0]
      by_cases hk : (t.entries i).key = k
      · rw [if_pos hk]
        simp
      · rw [if_neg hk]
        have hne : e ≠ i := by
          intro hei
          rw [hei] at h0e
          exact h0 h0e
        have hm := dist_pred t.n e i hi he hne
        rw [hw.and_mask]
        have hi1lt : (i + 1) % t.n < t.n := Nat.mod_lt _ hw.pos
        by_cases hlt : t.ctrl i < d
        · simp only [if_pos hlt]
          refine ih _ _ _ _ _ (by exact hw) (by exact hi1lt) (by exact he) ?_
            (by show (e + t.n - (i + 1) % t.n) % t.n < f; omega)
          show Function.update t.ctrl i d e = 0
          rw [Function.update_noteq hne]
          exact h0e
        · simp only [if_neg hlt]
          exact ih _ _ _ _ _ hw hi1lt he h0e (by omega)

/-- In a table without a free slot the unbounded loop never places a key that is not
stored, however many slots it probes. -/
theorem wideLoop_full : ∀ (fuel : Nat) (t : RHBSU64Map Value) (k : Nat) (v : Value)
    (i dist : Nat), WF t → Uniq t → (∀ j, j < t.n → t.ctrl j ≠ 0) →
    (∀ j, j < t.n → (t.entries j).key ≠ k) → i < t.n → 1 ≤ dist →
    wideLoop fuel t k v i dist = none := by
  intro fuel
  induction fuel with
  | zero =>
    intro t k v i dist _ _ _ _ _ _
    rfl
  | succ f ih =>
    intro t k v i dist hw hu hocc habs hi h1
    rw [wideLoop]
    simp only [hocc i hi, habs i hi, if_false]
    have hi1 : (i + 1) &&& t.mask < t.n := by
      rw [hw.and_mask]; exact Nat.mod_lt _ hw.pos
    by_cases hlt : t.ctrl i < dist
    · simp only [hlt, if_true]
      refine ih _ _ _ _ _ (by exact hw) ?_ ?_ ?_ (by exact hi1) (by omega)
      · intro a b ha hb hca hcb hkey
        by_cases hai : a = i
        · by_cases hbi : b = i
          · rw [hai, hbi]
          · subst hai
            simp only [Function.update_same, Function.update_noteq hbi] at hkey
            exact absurd hkey.symm (habs b hb)
        · by_cases hbi : b = i
          · subst hbi
            simp only [Function.update_same, Function.update_noteq hai] at hkey
            exact absurd hkey (habs a ha)
          · simp only [Function.update_noteq hai, Function.update_noteq hbi] at hkey hca hcb
            exact hu a b ha hb hca hcb hkey
      · intro j hj
        show Function.update t.ctrl i dist j ≠ 0
        by_cases hji : j = i
        · subst hji; rw [Function.update_same]; omega
        · rw [Function.update_noteq hji]; exact hocc j hj
      · intro j hj
        show (Function.update t.entries i ⟨k, v⟩ j).key ≠ (t.entries i).key
        by_cases hji : j = i
        · subst hji; rw [Function.update_same]; exact fun e => habs j hi e.symm
        · rw [Function.update_noteq hji]
          intro e
          exact hji (hu j i hj hi (hocc j hj) (hocc i hi) e)
    · simp only [hlt, if_false]
      exact ih _ _ _ _ _ hw hu hocc habs hi1 (by omega)

/-- The probe for a key that is stored reaches its slot: the loop of `insert` returns there
(and replaces the value). -/
theorem insertLoop_present (p : Nat) : ∀ (f : Nat) (t : RHBSU64Map Value) (k : Nat)
    (v : Value) (i d : Nat), WF t → Disp t → Step t → Uniq t →
    p < t.n → t.ctrl p ≠ 0 → (t.entries p).key = k → 1 ≤ d → d ≤ t.ctrl p →
    (hash k + d - 1) % t.n = i → t.ctrl p - d < f →
    ∃ t', insertLoop f t k v i d = .ok (t', false) := by
  intro f
  induction f with
  | zero =>
    intro t k v i d _ _ _ _ _ _ _ _ _ _ h
    omega
  | succ f ih =>
    intro t k v i d hw hd hs hu hp hcp hkp h1 hdp hslot hf
    have hi : i < t.n := by rw [← hslot]; exact Nat.mod_lt _ hw.pos
    have hnb : ∀ j, j < t.n → t.ctrl j ≠ 0 → (t.entries j).key = k → d ≤ t.ctrl j := by
      intro j hj hcj hkj
      have : j = p := hu j p hj hp hcj hcp (hkj.trans hkp.symm)
      rw [this]
      exact hdp
    rw [insertLoop]
    simp only []
    by_cases h0 : t.ctrl i = 0
    · rw [if_pos h0]
      exact absurd hkp (absent_of_lt hd hs k i d h1 hslot hnb (by omega) p hp hcp)
    · rw [if_neg h0]
      by_cases hkey : (t.entries i).key = k
      · rw [if_pos hkey]
        exact ⟨_, rfl⟩
      · rw [if_neg hkey]
        by_cases hlt : t.ctrl i < d
        · exact absurd hkp (absent_of_lt hd hs k i d h1 hslot hnb hlt p hp hcp)
        · simp only [if_neg hlt]
          have hdne : d ≠ t.ctrl p := by
            intro e
            have := (hd p hp hcp).2
            rw [hkp, ← e, hslot] at this
            rw [this] at hkey
            exact hkey hkp
          have h254 := (hd p hp hcp).1
          have e1 : (d + 1) % 256 = d + 1 := Nat.mod_eq_of_lt (by omega)
          rw [e1, if_neg (by omega), hw.and_mask]
          exact ih t k v ((i + 1) % t.n) (d + 1) hw hd hs hu hp hcp hkp (by omega) (by omega)
            (slot_succ t.n _ d i h1 hslot) (by omega)

theorem countOcc_all (ctrl : Nat → Nat) :
    ∀ m, (∀ j, j < m → ctrl j ≠ 0) → countOcc ctrl m = m := by
  intro m
  induction m with
  | zero => intro _; rfl
  | succ m ih =>
    intro h
    show countOcc ctrl m + (if ctrl m = 0 then 0 else 1) = m + 1
    rw [ih (fun j hj => h j (by omega)), if_neg (h m (by omega))]

theorem index_home {t : RHBSU64Map Value} (hw : WF t) (k : Nat) :
    t.index (hash k) < t.n ∧ (hash k + 1 - 1) % t.n = t.index (hash k) := by
  unfold index
  rw [hw.and_mask]
  exact ⟨Nat.mod_lt _ hw.pos, by simp⟩

/-- The unbounded insertion places nothing exactly when no slot is free and the key is not
stored; then it never will (`wideLoop_full`). -/
theorem insertWide_none_iff {t : RHBSU64Map Value} (h : Inv t) (k : Nat) (v : Value) :
    t.insertWide k v = none ↔ t.sz = t.n ∧ t.lookup k = none := by
  obtain ⟨hi0, hslot0⟩ := index_home h.wf k
  unfold insertWide
  constructor
  · intro hnone
    constructor
    · by_cases hex : ∃ e, e < t.n ∧ t.ctrl e = 0
      · obtain ⟨e, he, h0e⟩ := hex
        exact absurd hnone (wideLoop_ends e t.n t k v _ 1 h.wf hi0 he h0e
          (Nat.mod_lt _ h.wf.pos))
      · have hall : ∀ j, j < t.n → t.ctrl j ≠ 0 := fun j hj h0 => hex ⟨j, hj, h0⟩
        rw [h.cnt]
        exact countOcc_all t.ctrl t.n hall
    · cases hl : t.lookup k with
      | none => rfl
      | some d =>
        exfalso
        obtain ⟨p, hp, hcp, hkp, _⟩ := (lookup_eq_some_iff h k d).1 hl
        have hcap := ctrl_le_capacity h p hp
        obtain ⟨t', ht'⟩ := insertLoop_present p t.n t k v _ 1 h.wf h.disp h.step h.uniq hp hcp
          hkp (Nat.le_refl _) (by omega) hslot0 (by omega)
        have := wideLoop_of_insertLoop t.n t k v _ 1 (t', false) (by omega) ht'
        rw [hnone] at this
        simp at this
  · rintro ⟨hfull, habs⟩
    have hocc : ∀ j, j < t.n → t.ctrl j ≠ 0 :=
      countOcc_full t.ctrl t.n (h.cnt.symm.trans hfull)
    have hno : ∀ j, j < t.n → (t.entries j).key ≠ k := by
      intro j hj hkey
      exact (lookup_eq_none_iff h k).1 habs _ ⟨j, hj, hocc j hj, hkey, rfl⟩
    exact wideLoop_full _ t k v _ 1 h.wf h.uniq hocc hno hi0 (Nat.le_refl _)

/-- Where `insert` returns, it returns what the unbounded insertion returns. -/
theorem insertWide_of_insert {t : RHBSU64Map Value} (h : Inv t) (k : Nat) (v : Value)
    (r : RHBSU64Map Value × Bool) (hins : t.insert k v = .ok r) :
    t.insertWide k v = some r := by
  obtain ⟨hi0, _⟩ := index_home h.wf k
  have hk : k ≠ EMPTY_KEY := by
    intro e
    unfold insert at hins
    rw [if_pos e] at hins
    simp at hins
  have hloop : insertLoop t.insertFuel t k v (t.index (hash k)) 1 = .ok r := by
    unfold insert at hins
    rw [if_neg hk] at hins
    exact hins
  have hA := wideLoop_of_insertLoop _ t k v _ 1 r (by omega) hloop
  cases hw : t.insertWide k v with
  | none =>
    exfalso
    obtain ⟨hfull, habs⟩ := (insertWide_none_iff h k v).1 hw
    have hocc : ∀ j, j < t.n → t.ctrl j ≠ 0 :=
      countOcc_full t.ctrl t.n (h.cnt.symm.trans hfull)
    have hno : ∀ j, j < t.n → (t.entries j).key ≠ k := by
      intro j hj hkey
      exact (lookup_eq_none_iff h k).1 habs _ ⟨j, hj, hocc j hj, hkey, rfl⟩
    exact insertLoop_full _ t k v _ 1 h.wf h.uniq hocc hno hi0 (Nat.le_refl _) (by omega) r
      hloop
  | some r' =>
    unfold insertWide at hw
    have := wideLoop_fuel t.n t.insertFuel (by unfold insertFuel; omega) t k v _ 1 r' hw
    rw [hA] at this
    rw [Option.some.inj this]

/-- C13 (amended). For every well-formed table and every key: on the sentinel key `~0` `insert`
raises the fatal sentinel-key error. On every other key `insert` either returns normally,
with a well-formed table in which the key is found with the new value, every other key is
found exactly as before and no slot records a displacement byte above 254, or it raises the
fatal probe-distance-overflow error, and nothing else. It raises exactly when placing the
new or a displaced entry needs a displacement byte of 255 or more: when the insertion with
bytes of unbounded width (`insertWide`) ends with such a byte in some slot, or never places
the entry in hand, which is the case exactly when no slot is free and the key is not stored.
Where `insert` returns, its result is that of `insertWide`; for a key that is stored it
always returns; inserting an absent key into a completely full table raises the error. -/
theorem insert_contract (t : RHBSU64Map Value) (h : Inv t) (k : Nat) (v : Value) :
    (k = EMPTY_KEY → t.insert k v = .error .empty_key) ∧
    (k ≠ EMPTY_KEY →
      (∃ t' b, t.insert k v = .ok (t', b) ∧ Inv t' ∧ t'.lookup k = some v ∧
        (∀ k', k' ≠ k → t'.lookup k' = t.lookup k') ∧ (b = true ↔ t.lookup k = none) ∧
        (∀ i, i < t'.n → t'.ctrl i ≤ 254) ∧ t.insertWide k v = some (t', b)) ∨
      t.insert k v = .error .probe_overflow) ∧
    (k ≠ EMPTY_KEY →
      (t.insert k v = .error .probe_overflow ↔
        t.insertWide k v = none ∨
          ∃ r, t.insertWide k v = some r ∧ ∃ i, i < t.n ∧ 255 ≤ r.1.ctrl i)) ∧
    (t.insertWide k v = none ↔ t.sz = t.n ∧ t.lookup k = none) ∧
    (k ≠ EMPTY_KEY → t.lookup k ≠ none → ∃ t', t.insert k v = .ok (t', false)) ∧
    (k ≠ EMPTY_KEY → t.sz = t.n → t.lookup k = none →
      t.insert k v = .error .probe_overflow) := by
  obtain ⟨hi0, hslot0⟩ := index_home h.wf k
  have hdich : k ≠ EMPTY_KEY → ∀ e, t.insert k v = .error e → e = .probe_overflow := by
    intro hk e he
    rcases insert_error t h.wf k v e he with ⟨h1, _⟩ | ⟨_, h2⟩
    · exact absurd h1 hk
    · exact h2
  have hiff : k ≠ EMPTY_KEY →
      (t.insert k v = .error .probe_overflow ↔
        t.insertWide k v = none ∨
          ∃ r, t.insertWide k v = some r ∧ ∃ i, i < t.n ∧ 255 ≤ r.1.ctrl i) := by
    intro hk
    constructor
    · intro hins
      have hloop : insertLoop t.insertFuel t k v (t.index (hash k)) 1
          = .error .probe_overflow := by
        unfold insert at hins
        rw [if_neg hk] at hins
        exact hins
      cases hw : t.insertWide k v with
      | none => exact Or.inl rfl
      | some r =>
        right
        refine ⟨r, rfl, ?_⟩
        unfold insertWide at hw
        have hF := wideLoop_fuel t.n t.insertFuel (by unfold insertFuel; omega) t k v _ 1 r hw
        exact wideLoop_of_overflow _ t k v _ 1 h.wf h.disp h.step h.uniq h.emp hi0
          (Nat.le_refl _) (by omega) hslot0 hk (by omega)
          (by intro j _ hcj _; omega) hloop r hF
    · intro hneed
      cases hins : t.insert k v with
      | error e => rw [hdich hk e hins]
      | ok r =>
        exfalso
        have hwide := insertWide_of_insert h k v r hins
        obtain ⟨i1, i2, _⟩ := insert_spec h k v r.1 r.2 hins
        rcases hneed with hn | ⟨r', hr', j, hj, hbyte⟩
        · rw [hwide] at hn
          simp at hn
        · rw [hwide] at hr'
          have e := Option.some.inj hr'
          subst e
          have := (i1.disp j (by rw [i2]; exact hj) (by omega)).1
          omega
  refine ⟨?_, ?_, hiff, insertWide_none_iff h k v, ?_, ?_⟩
  · intro hk
    unfold insert
    rw [if_pos hk]
  · intro hk
    cases hins : t.insert k v with
    | error e =>
      right
      rw [hdich hk e hins]
    | ok r =>
      left
      obtain ⟨t', b⟩ := r
      obtain ⟨i1, i2, i3, i4⟩ := insert_lookup h k v t' b hins
      refine ⟨t', b, rfl, i1, i2, i3, i4, ?_, insertWide_of_insert h k v _ hins⟩
      intro i hi
      by_cases hc : t'.ctrl i = 0
      · rw [hc]; omega
      · exact (i1.disp i hi hc).1
  · intro hk hl
    cases hd : t.lookup k with
    | none => exact absurd hd hl
    | some d =>
      obtain ⟨p, hp, hcp, hkp, _⟩ := (lookup_eq_some_iff h k d).1 hd
      have h254 := (h.disp p hp hcp).1
      unfold insert
      rw [if_neg hk]
      exact insertLoop_present p _ t k v _ 1 h.wf h.disp h.step h.uniq hp hcp hkp
        (Nat.le_refl _) (by omega) hslot0 (by unfold insertFuel; omega)
  · intro hk hfull habs
    exact (hiff hk).2 (Or.inl ((insertWide_none_iff h k v).2 ⟨hfull, habs⟩))

set_option maxRecDepth 100000 in
/-- Instance of `insert_contract`: `fullTable` (capacity 2, keys 1 and 2) has no free slot
and does not store the key 3; the unbounded insertion of key 3 places nothing, and
`insert(3, 30)` raises the probe-distance overflow. Inserting the stored key 2 returns. -/
theorem insert_contract_witness :
    fullTable.sz = fullTable.n ∧ fullTable.lookup 3 = none ∧
      fullTable.insertWide 3 30 = none ∧
      fullTable.insert 3 30 = .error .probe_overflow ∧
      ∃ t', fullTable.insert 2 30 = .ok (t', false) :=
  ⟨by decide, by decide, rfl,
    ((insert_contract fullTable inv_fullTable 3 30).2.2.1 (by decide)).2 (Or.inl rfl),
    (insert_contract fullTable inv_fullTable 2 30).2.2.2.2.1 (by decide) (by decide)⟩

set_option maxRecDepth 100000 in
/-- C13, counterexample. `insert` of the sentinel key `2 ^ 64 - 1` into `exampleTable`
neither returns normally nor raises the probe-distance overflow: it fails in
`ensure(k != EMPTY_KEY)`. And inserting into a completely full table does not always
raise: `fullTable` has no empty slot, and `insert(2, 30)` on it returns normally (false:
the value of key 2 is replaced). -/
theorem insert_sentinel_counterexample :
    exampleTable.insert (2 ^ 64 - 1) 7 = .error .empty_key ∧
    fullTable.sz = fullTable.n ∧
    (fullTable.insert 2 30).toOption.map Prod.snd = some false :=
  ⟨rfl, by decide, by decide⟩

end RHBSU64Map
